import Mathlib

/-!
# Contiguous Memory Allocator (mm/cma.c, mm/cma-best-fit.c)

A shallow embedding of the CMA framework and of its best-fit allocator.

* `unsigned long` values are natural numbers reduced modulo `2 ^ w`, where `w`
  is the width of `unsigned long` on the target (32 on msm7227).
* C strings are lists of characters; the end of the list is the terminating NUL.
* A red-black tree is represented by its in-order sequence of records.
* What the sources leave to the rest of the kernel is a parameter of the functions that
  reach it: whether a `kmalloc` succeeds (`km`), and whether a `WARN` comes to its end
  with the format it is given (`fmt_ok`).
-/

namespace CMA

/-! ## Machine arithmetic -/

/-- Addition of two `unsigned long` values. -/
def uadd (w a b : Nat) : Nat := (a + b) % 2 ^ w

/-- Subtraction of two `unsigned long` values (wraps below zero). -/
def usub (w a b : Nat) : Nat := (a % 2 ^ w + (2 ^ w - b % 2 ^ w)) % 2 ^ w

/-- Bitwise complement of an `unsigned long` value. -/
def unot (w a : Nat) : Nat := 2 ^ w - 1 - a % 2 ^ w

/-- Modelled from the spec: the macro `ALIGN(x, a)` of linux/kernel.h is not among the
sources; it is `__ALIGN_MASK(x, (typeof(x))(a) - 1)`, that is
`((x) + (mask)) & ~(mask)` with `mask = a - 1`, evaluated on `unsigned long`. -/
def ALIGN (w x a : Nat) : Nat :=
  (uadd w x (usub w a 1)) &&& (unot w (usub w a 1))

/-! ## Error numbers -/

def ENOENT : Int := 2
def ENOMEM : Int := 12
def EBUSY : Int := 16
def EINVAL : Int := 22
def ENOSPC : Int := 28

/-! ## Best-fit allocator: data types -/

/-- The `start` and `size` fields of `struct cma_bf_item` (its embedded `struct cma_chunk`).
A record is identified by its value: two holes of a region never share a start. -/
structure cma_bf_item where
  start : Nat
  size : Nat
deriving DecidableEq, Repr

/-- The private data of a best-fit region, `struct cma_bf_private`: the in-order sequences
of the two trees. -/
structure cma_bf_private where
  by_start_root : List cma_bf_item
  by_size_root : List cma_bf_item
deriving DecidableEq, Repr

/-! ## Basic tree manipulation -/

/-- The macro `__CMA_BF_HOLE_INSERT`: the descent goes left when `value <= i->field` and
right otherwise, so in a tree that is ordered by `field` the new node is linked immediately
before the first in-order record whose key is not smaller than the new one.
(`rb_link_node` and `rb_insert_color` of lib/rbtree.c keep the in-order sequence.) -/
def __CMA_BF_HOLE_INSERT (field : cma_bf_item → Nat) :
    List cma_bf_item → cma_bf_item → List cma_bf_item
  | [], item => [item]
  | i :: rest, item =>
    if field item ≤ field i then item :: i :: rest
    else i :: __CMA_BF_HOLE_INSERT field rest item

/-- Modelled from the spec: `rb_erase` of lib/rbtree.c is not among the sources; it unlinks
the given node and keeps the order of the others. -/
def rb_erase (item : cma_bf_item) (root : List cma_bf_item) : List cma_bf_item :=
  root.erase item

/-- Modelled from the spec: `rb_prev` of lib/rbtree.c is not among the sources; it returns
the in-order predecessor of a node, or NULL. -/
def rb_prev : List cma_bf_item → cma_bf_item → Option cma_bf_item
  | [], _ => none
  | [_], _ => none
  | p :: i :: rest, item =>
    if p = item then none
    else if i = item then some p
    else rb_prev (i :: rest) item

/-- Modelled from the spec: `rb_next` of lib/rbtree.c is not among the sources; it returns
the in-order successor of a node, or NULL. -/
def rb_next : List cma_bf_item → cma_bf_item → Option cma_bf_item
  | [], _ => none
  | i :: rest, item =>
    if i = item then rest.head?
    else rb_next rest item

def __cma_bf_hole_insert_by_size (prv : cma_bf_private) (item : cma_bf_item) :
    cma_bf_private :=
  { prv with by_size_root := __CMA_BF_HOLE_INSERT cma_bf_item.size prv.by_size_root item }

def __cma_bf_hole_erase_by_size (prv : cma_bf_private) (item : cma_bf_item) :
    cma_bf_private :=
  { prv with by_size_root := rb_erase item prv.by_size_root }

/-- The `WARN_ON` around the insertion only logs; it does not change the tree. -/
def __cma_bf_hole_insert_by_start (prv : cma_bf_private) (item : cma_bf_item) :
    cma_bf_private :=
  { prv with by_start_root := __CMA_BF_HOLE_INSERT cma_bf_item.start prv.by_start_root item }

def __cma_bf_hole_erase_by_start (prv : cma_bf_private) (item : cma_bf_item) :
    cma_bf_private :=
  { prv with by_start_root := rb_erase item prv.by_start_root }

/-- An assignment to the fields of a record that is linked in a tree, where the order of
the tree is not touched: the record keeps its place in the in-order sequence and carries
the new field values. -/
def record_assign {α : Type} [DecidableEq α] (old new : α) : List α → List α
  | [] => []
  | i :: rest => if i = old then new :: rest else i :: record_assign old new rest

/-- A hole changes its fields from `linked`, the values it was linked with, to `hole`.  In
the by-start tree the source leaves the node where it is ("order preserved"); in the
by-size tree it calls `__cma_bf_hole_erase_by_size` and `__cma_bf_hole_insert_by_size`
for it once the fields are written (`rb_erase` does not read them). -/
def hole_update (prv : cma_bf_private) (linked hole : cma_bf_item) : cma_bf_private :=
  { by_start_root := record_assign linked hole prv.by_start_root,
    by_size_root :=
      (__cma_bf_hole_insert_by_size (__cma_bf_hole_erase_by_size prv linked) hole).by_size_root }

/-! ## Best-fit allocator: device API -/

/-- The function `cma_bf_init`: the whole region is one hole.  The two flags tell whether
the two `kzalloc` calls succeed. -/
def cma_bf_init (kz_prv kz_item : Bool) (reg_start reg_size : Nat) :
    Except Int cma_bf_private :=
  if !kz_prv then .error (-ENOMEM)
  else if !kz_item then .error (-ENOMEM)
  else .ok { by_start_root := [⟨reg_start, reg_size⟩],
             by_size_root := [⟨reg_start, reg_size⟩] }

/-- The condition of the `WARN_ON` in `cma_bf_cleanup`: the root of the by-size tree has a
child in one of the trees, that is, a tree holds more than one hole. -/
def cma_bf_cleanup_WARN_ON (prv : cma_bf_private) : Bool :=
  decide (1 < prv.by_size_root.length) || decide (1 < prv.by_start_root.length)

/-- What `__cma_bf_hole_take` and `cma_bf_alloc` hand back. -/
inductive bf_result where
  /-- a chunk was returned -/
  | chunk (item : cma_bf_item) (prv : cma_bf_private)
  /-- NULL was returned -/
  | null (prv : cma_bf_private)
  /-- a NULL pointer was dereferenced -/
  | oops
deriving DecidableEq, Repr

/-- The tail of `__cma_bf_hole_take` from the label `case_2` on.  `linked` holds the
fields the hole was linked with, `hole` the fields it has when the label is reached. -/
def __cma_bf_hole_take_case_2 (w : Nat) (prv : cma_bf_private)
    (linked hole item : cma_bf_item) (size : Nat) : bf_result :=
  let hole1 : cma_bf_item :=
    if item.start = hole.start then { hole with start := uadd w hole.start item.size }
    else hole
  let hole2 : cma_bf_item := { hole1 with size := usub w hole1.size size }
  .chunk item (hole_update prv linked hole2)

/-- The function `__cma_bf_hole_take`.  The flags `km_item` and `km_next` tell whether the
`kmalloc` of the chunk record and of the second hole record succeed. -/
def __cma_bf_hole_take (w : Nat) (prv : cma_bf_private) (hole : cma_bf_item)
    (size alignment : Nat) (km_item km_next : Bool) : bf_result :=
  if size = hole.size then
    .chunk hole (__cma_bf_hole_erase_by_start (__cma_bf_hole_erase_by_size prv hole) hole)
  else if !km_item then .null prv
  else
    let item : cma_bf_item := ⟨ALIGN w hole.start alignment, size⟩
    if item.start ≠ hole.start ∧
        uadd w item.start item.size ≠ uadd w hole.start hole.size then
      let left := usub w (uadd w hole.start hole.size) (uadd w item.start item.size)
      if left % alignment = 0 then
        __cma_bf_hole_take_case_2 w prv hole hole
          { item with start := uadd w item.start left } size
      else if !km_next then .null prv
      else
        let next_start := uadd w item.start item.size
        let next : cma_bf_item :=
          ⟨next_start, usub w (uadd w hole.start hole.size) next_start⟩
        let prv1 := __cma_bf_hole_insert_by_start (__cma_bf_hole_insert_by_size prv next) next
        let hole1 : cma_bf_item := { hole with size := usub w next.start hole.start }
        __cma_bf_hole_take_case_2 w prv1 hole hole1 item size
    else
      __cma_bf_hole_take_case_2 w prv hole hole item size

/-- The first loop of `cma_bf_alloc`: the descent keeps the last record with
`ch.size >= size` while going left, so in a tree ordered by size it ends on the first
in-order record that is large enough. -/
def cma_bf_alloc_first (size : Nat) (by_size_root : List cma_bf_item) : Option cma_bf_item :=
  by_size_root.find? (fun i => decide (size ≤ i.size))

/-- The function `cma_bf_alloc`.  When the first loop ends `node` is NULL, and the second
loop calls `rb_next(node)` with that NULL pointer as soon as the first candidate does not
satisfy the alignment: `rb_next` reads the node it is given. -/
def cma_bf_alloc (w : Nat) (prv : cma_bf_private) (size alignment : Nat)
    (km_item km_next : Bool) : bf_result :=
  match cma_bf_alloc_first size prv.by_size_root with
  | none => .null prv
  | some item =>
    let start := ALIGN w item.start alignment
    let end_ := uadd w item.start item.size
    if start < end_ ∧ size ≤ usub w end_ start then
      __cma_bf_hole_take w prv item size alignment km_item km_next
    else
      .oops

/-- One pass through the body of the loop of `__cma_bf_hole_merge_maybe`: when `prev` ends
where `item` starts, `prev` is unlinked and freed and `item` takes over its range. -/
def __cma_bf_hole_merge_step (w : Nat) (prv : cma_bf_private) (prev item : cma_bf_item) :
    cma_bf_private × cma_bf_item :=
  if uadd w prev.start prev.size = item.start then
    let prv1 := __cma_bf_hole_erase_by_start (__cma_bf_hole_erase_by_size prv prev) prev
    let item1 : cma_bf_item := ⟨prev.start, uadd w item.size prev.size⟩
    (hole_update prv1 item item1, item1)
  else (prv, item)

/-- The function `__cma_bf_hole_merge_maybe`.  The counter `twice` lets the body run at
most two times: first with the predecessor of `item` as `prev` (skipped when there is
none), then with `item` as `prev` and its successor as `item`. -/
def __cma_bf_hole_merge_maybe (w : Nat) (prv : cma_bf_private) (item : cma_bf_item) :
    cma_bf_private :=
  let first : cma_bf_private × cma_bf_item :=
    match rb_prev prv.by_start_root item with
    | none => (prv, item)
    | some prev => __cma_bf_hole_merge_step w prv prev item
  match rb_next first.1.by_start_root first.2 with
  | none => first.1
  | some next => (__cma_bf_hole_merge_step w first.1 first.2 next).1

/-- The function `cma_bf_free`. -/
def cma_bf_free (w : Nat) (prv : cma_bf_private) (chunk : cma_bf_item) : cma_bf_private :=
  __cma_bf_hole_merge_maybe w
    (__cma_bf_hole_insert_by_start (__cma_bf_hole_insert_by_size prv chunk) chunk) chunk

/-- The fields of the record that was given to `__cma_bf_hole_merge_maybe` when the
function is done.  The first pass writes the merged range into the record
(`item->ch.size += prev->ch.size; item->ch.start = prev->ch.start`).  The second pass
writes into the successor only: there the record is the `prev`, which is unlinked and
handed to `kfree` when the two are merged. -/
def merge_maybe_record (w : Nat) (prv : cma_bf_private) (item : cma_bf_item) : cma_bf_item :=
  match rb_prev prv.by_start_root item with
  | none => item
  | some prev => (__cma_bf_hole_merge_step w prv prev item).2

/-- Whether `__cma_bf_hole_merge_maybe` hands the record it was given to `kfree`: the
second pass does when the record ends where its successor starts. -/
def merge_maybe_kfree (w : Nat) (prv : cma_bf_private) (item : cma_bf_item) : Bool :=
  let first : cma_bf_private × cma_bf_item :=
    match rb_prev prv.by_start_root item with
    | none => (prv, item)
    | some prev => __cma_bf_hole_merge_step w prv prev item
  match rb_next first.1.by_start_root first.2 with
  | none => false
  | some next => decide (uadd w first.2.start first.2.size = next.start)

/-- The fields of the chunk record when `cma_bf_free` returns: the record has become the
hole, so it holds the range of the chunk together with the hole in front of it when the
two were merged. -/
def cma_bf_free_record (w : Nat) (prv : cma_bf_private) (chunk : cma_bf_item) : cma_bf_item :=
  merge_maybe_record w
    (__cma_bf_hole_insert_by_start (__cma_bf_hole_insert_by_size prv chunk) chunk) chunk

/-- Whether `cma_bf_free` hands the chunk record to `kfree`: it does when the chunk was
merged with the hole behind it. -/
def cma_bf_free_kfree (w : Nat) (prv : cma_bf_private) (chunk : cma_bf_item) : Bool :=
  merge_maybe_kfree w
    (__cma_bf_hole_insert_by_start (__cma_bf_hole_insert_by_size prv chunk) chunk) chunk

/-- Modelled from the spec: `kfree` of the slab allocator is not among the sources.  What
is read from a record that was given to `kfree`, before anything is allocated again: the
memory is taken to hold the fields that the record had when it was freed. -/
def kfree_read (record : cma_bf_item) : cma_bf_item := record

/-- The value of `chunk->size` behind `cma_bf_free(chunk)`: the size of the record as
`cma_bf_free` left it, read from freed memory when the record was given to `kfree`. -/
def size_after_free (w : Nat) (prv : cma_bf_private) (chunk : cma_bf_item) : Nat :=
  if cma_bf_free_kfree w prv chunk then (kfree_read (cma_bf_free_record w prv chunk)).size
  else (cma_bf_free_record w prv chunk).size

/-! ## The framework: data types -/

/-- The allocators of `cma_allocators[]`; mm/cma-allocators.h lists only "bf". -/
inductive cma_allocator where
  | bf
deriving DecidableEq, Repr

/-- The fields of `struct cma_region` (the mutex apart: it is taken and released again on
every path that uses it).  `private_data` holds the best-fit trees; it is meaningful only
when `alloc` is set. `users` is an `unsigned`. -/
structure cma_region where
  name : List Char
  start : Nat
  size : Nat
  free_space : Nat
  alignment : Nat
  alloc : Option cma_allocator
  alloc_name : Option (List Char)
  alloc_params : Option (List Char)
  private_data : cma_bf_private
  users : Nat
deriving DecidableEq, Repr

/-- Modelled from the spec: `struct kref` of linux/kref.h is not among the sources; it is
the reference count of a chunk, at least one while the chunk is indexed. -/
abbrev kref : Type := Nat

/-- Modelled from the spec: `kref_init` sets the count to one. -/
def kref_init : kref := 1

/-- Modelled from the spec: `kref_get` increments the count. -/
def kref_get (ref : kref) : kref := ref + 1

/-- Modelled from the spec: `kref_put` decrements the count; when it reaches zero it calls
the release function and returns 1, otherwise it returns 0.  The result is the new count
and whether the chunk is released. -/
def kref_put (ref : kref) : kref × Bool := (ref - 1, decide (ref = 1))

/-- The fields of `struct cma_chunk`: `reg` is the position of the owning region in
`cma_regions`. -/
structure cma_chunk where
  start : Nat
  size : Nat
  reg : Nat
  ref : kref
deriving DecidableEq, Repr

/-- One element of `cma_map`: a pointer into the parameter buffer where the `=` of the
rule was overwritten by NUL, so the pattern list is followed by the region list. -/
structure cma_map_entry where
  patterns : List Char
  regions : List Char
deriving DecidableEq, Repr

/-- The global state: the array `cma_regions` (whatever lies behind the end of the list is
zero), the array `cma_map` up to its NULL entry, the tree `cma_chunks_by_start` as an
in-order sequence, and whether `cma_chunks_mutex` is held. -/
structure cma_state where
  cma_regions : List cma_region
  cma_map : List cma_map_entry
  cma_chunks_by_start : List cma_chunk
  cma_chunks_mutex : Bool
deriving DecidableEq, Repr

/-- How a call ends: it returns a value and leaves a state; it reads through a pointer
that does not point to an object (a NULL pointer, or a number that is taken for the address
of a string where there is none); or it blocks for ever on a mutex that nobody releases. -/
inductive outcome (α : Type) where
  | ret (value : α) (st : cma_state)
  | oops
  | hang
deriving DecidableEq, Repr

/-! ## The chunk registry -/

/-- Modelled from the spec: the macro `WARN(condition, format...)` of asm-generic/bug.h
is not among the sources.  When `condition` is not zero it prints a warning, for which it
reads the format string at the address `format`.  The oracle `fmt_ok` tells for every
address whether the warning can be printed with the format read there; in a kernel that is
built without `CONFIG_BUG` nothing is read and it is true everywhere.  The result is
whether the statement comes to its end. -/
def WARN (fmt_ok : Nat → Bool) (condition : Bool) (format : Nat) : Bool :=
  !condition || fmt_ok format

/-- The function `__cma_chunk_find`: in a tree ordered by start the descent ends on the
chunk whose start is `addr`, if there is one.  When there is none, the statement `WARN`
runs with the text of the message as its first argument and `(void *)addr` as its second:
the condition is the text, which is not NULL, and the format is the address `addr`. -/
def __cma_chunk_find (fmt_ok : Nat → Bool) (st : cma_state) (addr : Nat) :
    outcome (Option cma_chunk) :=
  if st.cma_chunks_mutex then .hang
  else
    match st.cma_chunks_by_start.find? (fun c => decide (c.start = addr)) with
    | some chunk => .ret (some chunk) st
    | none => if WARN fmt_ok true addr then .ret none st else .oops

/-- The descent of `__cma_chunk_insert` on the in-order sequence: `none` when a chunk with
the same start is met. -/
def __cma_chunk_insert_link : List cma_chunk → cma_chunk → Option (List cma_chunk)
  | [], chunk => some [chunk]
  | c :: rest, chunk =>
    if chunk.start < c.start then some (chunk :: c :: rest)
    else if c.start < chunk.start then
      (__cma_chunk_insert_link rest chunk).map (fun l => c :: l)
    else none

/-- The function `__cma_chunk_insert`.  On a collision it returns `-EBUSY` from inside the
loop, without `mutex_unlock`. -/
def __cma_chunk_insert (st : cma_state) (chunk : cma_chunk) : outcome Int :=
  if st.cma_chunks_mutex then .hang
  else
    match __cma_chunk_insert_link st.cma_chunks_by_start chunk with
    | none => .ret (-EBUSY) { st with cma_chunks_mutex := true }
    | some l => .ret 0 { st with cma_chunks_by_start := l }

/-- The unwinding in `__cma_alloc_do` after `__cma_chunk_insert` failed: `--reg->users`,
then `reg->free_space += chunk->size`, and only then `free` of the chunk, so the size that
is added is the size of the chunk. -/
def cma_region_put_chunk (w : Nat) (reg : cma_region) (chunk : cma_chunk) : cma_region :=
  { reg with
    private_data := cma_bf_free w reg.private_data ⟨chunk.start, chunk.size⟩,
    users := (reg.users + (2 ^ 32 - 1)) % 2 ^ 32,
    free_space := uadd w reg.free_space chunk.size }

/-- The function `__cma_chunk_release`.  The statements `--chunk->reg->users` and
`chunk->reg->free_space += chunk->size` come behind `chunk->reg->alloc->free(chunk)`: the
size that is added is read from the record as `cma_bf_free` left it (`size_after_free`).
When `cma_bf_free` gave the record to `kfree`, `chunk->reg` and `chunk->size` are read
from the freed record (`kfree_read`); nothing is allocated between the `kfree` and the
two statements. -/
def __cma_chunk_release (w : Nat) (st : cma_state) (chunk : cma_chunk) : outcome Unit :=
  if st.cma_chunks_mutex then .hang
  else
    let st1 := { st with cma_chunks_by_start := st.cma_chunks_by_start.erase chunk }
    match st1.cma_regions[chunk.reg]? with
    | none => .oops
    | some reg =>
      match reg.alloc with
      | none => .oops
      | some .bf =>
        .ret () { st1 with
          cma_regions := st1.cma_regions.set chunk.reg
            { reg with
              private_data := cma_bf_free w reg.private_data ⟨chunk.start, chunk.size⟩,
              users := (reg.users + (2 ^ 32 - 1)) % 2 ^ 32,
              free_space :=
                uadd w reg.free_space
                  (size_after_free w reg.private_data ⟨chunk.start, chunk.size⟩) } }

/-- The function `cma_get`. -/
def cma_get (fmt_ok : Nat → Bool) (st : cma_state) (addr : Nat) : outcome Int :=
  match __cma_chunk_find fmt_ok st addr with
  | .hang => .hang
  | .oops => .oops
  | .ret none st1 => .ret (-ENOENT) st1
  | .ret (some c) st1 =>
    .ret 0 { st1 with
      cma_chunks_by_start :=
        record_assign c { c with ref := kref_get c.ref } st1.cma_chunks_by_start }

/-- The function `cma_put`: `kref_put` calls `__cma_chunk_release` when the count reaches
zero. -/
def cma_put (w : Nat) (fmt_ok : Nat → Bool) (st : cma_state) (addr : Nat) : outcome Int :=
  match __cma_chunk_find fmt_ok st addr with
  | .hang => .hang
  | .oops => .oops
  | .ret none st1 => .ret (-ENOENT) st1
  | .ret (some c) st1 =>
    if (kref_put c.ref).2 then
      match __cma_chunk_release w st1 c with
      | .hang => .hang
      | .oops => .oops
      | .ret _ st2 => .ret 1 st2
    else
      .ret 0 { st1 with
        cma_chunks_by_start :=
          record_assign c { c with ref := (kref_put c.ref).1 } st1.cma_chunks_by_start }

/-! ## Regions and routes -/

/-- Modelled from the spec: `strchr` of the C library is not among the sources; it returns
the rest of the string from the first occurrence of the character on, or NULL. -/
def strchr : List Char → Char → Option (List Char)
  | [], _ => none
  | x :: rest, c => if x = c then some (x :: rest) else strchr rest c

/-- The loop of `__cma_region_find` from the entry at position `idx` on: it stops at the
first entry whose `start` is zero.  The pair `(name, n)` of the source is the string
`name`: the test `!strncmp(name, reg->name, n) && !reg->name[n]` holds when the region
name is exactly those `n` characters. -/
def __cma_region_find_from (name : List Char) : List cma_region → Nat → Option Nat
  | [], _ => none
  | reg :: rest, idx =>
    if reg.start = 0 then none
    else if reg.name = name then some idx
    else __cma_region_find_from name rest (idx + 1)

/-- The function `__cma_region_find`; the result is the position of the region. -/
def __cma_region_find (regs : List cma_region) (name : List Char) : Option Nat :=
  __cma_region_find_from name regs 0

/-- How the macro `TRY_MATCH` is left. -/
inductive try_match_exit where
  /-- the macro ran to its end; `s` is where the pattern pointer stands -/
  | through (s : List Char)
  /-- `goto again`, with `s` on a comma -/
  | again (s : List Char)
  /-- `goto again_maybe` -/
  | again_maybe (s : List Char)
deriving DecidableEq, Repr

/-- The macro `TRY_MATCH(what)` of `__cma_where_from`, started with the pattern pointer at
`s`. -/
def TRY_MATCH : List Char → List Char → try_match_exit
  | [], [] => .through []
  | x :: s, [] => if x = '*' then .through s else .through (x :: s)
  | [], _ :: _ => .again_maybe []
  | x :: s, c :: what =>
    if x = '*' then .through s
    else if x = ',' then .again (x :: s)
    else if x ≠ '?' ∧ c ≠ x then .again_maybe (x :: s)
    else TRY_MATCH s what

/-- The label `again_maybe` of `__cma_where_from`: look for the next comma and `goto again`
(`again` is what that jump does), or go on with the next element of `cma_map`. -/
def __cma_where_from_again_maybe (again : List Char → Bool → Bool × Bool)
    (s : List Char) (name_matched : Bool) : Bool × Bool :=
  match strchr s ',' with
  | none => (false, name_matched)
  | some s1 => again s1 name_matched

/-- The end of the loop body of `__cma_where_from`: the pattern matched if it ends here. -/
def __cma_where_from_end (again : List Char → Bool → Bool × Bool)
    (s : List Char) (name_matched : Bool) : Bool × Bool :=
  if s = [] ∨ s.head? = some ',' then (true, name_matched)
  else __cma_where_from_again_maybe again s name_matched

/-- The label `kind` of `__cma_where_from`: `++s; TRY_MATCH(kind);` and the end of the
loop body. -/
def __cma_where_from_kind (kind : List Char) (again : List Char → Bool → Bool × Bool)
    (s : List Char) (name_matched : Bool) : Bool × Bool :=
  match TRY_MATCH s.tail kind with
  | .again s1 => again s1 name_matched
  | .again_maybe s1 => __cma_where_from_again_maybe again s1 name_matched
  | .through s1 => __cma_where_from_end again s1 name_matched

/-- The loop body of `__cma_where_from` from behind the `++s` at the label `again` on,
with the pattern pointer at `s`; `again` is what a `goto again` does.  The result tells
whether the function returns from this element of `cma_map`, and the value of
`name_matched`. -/
def __cma_where_from_body (name kind : List Char) (again : List Char → Bool → Bool × Bool)
    (s : List Char) (name_matched : Bool) : Bool × Bool :=
  if s.head? = some '/' then
    if !name_matched then __cma_where_from_again_maybe again s name_matched
    else __cma_where_from_kind kind again s name_matched
  else
    match TRY_MATCH s name with
    | .again s1 => again s1 false
    | .again_maybe s1 => __cma_where_from_again_maybe again s1 false
    | .through s1 =>
      if s1.head? ≠ some '/' then
        if kind ≠ [] then __cma_where_from_again_maybe again s1 true
        else __cma_where_from_end again s1 true
      else __cma_where_from_kind kind again s1 true

/-- The loop body of `__cma_where_from` for one element of `cma_map`: a `goto again` steps
over the comma (`++s`) and runs the body again.  Every such jump moves `s` forward, so
`fuel` above the length of `s` is never used up. -/
def __cma_where_from_spec (name kind : List Char) :
    Nat → List Char → Bool → Bool × Bool
  | 0, _, name_matched => (false, name_matched)
  | fuel + 1, s, name_matched =>
    __cma_where_from_body name kind
      (fun s1 nm => __cma_where_from_spec name kind fuel s1.tail nm) s name_matched

/-- The loop of `__cma_where_from` over the elements of `cma_map`; `name_matched` lives
across the elements. -/
def __cma_where_from_loop (name kind : List Char) :
    List cma_map_entry → Bool → Except Int (List Char)
  | [], _ => .error (-ENOENT)
  | spec :: rest, name_matched =>
    match __cma_where_from_spec name kind (spec.patterns.length + 1) spec.patterns
        name_matched with
    | (true, _) => .ok spec.regions
    | (false, nm) => __cma_where_from_loop name kind rest nm

/-- The function `__cma_where_from`.  `dev` is `none` for a NULL device and holds
`dev_name(dev)` otherwise (a NULL name and an empty one are refused alike); `kind` is
`none` for NULL. -/
def __cma_where_from (cma_map : List cma_map_entry) (dev : Option (List Char))
    (kind : Option (List Char)) : Except Int (List Char) :=
  match dev with
  | none => .error (-EINVAL)
  | some name =>
    if name = [] then .error (-EINVAL)
    else __cma_where_from_loop name (kind.getD []) cma_map false

/-! ## Allocation -/

/-- The region bookkeeping of `__cma_alloc_do` after a successful `alloc` callback:
`++reg->users; reg->free_space -= chunk->size`, with the trees the callback left. -/
def cma_region_take_chunk (w : Nat) (reg : cma_region) (prv : cma_bf_private)
    (item : cma_bf_item) : cma_region :=
  { reg with
    private_data := prv,
    users := (reg.users + 1) % 2 ^ 32,
    free_space := usub w reg.free_space item.size }

/-- The code of `__cma_alloc_do` from the label `got` on, for the chunk `item` carved from
the region at position `idx`; `st` already holds the updated region. -/
def __cma_alloc_do_got (w : Nat) (st : cma_state) (idx : Nat) (item : cma_bf_item) :
    outcome (Option cma_chunk) :=
  let chunk : cma_chunk :=
    { start := item.start, size := item.size, reg := idx, ref := kref_init }
  match __cma_chunk_insert st chunk with
  | .hang => .hang
  | .oops => .oops
  | .ret r st1 =>
    if r = 0 then .ret (some chunk) st1
    else
      match st1.cma_regions[idx]? with
      | none => .oops
      | some reg =>
        .ret none { st1 with
          cma_regions := st1.cma_regions.set idx (cma_region_put_chunk w reg chunk) }

/-- One pass through the loop of `__cma_alloc_do`, entered with `*from` not NUL; `next` is
what the following pass does, and the flags tell whether the two `kmalloc` calls of this
pass succeed. -/
def __cma_alloc_do_pass (w : Nat) (km_item km_next : Bool) (size alignment : Nat)
    (next : cma_state → List Char → outcome (Option cma_chunk))
    (st : cma_state) (from_ : List Char) : outcome (Option cma_chunk) :=
  let end_ := strchr from_ ','
  let skip := fun (st1 : cma_state) =>
    match end_ with
    | none => outcome.ret none st1
    | some e => next st1 e.tail
  match __cma_region_find st.cma_regions (from_.takeWhile (fun c => c ≠ ',')) with
  | none => skip st
  | some idx =>
    match st.cma_regions[idx]? with
    | none => skip st
    | some reg =>
      if reg.alloc = none then skip st
      else if reg.free_space < size then skip st
      else
        match cma_bf_alloc w reg.private_data size alignment km_item km_next with
        | .oops => .oops
        | .null prv =>
          skip { st with
            cma_regions := st.cma_regions.set idx { reg with private_data := prv } }
        | .chunk item prv =>
          __cma_alloc_do_got w
            { st with
              cma_regions := st.cma_regions.set idx (cma_region_take_chunk w reg prv item) }
            idx item

/-- The loop of `__cma_alloc_do`.  `km n` tells whether the two `kmalloc` calls of the
`n`-th pass succeed.  Every pass moves `from` forward, so `fuel` above the length of
`from` is never used up. -/
def __cma_alloc_do_loop (w : Nat) (km : Nat → Bool × Bool) (size alignment : Nat) :
    Nat → Nat → cma_state → List Char → outcome (Option cma_chunk)
  | 0, _, st, _ => .ret none st
  | fuel + 1, n, st, from_ =>
    if from_ = [] then .ret none st
    else
      __cma_alloc_do_pass w (km n).1 (km n).2 size alignment
        (fun st1 from1 => __cma_alloc_do_loop w km size alignment fuel (n + 1) st1 from1)
        st from_

/-- The function `__cma_alloc_do`. -/
def __cma_alloc_do (w : Nat) (km : Nat → Bool × Bool) (st : cma_state) (from_ : List Char)
    (size alignment : Nat) : outcome (Option cma_chunk) :=
  __cma_alloc_do_loop w km size alignment (from_.length + 1) 0 st from_

/-- The function `cma_alloc`.  The result is the start of the chunk, or the error number
that the source casts to `unsigned long`. -/
def cma_alloc (w : Nat) (km : Nat → Bool × Bool) (st : cma_state) (dev : Option (List Char))
    (kind : Option (List Char)) (size alignment : Nat) : outcome (Except Int Nat) :=
  if alignment &&& usub w alignment 1 ≠ 0 ∨ size = 0 then .ret (.error (-EINVAL)) st
  else
    match __cma_where_from st.cma_map dev kind with
    | .error e => .ret (.error e) st
    | .ok from_ =>
      match __cma_alloc_do w km st from_ size (if alignment ≠ 0 then alignment else 1) with
      | .hang => .hang
      | .oops => .oops
      | .ret none st1 => .ret (.error (-ENOMEM)) st1
      | .ret (some chunk) st1 => .ret (.ok chunk.start) st1

/-! ## Parsing the route parameter -/

def CMA_MAX_REGIONS : Nat := 16
def CMA_MAX_MAPPINGS : Nat := 64
def CMA_MAX_PARAM_LEN : Nat := 512

/-- The loop of `cma_map_param_parse`; `written` holds the elements of `cma_map` stored so
far.  Every pass moves `param` forward, so `fuel` above its length is never used up. -/
def cma_map_param_parse_loop :
    Nat → Nat → List Char → List cma_map_entry → Int × List cma_map_entry
  | 0, _, _, written => (0, written)
  | fuel + 1, left, param, written =>
    if param = [] then (0, written)
    else if left = 0 then (-ENOSPC, written)
    else
      let e := strchr param ';'
      let rule := param.takeWhile (fun c => c ≠ ';')
      match strchr rule '=' with
      | none => (-EINVAL, [])
      | some eq =>
        let entry : cma_map_entry := ⟨rule.takeWhile (fun c => c ≠ '='), eq.tail⟩
        match e with
        | none => (0, written ++ [entry])
        | some e1 => cma_map_param_parse_loop fuel (left - 1) e1.tail (written ++ [entry])

/-- The function `cma_map_param_parse`, called while `cma_map` is still all NULL: the
return value and the elements of `cma_map` up to the first NULL. -/
def cma_map_param_parse (param : List Char) : Int × List cma_map_entry :=
  let buffer := param.take (CMA_MAX_PARAM_LEN - 1)
  cma_map_param_parse_loop (buffer.length + 1) CMA_MAX_MAPPINGS buffer []

/-! ## Reachable states of a best-fit region -/

/-- A power of two that fits in an `unsigned long`. -/
def is_power_of_two (w a : Nat) : Prop := ∃ k, k < w ∧ a = 2 ^ k

/-- The states of a best-fit region (its trees, and the chunks handed out and not yet
given back) that are reached from `cma_bf_init` by calls of `cma_bf_alloc` and
`cma_bf_free`. -/
inductive bf_reachable (w reg_start reg_size : Nat) :
    cma_bf_private → List cma_bf_item → Prop
  | init (kz_prv kz_item : Bool) (prv : cma_bf_private)
      (h : cma_bf_init kz_prv kz_item reg_start reg_size = .ok prv) :
      bf_reachable w reg_start reg_size prv []
  | carve (prv prv1 : cma_bf_private) (live : List cma_bf_item) (size alignment : Nat)
      (km_item km_next : Bool) (chunk : cma_bf_item)
      (hr : bf_reachable w reg_start reg_size prv live)
      (hs : 0 < size ∧ size < 2 ^ w) (ha : is_power_of_two w alignment)
      (h : cma_bf_alloc w prv size alignment km_item km_next = .chunk chunk prv1) :
      bf_reachable w reg_start reg_size prv1 (chunk :: live)
  | carve_null (prv prv1 : cma_bf_private) (live : List cma_bf_item) (size alignment : Nat)
      (km_item km_next : Bool)
      (hr : bf_reachable w reg_start reg_size prv live)
      (hs : 0 < size ∧ size < 2 ^ w) (ha : is_power_of_two w alignment)
      (h : cma_bf_alloc w prv size alignment km_item km_next = .null prv1) :
      bf_reachable w reg_start reg_size prv1 live
  | free (prv : cma_bf_private) (live : List cma_bf_item) (chunk : cma_bf_item)
      (hr : bf_reachable w reg_start reg_size prv live) (hc : chunk ∈ live) :
      bf_reachable w reg_start reg_size (cma_bf_free w prv chunk) (live.erase chunk)

/-- The size requirement and the alignment requirement of `cma_bf_alloc` on a hole. -/
def bf_hole_fits (w : Nat) (hole : cma_bf_item) (size alignment : Nat) : Prop :=
  size ≤ hole.size ∧
    ALIGN w hole.start alignment < uadd w hole.start hole.size ∧
    size ≤ usub w (uadd w hole.start hole.size) (ALIGN w hole.start alignment)

instance (w : Nat) (hole : cma_bf_item) (size alignment : Nat) :
    Decidable (bf_hole_fits w hole size alignment) := by
  unfold bf_hole_fits
  exact inferInstance

/-- The by-size tree is ordered by size. -/
def by_size_ordered (prv : cma_bf_private) : Prop :=
  prv.by_size_root.Pairwise (fun a b => a.size ≤ b.size)

/-- The by-start tree and the by-size tree hold the same records. -/
def same_records (prv : cma_bf_private) : Prop :=
  prv.by_start_root.Perm prv.by_size_root

/-- The address lies in the range of the record. -/
def item_contains (i : cma_bf_item) (addr : Nat) : Prop :=
  i.start ≤ addr ∧ addr < i.start + i.size

instance (i : cma_bf_item) (addr : Nat) : Decidable (item_contains i addr) := by
  unfold item_contains
  exact inferInstance

/-- Two holes are disjoint and not adjacent: one ends strictly before the other begins. -/
def holes_apart (a b : cma_bf_item) : Prop :=
  a.start + a.size < b.start ∨ b.start + b.size < a.start

instance (a b : cma_bf_item) : Decidable (holes_apart a b) := by
  unfold holes_apart
  exact inferInstance

/-- The partition invariant of a best-fit region: the holes are pairwise disjoint and not
adjacent, and every address of the region lies in exactly one hole or exactly one live
chunk. -/
def bf_partition (reg_start reg_size : Nat) (prv : cma_bf_private)
    (live : List cma_bf_item) : Prop :=
  prv.by_start_root.Pairwise holes_apart ∧
  ∀ addr, reg_start ≤ addr → addr < reg_start + reg_size →
    (prv.by_start_root.filter (fun i => decide (item_contains i addr))).length +
      (live.filter (fun i => decide (item_contains i addr))).length = 1

/-! ## Reachable states of the framework -/

/-- A state as the parsers and `cma_init` leave it: no chunk is indexed, the mutex is
free, and every region has all of its size as free space, no users, and fields that fit
in their C types. -/
def cma_fresh (w : Nat) (st : cma_state) : Prop :=
  st.cma_chunks_by_start = [] ∧ st.cma_chunks_mutex = false ∧
  ∀ reg ∈ st.cma_regions, reg.free_space = reg.size ∧ reg.size < 2 ^ w ∧ reg.users = 0

/-- The states reached from `st0` by calls of `cma_alloc`, `cma_get` and `cma_put` that
return (with success or with an error). -/
inductive cma_reachable (w : Nat) (st0 : cma_state) : cma_state → Prop
  | start : cma_reachable w st0 st0
  | alloc (st st1 : cma_state) (km : Nat → Bool × Bool) (dev kind : Option (List Char))
      (size alignment : Nat) (r : Except Int Nat)
      (hr : cma_reachable w st0 st)
      (h : cma_alloc w km st dev kind size alignment = .ret r st1) :
      cma_reachable w st0 st1
  | get (st st1 : cma_state) (fmt_ok : Nat → Bool) (addr : Nat) (r : Int)
      (hr : cma_reachable w st0 st) (h : cma_get fmt_ok st addr = .ret r st1) :
      cma_reachable w st0 st1
  | put (st st1 : cma_state) (fmt_ok : Nat → Bool) (addr : Nat) (r : Int)
      (hr : cma_reachable w st0 st) (h : cma_put w fmt_ok st addr = .ret r st1) :
      cma_reachable w st0 st1

/-- The sum of the sizes of the chunks of the list that belong to the region at `idx`. -/
def live_size_of (idx : Nat) (l : List cma_chunk) : Nat :=
  ((l.filter (fun c => decide (c.reg = idx))).map (fun c => c.size)).sum

/-- The sum of the sizes of the indexed chunks that belong to the region at `idx`. -/
def region_live_size (st : cma_state) (idx : Nat) : Nat :=
  live_size_of idx st.cma_chunks_by_start

/-- The accounting invariant: in every region the free space and the sizes of the live
chunks add up to the size of the region. -/
def cma_accounting (st : cma_state) : Prop :=
  ∀ idx reg, st.cma_regions[idx]? = some reg →
    reg.free_space + region_live_size st idx = reg.size

/-- What the calls of the framework keep: the accounting invariant, region sizes that fit
in an `unsigned long`, and a chunk tree that is ordered by start. -/
def cma_inv (w : Nat) (st : cma_state) : Prop :=
  cma_accounting st ∧ (∀ reg ∈ st.cma_regions, reg.size < 2 ^ w) ∧
  st.cma_chunks_by_start.Pairwise (fun a b => a.start < b.start)

/-- What a successful `__cma_alloc_do` leaves: the chunk is indexed with one reference,
the mutex is free, and the region of the chunk has an allocator. -/
def alloc_post (c : cma_chunk) (st1 : cma_state) : Prop :=
  c.ref = 1 ∧ c ∈ st1.cma_chunks_by_start ∧ st1.cma_chunks_mutex = false ∧
    ∃ reg1, st1.cma_regions[c.reg]? = some reg1 ∧ reg1.alloc = some .bf

/-- The state in which the chunk `c`, the only one with its start, has `ref` references:
`pre` and `post` are the chunks before and behind it in the tree. -/
def with_ref (st : cma_state) (pre post : List cma_chunk) (c : cma_chunk) (ref : Nat) :
    cma_state :=
  { st with cma_chunks_by_start := pre ++ { c with ref := ref } :: post }

/-- Repeats a call `n` times as long as it returns zero. -/
def cma_repeat (f : cma_state → outcome Int) : Nat → cma_state → Option cma_state
  | 0, st => some st
  | n + 1, st =>
    match f st with
    | .ret r st1 => if r = 0 then cma_repeat f n st1 else none
    | _ => none

/-! ## Reference description of the route resolver -/

/-- The patterns of a rule: the pieces of the pattern list between the commas. -/
def split_patterns : List Char → List (List Char)
  | [] => [[]]
  | c :: s =>
    if c = ',' then [] :: split_patterns s
    else
      match split_patterns s with
      | [] => [[c]]
      | p :: ps => (c :: p) :: ps

/-- The loop body of `__cma_where_from` run on a single pattern, a string without comma:
whether the pattern matches, and the value of `name_matched`.  There is no pattern to
`goto again` to. -/
def pattern_match (name kind p : List Char) (name_matched : Bool) : Bool × Bool :=
  __cma_where_from_body name kind (fun _ nm => (false, nm)) p name_matched

/-- The patterns of a rule are tried from left to right until one matches. -/
def rule_match (name kind : List Char) : List (List Char) → Bool → Bool × Bool
  | [], name_matched => (false, name_matched)
  | p :: ps, name_matched =>
    match pattern_match name kind p name_matched with
    | (true, nm) => (true, nm)
    | (false, nm) => rule_match name kind ps nm

/-- The value of `name_matched` after the rules of the list were tried without a match,
when it was `name_matched` before. -/
def name_matched_after (name kind : List Char) : List cma_map_entry → Bool → Bool
  | [], name_matched => name_matched
  | spec :: rest, name_matched =>
    name_matched_after name kind rest
      (rule_match name kind (split_patterns spec.patterns) name_matched).2

/-- The loop body of `__cma_where_from` takes a pattern of the rule at position `i` of the
table for the request, when `name_matched` has the value `nm0` before the first rule (the
source starts with 0) and the rules in front were tried without a match. -/
def rule_has_match (name kind : List Char) (nm0 : Bool) (cma_map : List cma_map_entry)
    (i : Nat) : Prop :=
  ∃ spec, cma_map[i]? = some spec ∧
    (rule_match name kind (split_patterns spec.patterns)
      (name_matched_after name kind (cma_map.take i) nm0)).1 = true

/-- What follows a pattern: the function returns when it matched; otherwise the text
behind the pattern is empty or begins with a comma, behind which the next pattern is
tried by `again`. -/
def route_continue (again : List Char → Bool → Bool × Bool) (rest : List Char)
    (r : Bool × Bool) : Bool × Bool :=
  match r with
  | (true, nm) => (true, nm)
  | (false, nm) =>
    match rest with
    | [] => (false, nm)
    | _ :: _ => again rest nm

/-! ## States for the examples -/

/-- A best-fit region "R" as `cma_init` leaves it. -/
def example_region (start size : Nat) : cma_region :=
  { name := ['R'], start := start, size := size, free_space := size, alignment := 0x1000,
    alloc := some .bf, alloc_name := some ['b', 'f'], alloc_params := none,
    private_data := ⟨[⟨start, size⟩], [⟨start, size⟩]⟩, users := 0 }

/-- The state with the single region "R" and the rule that sends every device with an
empty kind to it. -/
def example_state (start size : Nat) : cma_state :=
  { cma_regions := [example_region start size], cma_map := [⟨['*'], ['R']⟩],
    cma_chunks_by_start := [], cma_chunks_mutex := false }

/-- Every `kmalloc` succeeds. -/
def kmalloc_ok : Nat → Bool × Bool := fun _ => (true, true)

/-- The state that `example_state` becomes when the whole region is handed out as one
chunk. -/
def example_allocated (start size : Nat) : cma_state :=
  { cma_regions :=
      [{ example_region start size with
         free_space := 0, users := 1, private_data := ⟨[], []⟩ }],
    cma_map := [⟨['*'], ['R']⟩],
    cma_chunks_by_start := [⟨start, size, 0, 1⟩], cma_chunks_mutex := false }

/-- The state that `example_state 0x1000 0x3000` becomes by
`cma_alloc(dev, NULL, 0x2000, 0x2000)`: the chunk [0x2000, 0x4000) is indexed and the page
at 0x1000 is the only hole. -/
def example_carved : cma_state :=
  { cma_regions :=
      [{ example_region 0x1000 0x3000 with
         free_space := 0x1000, users := 1,
         private_data := ⟨[⟨0x1000, 0x1000⟩], [⟨0x1000, 0x1000⟩]⟩ }],
    cma_map := [⟨['*'], ['R']⟩],
    cma_chunks_by_start := [⟨0x2000, 0x2000, 0, 1⟩], cma_chunks_mutex := false }

/-- The state `example_carved` with two references to the chunk. -/
def example_carved_twice : cma_state :=
  { example_carved with cma_chunks_by_start := [⟨0x2000, 0x2000, 0, 2⟩] }

/-- The state that `example_carved` becomes by `cma_put(0x2000)`: no chunk is indexed, the
region of three pages is one hole again, and its `free_space` is 0x4000. -/
def example_released : cma_state :=
  { cma_regions := [{ example_region 0x1000 0x3000 with free_space := 0x4000 }],
    cma_map := [⟨['*'], ['R']⟩],
    cma_chunks_by_start := [], cma_chunks_mutex := false }

/-- The value a call returned, if it returned. -/
def outcome.value? {α : Type} : outcome α → Option α
  | .ret v _ => some v
  | _ => none

/-- The state a call left, if it returned. -/
def outcome.state? {α : Type} : outcome α → Option cma_state
  | .ret _ st => some st
  | _ => none

/-- The holes of the regions of a state, in the order of their by-start trees. -/
def region_holes (st : cma_state) : List (List cma_bf_item) :=
  st.cma_regions.map (fun r => r.private_data.by_start_root)

/-- Two best-fit regions "R" and "S" that were given the same page at 0x1000, and the
rules `a=R;b=S`. -/
def example_overlap : cma_state :=
  { cma_regions :=
      [example_region 0x1000 0x1000, { example_region 0x1000 0x1000 with name := ['S'] }],
    cma_map := [⟨['a'], ['R']⟩, ⟨['b'], ['S']⟩],
    cma_chunks_by_start := [], cma_chunks_mutex := false }

/-- The state `example_overlap` after device "a" got the page of "R". -/
def example_overlap_one : cma_state :=
  { example_overlap with
    cma_regions :=
      [{ example_region 0x1000 0x1000 with
         free_space := 0, users := 1, private_data := ⟨[], []⟩ },
       { example_region 0x1000 0x1000 with name := ['S'] }],
    cma_chunks_by_start := [⟨0x1000, 0x1000, 0, 1⟩] }

/-- The state `example_overlap_one` after device "b" asked for the page of "S": the chunk
collided in the chunk tree and was given back; the mutex of the tree is still held. -/
def example_overlap_two : cma_state :=
  { example_overlap_one with cma_chunks_mutex := true }

/-! ## The well-formed states of a best-fit region -/

/-- The number of records of the list whose range holds the address. -/
def cover_count (l : List cma_bf_item) (addr : Nat) : Nat :=
  (l.filter (fun i => decide (item_contains i addr))).length

/-- The holes are in the order of their addresses, with a gap between any two of them. -/
def holes_ordered (l : List cma_bf_item) : Prop :=
  l.Pairwise (fun a b => a.start + a.size < b.start)

/-- A well-formed state of the best-fit region `[reg_start, reg_start + reg_size)`: the
region ends below `2 ^ w`; the by-start tree is ordered with gaps; holes and live chunks
are not empty and lie in the region; every address of the region is in exactly one hole
or live chunk; both trees hold the same records. -/
def bf_wf (w reg_start reg_size : Nat) (prv : cma_bf_private) (live : List cma_bf_item) :
    Prop :=
  reg_start + reg_size < 2 ^ w ∧
  holes_ordered prv.by_start_root ∧
  (∀ h ∈ prv.by_start_root,
    0 < h.size ∧ reg_start ≤ h.start ∧ h.start + h.size ≤ reg_start + reg_size) ∧
  (∀ c ∈ live, 0 < c.size ∧ reg_start ≤ c.start ∧ c.start + c.size ≤ reg_start + reg_size) ∧
  (∀ addr, reg_start ≤ addr → addr < reg_start + reg_size →
    cover_count prv.by_start_root addr + cover_count live addr = 1) ∧
  same_records prv

/-- The states of a best-fit region reached from `cma_bf_init` by calls of `cma_bf_alloc`
and `cma_bf_free` in which every alignment leaves room above the region: the end of the
region plus the alignment does not pass `2 ^ w`, so that `ALIGN` never wraps around. -/
inductive bf_reachable_below (w reg_start reg_size : Nat) :
    cma_bf_private → List cma_bf_item → Prop
  | init (kz_prv kz_item : Bool) (prv : cma_bf_private)
      (h : cma_bf_init kz_prv kz_item reg_start reg_size = .ok prv) :
      bf_reachable_below w reg_start reg_size prv []
  | carve (prv prv1 : cma_bf_private) (live : List cma_bf_item) (size alignment : Nat)
      (km_item km_next : Bool) (chunk : cma_bf_item)
      (hr : bf_reachable_below w reg_start reg_size prv live)
      (hs : 0 < size ∧ size < 2 ^ w) (ha : is_power_of_two w alignment)
      (hb : reg_start + reg_size + alignment ≤ 2 ^ w)
      (h : cma_bf_alloc w prv size alignment km_item km_next = .chunk chunk prv1) :
      bf_reachable_below w reg_start reg_size prv1 (chunk :: live)
  | carve_null (prv prv1 : cma_bf_private) (live : List cma_bf_item) (size alignment : Nat)
      (km_item km_next : Bool)
      (hr : bf_reachable_below w reg_start reg_size prv live)
      (hs : 0 < size ∧ size < 2 ^ w) (ha : is_power_of_two w alignment)
      (hb : reg_start + reg_size + alignment ≤ 2 ^ w)
      (h : cma_bf_alloc w prv size alignment km_item km_next = .null prv1) :
      bf_reachable_below w reg_start reg_size prv1 live
  | free (prv : cma_bf_private) (live : List cma_bf_item) (chunk : cma_bf_item)
      (hr : bf_reachable_below w reg_start reg_size prv live) (hc : chunk ∈ live) :
      bf_reachable_below w reg_start reg_size (cma_bf_free w prv chunk) (live.erase chunk)

/-! ## Reference description of the patterns -/

/-- The glob semantics in the words of the specification: `?` stands for exactly one
character, `*` for the whole remainder of the field, every other character for itself, and
without `*` the field has to be used up. -/
def glob_match_words : List Char → List Char → Bool
  | [], f => f.isEmpty
  | g :: gs, f =>
    if g = '*' then glob_match_words gs []
    else
      match f with
      | [] => false
      | c :: cs => (g = '?' || g = c) && glob_match_words gs cs

/-- The glob semantics with `*` as last character only: `?` stands for exactly one
character, a `*` that ends the glob for the whole remainder of the field, every other
character for itself; a glob with anything behind a `*` matches nothing, and without `*`
the field has to be used up. -/
def glob_match : List Char → List Char → Bool
  | [], f => f.isEmpty
  | g :: gs, f =>
    if g = '*' then gs.isEmpty
    else
      match f with
      | [] => false
      | c :: cs => (g = '?' || g = c) && glob_match gs cs

/-- The device glob of a pattern: the text before the first slash. -/
def pattern_dev (p : List Char) : List Char := p.takeWhile (fun c => c ≠ '/')

/-- The kind glob of a pattern: the text behind the first slash, if there is a slash. -/
def pattern_kind (p : List Char) : Option (List Char) :=
  match p.dropWhile (fun c => c ≠ '/') with
  | [] => none
  | _ :: kg => some kg

/-- The reference matcher for a pattern `device-glob[/kind-glob]` with the glob semantics
`G`: the device glob has to match the device name, and the kind glob the kind; a pattern
without kind part matches the empty kind only. -/
def pattern_ref (G : List Char → List Char → Bool) (p name kind : List Char) : Bool :=
  G (pattern_dev p) name &&
    match pattern_kind p with
    | none => kind.isEmpty
    | some kg => G kg kind

/-- What the resolver answers for a table of one rule when the reference matcher decides:
the regions of the rule, or `-ENOENT`. -/
def route_of (regions : List Char) (matched : Bool) : Except Int (List Char) :=
  if matched then .ok regions else .error (-ENOENT)

/-- The device glob that a pattern stands for, in the words of the specification: its own
device part, and for a pattern that begins with a slash the device part of the textually
preceding pattern, the nearest earlier one that carries a device part (`inherited`, which
is `none` when there is no pattern in front). -/
def pattern_inherit (inherited : Option (List Char)) (p : List Char) : Option (List Char) :=
  if p.head? = some '/' then inherited else some (pattern_dev p)

/-- The reference matcher for a pattern of a table: the device glob the pattern stands for
has to match the whole device name, and the kind glob the kind; a pattern without kind
part matches the empty kind only. -/
def pattern_ref_inherit (name kind : List Char) (inherited : Option (List Char))
    (p : List Char) : Bool :=
  match pattern_inherit inherited p with
  | none => false
  | some g =>
    glob_match g name &&
      match pattern_kind p with
      | none => kind.isEmpty
      | some kg => glob_match kg kind

/-- Whether the rule with the given patterns has a matching pattern by the reference
matcher, and the device part that a pattern behind the rule inherits. -/
def rule_ref (name kind : List Char) :
    List (List Char) → Option (List Char) → Bool × Option (List Char)
  | [], inherited => (false, inherited)
  | p :: ps, inherited =>
    ((pattern_ref_inherit name kind inherited p ||
        (rule_ref name kind ps (pattern_inherit inherited p)).1),
      (rule_ref name kind ps (pattern_inherit inherited p)).2)

/-- The reference resolver, first match wins in the words of the specification: the answer
is the region list of the first rule of the table that has a matching pattern, and
not-found when no rule has one. -/
def where_from_ref (name kind : List Char) :
    List cma_map_entry → Option (List Char) → Except Int (List Char)
  | [], _ => .error (-ENOENT)
  | spec :: rest, inherited =>
    if (rule_ref name kind (split_patterns spec.patterns) inherited).1 then .ok spec.regions
    else
      where_from_ref name kind rest
        (rule_ref name kind (split_patterns spec.patterns) inherited).2

/-- The best-fit region "r2" of two pages at 0x1000 and the rules `bar/firmware=r3;/*=r2`
as `cma_map_param_parse` stores them. -/
def example_inherit : cma_state :=
  { cma_regions := [{ example_region 0x1000 0x2000 with name := ['r', '2'] }],
    cma_map := [⟨"bar/firmware".toList, ['r', '3']⟩, ⟨['/', '*'], ['r', '2']⟩],
    cma_chunks_by_start := [], cma_chunks_mutex := false }

/-! ## Parsing the region parameter -/

/-- The largest value of an `unsigned long`. -/
def ULONG_MAX (w : Nat) : Nat := 2 ^ w - 1

/-- The value of a character as a digit, up to base 16. -/
def digit_value (c : Char) : Option Nat :=
  if '0' ≤ c ∧ c ≤ '9' then some (c.toNat - '0'.toNat)
  else if 'a' ≤ c ∧ c ≤ 'f' then some (c.toNat - 'a'.toNat + 10)
  else if 'A' ≤ c ∧ c ≤ 'F' then some (c.toNat - 'A'.toNat + 10)
  else none

/-- Modelled from the spec: the digit loop of `simple_strtoull` of lib/vsprintf.c, which is
not among the sources: the digits of the base are read into an `unsigned long long`; the
result is the value and the text behind the digits. -/
def simple_strtoull_digits (base : Nat) : List Char → Nat → Nat × List Char
  | [], result => (result, [])
  | c :: cp, result =>
    match digit_value c with
    | none => (result, c :: cp)
    | some value =>
      if base ≤ value then (result, c :: cp)
      else simple_strtoull_digits base cp ((result * base + value) % 2 ^ 64)

/-- Modelled from the spec: `memparse` of lib/cmdline.c is not among the sources.  It
reads a decimal number, or a hexadecimal one behind `0x`, and an optional suffix `K`, `M`
or `G` in either case, which stands for a factor of `2 ^ 10`, `2 ^ 20` or `2 ^ 30`.  The
result is the value as an `unsigned long long` and the text behind what was read. -/
def memparse (ptr : List Char) : Nat × List Char :=
  let ret : Nat × List Char :=
    match ptr with
    | '0' :: x :: cp =>
      if (x = 'x' ∨ x = 'X') ∧ (cp.head?.bind digit_value).isSome then
        simple_strtoull_digits 16 cp 0
      else simple_strtoull_digits 10 ptr 0
    | _ => simple_strtoull_digits 10 ptr 0
  match ret.2 with
  | [] => ret
  | c :: endptr =>
    if c = 'G' ∨ c = 'g' then (ret.1 * 2 ^ 30 % 2 ^ 64, endptr)
    else if c = 'M' ∨ c = 'm' then (ret.1 * 2 ^ 20 % 2 ^ 64, endptr)
    else if c = 'K' ∨ c = 'k' then (ret.1 * 2 ^ 10 % 2 ^ 64, endptr)
    else ret

/-- The value of the character constant in the test `*param == ' <at> '` of
`cma_param_parse_entry` (mm/cma.c:76).  The constant has six characters, a blank, `<at>`
and a blank; the compiler keeps the last four of them in an `int`. -/
def AT_CONSTANT : Nat := 0x61743E20

/-- An entry of `cma_regions` as the static array holds it before anything is parsed. -/
def cma_region_zero : cma_region :=
  { name := [], start := 0, size := 0, free_space := 0, alignment := 0, alloc := none,
    alloc_name := none, alloc_params := none, private_data := ⟨[], []⟩, users := 0 }

/-- The start part of `cma_param_parse_entry`: the start that was read and the text behind
it, or `none` where the function returns NULL. -/
def cma_param_parse_entry_start (w : Nat) (param : List Char) : Option (Nat × List Char) :=
  if param.head?.map Char.toNat = some AT_CONSTANT then
    if ULONG_MAX w < (memparse param.tail).1 then none
    else some (memparse param.tail)
  else some (0, param)

/-- The alignment part of `cma_param_parse_entry`; the arithmetic is that of
`unsigned long long`. -/
def cma_param_parse_entry_alignment (w : Nat) (param : List Char) :
    Option (Nat × List Char) :=
  if param.head? = some '/' then
    if ULONG_MAX w < (memparse param.tail).1 ∨
        (memparse param.tail).1 &&& usub 64 (memparse param.tail).1 1 ≠ 0 then none
    else some (memparse param.tail)
  else some (0, param)

/-- The allocator part of `cma_param_parse_entry`: `alloc`, `alloc_params` and the text
behind the part, or `none` where the function returns NULL. -/
def cma_param_parse_entry_alloc (param : List Char) :
    Option (Option (List Char) × Option (List Char) × List Char) :=
  if param.head? = some ':' then
    let alloc := param.tail.takeWhile (fun c => c ≠ '(' ∧ c ≠ ';')
    let p := param.tail.dropWhile (fun c => c ≠ '(' ∧ c ≠ ';')
    if p.head? = some '(' then
      match strchr p.tail ')' with
      | none => none
      | some e => some (some alloc, some (p.tail.takeWhile (fun c => c ≠ ')')), e.tail)
    else some (some alloc, none, p)
  else some (none, none, param)

/-- The end of `cma_param_parse_entry`: the test for `;` or the end of the parameter, and
the part under the comment `Save`.  The values are rounded as `unsigned long long` and
stored in the `unsigned long` fields of the region. -/
def cma_param_parse_entry_save (w PAGE_SIZE : Nat) (reg : cma_region) (name : List Char)
    (size start alignment : Nat) (alloc alloc_params : Option (List Char))
    (param : List Char) : Option (List Char × cma_region) :=
  if param.head? ≠ some ';' ∧ param ≠ [] then none
  else
    let alignment1 := if alignment ≠ 0 then ALIGN 64 alignment PAGE_SIZE else PAGE_SIZE
    let start1 := ALIGN 64 start alignment1
    let size1 := ALIGN 64 size PAGE_SIZE
    some (param.tail,
      { reg with
        name := name,
        start := start1 % 2 ^ w,
        size := size1 % 2 ^ w,
        free_space := size1 % 2 ^ w,
        alignment := alignment1 % 2 ^ w,
        alloc_name :=
          match alloc with
          | none => none
          | some a => if a ≠ [] then some a else none,
        alloc_params := alloc_params })

/-- The function `cma_param_parse_entry`: the text behind the entry and the region as the
entry leaves it, or `none` where the function returns NULL.  `PAGE_SIZE` is a parameter. -/
def cma_param_parse_entry (w PAGE_SIZE : Nat) (param : List Char) (reg : cma_region) :
    Option (List Char × cma_region) :=
  match strchr param '=' with
  | none => none
  | some eq =>
    if param.head? = some '=' then none
    else if (memparse eq.tail).1 = 0 ∨ ULONG_MAX w < (memparse eq.tail).1 then none
    else
      match cma_param_parse_entry_start w (memparse eq.tail).2 with
      | none => none
      | some (start, p2) =>
        match cma_param_parse_entry_alignment w p2 with
        | none => none
        | some (alignment, p3) =>
          match cma_param_parse_entry_alloc p3 with
          | none => none
          | some (alloc, alloc_params, p4) =>
            cma_param_parse_entry_save w PAGE_SIZE reg (param.takeWhile (fun c => c ≠ '='))
              (memparse eq.tail).1 start alignment alloc alloc_params p4

/-- The loop of `cma_param_parse`; `written` holds the entries of `cma_regions` stored so
far.  Every pass moves `param` forward, so `fuel` above its length is never used up. -/
def cma_param_parse_loop (w PAGE_SIZE : Nat) :
    Nat → Nat → List Char → List cma_region → Int × List cma_region
  | 0, _, _, written => (0, written)
  | fuel + 1, left, param, written =>
    if param = [] then (0, written)
    else if left - 1 = 0 then (-ENOSPC, written)
    else
      match cma_param_parse_entry w PAGE_SIZE param cma_region_zero with
      | none => (-EINVAL, written)
      | some (rest, reg) =>
        cma_param_parse_loop w PAGE_SIZE fuel (left - 1) rest (written ++ [reg])

/-- The function `cma_param_parse`, called while `cma_regions` is still all zero: the
return value and the entries of `cma_regions` that were written, which are followed by
zero entries. -/
def cma_param_parse (w PAGE_SIZE : Nat) (param : List Char) : Int × List cma_region :=
  let buffer := param.take (CMA_MAX_PARAM_LEN - 1)
  cma_param_parse_loop w PAGE_SIZE (buffer.length + 1) (CMA_MAX_REGIONS + 1) buffer []

/-! ## Reference description of the parameters -/

/-- The text of a parameter with the given entries, separated by semicolons. -/
def join_entries : List (List Char) → List Char
  | [] => []
  | e :: es => if es = [] then e else e ++ ';' :: join_entries es

/-- The text `e` is an entry that `cma_param_parse_entry` accepts, with the region `reg`
as result, both where it ends the parameter and where a semicolon follows it. -/
def entry_accepted (w PAGE_SIZE : Nat) (e : List Char) (reg : cma_region) : Prop :=
  cma_param_parse_entry w PAGE_SIZE e cma_region_zero = some ([], reg) ∧
  ∀ rest, cma_param_parse_entry w PAGE_SIZE (e ++ ';' :: rest) cma_region_zero =
    some (rest, reg)

/-- The defects of an entry that begins the text `bad`: no `=` in the text, an empty name,
a size that is zero or above `ULONG_MAX`, or, behind the size, an alignment that is
neither zero nor a power of two. -/
def entry_defect (w : Nat) (bad : List Char) : Prop :=
  strchr bad '=' = none ∨ bad.head? = some '=' ∨
  (∃ name t, bad = name ++ '=' :: t ∧ '=' ∉ name ∧
    ((memparse t).1 = 0 ∨ ULONG_MAX w < (memparse t).1)) ∨
  (∃ name t u, bad = name ++ '=' :: t ∧ '=' ∉ name ∧ (memparse t).2 = '/' :: u ∧
    (memparse u).1 ≠ 0 ∧ ¬ ∃ k, (memparse u).1 = 2 ^ k)

/-- The region that the entry `r=4K` becomes with a page size of 0x1000. -/
def example_parsed : cma_region :=
  { cma_region_zero with
    name := ['r'], size := 0x1000, free_space := 0x1000, alignment := 0x1000 }

/-! ## A table with a region at address zero -/

/-- A table whose first region starts at address zero: "Z" has two pages at 0 and "R" two
pages at 0x2000, both with the best-fit allocator; every device is sent to "R" first and
then to "Z". -/
def example_zero_start : cma_state :=
  { cma_regions :=
      [{ example_region 0 0x2000 with name := ['Z'] }, example_region 0x2000 0x2000],
    cma_map := [⟨['*'], ['R', ',', 'Z']⟩],
    cma_chunks_by_start := [], cma_chunks_mutex := false }

/-- The device name is used up by the glob, or reaches a `*` of it, without a character
that differs: the condition under which the loop of `TRY_MATCH(name)` is left at its end. -/
def glob_reaches : List Char → List Char → Bool
  | _, [] => true
  | [], _ :: _ => false
  | g :: gs, c :: cs => if g = '*' then true else (g = '?' || g = c) && glob_reaches gs cs

/-! ## Reference description of the walk over a route -/

/-- The position of the first region of the table with the given name, counted from `idx`. -/
def region_lookup_from (name : List Char) : List cma_region → Nat → Option Nat
  | [], _ => none
  | reg :: rest, idx =>
    if reg.name = name then some idx else region_lookup_from name rest (idx + 1)

/-- The position of the first region of the table with the given name. -/
def region_lookup (regs : List cma_region) (name : List Char) : Option Nat :=
  region_lookup_from name regs 0

/-- The region with the given name does not qualify: it is not in the table, or it has no
allocator, or less free space than `size`, or its carve returns NULL. -/
def region_passed (w : Nat) (km_item km_next : Bool) (st : cma_state) (name : List Char)
    (size alignment : Nat) : Prop :=
  ∀ idx reg, region_lookup st.cma_regions name = some idx → st.cma_regions[idx]? = some reg →
    reg.alloc = none ∨ reg.free_space < size ∨
      ∃ prv, cma_bf_alloc w reg.private_data size alignment km_item km_next = .null prv

/-- The region with the given name qualifies: it is the region `reg` at position `idx` of
the table, has an allocator and at least `size` bytes of free space, and its carve returns
the chunk `item` and leaves the trees `prv`. -/
def region_gives (w : Nat) (km_item km_next : Bool) (st : cma_state) (name : List Char)
    (size alignment : Nat) (idx : Nat) (reg : cma_region) (item : cma_bf_item)
    (prv : cma_bf_private) : Prop :=
  region_lookup st.cma_regions name = some idx ∧ st.cma_regions[idx]? = some reg ∧
    reg.alloc ≠ none ∧ size ≤ reg.free_space ∧
    cma_bf_alloc w reg.private_data size alignment km_item km_next = .chunk item prv

/-- The text of a route with the given region names, separated by commas. -/
def join_names : List (List Char) → List Char
  | [] => []
  | n :: ns => if ns = [] then n else n ++ ',' :: join_names ns

/-- A table of two regions, neither at address zero: "A" has one page at 0x1000, handed
out as one chunk, and "R" has two free pages at 0x2000. -/
def example_first_fit : cma_state :=
  { cma_regions :=
      [{ example_region 0x1000 0x1000 with
         name := ['A'], free_space := 0, users := 1, private_data := ⟨[], []⟩ },
       example_region 0x2000 0x2000],
    cma_map := [⟨['*'], ['X', ',', 'A', ',', 'R', ',', 'A']⟩],
    cma_chunks_by_start := [⟨0x1000, 0x1000, 0, 1⟩], cma_chunks_mutex := false }

/-! ## Reserving memory for the regions -/

/-- A reservation callback, `int (*alloc)(struct cma_region *reg)`: for the number of the
call within the traversal and the region it is given, the value it returns and the fields
it leaves in the region. -/
abbrev region_callback : Type := Nat → cma_region → Int × cma_region

/-- The loop of `cma_regions_allocate`.  `done` holds the entries of the array before
`reg`, `out` is the position that the pointer `out` stands on, and the last argument holds
the entries from `reg` on.  The result is the array and the position of `out` when the loop
is left. -/
def cma_regions_allocate_loop (alloc : region_callback) :
    List cma_region → Nat → List cma_region → List cma_region × Nat
  | done, out, [] => (done, out)
  | done, out, reg :: rest =>
    if reg.size = 0 then (done ++ reg :: rest, out)
    else
      if 0 ≤ (alloc done.length reg).1 then
        cma_regions_allocate_loop alloc
          (if out ≠ done.length then (done ++ [(alloc done.length reg).2]).set out
              (alloc done.length reg).2
            else done ++ [(alloc done.length reg).2])
          (out + 1) rest
      else cma_regions_allocate_loop alloc (done ++ [(alloc done.length reg).2]) out rest

/-- The function `cma_regions_allocate` on the array `regs` (whatever lies behind the end
of the list is zero): the value it returns and the array it leaves.  `alloc` is `none` for
NULL, which stands for `cma_region_alloc`; that function reserves the memory with bootmem or
memblock, which are not among the sources, and is a parameter. -/
def cma_regions_allocate (cma_region_alloc : region_callback) (alloc : Option region_callback)
    (regs : List cma_region) : Int × List cma_region :=
  let r := cma_regions_allocate_loop (alloc.getD cma_region_alloc) [] 0 regs
  ((0 : Int) - (r.2 : Int),
    match r.1[r.2]? with
    | none => r.1
    | some t => r.1.set r.2 { t with size := 0 })

/-! ## Reference description of the region table -/

/-- The regions of a table: the entries before the first entry of size zero. -/
def table_regions (regs : List cma_region) : List cma_region :=
  regs.takeWhile (fun r => r.size ≠ 0)

/-- What the callback returns and leaves for the regions of the list, which are given to
it one after the other, the first of them in call number `n`. -/
def reserve_results (alloc : region_callback) : Nat → List cma_region → List (Int × cma_region)
  | _, [] => []
  | n, r :: rest => alloc n r :: reserve_results alloc (n + 1) rest

/-- The regions of the table for which the callback succeeded (returned a value that is
not negative), in the order of the table and with the fields the callback left in them. -/
def reserved_regions (alloc : region_callback) (n : Nat) (regs : List cma_region) :
    List cma_region :=
  ((reserve_results alloc n (table_regions regs)).filter (fun x => decide (0 ≤ x.1))).map
    Prod.snd

/-- A callback that reserves every region but those named "B", and leaves the fields as
they are. -/
def example_callback : region_callback :=
  fun _ reg => (if reg.name = ['B'] then -ENOMEM else 0, reg)

/-- A region "A" of one page at 0x1000 and a region "B" of one page at 0x2000, as platform
code may put them in the table before the memory is reserved. -/
def example_table : List cma_region :=
  [{ cma_region_zero with
     name := ['A'], start := 0x1000, size := 0x1000, free_space := 0x1000,
     alignment := 0x1000 },
   { cma_region_zero with
     name := ['B'], start := 0x2000, size := 0x1000, free_space := 0x1000,
     alignment := 0x1000 }]

/-! ## Information about the regions of a route -/

/-- The fields of `struct cma_info`; `count` is an `unsigned`. -/
structure struct_cma_info where
  lower_bound : Nat
  upper_bound : Nat
  total_size : Nat
  count : Nat
deriving DecidableEq, Repr

/-- The statements of the loop of `cma_info` under `if (reg)`. -/
def cma_info_add (w : Nat) (ret : struct_cma_info) (reg : cma_region) : struct_cma_info :=
  { total_size := uadd w ret.total_size reg.size,
    lower_bound := if reg.start < ret.lower_bound then reg.start else ret.lower_bound,
    upper_bound :=
      if ret.upper_bound < uadd w reg.start reg.size then uadd w reg.start reg.size
      else ret.upper_bound,
    count := (ret.count + 1) % 2 ^ 32 }

/-- The loop of `cma_info`.  Every pass moves `from` forward, so `fuel` above the length
of `from` is never used up. -/
def cma_info_loop (w : Nat) (regs : List cma_region) :
    Nat → List Char → struct_cma_info → struct_cma_info
  | 0, _, ret => ret
  | fuel + 1, from_, ret =>
    if from_ = [] then ret
    else
      let ret1 :=
        match __cma_region_find regs (from_.takeWhile (fun c => c ≠ ',')) with
        | none => ret
        | some idx =>
          match regs[idx]? with
          | none => ret
          | some reg => cma_info_add w ret reg
      match strchr from_ ',' with
      | none => ret1
      | some e => cma_info_loop w regs fuel e.tail ret1

/-- The function `cma_info`.  `info` is `none` for a NULL pointer and otherwise holds the
structure the pointer refers to; the result is the value returned and what `info` refers
to afterwards.  The initialiser `{ ~0, 0, 0, 0 }` sets `lower_bound` to `ULONG_MAX`. -/
def cma_info (w : Nat) (st : cma_state) (info : Option struct_cma_info)
    (dev : Option (List Char)) (kind : Option (List Char)) :
    outcome (Int × Option struct_cma_info) :=
  if info = none then .ret (-EINVAL, info) st
  else
    match __cma_where_from st.cma_map dev kind with
    | .error e => .ret (e, info) st
    | .ok from_ =>
      .ret (0, some (cma_info_loop w st.cma_regions (from_.length + 1) from_
        ⟨ULONG_MAX w, 0, 0, 0⟩)) st

/-- The regions that the names of a route stand for: every name that is the name of a
region of the table gives the first such region; a name that no region has gives
nothing. -/
def route_regions (regs : List cma_region) (names : List (List Char)) : List cma_region :=
  names.filterMap (fun n => (region_lookup regs n).bind (fun idx => regs[idx]?))

/-- The aggregate over the regions of a route in the words of the specification: the
number of the regions, the sum of their sizes, the least of their starts and the greatest
of their ends; without any region the bounds are `ULONG_MAX` and zero. -/
def info_of (w : Nat) (found : List cma_region) : struct_cma_info :=
  { count := found.length,
    total_size := (found.map (fun r => r.size)).sum,
    lower_bound := (found.map (fun r => r.start)).foldl min (ULONG_MAX w),
    upper_bound := (found.map (fun r => r.start + r.size)).foldl max 0 }

/-- The aggregate that starts from `ret` instead of from nothing. -/
def info_from (ret : struct_cma_info) (found : List cma_region) : struct_cma_info :=
  { count := ret.count + found.length,
    total_size := ret.total_size + (found.map (fun r => r.size)).sum,
    lower_bound := (found.map (fun r => r.start)).foldl min ret.lower_bound,
    upper_bound := (found.map (fun r => r.start + r.size)).foldl max ret.upper_bound }

/-! ## Reference description of the best-fit cases -/

/-- The least multiple of `a` that is not below `x`, in the natural numbers. -/
def round_up (x a : Nat) : Nat := (x + (a - 1)) / a * a

/-- The hole that ends exactly where the chunk starts, if there is one. -/
def hole_before (holes : List cma_bf_item) (c : cma_bf_item) : Option cma_bf_item :=
  holes.find? (fun h => decide (h.start + h.size = c.start))

/-- The hole that starts exactly where the chunk ends, if there is one. -/
def hole_behind (holes : List cma_bf_item) (c : cma_bf_item) : Option cma_bf_item :=
  holes.find? (fun h => decide (h.start = c.start + c.size))

/-- The holes after the chunk `c` is given back, in the words of the specification: the
range of `c` becomes a hole that is merged with the hole ending exactly at `c.start` and
with the hole starting exactly at `c.start + c.size`, where there are such holes; the
holes before and behind that do not touch the range of `c` stay as they are. -/
def coalesce (holes : List cma_bf_item) (c : cma_bf_item) : List cma_bf_item :=
  let lo := ((hole_before holes c).map (fun h => h.start)).getD c.start
  let hi := ((hole_behind holes c).map (fun h => h.start + h.size)).getD (c.start + c.size)
  holes.filter (fun h => decide (h.start + h.size < c.start)) ++
    ⟨lo, hi - lo⟩ :: holes.filter (fun h => decide (c.start + c.size < h.start))

/-- The number of holes that touch the range of the chunk: 0, 1 or 2. -/
def adjacent_holes (holes : List cma_bf_item) (c : cma_bf_item) : Nat :=
  (hole_before holes c).toList.length + (hole_behind holes c).toList.length

/-! ## The order of the by-start tree -/

/-- The by-start tree is strictly increasing in start. -/
def by_start_ordered (prv : cma_bf_private) : Prop :=
  prv.by_start_root.Pairwise (fun a b => a.start < b.start)

instance (prv : cma_bf_private) : Decidable (by_start_ordered prv) := by
  unfold by_start_ordered
  exact inferInstance

/-! # Theorems -/

/-! ## The order of the by-size tree -/

theorem hole_insert_ordered (field : cma_bf_item → Nat) (l : List cma_bf_item)
    (item : cma_bf_item) (h : l.Pairwise (fun a b => field a ≤ field b)) :
    (__CMA_BF_HOLE_INSERT field l item).Pairwise (fun a b => field a ≤ field b) := by
  induction l with
  | nil => simp [__CMA_BF_HOLE_INSERT]
  | cons i rest ih =>
    rw [List.pairwise_cons] at h
    unfold __CMA_BF_HOLE_INSERT
    split
    · rename_i hle
      refine List.Pairwise.cons ?_ (List.Pairwise.cons h.1 h.2)
      intro b hb
      rcases List.mem_cons.1 hb with rfl | hb
      · exact hle
      · exact le_trans hle (h.1 b hb)
    · rename_i hgt
      refine List.Pairwise.cons ?_ (ih h.2)
      intro b hb
      have hmem : ∀ (l : List cma_bf_item) (b : cma_bf_item),
          b ∈ __CMA_BF_HOLE_INSERT field l item → b = item ∨ b ∈ l := by
        intro l
        induction l with
        | nil => intro b hb; simpa [__CMA_BF_HOLE_INSERT] using hb
        | cons j r ihr =>
          intro b hb
          unfold __CMA_BF_HOLE_INSERT at hb
          split at hb
          · rcases List.mem_cons.1 hb with rfl | hb
            · exact Or.inl rfl
            · exact Or.inr hb
          · rcases List.mem_cons.1 hb with rfl | hb
            · exact Or.inr (List.mem_cons_self _ _)
            · rcases ihr b hb with h1 | h1
              · exact Or.inl h1
              · exact Or.inr (List.mem_cons_of_mem _ h1)
      rcases hmem rest b hb with rfl | hb
      · exact le_of_lt (not_le.1 hgt)
      · exact h.1 b hb

theorem erase_by_size_ordered (prv : cma_bf_private) (item : cma_bf_item)
    (h : by_size_ordered prv) : by_size_ordered (__cma_bf_hole_erase_by_size prv item) := by
  unfold by_size_ordered __cma_bf_hole_erase_by_size rb_erase
  exact List.Pairwise.sublist (List.erase_sublist _ _) h

theorem insert_by_size_ordered (prv : cma_bf_private) (item : cma_bf_item)
    (h : by_size_ordered prv) : by_size_ordered (__cma_bf_hole_insert_by_size prv item) := by
  unfold by_size_ordered __cma_bf_hole_insert_by_size
  exact hole_insert_ordered _ _ _ h

theorem hole_update_ordered (prv : cma_bf_private) (linked hole : cma_bf_item)
    (h : by_size_ordered prv) : by_size_ordered (hole_update prv linked hole) := by
  have := insert_by_size_ordered _ hole (erase_by_size_ordered prv linked h)
  simpa [by_size_ordered, hole_update] using this

theorem case_2_ordered (w : Nat) (prv prv1 : cma_bf_private) (linked hole item c : cma_bf_item)
    (size : Nat) (h : by_size_ordered prv)
    (hc : __cma_bf_hole_take_case_2 w prv linked hole item size = .chunk c prv1) :
    by_size_ordered prv1 := by
  simp only [__cma_bf_hole_take_case_2, bf_result.chunk.injEq] at hc
  rw [← hc.2]
  exact hole_update_ordered _ _ _ h

theorem hole_take_ordered (w : Nat) (prv prv1 : cma_bf_private) (hole c : cma_bf_item)
    (size alignment : Nat) (km_item km_next : Bool) (h : by_size_ordered prv)
    (hc : __cma_bf_hole_take w prv hole size alignment km_item km_next = .chunk c prv1) :
    by_size_ordered prv1 := by
  unfold __cma_bf_hole_take at hc
  split at hc
  · simp only [bf_result.chunk.injEq] at hc
    rw [← hc.2]
    exact erase_by_size_ordered prv hole h
  · split at hc
    · simp at hc
    · simp only at hc
      split at hc
      · split at hc
        · exact case_2_ordered _ _ _ _ _ _ _ _ h hc
        · split at hc
          · simp at hc
          · refine case_2_ordered _ _ _ _ _ _ _ _ ?_ hc
            exact insert_by_size_ordered _ _ h
      · exact case_2_ordered _ _ _ _ _ _ _ _ h hc

theorem hole_take_null (w : Nat) (prv prv1 : cma_bf_private) (hole : cma_bf_item)
    (size alignment : Nat) (km_item km_next : Bool)
    (hc : __cma_bf_hole_take w prv hole size alignment km_item km_next = .null prv1) :
    prv1 = prv := by
  unfold __cma_bf_hole_take at hc
  split at hc
  · simp at hc
  · split at hc
    · simpa using hc.symm
    · simp only at hc
      split at hc
      · split at hc
        · simp [__cma_bf_hole_take_case_2] at hc
        · split at hc
          · simpa using hc.symm
          · simp [__cma_bf_hole_take_case_2] at hc
      · simp [__cma_bf_hole_take_case_2] at hc

theorem cma_bf_alloc_null (w : Nat) (prv prv1 : cma_bf_private)
    (size alignment : Nat) (km_item km_next : Bool)
    (hc : cma_bf_alloc w prv size alignment km_item km_next = .null prv1) :
    prv1 = prv := by
  unfold cma_bf_alloc at hc
  split at hc
  · simpa using hc.symm
  · simp only at hc
    split at hc
    · exact hole_take_null _ _ _ _ _ _ _ _ hc
    · simp at hc

theorem cma_bf_alloc_chunk (w : Nat) (prv prv1 : cma_bf_private) (c : cma_bf_item)
    (size alignment : Nat) (km_item km_next : Bool)
    (hc : cma_bf_alloc w prv size alignment km_item km_next = .chunk c prv1) :
    ∃ hole, cma_bf_alloc_first size prv.by_size_root = some hole ∧
      __cma_bf_hole_take w prv hole size alignment km_item km_next = .chunk c prv1 := by
  unfold cma_bf_alloc at hc
  split at hc
  · simp at hc
  · rename_i item hitem
    simp only at hc
    split at hc
    · exact ⟨item, hitem, hc⟩
    · simp at hc

theorem merge_step_ordered (w : Nat) (prv : cma_bf_private) (prev item : cma_bf_item)
    (h : by_size_ordered prv) :
    by_size_ordered (__cma_bf_hole_merge_step w prv prev item).1 := by
  unfold __cma_bf_hole_merge_step
  split
  · refine hole_update_ordered _ _ _ ?_
    have := erase_by_size_ordered prv prev h
    simpa [by_size_ordered, __cma_bf_hole_erase_by_start] using this
  · exact h

theorem merge_maybe_ordered (w : Nat) (prv : cma_bf_private) (item : cma_bf_item)
    (h : by_size_ordered prv) : by_size_ordered (__cma_bf_hole_merge_maybe w prv item) := by
  unfold __cma_bf_hole_merge_maybe
  have h1 : by_size_ordered
      (match rb_prev prv.by_start_root item with
        | none => (prv, item)
        | some prev => __cma_bf_hole_merge_step w prv prev item).1 := by
    split
    · exact h
    · exact merge_step_ordered _ _ _ _ h
  simp only
  split
  · exact h1
  · exact merge_step_ordered _ _ _ _ h1

theorem cma_bf_free_ordered (w : Nat) (prv : cma_bf_private) (chunk : cma_bf_item)
    (h : by_size_ordered prv) : by_size_ordered (cma_bf_free w prv chunk) := by
  unfold cma_bf_free
  refine merge_maybe_ordered _ _ _ ?_
  have := insert_by_size_ordered prv chunk h
  simpa [by_size_ordered, __cma_bf_hole_insert_by_start] using this

theorem bf_reachable_ordered (w reg_start reg_size : Nat) (prv : cma_bf_private)
    (live : List cma_bf_item) (hr : bf_reachable w reg_start reg_size prv live) :
    by_size_ordered prv := by
  induction hr with
  | init kz_prv kz_item prv h =>
    unfold cma_bf_init at h
    split at h
    · simp at h
    · split at h
      · simp at h
      · simp only [Except.ok.injEq] at h
        rw [← h]
        simp [by_size_ordered]
  | carve prv prv1 live size alignment km_item km_next chunk _ _ _ h ih =>
    obtain ⟨hole, _, htake⟩ := cma_bf_alloc_chunk _ _ _ _ _ _ _ _ h
    exact hole_take_ordered _ _ _ _ _ _ _ _ _ ih htake
  | carve_null prv prv1 live size alignment km_item km_next _ _ _ h ih =>
    rw [cma_bf_alloc_null _ _ _ _ _ _ _ h]
    exact ih
  | free prv live chunk _ _ ih =>
    exact cma_bf_free_ordered _ _ _ ih

theorem alloc_first_least (size : Nat) (l : List cma_bf_item) (hole : cma_bf_item)
    (h : l.Pairwise (fun a b => a.size ≤ b.size))
    (hf : cma_bf_alloc_first size l = some hole) :
    hole ∈ l ∧ size ≤ hole.size ∧ ∀ other ∈ l, size ≤ other.size → hole.size ≤ other.size := by
  induction l with
  | nil => simp [cma_bf_alloc_first] at hf
  | cons i rest ih =>
    rw [List.pairwise_cons] at h
    unfold cma_bf_alloc_first at hf
    rw [List.find?_cons] at hf
    split at hf
    · rename_i hi
      simp only [Option.some.injEq] at hf
      subst hf
      refine ⟨List.mem_cons_self _ _, by simpa using hi, ?_⟩
      intro other ho _
      rcases List.mem_cons.1 ho with rfl | ho
      · exact le_refl _
      · exact h.1 other ho
    · rename_i hi
      obtain ⟨h1, h2, h3⟩ := ih h.2 hf
      refine ⟨List.mem_cons_of_mem _ h1, h2, ?_⟩
      intro other ho hso
      rcases List.mem_cons.1 ho with rfl | ho
      · simp at hi
        omega
      · exact h3 other ho hso


/-! ## The two trees hold the same records -/

theorem hole_insert_perm (field : cma_bf_item → Nat) (l : List cma_bf_item)
    (item : cma_bf_item) : (__CMA_BF_HOLE_INSERT field l item).Perm (item :: l) := by
  induction l with
  | nil => exact List.Perm.refl _
  | cons i rest ih =>
    unfold __CMA_BF_HOLE_INSERT
    split
    · exact List.Perm.refl _
    · exact List.Perm.trans (List.Perm.cons i ih) (List.Perm.swap item i rest)

theorem record_assign_perm (old new : cma_bf_item) (l : List cma_bf_item) (h : old ∈ l) :
    (record_assign old new l).Perm (new :: l.erase old) := by
  induction l with
  | nil => simp at h
  | cons i rest ih =>
    unfold record_assign
    by_cases hi : i = old
    · subst hi
      rw [if_pos rfl, List.erase_cons_head]
    · have hmem : old ∈ rest := by
        rcases List.mem_cons.1 h with h1 | h1
        · exact absurd h1.symm hi
        · exact h1
      rw [if_neg hi, List.erase_cons_tail (by simpa using hi)]
      exact List.Perm.trans (List.Perm.cons i (ih hmem)) (List.Perm.swap new i _)

theorem erase_both_same (prv : cma_bf_private) (item : cma_bf_item) (h : same_records prv) :
    same_records (__cma_bf_hole_erase_by_start (__cma_bf_hole_erase_by_size prv item) item) := by
  unfold same_records at h ⊢
  simp only [__cma_bf_hole_erase_by_start, __cma_bf_hole_erase_by_size, rb_erase]
  exact List.Perm.erase item h

theorem insert_both_same (prv : cma_bf_private) (item : cma_bf_item) (h : same_records prv) :
    same_records
      (__cma_bf_hole_insert_by_start (__cma_bf_hole_insert_by_size prv item) item) := by
  unfold same_records at h ⊢
  simp only [__cma_bf_hole_insert_by_start, __cma_bf_hole_insert_by_size]
  exact List.Perm.trans (hole_insert_perm _ _ _)
    (List.Perm.trans (List.Perm.cons item h) (hole_insert_perm _ _ _).symm)

theorem hole_update_same (prv : cma_bf_private) (linked hole : cma_bf_item)
    (h : same_records prv) (hmem : linked ∈ prv.by_start_root) :
    same_records (hole_update prv linked hole) := by
  unfold same_records at h ⊢
  simp only [hole_update, __cma_bf_hole_insert_by_size, __cma_bf_hole_erase_by_size, rb_erase]
  exact List.Perm.trans (record_assign_perm linked hole _ hmem)
    (List.Perm.trans (List.Perm.cons hole (List.Perm.erase linked h))
      (hole_insert_perm _ _ _).symm)

theorem mem_hole_insert (field : cma_bf_item → Nat) (l : List cma_bf_item)
    (item x : cma_bf_item) : x ∈ __CMA_BF_HOLE_INSERT field l item ↔ x = item ∨ x ∈ l := by
  rw [List.Perm.mem_iff (hole_insert_perm field l item)]
  exact List.mem_cons

theorem hole_take_same (w : Nat) (prv prv1 : cma_bf_private) (hole c : cma_bf_item)
    (size alignment : Nat) (km_item km_next : Bool) (h : same_records prv)
    (hmem : hole ∈ prv.by_start_root)
    (hc : __cma_bf_hole_take w prv hole size alignment km_item km_next = .chunk c prv1) :
    same_records prv1 := by
  unfold __cma_bf_hole_take at hc
  split at hc
  · simp only [bf_result.chunk.injEq] at hc
    rw [← hc.2]
    exact erase_both_same prv hole h
  · split at hc
    · simp at hc
    · simp only at hc
      split at hc
      · split at hc
        · simp only [__cma_bf_hole_take_case_2, bf_result.chunk.injEq] at hc
          rw [← hc.2]
          exact hole_update_same _ _ _ h hmem
        · split at hc
          · simp at hc
          · simp only [__cma_bf_hole_take_case_2, bf_result.chunk.injEq] at hc
            rw [← hc.2]
            refine hole_update_same _ _ _ (insert_both_same prv _ h) ?_
            simp only [__cma_bf_hole_insert_by_start, __cma_bf_hole_insert_by_size]
            exact (mem_hole_insert _ _ _ _).2 (Or.inr hmem)
      · simp only [__cma_bf_hole_take_case_2, bf_result.chunk.injEq] at hc
        rw [← hc.2]
        exact hole_update_same _ _ _ h hmem

theorem rb_prev_some (l : List cma_bf_item) (item p : cma_bf_item)
    (h : rb_prev l item = some p) : p ≠ item ∧ item ∈ l := by
  induction l with
  | nil => simp [rb_prev] at h
  | cons a rest ih =>
    cases rest with
    | nil => simp [rb_prev] at h
    | cons i rest =>
      unfold rb_prev at h
      split at h
      · simp at h
      · rename_i hne
        split at h
        · rename_i hi
          simp only [Option.some.injEq] at h
          subst h
          subst hi
          exact ⟨hne, List.mem_cons_of_mem _ (List.mem_cons_self _ _)⟩
        · obtain ⟨h1, h2⟩ := ih h
          exact ⟨h1, List.mem_cons_of_mem _ h2⟩

theorem rb_next_some (l : List cma_bf_item) (item nx : cma_bf_item)
    (h : rb_next l item = some nx) : nx ∈ l.erase item := by
  induction l with
  | nil => simp [rb_next] at h
  | cons i rest ih =>
    unfold rb_next at h
    split at h
    · rename_i hi
      subst hi
      rw [List.erase_cons_head]
      exact List.mem_of_mem_head? h
    · rename_i hi
      rw [List.erase_cons_tail (by simpa using hi)]
      exact List.mem_cons_of_mem _ (ih h)

theorem mem_record_assign_new (old new : cma_bf_item) (l : List cma_bf_item)
    (h : old ∈ l) : new ∈ record_assign old new l :=
  (List.Perm.mem_iff (record_assign_perm old new l h)).2 (List.mem_cons_self _ _)

theorem merge_step_same (w : Nat) (prv : cma_bf_private) (prev item : cma_bf_item)
    (h : same_records prv) (hmem : item ∈ prv.by_start_root.erase prev) :
    same_records (__cma_bf_hole_merge_step w prv prev item).1 ∧
      (__cma_bf_hole_merge_step w prv prev item).2 ∈
        (__cma_bf_hole_merge_step w prv prev item).1.by_start_root := by
  unfold __cma_bf_hole_merge_step
  split
  · refine ⟨hole_update_same _ _ _ (erase_both_same prv prev h) hmem, ?_⟩
    simp only [hole_update]
    exact mem_record_assign_new _ _ _ hmem
  · exact ⟨h, List.mem_of_mem_erase hmem⟩

theorem merge_maybe_same (w : Nat) (prv : cma_bf_private) (item : cma_bf_item)
    (h : same_records prv) (hmem : item ∈ prv.by_start_root) :
    same_records (__cma_bf_hole_merge_maybe w prv item) := by
  unfold __cma_bf_hole_merge_maybe
  have h1 : same_records
      (match rb_prev prv.by_start_root item with
        | none => (prv, item)
        | some prev => __cma_bf_hole_merge_step w prv prev item).1 ∧
      (match rb_prev prv.by_start_root item with
        | none => (prv, item)
        | some prev => __cma_bf_hole_merge_step w prv prev item).2 ∈
      (match rb_prev prv.by_start_root item with
        | none => (prv, item)
        | some prev => __cma_bf_hole_merge_step w prv prev item).1.by_start_root := by
    split
    · exact ⟨h, hmem⟩
    · rename_i prev hprev
      obtain ⟨hne, _⟩ := rb_prev_some _ _ _ hprev
      exact merge_step_same w prv prev item h
        ((List.mem_erase_of_ne (fun e => hne e.symm)).2 hmem)
  simp only
  split
  · exact h1.1
  · rename_i nx hnx
    exact (merge_step_same w _ _ nx h1.1 (rb_next_some _ _ _ hnx)).1

theorem cma_bf_free_same (w : Nat) (prv : cma_bf_private) (chunk : cma_bf_item)
    (h : same_records prv) : same_records (cma_bf_free w prv chunk) := by
  unfold cma_bf_free
  refine merge_maybe_same w _ chunk (insert_both_same prv chunk h) ?_
  simp only [__cma_bf_hole_insert_by_start, __cma_bf_hole_insert_by_size]
  exact (mem_hole_insert _ _ _ _).2 (Or.inl rfl)

theorem alloc_first_mem (size : Nat) (l : List cma_bf_item) (hole : cma_bf_item)
    (h : cma_bf_alloc_first size l = some hole) : hole ∈ l :=
  List.mem_of_find?_eq_some h

theorem bf_reachable_same (w reg_start reg_size : Nat) (prv : cma_bf_private)
    (live : List cma_bf_item) (hr : bf_reachable w reg_start reg_size prv live) :
    same_records prv := by
  induction hr with
  | init kz_prv kz_item prv h =>
    unfold cma_bf_init at h
    split at h
    · simp at h
    · split at h
      · simp at h
      · simp only [Except.ok.injEq] at h
        rw [← h]
        exact List.Perm.refl _
  | carve prv prv1 live size alignment km_item km_next chunk _ _ _ h ih =>
    obtain ⟨hole, hfirst, htake⟩ := cma_bf_alloc_chunk _ _ _ _ _ _ _ _ h
    have hmem : hole ∈ prv.by_start_root :=
      (List.Perm.mem_iff ih).2 (alloc_first_mem _ _ _ hfirst)
    exact hole_take_same _ _ _ _ _ _ _ _ _ ih hmem htake
  | carve_null prv prv1 live size alignment km_item km_next _ _ _ h ih =>
    rw [cma_bf_alloc_null _ _ _ _ _ _ _ h]
    exact ih
  | free prv live chunk _ _ ih =>
    exact cma_bf_free_same _ _ _ ih

/-! ## Best fit -/

/-- C9. Best-fit minimality: in every state that a best-fit region reaches, a chunk that
`cma_bf_alloc` returns is taken (by `__cma_bf_hole_take`) from a hole of the region that
is large enough and whose size is no larger than the size of any hole of the region, in
either tree, that satisfies the size and the alignment requirement. -/
theorem cma_bf_alloc_best_fit (w reg_start reg_size : Nat) (prv prv1 : cma_bf_private)
    (live : List cma_bf_item) (size alignment : Nat) (km_item km_next : Bool)
    (chunk : cma_bf_item)
    (hr : bf_reachable w reg_start reg_size prv live)
    (h : cma_bf_alloc w prv size alignment km_item km_next = .chunk chunk prv1) :
    ∃ hole, hole ∈ prv.by_start_root ∧ hole ∈ prv.by_size_root ∧ size ≤ hole.size ∧
      __cma_bf_hole_take w prv hole size alignment km_item km_next = .chunk chunk prv1 ∧
      ∀ other, other ∈ prv.by_start_root ∨ other ∈ prv.by_size_root →
        bf_hole_fits w other size alignment → hole.size ≤ other.size := by
  obtain ⟨hole, hfirst, htake⟩ := cma_bf_alloc_chunk _ _ _ _ _ _ _ _ h
  obtain ⟨h1, h2, h3⟩ := alloc_first_least size _ hole
    (bf_reachable_ordered _ _ _ _ _ hr) hfirst
  have hsame := bf_reachable_same _ _ _ _ _ hr
  refine ⟨hole, (List.Perm.mem_iff hsame).2 h1, h1, h2, htake, ?_⟩
  intro other ho hfit
  have hmem : other ∈ prv.by_size_root := by
    rcases ho with ho | ho
    · exact (List.Perm.mem_iff hsame).1 ho
    · exact ho
  exact h3 other hmem hfit.1

theorem cma_bf_alloc_best_fit_witness :
    ∃ hole, hole ∈ [(⟨0x1000, 0x2000⟩ : cma_bf_item), ⟨0x4000, 0x3000⟩] ∧
      hole ∈ [(⟨0x1000, 0x2000⟩ : cma_bf_item), ⟨0x4000, 0x3000⟩] ∧ 0x1000 ≤ hole.size ∧
      __cma_bf_hole_take 32
        ⟨[⟨0x1000, 0x2000⟩, ⟨0x4000, 0x3000⟩], [⟨0x1000, 0x2000⟩, ⟨0x4000, 0x3000⟩]⟩
        hole 0x1000 0x1000 true true =
        .chunk ⟨0x1000, 0x1000⟩
          ⟨[⟨0x2000, 0x1000⟩, ⟨0x4000, 0x3000⟩], [⟨0x2000, 0x1000⟩, ⟨0x4000, 0x3000⟩]⟩ ∧
      ∀ other, other ∈ [(⟨0x1000, 0x2000⟩ : cma_bf_item), ⟨0x4000, 0x3000⟩] ∨
          other ∈ [(⟨0x1000, 0x2000⟩ : cma_bf_item), ⟨0x4000, 0x3000⟩] →
        bf_hole_fits 32 other 0x1000 0x1000 → hole.size ≤ other.size :=
  cma_bf_alloc_best_fit 32 0x1000 0x6000
    ⟨[⟨0x1000, 0x2000⟩, ⟨0x4000, 0x3000⟩], [⟨0x1000, 0x2000⟩, ⟨0x4000, 0x3000⟩]⟩
    ⟨[⟨0x2000, 0x1000⟩, ⟨0x4000, 0x3000⟩], [⟨0x2000, 0x1000⟩, ⟨0x4000, 0x3000⟩]⟩
    [⟨0x3000, 0x1000⟩] 0x1000 0x1000 true true ⟨0x1000, 0x1000⟩
    (bf_reachable.free ⟨[⟨0x4000, 0x3000⟩], [⟨0x4000, 0x3000⟩]⟩
      [⟨0x3000, 0x1000⟩, ⟨0x1000, 0x2000⟩] ⟨0x1000, 0x2000⟩
      (bf_reachable.carve ⟨[⟨0x3000, 0x4000⟩], [⟨0x3000, 0x4000⟩]⟩ _ [⟨0x1000, 0x2000⟩]
        0x1000 0x1000 true true _
        (bf_reachable.carve ⟨[⟨0x1000, 0x6000⟩], [⟨0x1000, 0x6000⟩]⟩ _ [] 0x2000 0x1000
          true true _ (bf_reachable.init true true _ rfl) (by decide)
          ⟨12, by decide, by decide⟩ (by decide))
        (by decide) ⟨12, by decide, by decide⟩ (by decide))
      (by decide))
    (by decide)

/-! ## The alignment computation wraps around

`cma_bf_alloc` and `__cma_bf_hole_take` compute `ALIGN(hole->ch.start, alignment)` on
`unsigned long` and never compare the result with the start of the hole.  The theorems
below run the code where the sum wraps.  `unsigned long` has 32 bits. -/

/-- C2, the code at a failing input.  A region of one page at 0x80001000 is a single hole.
`cma_bf_alloc(reg, 0x1000, 0x80000000)`: `ALIGN` wraps to 0, the test
`start < end && end - start >= size` passes, the exact-fit case of `__cma_bf_hole_take`
hands out the hole itself, and its start is no multiple of the alignment. -/
theorem cma_bf_alloc_exact_fit_misaligned :
    bf_reachable 32 0x80001000 0x1000
      ⟨[⟨0x80001000, 0x1000⟩], [⟨0x80001000, 0x1000⟩]⟩ [] ∧
    is_power_of_two 32 0x80000000 ∧
    ALIGN 32 0x80001000 0x80000000 = 0 ∧
    cma_bf_alloc 32 ⟨[⟨0x80001000, 0x1000⟩], [⟨0x80001000, 0x1000⟩]⟩ 0x1000 0x80000000
      true true = .chunk ⟨0x80001000, 0x1000⟩ ⟨[], []⟩ ∧
    0x80001000 % 0x80000000 ≠ 0 :=
  ⟨bf_reachable.init true true _ rfl, ⟨31, by decide, by decide⟩, by decide, by decide,
    by decide⟩

/-- C3, the code at a failing input.  A region of two pages at 0x80001000;
`cma_bf_alloc(reg, 0x1000, 0x80000000)` returns the chunk [0, 0x1000) and leaves the holes
[0x1000, 0x80003000) and [0x80001000, 0xfffff000): the holes overlap, and the addresses
of the region lie in two holes. -/
theorem cma_bf_alloc_breaks_partition :
    bf_reachable 32 0x80001000 0x2000
      ⟨[⟨0x1000, 0x80002000⟩, ⟨0x80001000, 0x7FFFF000⟩],
       [⟨0x80001000, 0x7FFFF000⟩, ⟨0x1000, 0x80002000⟩]⟩ [⟨0, 0x1000⟩] ∧
    ¬ bf_partition 0x80001000 0x2000
      ⟨[⟨0x1000, 0x80002000⟩, ⟨0x80001000, 0x7FFFF000⟩],
       [⟨0x80001000, 0x7FFFF000⟩, ⟨0x1000, 0x80002000⟩]⟩ [⟨0, 0x1000⟩] :=
  ⟨bf_reachable.carve ⟨[⟨0x80001000, 0x2000⟩], [⟨0x80001000, 0x2000⟩]⟩ _ [] 0x1000
      0x80000000 true true _ (bf_reachable.init true true _ rfl) (by decide)
      ⟨31, by decide, by decide⟩ (by decide),
    fun h => absurd h.1 (by decide)⟩

/-- C6, the code at a failing input.  The region of two pages at 0x80001000 again: the
chunk [0, 0x1000) that `cma_bf_alloc(reg, 0x1000, 0x80000000)` returned is given back
with `cma_bf_free`.  No chunk is live, the trees hold two holes, and neither is the
region; the condition of the `WARN_ON` in `cma_bf_cleanup` is true. -/
theorem cma_bf_free_leaves_two_holes :
    bf_reachable 32 0x80001000 0x2000
      ⟨[⟨0, 0x80003000⟩, ⟨0x80001000, 0x7FFFF000⟩],
       [⟨0x80001000, 0x7FFFF000⟩, ⟨0, 0x80003000⟩]⟩ [] ∧
    cma_bf_cleanup_WARN_ON
      ⟨[⟨0, 0x80003000⟩, ⟨0x80001000, 0x7FFFF000⟩],
       [⟨0x80001000, 0x7FFFF000⟩, ⟨0, 0x80003000⟩]⟩ = true :=
  ⟨bf_reachable.free
      ⟨[⟨0x1000, 0x80002000⟩, ⟨0x80001000, 0x7FFFF000⟩],
       [⟨0x80001000, 0x7FFFF000⟩, ⟨0x1000, 0x80002000⟩]⟩ [⟨0, 0x1000⟩] ⟨0, 0x1000⟩
      (bf_reachable.carve ⟨[⟨0x80001000, 0x2000⟩], [⟨0x80001000, 0x2000⟩]⟩ _ [] 0x1000
        0x80000000 true true _ (bf_reachable.init true true _ rfl) (by decide)
        ⟨31, by decide, by decide⟩ (by decide))
      (by decide),
    by decide⟩

/-- C7, the code at failing inputs.  The extent of the region does not wrap, yet the
returned chunk starts below the region: for two pages at 0x80001000 and the alignment
0x80000000, and for two pages at 0xffffd000 and the alignment 0x4000, the chunk is
[0, 0x1000). -/
theorem cma_bf_alloc_outside_region :
    (0x80001000 + 0x2000 < 2 ^ 32 ∧ is_power_of_two 32 0x80000000 ∧
      cma_bf_alloc 32 ⟨[⟨0x80001000, 0x2000⟩], [⟨0x80001000, 0x2000⟩]⟩ 0x1000 0x80000000
        true true =
      .chunk ⟨0, 0x1000⟩
        ⟨[⟨0x1000, 0x80002000⟩, ⟨0x80001000, 0x7FFFF000⟩],
         [⟨0x80001000, 0x7FFFF000⟩, ⟨0x1000, 0x80002000⟩]⟩) ∧
    (0xFFFFD000 + 0x2000 < 2 ^ 32 ∧ is_power_of_two 32 0x4000 ∧
      cma_bf_alloc 32 ⟨[⟨0xFFFFD000, 0x2000⟩], [⟨0xFFFFD000, 0x2000⟩]⟩ 0x1000 0x4000
        true true =
      .chunk ⟨0, 0x1000⟩
        ⟨[⟨0x1000, 0xFFFFE000⟩, ⟨0xFFFFD000, 0x3000⟩],
         [⟨0xFFFFD000, 0x3000⟩, ⟨0x1000, 0xFFFFE000⟩]⟩) :=
  ⟨⟨by decide, ⟨31, by decide, by decide⟩, by decide⟩,
    ⟨by decide, ⟨14, by decide, by decide⟩, by decide⟩⟩

/-! ## The second loop of `cma_bf_alloc` -/

/-- C8, the code at a failing input.  A region of six pages at 0x1000: two chunks are
carved, [0x1000, 0x3000) and [0x3000, 0x4000), and the first is given back, which leaves
the holes [0x1000, 0x3000) and [0x4000, 0x7000).  For the request (0x2000, 0x2000) the
second hole satisfies the size and the alignment requirement, but the first candidate,
the smaller hole, does not; the code then calls `rb_next` on a NULL pointer and returns
no chunk. -/
theorem cma_bf_alloc_stops_at_first_candidate :
    bf_reachable 32 0x1000 0x6000
      ⟨[⟨0x1000, 0x2000⟩, ⟨0x4000, 0x3000⟩], [⟨0x1000, 0x2000⟩, ⟨0x4000, 0x3000⟩]⟩
      [⟨0x3000, 0x1000⟩] ∧
    bf_hole_fits 32 ⟨0x4000, 0x3000⟩ 0x2000 0x2000 ∧
    ¬ bf_hole_fits 32 ⟨0x1000, 0x2000⟩ 0x2000 0x2000 ∧
    cma_bf_alloc 32
      ⟨[⟨0x1000, 0x2000⟩, ⟨0x4000, 0x3000⟩], [⟨0x1000, 0x2000⟩, ⟨0x4000, 0x3000⟩]⟩
      0x2000 0x2000 true true = .oops :=
  ⟨bf_reachable.free ⟨[⟨0x4000, 0x3000⟩], [⟨0x4000, 0x3000⟩]⟩
      [⟨0x3000, 0x1000⟩, ⟨0x1000, 0x2000⟩] ⟨0x1000, 0x2000⟩
      (bf_reachable.carve ⟨[⟨0x3000, 0x4000⟩], [⟨0x3000, 0x4000⟩]⟩ _ [⟨0x1000, 0x2000⟩]
        0x1000 0x1000 true true _
        (bf_reachable.carve ⟨[⟨0x1000, 0x6000⟩], [⟨0x1000, 0x6000⟩]⟩ _ [] 0x2000 0x1000
          true true _ (bf_reachable.init true true _ rfl) (by decide)
          ⟨12, by decide, by decide⟩ (by decide))
        (by decide) ⟨12, by decide, by decide⟩ (by decide))
      (by decide),
    by decide, by decide, by decide⟩

/-! ## The route resolver -/

theorem split_patterns_decompose (s : List Char) :
    ∃ p rest, s = p ++ rest ∧ ',' ∉ p ∧
      ((rest = [] ∧ split_patterns s = [p]) ∨
        ∃ r, rest = ',' :: r ∧ split_patterns s = p :: split_patterns r) := by
  induction s with
  | nil => exact ⟨[], [], rfl, by simp, Or.inl ⟨rfl, rfl⟩⟩
  | cons c s ih =>
    by_cases hc : c = ','
    · subst hc
      exact ⟨[], ',' :: s, rfl, by simp, Or.inr ⟨s, rfl, by simp [split_patterns]⟩⟩
    · obtain ⟨p, rest, hs, hp, hcase⟩ := ih
      refine ⟨c :: p, rest, by simp [hs], ?_, ?_⟩
      · simp only [List.mem_cons, not_or]
        exact ⟨fun h => hc h.symm, hp⟩
      · rcases hcase with ⟨hr, hsp⟩ | ⟨r, hr, hsp⟩
        · left
          refine ⟨hr, ?_⟩
          simp [split_patterns, hc, hsp]
        · right
          refine ⟨r, hr, ?_⟩
          simp [split_patterns, hc, hsp]

theorem strchr_comma_free (p rest : List Char) (hp : ',' ∉ p) :
    strchr (p ++ rest) ',' = strchr rest ',' := by
  induction p with
  | nil => rfl
  | cons x p ih =>
    simp only [List.mem_cons, not_or] at hp
    have hx : x ≠ ',' := fun h => hp.1 h.symm
    simp [strchr, hx, ih hp.2]

theorem strchr_nil_of_comma_free (p : List Char) (hp : ',' ∉ p) : strchr p ',' = none := by
  have := strchr_comma_free p [] hp
  simpa [strchr] using this

theorem again_maybe_append (again : List Char → Bool → Bool × Bool) (s1 rest : List Char)
    (nm : Bool) (hs : ',' ∉ s1) (hrest : rest = [] ∨ ∃ r, rest = ',' :: r) :
    __cma_where_from_again_maybe again (s1 ++ rest) nm =
      route_continue again rest
        (__cma_where_from_again_maybe (fun _ nm1 => (false, nm1)) s1 nm) := by
  unfold __cma_where_from_again_maybe
  rw [strchr_comma_free _ _ hs, strchr_nil_of_comma_free _ hs]
  rcases hrest with rfl | ⟨r, rfl⟩
  · simp [strchr, route_continue]
  · simp [strchr, route_continue]

theorem end_append (again : List Char → Bool → Bool × Bool) (s1 rest : List Char)
    (nm : Bool) (hs : ',' ∉ s1) (hrest : rest = [] ∨ ∃ r, rest = ',' :: r) :
    __cma_where_from_end again (s1 ++ rest) nm =
      route_continue again rest
        (__cma_where_from_end (fun _ nm1 => (false, nm1)) s1 nm) := by
  unfold __cma_where_from_end
  cases s1 with
  | nil =>
    rcases hrest with rfl | ⟨r, rfl⟩
    · simp [route_continue]
    · simp [route_continue]
  | cons x s =>
    have hx : x ≠ ',' := by
      intro h
      apply hs
      simp [h]
    have h1 : ¬ ((x :: s) ++ rest = [] ∨ ((x :: s) ++ rest).head? = some ',') := by
      simp [hx]
    have h2 : ¬ ((x :: s) = [] ∨ (x :: s).head? = some ',') := by
      simp [hx]
    rw [if_neg h1, if_neg h2]
    exact again_maybe_append again (x :: s) rest nm hs hrest

theorem TRY_MATCH_append (rest : List Char) (hrest : rest = [] ∨ ∃ r, rest = ',' :: r) :
    ∀ (p what : List Char), ',' ∉ p →
      (∀ s1, TRY_MATCH p what = .through s1 →
        ',' ∉ s1 ∧ TRY_MATCH (p ++ rest) what = .through (s1 ++ rest)) ∧
      (∀ s1, TRY_MATCH p what ≠ .again s1) ∧
      (∀ s1, TRY_MATCH p what = .again_maybe s1 →
        ',' ∉ s1 ∧
        ((s1 = [] ∧ rest ≠ [] ∧ TRY_MATCH (p ++ rest) what = .again rest) ∨
          ((s1 ≠ [] ∨ rest = []) ∧
            TRY_MATCH (p ++ rest) what = .again_maybe (s1 ++ rest)))) := by
  intro p
  induction p with
  | nil =>
    intro what _
    cases what with
    | nil =>
      refine ⟨?_, ?_, ?_⟩
      · intro s1 h
        simp only [TRY_MATCH, try_match_exit.through.injEq] at h
        subst h
        refine ⟨by simp, ?_⟩
        rcases hrest with rfl | ⟨r, rfl⟩
        · simp [TRY_MATCH]
        · simp [TRY_MATCH]
      · intro s1 h
        simp [TRY_MATCH] at h
      · intro s1 h
        simp [TRY_MATCH] at h
    | cons c what =>
      refine ⟨?_, ?_, ?_⟩
      · intro s1 h
        simp [TRY_MATCH] at h
      · intro s1 h
        simp [TRY_MATCH] at h
      · intro s1 h
        simp only [TRY_MATCH, try_match_exit.again_maybe.injEq] at h
        subst h
        refine ⟨by simp, ?_⟩
        rcases hrest with rfl | ⟨r, rfl⟩
        · right
          simp [TRY_MATCH]
        · left
          simp [TRY_MATCH]
  | cons x s ih =>
    intro what hp
    simp only [List.mem_cons, not_or] at hp
    have hx : x ≠ ',' := fun h => hp.1 h.symm
    cases what with
    | nil =>
      by_cases hstar : x = '*'
      · subst hstar
        refine ⟨?_, ?_, ?_⟩
        · intro s1 h
          simp only [TRY_MATCH, if_true, try_match_exit.through.injEq] at h
          subst h
          exact ⟨hp.2, by simp [TRY_MATCH]⟩
        · intro s1 h
          simp [TRY_MATCH] at h
        · intro s1 h
          simp [TRY_MATCH] at h
      · refine ⟨?_, ?_, ?_⟩
        · intro s1 h
          simp only [TRY_MATCH, if_neg hstar, try_match_exit.through.injEq] at h
          subst h
          refine ⟨by simp [hp.2, Ne.symm hx], ?_⟩
          simp [TRY_MATCH, hstar]
        · intro s1 h
          simp [TRY_MATCH, hstar] at h
        · intro s1 h
          simp [TRY_MATCH, hstar] at h
    | cons c what =>
      by_cases hstar : x = '*'
      · subst hstar
        refine ⟨?_, ?_, ?_⟩
        · intro s1 h
          simp only [TRY_MATCH, if_true, try_match_exit.through.injEq] at h
          subst h
          exact ⟨hp.2, by simp [TRY_MATCH]⟩
        · intro s1 h
          simp [TRY_MATCH] at h
        · intro s1 h
          simp [TRY_MATCH] at h
      · by_cases hmis : x ≠ '?' ∧ c ≠ x
        · refine ⟨?_, ?_, ?_⟩
          · intro s1 h
            simp [TRY_MATCH, hstar, hx, hmis] at h
          · intro s1 h
            simp [TRY_MATCH, hstar, hx, hmis] at h
          · intro s1 h
            simp only [TRY_MATCH, if_neg hstar, if_neg hx, if_pos hmis,
              try_match_exit.again_maybe.injEq] at h
            subst h
            refine ⟨by simp [hp.2, Ne.symm hx], Or.inr ⟨Or.inl (by simp), ?_⟩⟩
            simp [TRY_MATCH, hstar, hx, hmis]
        · have e1 : TRY_MATCH (x :: s) (c :: what) = TRY_MATCH s what := by
            simp only [TRY_MATCH, if_neg hstar, if_neg hx, if_neg hmis]
          have e2 : TRY_MATCH (x :: s ++ rest) (c :: what) = TRY_MATCH (s ++ rest) what := by
            simp only [List.cons_append, TRY_MATCH, if_neg hstar, if_neg hx, if_neg hmis]
            rfl
          rw [e1, e2]
          exact ih what hp.2

theorem head_append_slash (p rest : List Char) (hrest : rest = [] ∨ ∃ r, rest = ',' :: r) :
    (p ++ rest).head? = some '/' ↔ p.head? = some '/' := by
  cases p with
  | nil =>
    rcases hrest with rfl | ⟨r, rfl⟩
    · simp
    · simp
  | cons x s => simp

theorem again_maybe_lift (again : List Char → Bool → Bool × Bool)
    (p what s2 rest : List Char) (nm : Bool) (hp : ',' ∉ p)
    (hrest : rest = [] ∨ ∃ r, rest = ',' :: r)
    (h : TRY_MATCH p what = .again_maybe s2)
    (F : try_match_exit → Bool × Bool)
    (hF1 : ∀ s, F (.again s) = again s nm)
    (hF2 : ∀ s, F (.again_maybe s) = __cma_where_from_again_maybe again s nm) :
    F (TRY_MATCH (p ++ rest) what) =
      route_continue again rest
        (__cma_where_from_again_maybe (fun _ nm1 => (false, nm1)) s2 nm) := by
  obtain ⟨hc, hcase⟩ := (TRY_MATCH_append rest hrest p what hp).2.2 s2 h
  rcases hcase with ⟨hs2, hr, hf⟩ | ⟨_, hf⟩
  · rw [hf, hF1]
    subst hs2
    cases rest with
    | nil => exact absurd rfl hr
    | cons y r => simp [__cma_where_from_again_maybe, strchr, route_continue]
  · rw [hf, hF2]
    exact again_maybe_append again s2 rest nm hc hrest

theorem kind_append (kind : List Char) (again : List Char → Bool → Bool × Bool)
    (s1 rest : List Char) (nm : Bool) (hs : ',' ∉ s1) (hne : s1 ≠ [])
    (hrest : rest = [] ∨ ∃ r, rest = ',' :: r) :
    __cma_where_from_kind kind again (s1 ++ rest) nm =
      route_continue again rest
        (__cma_where_from_kind kind (fun _ nm1 => (false, nm1)) s1 nm) := by
  have htail : ',' ∉ s1.tail := fun h => hs (List.mem_of_mem_tail h)
  have ht : (s1 ++ rest).tail = s1.tail ++ rest := by
    cases s1 with
    | nil => exact absurd rfl hne
    | cons x s => rfl
  obtain ⟨h1, h2, _⟩ := TRY_MATCH_append rest hrest s1.tail kind htail
  unfold __cma_where_from_kind
  rw [ht]
  cases h : TRY_MATCH s1.tail kind with
  | through s2 =>
    obtain ⟨hc, hf⟩ := h1 s2 h
    rw [hf]
    exact end_append again s2 rest nm hc hrest
  | again s2 => exact absurd h (h2 s2)
  | again_maybe s2 =>
    exact again_maybe_lift again s1.tail kind s2 rest nm htail hrest h
      (fun r => match r with
        | .again s1 => again s1 nm
        | .again_maybe s1 => __cma_where_from_again_maybe again s1 nm
        | .through s1 => __cma_where_from_end again s1 nm)
      (fun _ => rfl) (fun _ => rfl)

theorem body_append (name kind : List Char) (again : List Char → Bool → Bool × Bool)
    (p rest : List Char) (nm : Bool) (hp : ',' ∉ p)
    (hrest : rest = [] ∨ ∃ r, rest = ',' :: r) :
    __cma_where_from_body name kind again (p ++ rest) nm =
      route_continue again rest (pattern_match name kind p nm) := by
  unfold pattern_match __cma_where_from_body
  by_cases hslash : p.head? = some '/'
  · have hne : p ≠ [] := by
      intro h
      simp [h] at hslash
    rw [if_pos ((head_append_slash p rest hrest).2 hslash), if_pos hslash]
    cases nm with
    | false => exact again_maybe_append again p rest false hp hrest
    | true => exact kind_append kind again p rest true hp hne hrest
  · rw [if_neg (fun h => hslash ((head_append_slash p rest hrest).1 h)), if_neg hslash]
    obtain ⟨h1, h2, _⟩ := TRY_MATCH_append rest hrest p name hp
    cases h : TRY_MATCH p name with
    | through s1 =>
      obtain ⟨hc, hf⟩ := h1 s1 h
      rw [hf]
      simp only
      by_cases hs1 : s1.head? = some '/'
      · have hne : s1 ≠ [] := by
          intro h
          simp [h] at hs1
        have hfull : (s1 ++ rest).head? = some '/' := (head_append_slash s1 rest hrest).2 hs1
        rw [if_neg (not_not.2 hfull), if_neg (not_not.2 hs1)]
        exact kind_append kind again s1 rest true hc hne hrest
      · have hfull : (s1 ++ rest).head? ≠ some '/' :=
          fun h => hs1 ((head_append_slash s1 rest hrest).1 h)
        rw [if_pos hfull, if_pos hs1]
        by_cases hk : kind ≠ []
        · rw [if_pos hk, if_pos hk]
          exact again_maybe_append again s1 rest true hc hrest
        · rw [if_neg hk, if_neg hk]
          exact end_append again s1 rest true hc hrest
    | again s1 => exact absurd h (h2 s1)
    | again_maybe s1 =>
      exact again_maybe_lift again p name s1 rest false hp hrest h
        (fun r => match r with
          | .again s1 => again s1 false
          | .again_maybe s1 => __cma_where_from_again_maybe again s1 false
          | .through s1 =>
            if s1.head? ≠ some '/' then
              if kind ≠ [] then __cma_where_from_again_maybe again s1 true
              else __cma_where_from_end again s1 true
            else __cma_where_from_kind kind again s1 true)
        (fun _ => rfl) (fun _ => rfl)

theorem where_from_spec_eq (name kind : List Char) :
    ∀ (fuel : Nat) (s : List Char) (nm : Bool), s.length < fuel →
      __cma_where_from_spec name kind fuel s nm =
        rule_match name kind (split_patterns s) nm := by
  intro fuel
  induction fuel with
  | zero => intro s nm h; exact absurd h (Nat.not_lt_zero _)
  | succ fuel ih =>
    intro s nm hlen
    obtain ⟨p, rest, hs, hp, hcase⟩ := split_patterns_decompose s
    rw [__cma_where_from_spec]
    rcases hcase with ⟨hr, hsp⟩ | ⟨r, hr, hsp⟩
    · rw [hsp, hs, body_append name kind _ p rest nm hp (Or.inl hr), hr]
      simp only [rule_match, route_continue]
    · rw [hsp, hs, body_append name kind _ p rest nm hp (Or.inr ⟨r, hr⟩), hr]
      have hrlen : r.length < fuel := by
        rw [hs, hr] at hlen
        simp at hlen
        omega
      simp only [rule_match, route_continue]
      rcases pattern_match name kind p nm with ⟨m, nm1⟩
      cases m
      · simp only [List.tail_cons]
        exact ih r nm1 hrlen
      · rfl

theorem where_from_loop_cons (name kind : List Char) (spec : cma_map_entry)
    (rest : List cma_map_entry) (nm0 : Bool) :
    __cma_where_from_loop name kind (spec :: rest) nm0 =
      if (rule_match name kind (split_patterns spec.patterns) nm0).1 = true then
        .ok spec.regions
      else
        __cma_where_from_loop name kind rest
          (rule_match name kind (split_patterns spec.patterns) nm0).2 := by
  rw [__cma_where_from_loop,
    where_from_spec_eq name kind _ spec.patterns nm0 (Nat.lt_succ_self _)]
  rcases rule_match name kind (split_patterns spec.patterns) nm0 with ⟨m, nm1⟩
  cases m <;> simp

theorem rule_has_match_zero (name kind : List Char) (nm0 : Bool) (spec : cma_map_entry)
    (rest : List cma_map_entry) :
    rule_has_match name kind nm0 (spec :: rest) 0 ↔
      (rule_match name kind (split_patterns spec.patterns) nm0).1 = true := by
  unfold rule_has_match
  simp [name_matched_after]

theorem rule_has_match_succ (name kind : List Char) (nm0 : Bool) (spec : cma_map_entry)
    (rest : List cma_map_entry) (i : Nat) :
    rule_has_match name kind nm0 (spec :: rest) (i + 1) ↔
      rule_has_match name kind
        (rule_match name kind (split_patterns spec.patterns) nm0).2 rest i := by
  unfold rule_has_match
  simp [name_matched_after]

theorem where_from_loop_found (name kind : List Char) :
    ∀ (cma_map : List cma_map_entry) (nm0 : Bool) (i : Nat) (spec : cma_map_entry),
      cma_map[i]? = some spec → rule_has_match name kind nm0 cma_map i →
      (∀ j, j < i → ¬ rule_has_match name kind nm0 cma_map j) →
      ∀ later, __cma_where_from_loop name kind (cma_map.take (i + 1) ++ later) nm0 =
        .ok spec.regions := by
  intro cma_map
  induction cma_map with
  | nil => intro nm0 i spec h; simp at h
  | cons sp rest ih =>
    intro nm0 i spec hget hmatch hleast later
    cases i with
    | zero =>
      simp only [List.getElem?_cons_zero, Option.some.injEq] at hget
      subst hget
      rw [rule_has_match_zero] at hmatch
      simp only [Nat.zero_add, List.take_succ_cons, List.take_zero, List.cons_append,
        List.nil_append]
      rw [where_from_loop_cons, if_pos hmatch]
    | succ i =>
      have h0 : ¬ (rule_match name kind (split_patterns sp.patterns) nm0).1 = true := by
        rw [← rule_has_match_zero name kind nm0 sp rest]
        exact hleast 0 (Nat.succ_pos i)
      rw [rule_has_match_succ] at hmatch
      simp only [List.getElem?_cons_succ] at hget
      simp only [List.take_succ_cons, List.cons_append]
      rw [where_from_loop_cons, if_neg h0]
      refine ih _ i spec hget hmatch ?_ later
      intro j hj
      rw [← rule_has_match_succ name kind nm0 sp rest j]
      exact hleast (j + 1) (Nat.succ_lt_succ hj)

theorem where_from_loop_none (name kind : List Char) :
    ∀ (cma_map : List cma_map_entry) (nm0 : Bool),
      __cma_where_from_loop name kind cma_map nm0 = .error (-ENOENT) ↔
        ∀ i, ¬ rule_has_match name kind nm0 cma_map i := by
  intro cma_map
  induction cma_map with
  | nil =>
    intro nm0
    simp [__cma_where_from_loop, rule_has_match]
  | cons sp rest ih =>
    intro nm0
    rw [where_from_loop_cons]
    by_cases hm : (rule_match name kind (split_patterns sp.patterns) nm0).1 = true
    · rw [if_pos hm]
      constructor
      · intro h; simp at h
      · intro h
        exact absurd ((rule_has_match_zero name kind nm0 sp rest).2 hm) (h 0)
    · rw [if_neg hm, ih]
      constructor
      · intro h i
        cases i with
        | zero => rw [rule_has_match_zero]; exact hm
        | succ i => rw [rule_has_match_succ]; exact h i
      · intro h i
        rw [← rule_has_match_succ name kind nm0 sp rest i]
        exact h (i + 1)

/-- The order of the rules in `__cma_where_from`: for a device with a non-empty name it
returns the region list, as it stands in the rule, of the first rule of the table in which
the loop body takes a pattern (`rule_has_match`, with the `name_matched` that the rules in
front leave), whatever rules follow it; and it returns `-ENOENT` exactly when the loop
body takes no pattern of any rule. -/
theorem cma_where_from_first_match (cma_map : List cma_map_entry) (name : List Char)
    (kind : Option (List Char)) (hname : name ≠ []) :
    (∀ i spec, cma_map[i]? = some spec →
      rule_has_match name (kind.getD []) false cma_map i →
      (∀ j, j < i → ¬ rule_has_match name (kind.getD []) false cma_map j) →
      __cma_where_from cma_map (some name) kind = .ok spec.regions ∧
      ∀ later, __cma_where_from (cma_map.take (i + 1) ++ later) (some name) kind =
        .ok spec.regions) ∧
    (__cma_where_from cma_map (some name) kind = .error (-ENOENT) ↔
      ∀ i, ¬ rule_has_match name (kind.getD []) false cma_map i) := by
  simp only [__cma_where_from, if_neg hname]
  refine ⟨?_, where_from_loop_none name (kind.getD []) cma_map false⟩
  intro i spec hget hmatch hleast
  have h := where_from_loop_found name (kind.getD []) cma_map false i spec hget hmatch hleast
  refine ⟨?_, h⟩
  have := h (cma_map.drop (i + 1))
  rwa [List.take_append_drop] at this

theorem cma_where_from_first_match_witness :
    __cma_where_from
      (cma_map_param_parse
        "foo=reg1;bar/firmware=reg3;/*=reg2;baz/*=reg1,reg2;*/*=reg2,reg1".toList).2
      (some "baz".toList) (some "img".toList) = .ok "reg1,reg2".toList :=
  ((cma_where_from_first_match
      (cma_map_param_parse
        "foo=reg1;bar/firmware=reg3;/*=reg2;baz/*=reg1,reg2;*/*=reg2,reg1".toList).2
      "baz".toList (some "img".toList) (by decide)).1 3 ⟨"baz/*".toList, "reg1,reg2".toList⟩
    (by decide) ⟨⟨"baz/*".toList, "reg1,reg2".toList⟩, by decide, by decide⟩
    (by
      intro j hj
      rintro ⟨spec, h1, h2⟩
      interval_cases j
      · have : spec = ⟨"foo".toList, "reg1".toList⟩ := by
          have h3 : (cma_map_param_parse
            "foo=reg1;bar/firmware=reg3;/*=reg2;baz/*=reg1,reg2;*/*=reg2,reg1".toList).2[0]?
              = some ⟨"foo".toList, "reg1".toList⟩ := by decide
          rw [h3] at h1
          exact (Option.some.inj h1).symm
        subst this
        revert h2
        decide
      · have : spec = ⟨"bar/firmware".toList, "reg3".toList⟩ := by
          have h3 : (cma_map_param_parse
            "foo=reg1;bar/firmware=reg3;/*=reg2;baz/*=reg1,reg2;*/*=reg2,reg1".toList).2[1]?
              = some ⟨"bar/firmware".toList, "reg3".toList⟩ := by decide
          rw [h3] at h1
          exact (Option.some.inj h1).symm
        subst this
        revert h2
        decide
      · have : spec = ⟨"/*".toList, "reg2".toList⟩ := by
          have h3 : (cma_map_param_parse
            "foo=reg1;bar/firmware=reg3;/*=reg2;baz/*=reg1,reg2;*/*=reg2,reg1".toList).2[2]?
              = some ⟨"/*".toList, "reg2".toList⟩ := by decide
          rw [h3] at h1
          exact (Option.some.inj h1).symm
        subst this
        revert h2
        decide)).1

/-! ## Machine arithmetic without wrap-around -/

theorem usub_of_le (w a b : Nat) (hb : b ≤ a) (ha : a < 2 ^ w) : usub w a b = a - b := by
  unfold usub
  rw [Nat.mod_eq_of_lt ha, Nat.mod_eq_of_lt (lt_of_le_of_lt hb ha)]
  have h1 : a + (2 ^ w - b) = (a - b) + 2 ^ w := by omega
  rw [h1, Nat.add_mod_right, Nat.mod_eq_of_lt (by omega)]

theorem uadd_of_lt (w a b : Nat) (h : a + b < 2 ^ w) : uadd w a b = a + b := by
  unfold uadd
  exact Nat.mod_eq_of_lt h

/-! ## The chunk tree -/

theorem live_size_cons (idx : Nat) (c : cma_chunk) (l : List cma_chunk) :
    live_size_of idx (c :: l) = (if c.reg = idx then c.size else 0) + live_size_of idx l := by
  unfold live_size_of
  by_cases h : c.reg = idx
  · simp [List.filter_cons, h]
  · simp [List.filter_cons, h]

theorem live_size_record_assign (idx : Nat) (old new : cma_chunk)
    (hreg : new.reg = old.reg) (hsize : new.size = old.size) (l : List cma_chunk) :
    live_size_of idx (record_assign old new l) = live_size_of idx l := by
  induction l with
  | nil => rfl
  | cons i rest ih =>
    unfold record_assign
    split
    · rename_i h
      subst h
      rw [live_size_cons, live_size_cons, hreg, hsize]
    · rw [live_size_cons, live_size_cons, ih]

theorem live_size_erase (idx : Nat) (c : cma_chunk) (l : List cma_chunk) (hc : c ∈ l) :
    live_size_of idx (l.erase c) + (if c.reg = idx then c.size else 0) =
      live_size_of idx l := by
  induction l with
  | nil => simp at hc
  | cons i rest ih =>
    by_cases h : i = c
    · subst h
      rw [List.erase_cons_head, live_size_cons]
      omega
    · have hmem : c ∈ rest := by
        rcases List.mem_cons.1 hc with h1 | h1
        · exact absurd h1.symm h
        · exact h1
      rw [List.erase_cons_tail (by simpa using h), live_size_cons, live_size_cons]
      have := ih hmem
      omega

theorem live_size_insert_link (idx : Nat) (chunk : cma_chunk) :
    ∀ (l l1 : List cma_chunk), __cma_chunk_insert_link l chunk = some l1 →
      live_size_of idx l1 = (if chunk.reg = idx then chunk.size else 0) + live_size_of idx l := by
  intro l
  induction l with
  | nil =>
    intro l1 h
    simp only [__cma_chunk_insert_link, Option.some.injEq] at h
    subst h
    rw [live_size_cons]
  | cons c rest ih =>
    intro l1 h
    unfold __cma_chunk_insert_link at h
    split at h
    · simp only [Option.some.injEq] at h
      subst h
      rw [live_size_cons]
    · split at h
      · cases hrec : __cma_chunk_insert_link rest chunk with
        | none => simp [hrec] at h
        | some l2 =>
          simp only [hrec, Option.map_some', Option.some.injEq] at h
          subst h
          rw [live_size_cons, live_size_cons, ih l2 hrec]
          omega
      · simp at h

theorem mem_insert_link (chunk : cma_chunk) :
    ∀ (l l1 : List cma_chunk), __cma_chunk_insert_link l chunk = some l1 →
      ∀ x, x ∈ l1 ↔ x = chunk ∨ x ∈ l := by
  intro l
  induction l with
  | nil =>
    intro l1 h x
    simp only [__cma_chunk_insert_link, Option.some.injEq] at h
    subst h
    simp
  | cons c rest ih =>
    intro l1 h x
    unfold __cma_chunk_insert_link at h
    split at h
    · simp only [Option.some.injEq] at h
      subst h
      simp
    · split at h
      · cases hrec : __cma_chunk_insert_link rest chunk with
        | none => simp [hrec] at h
        | some l2 =>
          simp only [hrec, Option.map_some', Option.some.injEq] at h
          subst h
          simp only [List.mem_cons, ih l2 hrec x]
          tauto
      · simp at h

theorem insert_link_ordered (chunk : cma_chunk) :
    ∀ (l l1 : List cma_chunk), l.Pairwise (fun a b => a.start < b.start) →
      __cma_chunk_insert_link l chunk = some l1 →
      l1.Pairwise (fun a b => a.start < b.start) := by
  intro l
  induction l with
  | nil =>
    intro l1 _ h
    simp only [__cma_chunk_insert_link, Option.some.injEq] at h
    subst h
    simp
  | cons c rest ih =>
    intro l1 hl h
    rw [List.pairwise_cons] at hl
    unfold __cma_chunk_insert_link at h
    split at h
    · rename_i hlt
      simp only [Option.some.injEq] at h
      subst h
      refine List.Pairwise.cons ?_ (List.Pairwise.cons hl.1 hl.2)
      intro b hb
      rcases List.mem_cons.1 hb with rfl | hb
      · exact hlt
      · exact lt_trans hlt (hl.1 b hb)
    · split at h
      · rename_i hgt
        cases hrec : __cma_chunk_insert_link rest chunk with
        | none => simp [hrec] at h
        | some l2 =>
          simp only [hrec, Option.map_some', Option.some.injEq] at h
          subst h
          refine List.Pairwise.cons ?_ (ih l2 hl.2 hrec)
          intro b hb
          rcases (mem_insert_link chunk rest l2 hrec b).1 hb with rfl | hb
          · exact hgt
          · exact hl.1 b hb
      · simp at h

theorem mem_record_assign {α : Type} [DecidableEq α] (old new : α) (l : List α) (b : α)
    (hb : b ∈ record_assign old new l) : b ∈ l ∨ (b = new ∧ old ∈ l) := by
  induction l with
  | nil => simp [record_assign] at hb
  | cons i rest ih =>
    unfold record_assign at hb
    split at hb
    · rename_i h
      subst h
      rcases List.mem_cons.1 hb with rfl | hb
      · exact Or.inr ⟨rfl, List.mem_cons_self _ _⟩
      · exact Or.inl (List.mem_cons_of_mem _ hb)
    · rcases List.mem_cons.1 hb with rfl | hb
      · exact Or.inl (List.mem_cons_self _ _)
      · rcases ih hb with h1 | ⟨h1, h2⟩
        · exact Or.inl (List.mem_cons_of_mem _ h1)
        · exact Or.inr ⟨h1, List.mem_cons_of_mem _ h2⟩

theorem record_assign_ordered (old new : cma_chunk) (hstart : new.start = old.start)
    (l : List cma_chunk) (hl : l.Pairwise (fun a b => a.start < b.start)) :
    (record_assign old new l).Pairwise (fun a b => a.start < b.start) := by
  induction l with
  | nil => simp [record_assign]
  | cons i rest ih =>
    rw [List.pairwise_cons] at hl
    unfold record_assign
    split
    · rename_i h
      subst h
      refine List.Pairwise.cons ?_ hl.2
      intro b hb
      rw [hstart]
      exact hl.1 b hb
    · refine List.Pairwise.cons ?_ (ih hl.2)
      intro b hb
      rcases mem_record_assign old new rest b hb with h1 | ⟨h1, h2⟩
      · exact hl.1 b h1
      · rw [h1, hstart]
        exact hl.1 old h2

/-! ## The accounting invariant -/

theorem hole_take_size (w : Nat) (prv prv1 : cma_bf_private) (hole c : cma_bf_item)
    (size alignment : Nat) (km_item km_next : Bool)
    (hc : __cma_bf_hole_take w prv hole size alignment km_item km_next = .chunk c prv1) :
    c.size = size := by
  unfold __cma_bf_hole_take at hc
  split at hc
  · rename_i hsz
    simp only [bf_result.chunk.injEq] at hc
    rw [← hc.1]
    exact hsz.symm
  · split at hc
    · simp at hc
    · simp only at hc
      split at hc
      · split at hc
        · simp only [__cma_bf_hole_take_case_2, bf_result.chunk.injEq] at hc
          rw [← hc.1]
        · split at hc
          · simp at hc
          · simp only [__cma_bf_hole_take_case_2, bf_result.chunk.injEq] at hc
            rw [← hc.1]
      · simp only [__cma_bf_hole_take_case_2, bf_result.chunk.injEq] at hc
        rw [← hc.1]

theorem cma_bf_alloc_size (w : Nat) (prv prv1 : cma_bf_private) (c : cma_bf_item)
    (size alignment : Nat) (km_item km_next : Bool)
    (hc : cma_bf_alloc w prv size alignment km_item km_next = .chunk c prv1) :
    c.size = size := by
  obtain ⟨hole, _, htake⟩ := cma_bf_alloc_chunk _ _ _ _ _ _ _ _ hc
  exact hole_take_size _ _ _ _ _ _ _ _ _ htake

theorem accounting_set (regions : List cma_region) (chunks l1 : List cma_chunk)
    (idx : Nat) (reg reg1 : cma_region)
    (hacc : ∀ i r, regions[i]? = some r → r.free_space + live_size_of i chunks = r.size)
    (_hreg : regions[idx]? = some reg) (hsize : reg1.size = reg.size)
    (hother : ∀ j, j ≠ idx → live_size_of j l1 = live_size_of j chunks)
    (hthis : reg1.free_space + live_size_of idx l1 = reg.size) :
    ∀ i r, (regions.set idx reg1)[i]? = some r →
      r.free_space + live_size_of i l1 = r.size := by
  intro i r hget
  rw [List.getElem?_set] at hget
  by_cases hi : idx = i
  · subst hi
    rw [if_pos rfl] at hget
    split at hget
    · simp only [Option.some.injEq] at hget
      subst hget
      rw [hthis, hsize]
    · simp at hget
  · rw [if_neg hi] at hget
    rw [hother i (fun h => hi h.symm)]
    exact hacc i r hget

theorem sizes_set (w : Nat) (regions : List cma_region) (idx : Nat) (reg reg1 : cma_region)
    (hb : ∀ r ∈ regions, r.size < 2 ^ w) (hreg : regions[idx]? = some reg)
    (hsize : reg1.size = reg.size) :
    ∀ r ∈ regions.set idx reg1, r.size < 2 ^ w := by
  intro r hr
  have hmem : reg ∈ regions := List.mem_iff_getElem?.2 ⟨idx, hreg⟩
  rcases List.mem_or_eq_of_mem_set hr with h | h
  · exact hb r h
  · rw [h, hsize]
    exact hb reg hmem

theorem cma_inv_of_fresh (w : Nat) (st : cma_state) (h : cma_fresh w st) : cma_inv w st := by
  obtain ⟨h1, _, h3⟩ := h
  refine ⟨?_, fun reg hreg => (h3 reg hreg).2.1, by rw [h1]; exact List.Pairwise.nil⟩
  intro idx reg hget
  have hmem : reg ∈ st.cma_regions := List.mem_iff_getElem?.2 ⟨idx, hget⟩
  simp [region_live_size, live_size_of, h1, (h3 reg hmem).1]

theorem chunk_find_some (fmt_ok : Nat → Bool) (st st1 : cma_state) (addr : Nat)
    (c : cma_chunk) (h : __cma_chunk_find fmt_ok st addr = .ret (some c) st1) :
    st1 = st ∧ st.cma_chunks_mutex = false ∧ c ∈ st.cma_chunks_by_start ∧ c.start = addr ∧
      st.cma_chunks_by_start.find? (fun c => decide (c.start = addr)) = some c := by
  unfold __cma_chunk_find at h
  split at h
  · simp at h
  · rename_i hm
    split at h
    · rename_i chunk hf
      simp only [outcome.ret.injEq, Option.some.injEq] at h
      obtain ⟨hc, hst⟩ := h
      subst hc
      refine ⟨hst.symm, by simpa using hm, List.mem_of_find?_eq_some hf, ?_, hf⟩
      simpa using List.find?_some hf
    · split at h
      · simp at h
      · simp at h

theorem chunk_find_none (fmt_ok : Nat → Bool) (st st1 : cma_state) (addr : Nat)
    (h : __cma_chunk_find fmt_ok st addr = .ret none st1) : st1 = st := by
  unfold __cma_chunk_find at h
  split at h
  · simp at h
  · split at h
    · simp at h
    · split at h
      · simp only [outcome.ret.injEq] at h
        exact h.2.symm
      · simp at h

theorem cma_inv_assign (w : Nat) (st : cma_state) (c c1 : cma_chunk)
    (hinv : cma_inv w st) (hstart : c1.start = c.start) (hreg : c1.reg = c.reg)
    (hsize : c1.size = c.size) :
    cma_inv w { st with
      cma_chunks_by_start := record_assign c c1 st.cma_chunks_by_start } := by
  obtain ⟨hacc, hb, hord⟩ := hinv
  refine ⟨?_, hb, record_assign_ordered c c1 hstart _ hord⟩
  intro idx reg hget
  have := hacc idx reg hget
  simp only [region_live_size] at this ⊢
  rw [live_size_record_assign idx c c1 hreg hsize]
  exact this

theorem cma_get_inv (w : Nat) (fmt_ok : Nat → Bool) (st st1 : cma_state) (addr : Nat)
    (r : Int) (hinv : cma_inv w st) (h : cma_get fmt_ok st addr = .ret r st1) :
    cma_inv w st1 := by
  unfold cma_get at h
  split at h
  · simp at h
  · simp at h
  · rename_i st2 hfind
    simp only [outcome.ret.injEq] at h
    rw [← h.2, chunk_find_none _ _ _ _ hfind]
    exact hinv
  · rename_i c st2 hfind
    simp only [outcome.ret.injEq] at h
    rw [← h.2, (chunk_find_some _ _ _ _ _ hfind).1]
    exact cma_inv_assign w st c _ hinv rfl rfl rfl

theorem live_size_le_of_mem (idx : Nat) (c : cma_chunk) (l : List cma_chunk)
    (hc : c ∈ l) (hreg : c.reg = idx) : c.size ≤ live_size_of idx l := by
  have := live_size_erase idx c l hc
  rw [if_pos hreg] at this
  omega

/-- A release keeps the invariant when the size that is read from the chunk record behind
`cma_bf_free` is the size of the chunk. -/
theorem cma_release_inv (w : Nat) (st st1 : cma_state) (c : cma_chunk) (u : Unit)
    (hinv : cma_inv w st) (hc : c ∈ st.cma_chunks_by_start)
    (hrec : ∀ reg, st.cma_regions[c.reg]? = some reg →
      size_after_free w reg.private_data ⟨c.start, c.size⟩ = c.size)
    (h : __cma_chunk_release w st c = .ret u st1) : cma_inv w st1 := by
  obtain ⟨hacc, hb, hord⟩ := hinv
  unfold __cma_chunk_release at h
  split at h
  · simp at h
  · simp only at h
    split at h
    · simp at h
    · rename_i reg hreg
      split at h
      · simp at h
      · simp only [outcome.ret.injEq] at h
        rw [← h.2]
        have hfs := hacc c.reg reg hreg
        simp only [region_live_size] at hfs
        have hle := live_size_le_of_mem c.reg c _ hc rfl
        have hlt : reg.size < 2 ^ w := hb reg (List.mem_iff_getElem?.2 ⟨c.reg, hreg⟩)
        have her := live_size_erase c.reg c _ hc
        rw [if_pos rfl] at her
        refine ⟨?_, ?_, ?_⟩
        · refine accounting_set st.cma_regions st.cma_chunks_by_start
            (st.cma_chunks_by_start.erase c) c.reg reg _ hacc hreg rfl ?_ ?_
          · intro j hj
            have := live_size_erase j c _ hc
            rw [if_neg (fun h => hj h.symm)] at this
            omega
          · simp only
            rw [hrec reg hreg, uadd_of_lt w _ _ (by omega)]
            omega
        · exact sizes_set w st.cma_regions c.reg reg _ hb hreg rfl
        · exact List.Pairwise.sublist (List.erase_sublist _ _) hord

/-- The function `cma_put` keeps the invariant when for every indexed chunk the size that
would be read from its record behind `cma_bf_free` is the size of the chunk. -/
theorem cma_put_inv (w : Nat) (fmt_ok : Nat → Bool) (st st1 : cma_state) (addr : Nat)
    (r : Int) (hinv : cma_inv w st)
    (hrec : ∀ c ∈ st.cma_chunks_by_start, ∀ reg, st.cma_regions[c.reg]? = some reg →
      size_after_free w reg.private_data ⟨c.start, c.size⟩ = c.size)
    (h : cma_put w fmt_ok st addr = .ret r st1) : cma_inv w st1 := by
  unfold cma_put at h
  split at h
  · simp at h
  · simp at h
  · rename_i st2 hfind
    simp only [outcome.ret.injEq] at h
    rw [← h.2, chunk_find_none _ _ _ _ hfind]
    exact hinv
  · rename_i c st2 hfind
    obtain ⟨hst, _, hmem, _, _⟩ := chunk_find_some _ _ _ _ _ hfind
    subst hst
    split at h
    · split at h
      · simp at h
      · simp at h
      · rename_i u st3 hrel
        simp only [outcome.ret.injEq] at h
        rw [← h.2]
        exact cma_release_inv w _ _ c u hinv hmem (hrec c hmem) hrel
    · simp only [outcome.ret.injEq] at h
      rw [← h.2]
      exact cma_inv_assign w _ c _ hinv rfl rfl rfl

theorem free_space_lt (w : Nat) (st : cma_state) (idx : Nat) (reg : cma_region)
    (hinv : cma_inv w st) (hreg : st.cma_regions[idx]? = some reg) :
    reg.free_space + region_live_size st idx = reg.size ∧ reg.size < 2 ^ w :=
  ⟨hinv.1 idx reg hreg, hinv.2.1 reg (List.mem_iff_getElem?.2 ⟨idx, hreg⟩)⟩

theorem alloc_do_got_inv (w : Nat) (st st1 : cma_state) (idx : Nat) (reg : cma_region)
    (prv : cma_bf_private) (item : cma_bf_item) (r : Option cma_chunk)
    (hinv : cma_inv w st) (hreg : st.cma_regions[idx]? = some reg)
    (hle : item.size ≤ reg.free_space)
    (h : __cma_alloc_do_got w
      { st with
        cma_regions := st.cma_regions.set idx (cma_region_take_chunk w reg prv item) }
      idx item = .ret r st1) : cma_inv w st1 := by
  obtain ⟨hfs, hlt⟩ := free_space_lt w st idx reg hinv hreg
  obtain ⟨hacc, hb, hord⟩ := hinv
  simp only [region_live_size] at hfs
  have hidx : idx < st.cma_regions.length := by
    rcases List.getElem?_eq_some.1 hreg with ⟨hi, _⟩
    exact hi
  have htake : (cma_region_take_chunk w reg prv item).free_space =
      reg.free_space - item.size := by
    simp only [cma_region_take_chunk]
    exact usub_of_le w _ _ hle (by omega)
  unfold __cma_alloc_do_got __cma_chunk_insert at h
  simp only at h
  split at h
  · simp at h
  · simp at h
  · rename_i r1 st2 hins
    split at hins
    · simp at hins
    · split at hins
      · -- collision
        simp only [outcome.ret.injEq] at hins
        obtain ⟨hr1, hst2⟩ := hins
        subst hr1
        subst hst2
        rw [if_neg (by decide)] at h
        simp only [List.getElem?_set_self hidx] at h
        simp only [outcome.ret.injEq] at h
        rw [← h.2]
        simp only [List.set_set]
        refine ⟨?_, ?_, hord⟩
        · refine accounting_set st.cma_regions st.cma_chunks_by_start
            st.cma_chunks_by_start idx reg _ hacc hreg rfl (fun _ _ => rfl) ?_
          simp only [cma_region_put_chunk]
          rw [htake, uadd_of_lt w _ _ (by omega)]
          omega
        · exact sizes_set w st.cma_regions idx reg _ hb hreg rfl
      · rename_i l hl
        simp only [outcome.ret.injEq] at hins
        obtain ⟨hr1, hst2⟩ := hins
        subst hr1
        subst hst2
        rw [if_pos rfl] at h
        simp only [outcome.ret.injEq] at h
        rw [← h.2]
        refine ⟨?_, ?_, insert_link_ordered _ _ _ hord hl⟩
        · refine accounting_set st.cma_regions st.cma_chunks_by_start l idx reg _
            hacc hreg rfl ?_ ?_
          · intro j hj
            rw [live_size_insert_link j _ _ _ hl]
            simp only
            rw [if_neg (fun h => hj h.symm)]
            omega
          · rw [live_size_insert_link idx _ _ _ hl, htake]
            simp only [if_true]
            omega
        · exact sizes_set w st.cma_regions idx reg _ hb hreg rfl

theorem alloc_do_pass_inv (w : Nat) (km_item km_next : Bool) (size alignment : Nat)
    (next : cma_state → List Char → outcome (Option cma_chunk))
    (st st1 : cma_state) (from_ : List Char) (r : Option cma_chunk)
    (hnext : ∀ st2 f2 r2 st3, cma_inv w st2 → next st2 f2 = .ret r2 st3 → cma_inv w st3)
    (hinv : cma_inv w st)
    (h : __cma_alloc_do_pass w km_item km_next size alignment next st from_ = .ret r st1) :
    cma_inv w st1 := by
  have hskip : ∀ st2, cma_inv w st2 →
      (match strchr from_ ',' with
        | none => outcome.ret none st2
        | some e => next st2 e.tail) = .ret r st1 → cma_inv w st1 := by
    intro st2 h2 hm
    split at hm
    · simp only [outcome.ret.injEq] at hm
      rw [← hm.2]
      exact h2
    · exact hnext _ _ _ _ h2 hm
  simp only [__cma_alloc_do_pass] at h
  split at h
  · exact hskip st hinv h
  · rename_i idx _
    split at h
    · exact hskip st hinv h
    · rename_i reg hreg
      split at h
      · exact hskip st hinv h
      · split at h
        · exact hskip st hinv h
        · rename_i hfs
          split at h
          · simp at h
          · rename_i prv _
            refine hskip _ ?_ h
            obtain ⟨hacc, hb, hord⟩ := hinv
            refine ⟨?_, sizes_set w st.cma_regions idx reg _ hb hreg rfl, hord⟩
            exact accounting_set st.cma_regions st.cma_chunks_by_start
              st.cma_chunks_by_start idx reg _ hacc hreg rfl (fun _ _ => rfl)
              (hacc idx reg hreg)
          · rename_i item prv halloc
            have hsz := cma_bf_alloc_size _ _ _ _ _ _ _ _ halloc
            exact alloc_do_got_inv w st st1 idx reg prv item r hinv hreg (by omega) h

theorem alloc_do_loop_inv (w : Nat) (km : Nat → Bool × Bool) (size alignment : Nat) :
    ∀ (fuel n : Nat) (st : cma_state) (from_ : List Char) (r : Option cma_chunk)
      (st1 : cma_state), cma_inv w st →
      __cma_alloc_do_loop w km size alignment fuel n st from_ = .ret r st1 →
      cma_inv w st1 := by
  intro fuel
  induction fuel with
  | zero =>
    intro n st from_ r st1 hinv h
    simp only [__cma_alloc_do_loop, outcome.ret.injEq] at h
    rw [← h.2]
    exact hinv
  | succ fuel ih =>
    intro n st from_ r st1 hinv h
    rw [__cma_alloc_do_loop] at h
    split at h
    · simp only [outcome.ret.injEq] at h
      rw [← h.2]
      exact hinv
    · exact alloc_do_pass_inv w _ _ size alignment _ st st1 from_ r
        (fun st2 f2 r2 st3 h2 h3 => ih (n + 1) st2 f2 r2 st3 h2 h3) hinv h

theorem cma_alloc_inv (w : Nat) (km : Nat → Bool × Bool) (st st1 : cma_state)
    (dev kind : Option (List Char)) (size alignment : Nat) (r : Except Int Nat)
    (hinv : cma_inv w st)
    (h : cma_alloc w km st dev kind size alignment = .ret r st1) : cma_inv w st1 := by
  unfold cma_alloc at h
  split at h
  · simp only [outcome.ret.injEq] at h
    rw [← h.2]
    exact hinv
  · split at h
    · simp only [outcome.ret.injEq] at h
      rw [← h.2]
      exact hinv
    · unfold __cma_alloc_do at h
      split at h
      · simp at h
      · simp at h
      · rename_i st2 hloop
        simp only [outcome.ret.injEq] at h
        rw [← h.2]
        exact alloc_do_loop_inv w km size _ _ _ _ _ _ _ hinv hloop
      · rename_i chunk st2 hloop
        simp only [outcome.ret.injEq] at h
        rw [← h.2]
        exact alloc_do_loop_inv w km size _ _ _ _ _ _ _ hinv hloop

/-- The subtraction `reg->free_space -= chunk->size` in `__cma_alloc_do` does not wrap
below zero: the chunk that `cma_bf_alloc` returns has the size that was asked for, and the
region is passed over when its free space is below that size. -/
theorem cma_alloc_no_underflow (w : Nat) (reg : cma_region) (size alignment : Nat)
    (km_item km_next : Bool) (item : cma_bf_item) (prv : cma_bf_private)
    (hlt : reg.free_space < 2 ^ w) (hfs : ¬ reg.free_space < size)
    (halloc : cma_bf_alloc w reg.private_data size alignment km_item km_next =
      .chunk item prv) :
    item.size ≤ reg.free_space ∧
      (cma_region_take_chunk w reg prv item).free_space + item.size = reg.free_space := by
  have hsz := cma_bf_alloc_size _ _ _ _ _ _ _ _ halloc
  have hle : item.size ≤ reg.free_space := by omega
  refine ⟨hle, ?_⟩
  simp only [cma_region_take_chunk]
  rw [usub_of_le w _ _ hle hlt]
  omega

/-! ## Reference counting -/

theorem alloc_do_got_some (w : Nat) (st st1 : cma_state) (idx : Nat) (item : cma_bf_item)
    (c : cma_chunk) (h : __cma_alloc_do_got w st idx item = .ret (some c) st1) :
    c = ⟨item.start, item.size, idx, 1⟩ ∧ c ∈ st1.cma_chunks_by_start ∧
      st1.cma_chunks_mutex = false ∧ st1.cma_regions = st.cma_regions := by
  unfold __cma_alloc_do_got __cma_chunk_insert at h
  simp only at h
  split at h
  · simp at h
  · simp at h
  · rename_i r1 st2 hins
    split at hins
    · simp at hins
    · rename_i hm
      split at hins
      · simp only [outcome.ret.injEq] at hins
        obtain ⟨hr1, hst2⟩ := hins
        subst hr1
        subst hst2
        rw [if_neg (by decide)] at h
        split at h
        · simp at h
        · simp at h
      · rename_i l hl
        simp only [outcome.ret.injEq] at hins
        obtain ⟨hr1, hst2⟩ := hins
        subst hr1
        subst hst2
        rw [if_pos rfl] at h
        simp only [outcome.ret.injEq, Option.some.injEq] at h
        obtain ⟨hc, hst⟩ := h
        subst hst
        refine ⟨hc.symm, ?_, by simpa using hm, rfl⟩
        rw [← hc]
        exact (mem_insert_link _ _ _ hl _).2 (Or.inl rfl)

theorem alloc_do_pass_some (w : Nat) (km_item km_next : Bool) (size alignment : Nat)
    (next : cma_state → List Char → outcome (Option cma_chunk))
    (st st1 : cma_state) (from_ : List Char) (c : cma_chunk)
    (hnext : ∀ st2 f2 st3, next st2 f2 = .ret (some c) st3 → alloc_post c st3)
    (h : __cma_alloc_do_pass w km_item km_next size alignment next st from_ =
      .ret (some c) st1) : alloc_post c st1 := by
  have hskip : ∀ st2,
      (match strchr from_ ',' with
        | none => outcome.ret none st2
        | some e => next st2 e.tail) = .ret (some c) st1 → alloc_post c st1 := by
    intro st2 hm
    split at hm
    · simp at hm
    · exact hnext _ _ _ hm
  simp only [__cma_alloc_do_pass] at h
  split at h
  · exact hskip st h
  · rename_i idx _
    split at h
    · exact hskip st h
    · rename_i reg hreg
      split at h
      · exact hskip st h
      · rename_i halloc
        split at h
        · exact hskip st h
        · split at h
          · simp at h
          · exact hskip _ h
          · rename_i item prv _
            obtain ⟨hc, hmem, hm, hregs⟩ := alloc_do_got_some w _ st1 idx item c h
            have hidx : idx < st.cma_regions.length := by
              rcases List.getElem?_eq_some.1 hreg with ⟨hi, _⟩
              exact hi
            refine ⟨by rw [hc], hmem, hm, cma_region_take_chunk w reg prv item, ?_, ?_⟩
            · rw [hregs, hc]
              exact List.getElem?_set_self hidx
            · simp only [cma_region_take_chunk]
              cases hra : reg.alloc with
              | none => exact absurd hra halloc
              | some a => cases a; rfl

theorem alloc_do_loop_some (w : Nat) (km : Nat → Bool × Bool) (size alignment : Nat)
    (c : cma_chunk) :
    ∀ (fuel n : Nat) (st : cma_state) (from_ : List Char) (st1 : cma_state),
      __cma_alloc_do_loop w km size alignment fuel n st from_ = .ret (some c) st1 →
      alloc_post c st1 := by
  intro fuel
  induction fuel with
  | zero =>
    intro n st from_ st1 h
    simp [__cma_alloc_do_loop] at h
  | succ fuel ih =>
    intro n st from_ st1 h
    rw [__cma_alloc_do_loop] at h
    split at h
    · simp at h
    · exact alloc_do_pass_some w _ _ size alignment _ st st1 from_ c
        (fun st2 f2 st3 h3 => ih (n + 1) st2 f2 st3 h3) h

theorem cma_alloc_ok (w : Nat) (km : Nat → Bool × Bool) (st st1 : cma_state)
    (dev kind : Option (List Char)) (size alignment addr : Nat)
    (h : cma_alloc w km st dev kind size alignment = .ret (.ok addr) st1) :
    ∃ c, c.start = addr ∧ alloc_post c st1 := by
  unfold cma_alloc at h
  split at h
  · simp at h
  · split at h
    · simp at h
    · unfold __cma_alloc_do at h
      split at h
      · simp at h
      · simp at h
      · simp at h
      · rename_i chunk st2 hloop
        simp only [outcome.ret.injEq, Except.ok.injEq] at h
        obtain ⟨ha, hs⟩ := h
        subst hs
        exact ⟨chunk, ha, alloc_do_loop_some w km size _ chunk _ _ _ _ _ hloop⟩

theorem ordered_split (l : List cma_chunk) (c : cma_chunk)
    (hl : l.Pairwise (fun a b => a.start < b.start)) (hc : c ∈ l) :
    ∃ pre post, l = pre ++ c :: post ∧ (∀ x ∈ pre, x.start ≠ c.start) ∧
      (∀ x ∈ post, x.start ≠ c.start) := by
  obtain ⟨pre, post, rfl⟩ := List.append_of_mem hc
  rw [List.pairwise_append] at hl
  obtain ⟨_, h2, h3⟩ := hl
  rw [List.pairwise_cons] at h2
  refine ⟨pre, post, rfl, ?_, ?_⟩
  · intro x hx
    exact Nat.ne_of_lt (h3 x hx c (List.mem_cons_self _ _))
  · intro x hx
    exact Nat.ne_of_gt (h2.1 x hx)

theorem find_split (pre post : List cma_chunk) (c : cma_chunk) (addr : Nat)
    (hpre : ∀ x ∈ pre, x.start ≠ addr) (hc : c.start = addr) :
    (pre ++ c :: post).find? (fun c => decide (c.start = addr)) = some c := by
  induction pre with
  | nil => simp [List.find?_cons, hc]
  | cons x pre ih =>
    have hx : x.start ≠ addr := hpre x (List.mem_cons_self _ _)
    simp only [List.cons_append, List.find?_cons, hx, decide_False]
    exact ih (fun y hy => hpre y (List.mem_cons_of_mem _ hy))

theorem find_none_split (pre post : List cma_chunk) (addr : Nat)
    (hpre : ∀ x ∈ pre, x.start ≠ addr) (hpost : ∀ x ∈ post, x.start ≠ addr) :
    (pre ++ post).find? (fun c => decide (c.start = addr)) = none := by
  rw [List.find?_eq_none]
  intro x hx
  rcases List.mem_append.1 hx with h | h
  · simpa using hpre x h
  · simpa using hpost x h

theorem assign_split (pre post : List cma_chunk) (c c1 : cma_chunk)
    (hpre : ∀ x ∈ pre, x.start ≠ c.start) :
    record_assign c c1 (pre ++ c :: post) = pre ++ c1 :: post := by
  induction pre with
  | nil => simp [record_assign]
  | cons x pre ih =>
    have hx : x ≠ c := by
      intro h
      exact hpre x (List.mem_cons_self _ _) (by rw [h])
    have ih1 := ih (fun y hy => hpre y (List.mem_cons_of_mem _ hy))
    simp only [List.cons_append, record_assign, if_neg hx]
    exact congrArg (fun l => x :: l) ih1

theorem erase_split (pre post : List cma_chunk) (c : cma_chunk)
    (hpre : ∀ x ∈ pre, x.start ≠ c.start) :
    (pre ++ c :: post).erase c = pre ++ post := by
  induction pre with
  | nil => simp
  | cons x pre ih =>
    have hx : x ≠ c := by
      intro h
      exact hpre x (List.mem_cons_self _ _) (by rw [h])
    rw [List.cons_append, List.erase_cons_tail (by simpa using hx),
      ih (fun y hy => hpre y (List.mem_cons_of_mem _ hy))]
    rfl

theorem chunk_find_with_ref (fmt_ok : Nat → Bool) (st : cma_state)
    (pre post : List cma_chunk) (c : cma_chunk) (ref : Nat)
    (hm : st.cma_chunks_mutex = false) (hpre : ∀ x ∈ pre, x.start ≠ c.start) :
    __cma_chunk_find fmt_ok (with_ref st pre post c ref) c.start =
      .ret (some { c with ref := ref }) (with_ref st pre post c ref) := by
  simp only [__cma_chunk_find, with_ref, hm]
  rw [find_split pre post { c with ref := ref } c.start hpre rfl]
  simp

theorem cma_get_with_ref (fmt_ok : Nat → Bool) (st : cma_state) (pre post : List cma_chunk)
    (c : cma_chunk) (ref : Nat) (hm : st.cma_chunks_mutex = false)
    (hpre : ∀ x ∈ pre, x.start ≠ c.start) :
    cma_get fmt_ok (with_ref st pre post c ref) c.start =
      .ret 0 (with_ref st pre post c (ref + 1)) := by
  unfold cma_get
  rw [chunk_find_with_ref fmt_ok st pre post c ref hm hpre]
  simp only [with_ref, kref_get]
  rw [assign_split pre post { c with ref := ref } _ hpre]

theorem cma_put_with_ref (w : Nat) (fmt_ok : Nat → Bool) (st : cma_state)
    (pre post : List cma_chunk) (c : cma_chunk) (ref : Nat)
    (hm : st.cma_chunks_mutex = false)
    (hpre : ∀ x ∈ pre, x.start ≠ c.start) (href : ref ≠ 1) :
    cma_put w fmt_ok (with_ref st pre post c ref) c.start =
      .ret 0 (with_ref st pre post c (ref - 1)) := by
  unfold cma_put
  rw [chunk_find_with_ref fmt_ok st pre post c ref hm hpre]
  simp only [with_ref, kref_put, decide_eq_true_eq, if_neg href]
  rw [assign_split pre post { c with ref := ref } _ hpre]

/-- The last `cma_put` of a chunk: it returns 1, the chunk leaves the tree, the trees of
its region are those that `cma_bf_free` leaves, and the free space of the region grows by
the size that is read from the chunk record behind `cma_bf_free`. -/
theorem cma_put_last (w : Nat) (fmt_ok : Nat → Bool) (st : cma_state)
    (pre post : List cma_chunk)
    (c : cma_chunk) (reg : cma_region) (hm : st.cma_chunks_mutex = false)
    (hpre : ∀ x ∈ pre, x.start ≠ c.start)
    (hreg : st.cma_regions[c.reg]? = some reg) (halloc : reg.alloc = some .bf) :
    cma_put w fmt_ok (with_ref st pre post c 1) c.start =
      .ret 1 { st with
        cma_chunks_by_start := pre ++ post,
        cma_regions := st.cma_regions.set c.reg
          { reg with
            private_data := cma_bf_free w reg.private_data ⟨c.start, c.size⟩,
            users := (reg.users + (2 ^ 32 - 1)) % 2 ^ 32,
            free_space :=
              uadd w reg.free_space
                (size_after_free w reg.private_data ⟨c.start, c.size⟩) } } := by
  unfold cma_put
  rw [chunk_find_with_ref fmt_ok st pre post c 1 hm hpre]
  simp only [with_ref, kref_put, decide_True, if_true, __cma_chunk_release, hm]
  rw [erase_split pre post { c with ref := 1 } hpre]
  simp [hreg, halloc]

/-- A lookup that finds no chunk: `cma_get` returns `-ENOENT` with the state as it was
when the `WARN` in `__cma_chunk_find` comes to its end, and does not return otherwise. -/
theorem cma_get_not_found (fmt_ok : Nat → Bool) (st : cma_state) (addr : Nat)
    (hm : st.cma_chunks_mutex = false)
    (hnone : st.cma_chunks_by_start.find? (fun c => decide (c.start = addr)) = none) :
    cma_get fmt_ok st addr = if fmt_ok addr then .ret (-ENOENT) st else .oops := by
  cases hf : fmt_ok addr <;> simp [cma_get, __cma_chunk_find, WARN, hm, hnone, hf]

/-- A lookup that finds no chunk, for `cma_put`. -/
theorem cma_put_not_found (w : Nat) (fmt_ok : Nat → Bool) (st : cma_state) (addr : Nat)
    (hm : st.cma_chunks_mutex = false)
    (hnone : st.cma_chunks_by_start.find? (fun c => decide (c.start = addr)) = none) :
    cma_put w fmt_ok st addr = if fmt_ok addr then .ret (-ENOENT) st else .oops := by
  cases hf : fmt_ok addr <;> simp [cma_put, __cma_chunk_find, WARN, hm, hnone, hf]

theorem repeat_get_with_ref (fmt_ok : Nat → Bool) (st : cma_state)
    (pre post : List cma_chunk) (c : cma_chunk)
    (hm : st.cma_chunks_mutex = false) (hpre : ∀ x ∈ pre, x.start ≠ c.start) :
    ∀ (n ref : Nat),
      cma_repeat (fun s => cma_get fmt_ok s c.start) n (with_ref st pre post c ref) =
        some (with_ref st pre post c (ref + n)) := by
  intro n
  induction n with
  | zero => intro ref; rfl
  | succ n ih =>
    intro ref
    rw [cma_repeat]
    simp only [cma_get_with_ref fmt_ok st pre post c ref hm hpre, if_true]
    rw [ih (ref + 1)]
    congr 2
    omega

theorem repeat_put_with_ref (w : Nat) (fmt_ok : Nat → Bool) (st : cma_state)
    (pre post : List cma_chunk)
    (c : cma_chunk) (hm : st.cma_chunks_mutex = false)
    (hpre : ∀ x ∈ pre, x.start ≠ c.start) :
    ∀ (k ref : Nat), k < ref →
      cma_repeat (fun s => cma_put w fmt_ok s c.start) k (with_ref st pre post c ref) =
        some (with_ref st pre post c (ref - k)) := by
  intro k
  induction k with
  | zero => intro ref _; rfl
  | succ k ih =>
    intro ref hk
    rw [cma_repeat]
    simp only [cma_put_with_ref w fmt_ok st pre post c ref hm hpre (by omega), if_true]
    rw [ih (ref - 1) (by omega)]
    congr 2
    omega

theorem with_ref_self (st : cma_state) (pre post : List cma_chunk) (c : cma_chunk)
    (hl : st.cma_chunks_by_start = pre ++ c :: post) : with_ref st pre post c c.ref = st := by
  cases st
  cases c
  simp only [with_ref] at hl ⊢
  rw [hl]

theorem example_state_fresh (w start size : Nat) (h : size < 2 ^ w) :
    cma_fresh w (example_state start size) := by
  refine ⟨rfl, rfl, ?_⟩
  intro reg hr
  simp only [example_state, List.mem_singleton] at hr
  subst hr
  exact ⟨rfl, h, rfl⟩

theorem example_overlap_fresh : cma_fresh 32 example_overlap := by
  refine ⟨rfl, rfl, ?_⟩
  intro reg hr
  simp only [example_overlap, List.mem_cons, List.mem_singleton, List.not_mem_nil,
    or_false] at hr
  rcases hr with hr | hr
  · subst hr
    exact ⟨rfl, by decide, rfl⟩
  · subst hr
    exact ⟨rfl, by decide, rfl⟩

/-! ## The release of a chunk that has a hole in front of it -/

/-- C4, the code at a failing input.  `unsigned long` has 32 bits; the only region has
three pages at 0x1000 and is one hole, with `free_space` equal to its size.
`cma_alloc(dev, NULL, 0x2000, 0x2000)` returns 0x2000 and leaves the page at 0x1000 as a
hole; the invariant holds.  `cma_put(0x2000)` returns 1: `cma_bf_free` merges the chunk
with the hole in front of it and writes the range [0x1000, 0x4000) into the chunk record,
which is not freed, and `__cma_chunk_release` then adds the size 0x3000 of that record to
`free_space`.  No chunk is live, and the `free_space` of the region of size 0x3000 is
0x4000. -/
theorem cma_put_breaks_accounting (fmt_ok : Nat → Bool) :
    cma_fresh 32 (example_state 0x1000 0x3000) ∧
    cma_alloc 32 kmalloc_ok (example_state 0x1000 0x3000) (some ['d']) none 0x2000 0x2000 =
      .ret (.ok 0x2000) example_carved ∧
    cma_accounting example_carved ∧
    cma_bf_free_record 32 ⟨[⟨0x1000, 0x1000⟩], [⟨0x1000, 0x1000⟩]⟩ ⟨0x2000, 0x2000⟩ =
      ⟨0x1000, 0x3000⟩ ∧
    cma_bf_free_kfree 32 ⟨[⟨0x1000, 0x1000⟩], [⟨0x1000, 0x1000⟩]⟩ ⟨0x2000, 0x2000⟩ = false ∧
    size_after_free 32 ⟨[⟨0x1000, 0x1000⟩], [⟨0x1000, 0x1000⟩]⟩ ⟨0x2000, 0x2000⟩ = 0x3000 ∧
    cma_put 32 fmt_ok example_carved 0x2000 = .ret 1 example_released ∧
    example_released.cma_chunks_by_start = [] ∧
    example_released.cma_regions.map (fun r => (r.size, r.free_space)) =
      [(0x3000, 0x4000)] ∧
    cma_reachable 32 (example_state 0x1000 0x3000) example_released ∧
    ¬ cma_accounting example_released := by
  have halloc : cma_alloc 32 kmalloc_ok (example_state 0x1000 0x3000) (some ['d']) none
      0x2000 0x2000 = .ret (.ok 0x2000) example_carved := rfl
  have hput : cma_put 32 fmt_ok example_carved 0x2000 = .ret 1 example_released := rfl
  refine ⟨example_state_fresh 32 0x1000 0x3000 (by decide), halloc, ?_, rfl, rfl, rfl, hput,
    rfl, rfl, ?_, ?_⟩
  · intro idx reg hreg
    cases idx with
    | zero =>
      simp only [example_carved, List.getElem?_cons_zero, Option.some.injEq] at hreg
      subst hreg
      rfl
    | succ idx => simp [example_carved] at hreg
  · exact cma_reachable.put example_carved example_released fmt_ok 0x2000 1
      (cma_reachable.alloc (example_state 0x1000 0x3000) example_carved kmalloc_ok
        (some ['d']) none 0x2000 0x2000 (.ok 0x2000) cma_reachable.start halloc) hput
  · intro h
    have h0 := h 0 { example_region 0x1000 0x3000 with free_space := 0x4000 } rfl
    revert h0
    decide

/-- C1, the code at a failing input.  `unsigned long` has 32 bits; the only region has
three pages at 0x1000.  `cma_alloc(dev, NULL, 0x2000, 0x2000)` returns 0x2000, `cma_get`
returns 0, the first `cma_put` returns 0 and leaves the region as it was, and the second
`cma_put` returns 1 and removes the chunk, as the claim says.  The `free_space` of the
region was 0x1000 and the chunk has the size 0x2000, but the release leaves `free_space`
at 0x4000: it adds the size that the record has after `cma_bf_free` merged it with the
hole in front of it.  The `cma_get` and the `cma_put` that follow find no chunk and run
`WARN` with the address 0x2000 as the format: they return `-ENOENT` only if the warning
can be printed with what is stored at 0x2000, and do not return where no string can be
read there. -/
theorem cma_put_adds_record_size (fmt_ok : Nat → Bool) :
    cma_alloc 32 kmalloc_ok (example_state 0x1000 0x3000) (some ['d']) none 0x2000 0x2000 =
      .ret (.ok 0x2000) example_carved ∧
    cma_get fmt_ok example_carved 0x2000 = .ret 0 example_carved_twice ∧
    cma_put 32 fmt_ok example_carved_twice 0x2000 = .ret 0 example_carved ∧
    cma_put 32 fmt_ok example_carved 0x2000 = .ret 1 example_released ∧
    example_carved.cma_chunks_by_start = [⟨0x2000, 0x2000, 0, 1⟩] ∧
    example_carved.cma_regions.map (fun r => r.free_space) = [0x1000] ∧
    example_released.cma_regions.map (fun r => r.free_space) = [0x4000] ∧
    example_released.cma_regions.map (fun r => r.free_space) ≠
      example_carved.cma_regions.map (fun r => r.free_space + 0x2000) ∧
    cma_get fmt_ok example_released 0x2000 =
      (if WARN fmt_ok true 0x2000 then .ret (-ENOENT) example_released else .oops) ∧
    cma_put 32 fmt_ok example_released 0x2000 =
      (if WARN fmt_ok true 0x2000 then .ret (-ENOENT) example_released else .oops) ∧
    cma_get (fun _ => false) example_released 0x2000 = .oops ∧
    cma_put 32 (fun _ => false) example_released 0x2000 = .oops :=
  ⟨rfl, rfl, rfl, rfl, rfl, rfl, rfl, by decide,
    cma_get_not_found fmt_ok _ 0x2000 rfl rfl, cma_put_not_found 32 fmt_ok _ 0x2000 rfl rfl,
    rfl, rfl⟩

/-! ## The round trip where the alignment computation wraps around -/

/-- C5, the code at a failing input.  `unsigned long` has 32 bits; the only region has two
pages at 0x80001000 and is one hole.  `cma_alloc(dev, NULL, 0x1000, 0x80000000)` returns
the address 0, and `cma_put(0)` returns 1.  The holes of the region are now
[0, 0x80003000) and [0x80001000, 0xfffff000). -/
theorem cma_alloc_put_changes_holes (fmt_ok : Nat → Bool) :
    cma_fresh 32 (example_state 0x80001000 0x2000) ∧
    (cma_alloc 32 kmalloc_ok (example_state 0x80001000 0x2000) (some ['d']) none
      0x1000 0x80000000).value? = some (.ok 0) ∧
    ((cma_alloc 32 kmalloc_ok (example_state 0x80001000 0x2000) (some ['d']) none
      0x1000 0x80000000).state?.bind (fun st1 => (cma_put 32 fmt_ok st1 0).value?)) = some 1 ∧
    ((cma_alloc 32 kmalloc_ok (example_state 0x80001000 0x2000) (some ['d']) none
      0x1000 0x80000000).state?.bind (fun st1 => (cma_put 32 fmt_ok st1 0).state?)).map
        region_holes = some [[⟨0, 0x80003000⟩, ⟨0x80001000, 0x7FFFF000⟩]] ∧
    region_holes (example_state 0x80001000 0x2000) = [[⟨0x80001000, 0x2000⟩]] :=
  ⟨example_state_fresh 32 0x80001000 0x2000 (by decide), rfl, rfl, rfl, rfl⟩

/-! ## The fuel of the loop of `__cma_alloc_do` -/

theorem strchr_length (s e : List Char) (c : Char) (h : strchr s c = some e) :
    e ≠ [] ∧ e.length ≤ s.length := by
  induction s with
  | nil => simp [strchr] at h
  | cons x rest ih =>
    unfold strchr at h
    split at h
    · simp only [Option.some.injEq] at h
      subst h
      exact ⟨by simp, le_refl _⟩
    · obtain ⟨h1, h2⟩ := ih h
      exact ⟨h1, by simp; omega⟩

theorem alloc_do_pass_congr (w : Nat) (km_item km_next : Bool) (size alignment : Nat)
    (next1 next2 : cma_state → List Char → outcome (Option cma_chunk))
    (st : cma_state) (from_ : List Char)
    (h : ∀ st1 e, strchr from_ ',' = some e → next1 st1 e.tail = next2 st1 e.tail) :
    __cma_alloc_do_pass w km_item km_next size alignment next1 st from_ =
      __cma_alloc_do_pass w km_item km_next size alignment next2 st from_ := by
  simp only [__cma_alloc_do_pass]
  cases hs : strchr from_ ',' with
  | none => rfl
  | some e =>
    have h1 : ∀ st1, next1 st1 e.tail = next2 st1 e.tail := fun st1 => h st1 e hs
    simp only [h1]

/-- The result of the loop of `__cma_alloc_do` does not depend on the fuel, once the fuel
is above the length of `from`: the fuel is never used up. -/
theorem alloc_do_loop_fuel (w : Nat) (km : Nat → Bool × Bool) (size alignment : Nat) :
    ∀ (fuel1 fuel2 n : Nat) (st : cma_state) (from_ : List Char),
      from_.length < fuel1 → from_.length < fuel2 →
      __cma_alloc_do_loop w km size alignment fuel1 n st from_ =
        __cma_alloc_do_loop w km size alignment fuel2 n st from_ := by
  intro fuel1
  induction fuel1 with
  | zero => intro fuel2 n st from_ h; exact absurd h (Nat.not_lt_zero _)
  | succ fuel1 ih =>
    intro fuel2 n st from_ h1 h2
    cases fuel2 with
    | zero => exact absurd h2 (Nat.not_lt_zero _)
    | succ fuel2 =>
      rw [__cma_alloc_do_loop, __cma_alloc_do_loop]
      split
      · rfl
      · refine alloc_do_pass_congr w _ _ size alignment _ _ st from_ ?_
        intro st1 e he
        obtain ⟨hne, hlen⟩ := strchr_length from_ e ',' he
        have ht : e.tail.length < e.length := by
          cases e with
          | nil => exact absurd rfl hne
          | cons x r => simp
        exact ih fuel2 (n + 1) st1 e.tail (by omega) (by omega)

/-! ## `ALIGN` where the sum does not wrap around -/

theorem land_high_mask (w k y : Nat) (hk : k ≤ w) (hy : y < 2 ^ w) :
    y &&& (2 ^ w - 2 ^ k) = 2 ^ k * (y / 2 ^ k) := by
  have hm : 2 ^ w - 2 ^ k = 2 ^ k * (2 ^ (w - k) - 1) := by
    rw [Nat.mul_sub, ← Nat.pow_add, Nat.add_sub_cancel' hk, Nat.mul_one]
  apply Nat.eq_of_testBit_eq
  intro i
  rw [Nat.testBit_and, hm, Nat.testBit_mul_pow_two, Nat.testBit_mul_pow_two,
    Nat.testBit_two_pow_sub_one, ← Nat.shiftRight_eq_div_pow, Nat.testBit_shiftRight]
  by_cases hik : k ≤ i
  · have e : k + (i - k) = i := by omega
    rw [e]
    by_cases hiw : i < w
    · have : i - k < w - k := by omega
      simp [hik, this]
    · have hlt : y < 2 ^ i :=
        lt_of_lt_of_le hy (Nat.pow_le_pow_right (by decide) (by omega))
      simp [Nat.testBit_lt_two_pow hlt]
  · simp [hik]

theorem usub_one_pow (w k : Nat) (hk : k < w) : usub w (2 ^ k) 1 = 2 ^ k - 1 := by
  have h1 : 2 ^ k < 2 ^ w := Nat.pow_lt_pow_right (by decide) hk
  have h2 : 0 < 2 ^ k := Nat.two_pow_pos k
  exact usub_of_le w _ _ h2 h1

theorem ALIGN_eq (w k x : Nat) (hk : k < w) (hx : x + (2 ^ k - 1) < 2 ^ w) :
    ALIGN w x (2 ^ k) = 2 ^ k * ((x + (2 ^ k - 1)) / 2 ^ k) := by
  have h1 : 2 ^ k < 2 ^ w := Nat.pow_lt_pow_right (by decide) hk
  have h2 : 0 < 2 ^ k := Nat.two_pow_pos k
  unfold ALIGN
  rw [usub_one_pow w k hk, uadd_of_lt w _ _ hx]
  have h3 : unot w (2 ^ k - 1) = 2 ^ w - 2 ^ k := by
    unfold unot
    rw [Nat.mod_eq_of_lt (by omega)]
    omega
  rw [h3]
  exact land_high_mask w k _ (le_of_lt hk) hx

/-- Where `x + (a - 1)` fits in an `unsigned long`, `ALIGN(x, a)` is the least multiple of
the power of two `a` that is not below `x`. -/
theorem ALIGN_spec (w k x : Nat) (hk : k < w) (hx : x + (2 ^ k - 1) < 2 ^ w) :
    x ≤ ALIGN w x (2 ^ k) ∧ ALIGN w x (2 ^ k) < x + 2 ^ k ∧ ALIGN w x (2 ^ k) % 2 ^ k = 0 := by
  have h2 : 0 < 2 ^ k := Nat.two_pow_pos k
  rw [ALIGN_eq w k x hk hx]
  have hdm := Nat.div_add_mod (x + (2 ^ k - 1)) (2 ^ k)
  have hml := Nat.mod_lt (x + (2 ^ k - 1)) h2
  refine ⟨by omega, by omega, Nat.mul_mod_right _ _⟩

theorem cma_bf_alloc_chunk_fits (w : Nat) (prv prv1 : cma_bf_private) (c : cma_bf_item)
    (size alignment : Nat) (km_item km_next : Bool)
    (hc : cma_bf_alloc w prv size alignment km_item km_next = .chunk c prv1) :
    ∃ hole, cma_bf_alloc_first size prv.by_size_root = some hole ∧
      ALIGN w hole.start alignment < uadd w hole.start hole.size ∧
      size ≤ usub w (uadd w hole.start hole.size) (ALIGN w hole.start alignment) ∧
      __cma_bf_hole_take w prv hole size alignment km_item km_next = .chunk c prv1 := by
  unfold cma_bf_alloc at hc
  split at hc
  · simp at hc
  · rename_i item hitem
    simp only at hc
    split at hc
    · rename_i hfit
      exact ⟨item, hitem, hfit.1, hfit.2, hc⟩
    · simp at hc

/-- Where neither the end of the hole nor `ALIGN` wraps around, the chunk that
`__cma_bf_hole_take` takes from a hole that passed the test of `cma_bf_alloc` starts on a
multiple of the alignment, has the requested size and lies inside the hole. -/
theorem hole_take_aligned (w k : Nat) (prv prv1 : cma_bf_private) (hole c : cma_bf_item)
    (size : Nat) (km_item km_next : Bool) (hk : k < w)
    (hend : hole.start + hole.size < 2 ^ w) (hal : hole.start + (2 ^ k - 1) < 2 ^ w)
    (hfit1 : ALIGN w hole.start (2 ^ k) < uadd w hole.start hole.size)
    (hfit2 : size ≤ usub w (uadd w hole.start hole.size) (ALIGN w hole.start (2 ^ k)))
    (h : __cma_bf_hole_take w prv hole size (2 ^ k) km_item km_next = .chunk c prv1) :
    c.start % 2 ^ k = 0 ∧ c.size = size ∧ hole.start ≤ c.start ∧
      c.start + c.size ≤ hole.start + hole.size := by
  obtain ⟨ha1, ha2, ha3⟩ := ALIGN_spec w k hole.start hk hal
  rw [uadd_of_lt w _ _ hend] at hfit1 hfit2
  rw [usub_of_le w _ _ (le_of_lt hfit1) hend] at hfit2
  have hsz := hole_take_size _ _ _ _ _ _ _ _ _ h
  refine ⟨?_, hsz, ?_⟩
  · unfold __cma_bf_hole_take at h
    split at h
    · rename_i hsize
      simp only [bf_result.chunk.injEq] at h
      rw [← h.1]
      have : ALIGN w hole.start (2 ^ k) = hole.start := by omega
      rw [← this]
      exact ha3
    · split at h
      · simp at h
      · simp only at h
        split at h
        · split at h
          · rename_i hleft
            simp only [__cma_bf_hole_take_case_2, bf_result.chunk.injEq] at h
            rw [← h.1]
            simp only
            rw [uadd_of_lt w _ _ hend, uadd_of_lt w (ALIGN w hole.start (2 ^ k)) size
              (by omega)] at hleft ⊢
            rw [usub_of_le w _ _ (by omega) hend] at hleft ⊢
            rw [uadd_of_lt w _ _ (by omega)]
            exact (Nat.dvd_iff_mod_eq_zero).1
              (Nat.dvd_add (Nat.dvd_of_mod_eq_zero ha3) (Nat.dvd_of_mod_eq_zero hleft))
          · split at h
            · simp at h
            · simp only [__cma_bf_hole_take_case_2, bf_result.chunk.injEq] at h
              rw [← h.1]
              exact ha3
        · simp only [__cma_bf_hole_take_case_2, bf_result.chunk.injEq] at h
          rw [← h.1]
          exact ha3
  · unfold __cma_bf_hole_take at h
    split at h
    · simp only [bf_result.chunk.injEq] at h
      rw [← h.1]
      exact ⟨le_refl _, le_refl _⟩
    · split at h
      · simp at h
      · simp only at h
        split at h
        · split at h
          · simp only [__cma_bf_hole_take_case_2, bf_result.chunk.injEq] at h
            rw [← h.1]
            simp only
            rw [uadd_of_lt w _ _ hend, uadd_of_lt w (ALIGN w hole.start (2 ^ k)) size
              (by omega)]
            rw [usub_of_le w _ _ (by omega) hend]
            rw [uadd_of_lt w _ _ (by omega)]
            omega
          · split at h
            · simp at h
            · simp only [__cma_bf_hole_take_case_2, bf_result.chunk.injEq] at h
              rw [← h.1]
              simp only
              omega
        · simp only [__cma_bf_hole_take_case_2, bf_result.chunk.injEq] at h
          rw [← h.1]
          simp only
          omega

/-- Where no hole of the region has an end or an `ALIGN` that wraps around, every chunk
that `cma_bf_alloc` returns starts on a multiple of the alignment, has exactly the
requested size, and lies inside a hole of the region. -/
theorem cma_bf_alloc_aligned_of_no_wrap (w k : Nat) (prv prv1 : cma_bf_private)
    (c : cma_bf_item) (size : Nat) (km_item km_next : Bool) (hk : k < w)
    (hnw : ∀ h ∈ prv.by_size_root, h.start + h.size < 2 ^ w ∧ h.start + (2 ^ k - 1) < 2 ^ w)
    (h : cma_bf_alloc w prv size (2 ^ k) km_item km_next = .chunk c prv1) :
    c.start % 2 ^ k = 0 ∧ c.size = size ∧
      ∃ hole ∈ prv.by_size_root, hole.start ≤ c.start ∧
        c.start + c.size ≤ hole.start + hole.size := by
  obtain ⟨hole, hfirst, hfit1, hfit2, htake⟩ := cma_bf_alloc_chunk_fits _ _ _ _ _ _ _ _ h
  have hmem := alloc_first_mem _ _ _ hfirst
  obtain ⟨h1, h2⟩ := hnw hole hmem
  obtain ⟨r1, r2, r3, r4⟩ :=
    hole_take_aligned w k prv prv1 hole c size km_item km_next hk h1 h2 hfit1 hfit2 htake
  exact ⟨r1, r2, hole, hmem, r3, r4⟩

/-! ## What `__cma_bf_hole_take` does where nothing wraps around -/

/-- The four outcomes of `__cma_bf_hole_take` on the by-start tree, for a hole with end
below `2 ^ w` and an aligned start `ALIGN(hole.start, alignment)` that lies in the hole
with room for `size` bytes: the chunk is the whole hole; or it is cut from the low edge;
or from the high edge (also when it is shifted there); or from the middle, which splits
the hole. -/
theorem hole_take_result (w : Nat) (prv prv1 : cma_bf_private) (hole c : cma_bf_item)
    (size alignment : Nat) (km_item km_next : Bool)
    (hend : hole.start + hole.size < 2 ^ w)
    (hA1 : hole.start ≤ ALIGN w hole.start alignment)
    (hA2 : ALIGN w hole.start alignment + size ≤ hole.start + hole.size)
    (h : __cma_bf_hole_take w prv hole size alignment km_item km_next = .chunk c prv1) :
    (size = hole.size ∧ c = hole ∧
      prv1.by_start_root = prv.by_start_root.erase hole) ∨
    (size < hole.size ∧ ALIGN w hole.start alignment = hole.start ∧
      c = ⟨hole.start, size⟩ ∧
      prv1.by_start_root =
        record_assign hole ⟨hole.start + size, hole.size - size⟩ prv.by_start_root) ∨
    (size < hole.size ∧ ALIGN w hole.start alignment ≠ hole.start ∧
      (hole.start + hole.size - (ALIGN w hole.start alignment + size)) % alignment = 0 ∧
      c = ⟨hole.start + hole.size - size, size⟩ ∧
      prv1.by_start_root =
        record_assign hole ⟨hole.start, hole.size - size⟩ prv.by_start_root) ∨
    (ALIGN w hole.start alignment ≠ hole.start ∧
      ALIGN w hole.start alignment + size < hole.start + hole.size ∧
      (hole.start + hole.size - (ALIGN w hole.start alignment + size)) % alignment ≠ 0 ∧
      c = ⟨ALIGN w hole.start alignment, size⟩ ∧
      prv1.by_start_root =
        record_assign hole
          ⟨hole.start, ALIGN w hole.start alignment - hole.start⟩
          (__CMA_BF_HOLE_INSERT cma_bf_item.start prv.by_start_root
            ⟨ALIGN w hole.start alignment + size,
             hole.start + hole.size - (ALIGN w hole.start alignment + size)⟩)) := by
  have hsz : size ≤ hole.size := by omega
  have hE : uadd w hole.start hole.size = hole.start + hole.size := uadd_of_lt w _ _ hend
  have hAs : uadd w (ALIGN w hole.start alignment) size =
      ALIGN w hole.start alignment + size := uadd_of_lt w _ _ (by omega)
  unfold __cma_bf_hole_take at h
  split at h
  · rename_i hsize
    simp only [bf_result.chunk.injEq] at h
    left
    refine ⟨hsize, h.1.symm, ?_⟩
    rw [← h.2]
    rfl
  · rename_i hsize
    have hlt : size < hole.size := by omega
    split at h
    · simp at h
    · simp only at h
      rw [hE, hAs] at h
      have hleft : usub w (hole.start + hole.size) (ALIGN w hole.start alignment + size) =
          hole.start + hole.size - (ALIGN w hole.start alignment + size) :=
        usub_of_le w _ _ hA2 hend
      rw [hleft] at h
      split at h
      · rename_i hmid
        split at h
        · rename_i hmod
          -- shifted to the high edge
          right; right; left
          simp only [__cma_bf_hole_take_case_2, bf_result.chunk.injEq] at h
          have hshift : uadd w (ALIGN w hole.start alignment)
              (hole.start + hole.size - (ALIGN w hole.start alignment + size)) =
              hole.start + hole.size - size := by
            rw [uadd_of_lt w _ _ (by omega)]
            omega
          rw [hshift] at h
          have hne : ¬ hole.start + hole.size - size = hole.start := by omega
          rw [if_neg hne] at h
          refine ⟨hlt, hmid.1, hmod, h.1.symm, ?_⟩
          rw [← h.2, usub_of_le w _ _ hsz (by omega)]
          rfl
        · rename_i hmod
          split at h
          · simp at h
          · -- split
            right; right; right
            simp only [__cma_bf_hole_take_case_2, bf_result.chunk.injEq] at h
            rw [if_neg hmid.1] at h
            have h1 : usub w (ALIGN w hole.start alignment + size) hole.start =
                ALIGN w hole.start alignment + size - hole.start :=
              usub_of_le w _ _ (by omega) (by omega)
            rw [h1] at h
            have h2 : usub w (ALIGN w hole.start alignment + size - hole.start) size =
                ALIGN w hole.start alignment - hole.start := by
              rw [usub_of_le w _ _ (by omega) (by omega)]
              omega
            rw [h2] at h
            refine ⟨hmid.1, by omega, hmod, h.1.symm, ?_⟩
            rw [← h.2]
            rfl
      · rename_i hmid
        simp only [__cma_bf_hole_take_case_2, bf_result.chunk.injEq] at h
        by_cases hlow : ALIGN w hole.start alignment = hole.start
        · right; left
          rw [if_pos hlow] at h
          refine ⟨hlt, hlow, ?_, ?_⟩
          · rw [← h.1, hlow]
          · rw [← h.2, uadd_of_lt w _ _ (by omega), usub_of_le w _ _ hsz (by omega)]
            rfl
        · right; right; left
          rw [if_neg hlow] at h
          have hhigh : ALIGN w hole.start alignment + size = hole.start + hole.size := by
            by_contra hc
            exact hmid ⟨hlow, hc⟩
          refine ⟨hlt, hlow, ?_, ?_, ?_⟩
          · rw [hhigh]
            simp
          · rw [← h.1]
            have : ALIGN w hole.start alignment = hole.start + hole.size - size := by omega
            rw [this]
          · rw [← h.2, usub_of_le w _ _ hsz (by omega)]
            rfl

/-! ## Counting the records that hold an address -/

theorem cover_cons (x : cma_bf_item) (l : List cma_bf_item) (addr : Nat) :
    cover_count (x :: l) addr =
      (if item_contains x addr then 1 else 0) + cover_count l addr := by
  unfold cover_count
  by_cases h : item_contains x addr
  · simp [List.filter_cons, h]
    omega
  · simp [List.filter_cons, h]

theorem cover_perm (l1 l2 : List cma_bf_item) (addr : Nat) (h : l1.Perm l2) :
    cover_count l1 addr = cover_count l2 addr := by
  unfold cover_count
  exact List.Perm.length_eq (List.Perm.filter _ h)

theorem cover_erase (l : List cma_bf_item) (x : cma_bf_item) (addr : Nat) (h : x ∈ l) :
    cover_count (l.erase x) addr + (if item_contains x addr then 1 else 0) =
      cover_count l addr := by
  rw [cover_perm l (x :: l.erase x) addr (List.perm_cons_erase h), cover_cons]
  omega

theorem cover_assign (l : List cma_bf_item) (old new : cma_bf_item) (addr : Nat)
    (h : old ∈ l) :
    cover_count (record_assign old new l) addr + (if item_contains old addr then 1 else 0) =
      cover_count l addr + (if item_contains new addr then 1 else 0) := by
  rw [cover_perm _ _ addr (record_assign_perm old new l h), cover_cons]
  have := cover_erase l old addr h
  omega

theorem cover_insert (field : cma_bf_item → Nat) (l : List cma_bf_item) (x : cma_bf_item)
    (addr : Nat) :
    cover_count (__CMA_BF_HOLE_INSERT field l x) addr =
      (if item_contains x addr then 1 else 0) + cover_count l addr := by
  rw [cover_perm _ _ addr (hole_insert_perm field l x), cover_cons]

theorem cover_zero_of_not_mem (l : List cma_bf_item) (addr : Nat)
    (h : ∀ x ∈ l, ¬ item_contains x addr) : cover_count l addr = 0 := by
  induction l with
  | nil => rfl
  | cons x l ih =>
    rw [cover_cons, if_neg (h x (List.mem_cons_self _ _)),
      ih (fun y hy => h y (List.mem_cons_of_mem _ hy))]

theorem cover_pos_of_mem (l : List cma_bf_item) (x : cma_bf_item) (addr : Nat)
    (hx : x ∈ l) (h : item_contains x addr) : 0 < cover_count l addr := by
  have := cover_erase l x addr hx
  rw [if_pos h] at this
  omega

/-! ## The by-start tree around one hole -/

theorem holes_split (l : List cma_bf_item) (h : cma_bf_item) (hl : holes_ordered l)
    (hh : h ∈ l) :
    ∃ pre post, l = pre ++ h :: post ∧ holes_ordered pre ∧ holes_ordered post ∧
      (∀ a ∈ pre, a.start + a.size < h.start) ∧ (∀ b ∈ post, h.start + h.size < b.start) ∧
      (∀ a ∈ pre, ∀ b ∈ post, a.start + a.size < b.start) := by
  obtain ⟨pre, post, rfl⟩ := List.append_of_mem hh
  unfold holes_ordered at hl
  rw [List.pairwise_append] at hl
  obtain ⟨h1, h2, h3⟩ := hl
  rw [List.pairwise_cons] at h2
  exact ⟨pre, post, rfl, h1, h2.2, fun a ha => h3 a ha h (List.mem_cons_self _ _), h2.1,
    fun a ha b hb => h3 a ha b (List.mem_cons_of_mem _ hb)⟩

theorem holes_join (pre post : List cma_bf_item) (x : cma_bf_item)
    (h1 : holes_ordered pre) (h2 : holes_ordered post)
    (h3 : ∀ a ∈ pre, a.start + a.size < x.start) (h4 : ∀ b ∈ post, x.start + x.size < b.start)
    (h5 : ∀ a ∈ pre, ∀ b ∈ post, a.start + a.size < b.start) :
    holes_ordered (pre ++ x :: post) := by
  unfold holes_ordered
  rw [List.pairwise_append]
  refine ⟨h1, List.Pairwise.cons h4 h2, ?_⟩
  intro a ha b hb
  rcases List.mem_cons.1 hb with rfl | hb
  · exact h3 a ha
  · exact h5 a ha b hb

theorem holes_join_nil (pre post : List cma_bf_item)
    (h1 : holes_ordered pre) (h2 : holes_ordered post)
    (h5 : ∀ a ∈ pre, ∀ b ∈ post, a.start + a.size < b.start) :
    holes_ordered (pre ++ post) := by
  unfold holes_ordered
  rw [List.pairwise_append]
  exact ⟨h1, h2, h5⟩

theorem item_assign_split (pre post : List cma_bf_item) (h h1 : cma_bf_item)
    (hpre : ∀ a ∈ pre, a ≠ h) :
    record_assign h h1 (pre ++ h :: post) = pre ++ h1 :: post := by
  induction pre with
  | nil => simp [record_assign]
  | cons x pre ih =>
    have hx : x ≠ h := hpre x (List.mem_cons_self _ _)
    have ih1 := ih (fun y hy => hpre y (List.mem_cons_of_mem _ hy))
    simp only [List.cons_append, record_assign, if_neg hx]
    exact congrArg (fun l => x :: l) ih1

theorem item_erase_split (pre post : List cma_bf_item) (h : cma_bf_item)
    (hpre : ∀ a ∈ pre, a ≠ h) : (pre ++ h :: post).erase h = pre ++ post := by
  induction pre with
  | nil => simp
  | cons x pre ih =>
    have hx : x ≠ h := hpre x (List.mem_cons_self _ _)
    rw [List.cons_append, List.erase_cons_tail (by simpa using hx),
      ih (fun y hy => hpre y (List.mem_cons_of_mem _ hy))]
    rfl

theorem item_insert_split (pre post : List cma_bf_item) (x : cma_bf_item)
    (hpre : ∀ a ∈ pre, a.start < x.start) (hpost : ∀ b ∈ post.head?, x.start ≤ b.start) :
    __CMA_BF_HOLE_INSERT cma_bf_item.start (pre ++ post) x = pre ++ x :: post := by
  induction pre with
  | nil =>
    cases post with
    | nil => rfl
    | cons b post =>
      have hb : x.start ≤ b.start := hpost b (by simp)
      simp [__CMA_BF_HOLE_INSERT, hb]
  | cons a pre ih =>
    have ha : ¬ x.start ≤ a.start := by
      have := hpre a (List.mem_cons_self _ _)
      omega
    have ih1 := ih (fun y hy => hpre y (List.mem_cons_of_mem _ hy))
    simp only [List.cons_append, __CMA_BF_HOLE_INSERT, if_neg ha]
    exact congrArg (fun l => a :: l) ih1

/-! ## `cma_bf_alloc` keeps the region well formed where nothing wraps around -/

theorem pre_ne_of_ordered (pre : List cma_bf_item) (h : cma_bf_item)
    (hpre : ∀ a ∈ pre, a.start + a.size < h.start) : ∀ a ∈ pre, a ≠ h := by
  intro a ha heq
  have := hpre a ha
  rw [heq] at this
  omega

theorem wf_take_all (w reg_start reg_size : Nat) (prv prv1 : cma_bf_private)
    (live : List cma_bf_item) (hole : cma_bf_item)
    (hwf : bf_wf w reg_start reg_size prv live) (hmem : hole ∈ prv.by_start_root)
    (hsame : same_records prv1)
    (hres : prv1.by_start_root = prv.by_start_root.erase hole) :
    bf_wf w reg_start reg_size prv1 (hole :: live) := by
  obtain ⟨h1, h2, h3, h4, h5, _⟩ := hwf
  refine ⟨h1, ?_, ?_, ?_, ?_, hsame⟩
  · rw [hres]
    exact List.Pairwise.sublist (List.erase_sublist _ _) h2
  · intro x hx
    rw [hres] at hx
    exact h3 x (List.mem_of_mem_erase hx)
  · intro x hx
    rcases List.mem_cons.1 hx with rfl | hx
    · exact h3 _ hmem
    · exact h4 x hx
  · intro addr ha hb
    have := h5 addr ha hb
    have he := cover_erase prv.by_start_root hole addr hmem
    rw [hres, cover_cons]
    omega

theorem wf_take_edge (w reg_start reg_size : Nat) (prv prv1 : cma_bf_private)
    (live : List cma_bf_item) (hole hole2 c : cma_bf_item)
    (hwf : bf_wf w reg_start reg_size prv live) (hmem : hole ∈ prv.by_start_root)
    (hsame : same_records prv1)
    (hres : prv1.by_start_root = record_assign hole hole2 prv.by_start_root)
    (hpos : 0 < hole2.size ∧ 0 < c.size)
    (hsub : hole.start ≤ hole2.start ∧ hole2.start + hole2.size ≤ hole.start + hole.size)
    (hcsub : hole.start ≤ c.start ∧ c.start + c.size ≤ hole.start + hole.size)
    (hpart : ∀ addr, (if item_contains hole addr then 1 else 0) =
      (if item_contains hole2 addr then 1 else 0) + (if item_contains c addr then 1 else 0)) :
    bf_wf w reg_start reg_size prv1 (c :: live) := by
  obtain ⟨h1, h2, h3, h4, h5, _⟩ := hwf
  obtain ⟨hh1, hh2, hh3⟩ := h3 hole hmem
  refine ⟨h1, ?_, ?_, ?_, ?_, hsame⟩
  · obtain ⟨pre, post, hl, o1, o2, o3, o4, o5⟩ := holes_split _ hole h2 hmem
    rw [hres, hl, item_assign_split pre post hole hole2 (pre_ne_of_ordered pre hole o3)]
    refine holes_join pre post hole2 o1 o2 ?_ ?_ o5
    · intro a ha
      have := o3 a ha
      omega
    · intro b hb
      have := o4 b hb
      omega
  · intro x hx
    rw [hres] at hx
    rcases mem_record_assign hole hole2 _ x hx with hx | ⟨hx, _⟩
    · exact h3 x hx
    · rw [hx]
      exact ⟨hpos.1, by omega, by omega⟩
  · intro x hx
    rcases List.mem_cons.1 hx with rfl | hx
    · exact ⟨hpos.2, by omega, by omega⟩
    · exact h4 x hx
  · intro addr ha hb
    have := h5 addr ha hb
    have he := cover_assign prv.by_start_root hole hole2 addr hmem
    have hp := hpart addr
    rw [hres, cover_cons]
    omega

theorem wf_take_split (w reg_start reg_size : Nat) (prv prv1 : cma_bf_private)
    (live : List cma_bf_item) (hole hole2 next c : cma_bf_item)
    (hwf : bf_wf w reg_start reg_size prv live) (hmem : hole ∈ prv.by_start_root)
    (hsame : same_records prv1)
    (hres : prv1.by_start_root =
      record_assign hole hole2
        (__CMA_BF_HOLE_INSERT cma_bf_item.start prv.by_start_root next))
    (hpos : 0 < hole2.size ∧ 0 < c.size ∧ 0 < next.size)
    (hh2 : hole2.start = hole.start ∧ hole2.start + hole2.size = c.start)
    (hnx : next.start = c.start + c.size ∧ next.start + next.size = hole.start + hole.size) :
    bf_wf w reg_start reg_size prv1 (c :: live) := by
  obtain ⟨h1, h2, h3, h4, h5, _⟩ := hwf
  obtain ⟨hh1, hh3, hh4⟩ := h3 hole hmem
  obtain ⟨pre, post, hl, o1, o2, o3, o4, o5⟩ := holes_split _ hole h2 hmem
  have hins : __CMA_BF_HOLE_INSERT cma_bf_item.start prv.by_start_root next =
      pre ++ hole :: next :: post := by
    have e : prv.by_start_root = (pre ++ [hole]) ++ post := by
      rw [hl]
      simp
    rw [e, item_insert_split (pre ++ [hole]) post next]
    · simp
    · intro a ha
      rcases List.mem_append.1 ha with ha | ha
      · have := o3 a ha
        omega
      · simp only [List.mem_singleton] at ha
        rw [ha]
        omega
    · intro b hb
      have := o4 b (List.mem_of_mem_head? hb)
      omega
  have hmem2 : hole ∈ __CMA_BF_HOLE_INSERT cma_bf_item.start prv.by_start_root next :=
    (mem_hole_insert _ _ _ _).2 (Or.inr hmem)
  refine ⟨h1, ?_, ?_, ?_, ?_, hsame⟩
  · rw [hres, hins,
      item_assign_split pre (next :: post) hole hole2 (pre_ne_of_ordered pre hole o3)]
    refine holes_join pre (next :: post) hole2 o1 ?_ ?_ ?_ ?_
    · refine List.Pairwise.cons ?_ o2
      intro b hb
      have := o4 b hb
      omega
    · intro a ha
      have := o3 a ha
      omega
    · intro b hb
      rcases List.mem_cons.1 hb with rfl | hb
      · omega
      · have := o4 b hb
        omega
    · intro a ha b hb
      rcases List.mem_cons.1 hb with rfl | hb
      · have := o3 a ha
        omega
      · exact o5 a ha b hb
  · intro x hx
    rw [hres] at hx
    rcases mem_record_assign hole hole2 _ x hx with hx | ⟨hx, _⟩
    · rcases (mem_hole_insert _ _ _ _).1 hx with hx | hx
      · rw [hx]
        exact ⟨hpos.2.2, by omega, by omega⟩
      · exact h3 x hx
    · rw [hx]
      exact ⟨hpos.1, by omega, by omega⟩
  · intro x hx
    rcases List.mem_cons.1 hx with rfl | hx
    · exact ⟨hpos.2.1, by omega, by omega⟩
    · exact h4 x hx
  · intro addr ha hb
    have := h5 addr ha hb
    have he := cover_assign _ hole hole2 addr hmem2
    have hi := cover_insert cma_bf_item.start prv.by_start_root next addr
    have hpart : (if item_contains hole addr then 1 else 0) =
        (if item_contains hole2 addr then 1 else 0) +
          (if item_contains c addr then 1 else 0) +
          (if item_contains next addr then 1 else 0) := by
      simp only [item_contains]
      split_ifs <;> omega
    rw [hres, cover_cons]
    omega

/-- The partition invariant under carve, where nothing wraps around: when the region and
the alignment leave room below `2 ^ w`, `cma_bf_alloc` takes a well-formed state of the
region to a well-formed state in which the returned chunk is live. -/
theorem cma_bf_alloc_wf (w k reg_start reg_size : Nat) (prv prv1 : cma_bf_private)
    (live : List cma_bf_item) (size : Nat) (km_item km_next : Bool) (c : cma_bf_item)
    (hk : k < w) (hnw : reg_start + reg_size + 2 ^ k ≤ 2 ^ w) (hs : 0 < size)
    (hwf : bf_wf w reg_start reg_size prv live)
    (h : cma_bf_alloc w prv size (2 ^ k) km_item km_next = .chunk c prv1) :
    bf_wf w reg_start reg_size prv1 (c :: live) := by
  obtain ⟨hole, hfirst, hfit1, hfit2, htake⟩ := cma_bf_alloc_chunk_fits _ _ _ _ _ _ _ _ h
  have hsame0 : same_records prv := hwf.2.2.2.2.2
  have hmem : hole ∈ prv.by_start_root :=
    (List.Perm.mem_iff hsame0).2 (alloc_first_mem _ _ _ hfirst)
  obtain ⟨hh1, hh2, hh3⟩ := hwf.2.2.1 hole hmem
  have h2k : 0 < 2 ^ k := Nat.two_pow_pos k
  have hend : hole.start + hole.size < 2 ^ w := by omega
  have hal : hole.start + (2 ^ k - 1) < 2 ^ w := by omega
  obtain ⟨hA1, _, _⟩ := ALIGN_spec w k hole.start hk hal
  rw [uadd_of_lt w _ _ hend] at hfit1 hfit2
  rw [usub_of_le w _ _ (le_of_lt hfit1) hend] at hfit2
  have hA2 : ALIGN w hole.start (2 ^ k) + size ≤ hole.start + hole.size := by omega
  have hsame : same_records prv1 := hole_take_same _ _ _ _ _ _ _ _ _ hsame0 hmem htake
  rcases hole_take_result w prv prv1 hole c size (2 ^ k) km_item km_next hend hA1 hA2 htake
    with ⟨_, hc, hres⟩ | ⟨hlt, hlow, hc, hres⟩ | ⟨hlt, hne, _, hc, hres⟩ |
      ⟨hne, hlt, _, hc, hres⟩
  · rw [hc]
    exact wf_take_all w reg_start reg_size prv prv1 live hole hwf hmem hsame hres
  · refine wf_take_edge w reg_start reg_size prv prv1 live hole _ c hwf hmem hsame hres
      ?_ ?_ ?_ ?_
    · rw [hc]
      exact ⟨by simp only; omega, hs⟩
    · simp only
      omega
    · rw [hc]
      simp only
      omega
    · intro addr
      rw [hc]
      simp only [item_contains]
      split_ifs <;> omega
  · refine wf_take_edge w reg_start reg_size prv prv1 live hole _ c hwf hmem hsame hres
      ?_ ?_ ?_ ?_
    · rw [hc]
      exact ⟨by simp only; omega, hs⟩
    · simp only
      omega
    · rw [hc]
      simp only
      omega
    · intro addr
      rw [hc]
      simp only [item_contains]
      split_ifs <;> omega
  · refine wf_take_split w reg_start reg_size prv prv1 live hole _ _ c hwf hmem hsame hres
      ?_ ?_ ?_
    · rw [hc]
      simp only
      omega
    · rw [hc]
      exact ⟨rfl, by simp only; omega⟩
    · rw [hc]
      exact ⟨rfl, by simp only; omega⟩

/-! ## `cma_bf_free` keeps the region well formed -/

theorem cover_append (l1 l2 : List cma_bf_item) (addr : Nat) :
    cover_count (l1 ++ l2) addr = cover_count l1 addr + cover_count l2 addr := by
  unfold cover_count
  rw [List.filter_append, List.length_append]

theorem rb_prev_head (B : List cma_bf_item) (c : cma_bf_item) : rb_prev (c :: B) c = none := by
  cases B with
  | nil => rfl
  | cons i rest => simp [rb_prev]

theorem rb_prev_split (A B : List cma_bf_item) (p c : cma_bf_item)
    (hA : ∀ a ∈ A, a ≠ c) (hp : p ≠ c) : rb_prev (A ++ p :: c :: B) c = some p := by
  induction A with
  | nil => simp [rb_prev, hp]
  | cons a A ih =>
    have ha : a ≠ c := hA a (List.mem_cons_self _ _)
    have ih1 := ih (fun y hy => hA y (List.mem_cons_of_mem _ hy))
    cases A with
    | nil =>
      simp only [List.cons_append, List.nil_append, rb_prev, if_neg ha, if_neg hp]
      simp
    | cons a1 A =>
      have ha1 : a1 ≠ c := hA a1 (by simp)
      simp only [List.cons_append, rb_prev, if_neg ha, if_neg ha1]
      exact ih1

theorem rb_next_split (A B : List cma_bf_item) (c : cma_bf_item) (hA : ∀ a ∈ A, a ≠ c) :
    rb_next (A ++ c :: B) c = B.head? := by
  induction A with
  | nil => simp [rb_next]
  | cons a A ih =>
    have ha : a ≠ c := hA a (List.mem_cons_self _ _)
    simp only [List.cons_append, rb_next, if_neg ha]
    exact ih (fun y hy => hA y (List.mem_cons_of_mem _ hy))

theorem merge_step_split (w : Nat) (prv : cma_bf_private) (A B : List cma_bf_item)
    (prev item : cma_bf_item)
    (hby : prv.by_start_root = A ++ prev :: item :: B)
    (hA : ∀ a ∈ A, a ≠ prev ∧ a ≠ item)
    (hadj : uadd w prev.start prev.size = item.start) :
    (__cma_bf_hole_merge_step w prv prev item).1.by_start_root =
        A ++ ⟨prev.start, uadd w item.size prev.size⟩ :: B ∧
      (__cma_bf_hole_merge_step w prv prev item).2 =
        ⟨prev.start, uadd w item.size prev.size⟩ := by
  unfold __cma_bf_hole_merge_step
  rw [if_pos hadj]
  simp only [hole_update, __cma_bf_hole_erase_by_start, __cma_bf_hole_erase_by_size, rb_erase,
    hby]
  rw [item_erase_split A (item :: B) prev (fun a ha => (hA a ha).1),
    item_assign_split A B item _ (fun a ha => (hA a ha).2)]
  simp

theorem merge_step_skip (w : Nat) (prv : cma_bf_private) (prev item : cma_bf_item)
    (hadj : uadd w prev.start prev.size ≠ item.start) :
    __cma_bf_hole_merge_step w prv prev item = (prv, item) := by
  unfold __cma_bf_hole_merge_step
  rw [if_neg hadj]

theorem merge_prev_split (w lo hi : Nat) (prv : cma_bf_private) (A B : List cma_bf_item)
    (item : cma_bf_item) (hhi : hi < 2 ^ w)
    (hby : prv.by_start_root = A ++ item :: B)
    (hA : holes_ordered A)
    (hAi : ∀ a ∈ A, a.start + a.size ≤ item.start)
    (hAin : ∀ a ∈ A, 0 < a.size ∧ lo ≤ a.start ∧ a.start + a.size ≤ hi)
    (hin : 0 < item.size ∧ lo ≤ item.start ∧ item.start + item.size ≤ hi) :
    ∃ first : cma_bf_private × cma_bf_item, ∃ A1 : List cma_bf_item,
      ((rb_prev prv.by_start_root item = none ∧ first = (prv, item)) ∨
        ∃ p, rb_prev prv.by_start_root item = some p ∧
          first = __cma_bf_hole_merge_step w prv p item) ∧
      first.1.by_start_root = A1 ++ first.2 :: B ∧
      holes_ordered A1 ∧
      (∀ a ∈ A1, a.start + a.size < first.2.start) ∧
      (∀ a ∈ A1, 0 < a.size ∧ lo ≤ a.start ∧ a.start + a.size ≤ hi) ∧
      (0 < first.2.size ∧ lo ≤ first.2.start ∧ first.2.start + first.2.size ≤ hi) ∧
      first.2.start + first.2.size = item.start + item.size ∧
      (∀ addr, cover_count (A1 ++ [first.2]) addr = cover_count (A ++ [item]) addr) := by
  rcases List.eq_nil_or_concat A with rfl | ⟨A1, p, hcat⟩
  · refine ⟨(prv, item), [], Or.inl ⟨?_, rfl⟩, hby, List.Pairwise.nil, ?_, ?_, hin, rfl,
      fun _ => rfl⟩
    · rw [hby]
      exact rb_prev_head B item
    · intro a ha
      simp at ha
    · intro a ha
      simp at ha
  · rw [List.concat_eq_append] at hcat
    subst hcat
    have hpA : p ∈ A1 ++ [p] := by simp
    obtain ⟨hp1, hp2, hp3⟩ := hAin p hpA
    have hpi := hAi p hpA
    unfold holes_ordered at hA
    rw [List.pairwise_append] at hA
    obtain ⟨hA1, _, hA3⟩ := hA
    have hA1p : ∀ a ∈ A1, a.start + a.size < p.start :=
      fun a ha => hA3 a ha p (List.mem_singleton_self p)
    have hA1in : ∀ a ∈ A1, 0 < a.size ∧ lo ≤ a.start ∧ a.start + a.size ≤ hi :=
      fun a ha => hAin a (List.mem_append_left _ ha)
    have hne : ∀ a ∈ A1, a ≠ p ∧ a ≠ item := by
      intro a ha
      have h1 := hA1p a ha
      refine ⟨?_, ?_⟩
      · intro e
        rw [e] at h1
        omega
      · intro e
        rw [e] at h1
        omega
    have hpne : p ≠ item := by
      intro e
      rw [e] at hpi
      omega
    have hby1 : prv.by_start_root = A1 ++ p :: item :: B := by
      rw [hby]
      simp
    have hprev : rb_prev prv.by_start_root item = some p := by
      rw [hby1]
      exact rb_prev_split A1 B p item (fun a ha => (hne a ha).2) hpne
    have hu : uadd w p.start p.size = p.start + p.size := uadd_of_lt w _ _ (by omega)
    by_cases hadj : p.start + p.size = item.start
    · obtain ⟨e1, e2⟩ := merge_step_split w prv A1 B p item hby1 hne (by rw [hu]; exact hadj)
      have hs : uadd w item.size p.size = item.size + p.size := uadd_of_lt w _ _ (by omega)
      rw [hs] at e1 e2
      refine ⟨__cma_bf_hole_merge_step w prv p item, A1, Or.inr ⟨p, hprev, rfl⟩, ?_, hA1, ?_,
        hA1in, ?_, ?_, ?_⟩
      · rw [e1, e2]
      · rw [e2]
        exact hA1p
      · rw [e2]
        simp only
        omega
      · rw [e2]
        simp only
        omega
      · intro addr
        have h0 : cover_count [] addr = 0 := rfl
        rw [e2, cover_append, cover_append, cover_append, cover_cons, cover_cons, cover_cons]
        simp only [item_contains]
        split_ifs <;> omega
    · have e : __cma_bf_hole_merge_step w prv p item = (prv, item) :=
        merge_step_skip w prv p item (by rw [hu]; exact hadj)
      refine ⟨__cma_bf_hole_merge_step w prv p item, A1 ++ [p], Or.inr ⟨p, hprev, rfl⟩, ?_, ?_,
        ?_, hAin, ?_, ?_, ?_⟩
      · rw [e]
        exact hby
      · unfold holes_ordered
        rw [List.pairwise_append]
        exact ⟨hA1, List.pairwise_singleton _ _, hA3⟩
      · rw [e]
        intro a ha
        rcases List.mem_append.1 ha with ha | ha
        · have := hA1p a ha
          simp only
          omega
        · simp only [List.mem_singleton] at ha
          rw [ha]
          simp only
          omega
      · rw [e]
        exact hin
      · rw [e]
      · intro addr
        rw [e]

theorem merge_next_split (w lo hi : Nat) (prv : cma_bf_private) (A B : List cma_bf_item)
    (item : cma_bf_item) (hhi : hi < 2 ^ w)
    (hby : prv.by_start_root = A ++ item :: B)
    (hB : holes_ordered B)
    (hAi : ∀ a ∈ A, a.start + a.size < item.start)
    (hBi : ∀ b ∈ B, item.start + item.size ≤ b.start)
    (hBin : ∀ b ∈ B, 0 < b.size ∧ lo ≤ b.start ∧ b.start + b.size ≤ hi)
    (hin : 0 < item.size ∧ lo ≤ item.start ∧ item.start + item.size ≤ hi) :
    ∃ res : cma_bf_private, ∃ item1 : cma_bf_item, ∃ B1 : List cma_bf_item,
      ((rb_next prv.by_start_root item = none ∧ res = prv) ∨
        ∃ n, rb_next prv.by_start_root item = some n ∧
          res = (__cma_bf_hole_merge_step w prv item n).1) ∧
      res.by_start_root = A ++ item1 :: B1 ∧
      holes_ordered B1 ∧
      item1.start = item.start ∧
      (∀ b ∈ B1, item1.start + item1.size < b.start) ∧
      (∀ b ∈ B1, 0 < b.size ∧ lo ≤ b.start ∧ b.start + b.size ≤ hi) ∧
      (0 < item1.size ∧ lo ≤ item1.start ∧ item1.start + item1.size ≤ hi) ∧
      (∀ addr, cover_count (item1 :: B1) addr = cover_count (item :: B) addr) := by
  have hAne : ∀ a ∈ A, a ≠ item := by
    intro a ha e
    have := hAi a ha
    rw [e] at this
    omega
  cases B with
  | nil =>
    refine ⟨prv, item, [], Or.inl ⟨?_, rfl⟩, hby, List.Pairwise.nil, rfl, ?_, ?_, hin,
      fun _ => rfl⟩
    · rw [hby, rb_next_split A [] item hAne]
      rfl
    · intro b hb
      simp at hb
    · intro b hb
      simp at hb
  | cons n B1 =>
    obtain ⟨hn1, hn2, hn3⟩ := hBin n (List.mem_cons_self _ _)
    have hni := hBi n (List.mem_cons_self _ _)
    unfold holes_ordered at hB
    rw [List.pairwise_cons] at hB
    obtain ⟨hB1, hB2⟩ := hB
    have hB1in : ∀ b ∈ B1, 0 < b.size ∧ lo ≤ b.start ∧ b.start + b.size ≤ hi :=
      fun b hb => hBin b (List.mem_cons_of_mem _ hb)
    have hnext : rb_next prv.by_start_root item = some n := by
      rw [hby, rb_next_split A (n :: B1) item hAne]
      rfl
    have hu : uadd w item.start item.size = item.start + item.size :=
      uadd_of_lt w _ _ (by omega)
    have hne : ∀ a ∈ A, a ≠ item ∧ a ≠ n := by
      intro a ha
      refine ⟨hAne a ha, ?_⟩
      intro e
      have := hAi a ha
      rw [e] at this
      omega
    by_cases hadj : item.start + item.size = n.start
    · obtain ⟨e1, _⟩ := merge_step_split w prv A B1 item n hby hne (by rw [hu]; exact hadj)
      have hs : uadd w n.size item.size = n.size + item.size := uadd_of_lt w _ _ (by omega)
      rw [hs] at e1
      refine ⟨(__cma_bf_hole_merge_step w prv item n).1, ⟨item.start, n.size + item.size⟩, B1,
        Or.inr ⟨n, hnext, rfl⟩, e1, hB2, rfl, ?_, hB1in, ?_, ?_⟩
      · intro b hb
        have := hB1 b hb
        simp only
        omega
      · simp only
        omega
      · intro addr
        rw [cover_cons, cover_cons, cover_cons]
        simp only [item_contains]
        split_ifs <;> omega
    · have e : __cma_bf_hole_merge_step w prv item n = (prv, n) :=
        merge_step_skip w prv item n (by rw [hu]; exact hadj)
      refine ⟨(__cma_bf_hole_merge_step w prv item n).1, item, n :: B1,
        Or.inr ⟨n, hnext, rfl⟩, ?_, List.Pairwise.cons hB1 hB2, rfl, ?_, hBin, hin,
        fun _ => rfl⟩
      · rw [e]
        exact hby
      · intro b hb
        rcases List.mem_cons.1 hb with rfl | hb
        · omega
        · have := hB1 b hb
          omega

/-- The by-start tree after `__cma_bf_hole_merge_maybe` on a record that touches its
neighbours at most at their edges: it is ordered with gaps, its holes stay in range, and it
covers the same addresses as before. -/
theorem merge_maybe_split (w lo hi : Nat) (prv : cma_bf_private) (A B : List cma_bf_item)
    (item : cma_bf_item) (hhi : hi < 2 ^ w)
    (hby : prv.by_start_root = A ++ item :: B)
    (hA : holes_ordered A) (hB : holes_ordered B)
    (hAi : ∀ a ∈ A, a.start + a.size ≤ item.start)
    (hBi : ∀ b ∈ B, item.start + item.size ≤ b.start)
    (hAin : ∀ a ∈ A, 0 < a.size ∧ lo ≤ a.start ∧ a.start + a.size ≤ hi)
    (hBin : ∀ b ∈ B, 0 < b.size ∧ lo ≤ b.start ∧ b.start + b.size ≤ hi)
    (hin : 0 < item.size ∧ lo ≤ item.start ∧ item.start + item.size ≤ hi) :
    holes_ordered (__cma_bf_hole_merge_maybe w prv item).by_start_root ∧
      (∀ x ∈ (__cma_bf_hole_merge_maybe w prv item).by_start_root,
        0 < x.size ∧ lo ≤ x.start ∧ x.start + x.size ≤ hi) ∧
      (∀ addr, cover_count (__cma_bf_hole_merge_maybe w prv item).by_start_root addr =
        cover_count (A ++ item :: B) addr) := by
  obtain ⟨first, A1, hcase, hby1, hA1, hA1i, hA1in, hfin, hfend, hcov1⟩ :=
    merge_prev_split w lo hi prv A B item hhi hby hA hAi hAin hin
  obtain ⟨res, item1, B1, hcase2, hby2, hB1, hst, hB1i, hB1in, hin1, hcov2⟩ :=
    merge_next_split w lo hi first.1 A1 B first.2 hhi hby1 hB hA1i
      (fun b hb => by rw [hfend]; exact hBi b hb) hBin hfin
  have hres : __cma_bf_hole_merge_maybe w prv item = res := by
    unfold __cma_bf_hole_merge_maybe
    rcases hcase with ⟨hp, hf⟩ | ⟨p, hp, hf⟩
    · subst hf
      rcases hcase2 with ⟨hn, hr⟩ | ⟨n, hn, hr⟩
      · simp only at hn hr
        simp only [hp, hn]
        exact hr.symm
      · simp only at hn hr
        simp only [hp, hn]
        exact hr.symm
    · subst hf
      rcases hcase2 with ⟨hn, hr⟩ | ⟨n, hn, hr⟩
      · simp only [hp, hn]
        exact hr.symm
      · simp only [hp, hn]
        exact hr.symm
  rw [hres, hby2]
  refine ⟨?_, ?_, ?_⟩
  · refine holes_join A1 B1 item1 hA1 hB1 ?_ hB1i ?_
    · intro a ha
      rw [hst]
      exact hA1i a ha
    · intro a ha b hb
      have h1 := hA1i a ha
      have h2 := hB1i b hb
      omega
  · intro x hx
    rcases List.mem_append.1 hx with hx | hx
    · exact hA1in x hx
    · rcases List.mem_cons.1 hx with rfl | hx
      · exact hin1
      · exact hB1in x hx
  · intro addr
    have h1 := hcov1 addr
    have h2 := hcov2 addr
    rw [cover_append, cover_cons] at h1
    rw [cover_append] at h1
    rw [cover_append, h2, cover_append, cover_cons, cover_cons]
    rw [cover_cons] at h1
    simp only [cover_count, List.filter_nil, List.length_nil] at h1 ⊢
    omega

theorem holes_around (l : List cma_bf_item) (c : cma_bf_item) (hl : holes_ordered l)
    (hpos : ∀ h ∈ l, 0 < h.size)
    (hd : ∀ h ∈ l, h.start + h.size ≤ c.start ∨ c.start + c.size ≤ h.start) :
    ∃ pre post, l = pre ++ post ∧ holes_ordered pre ∧ holes_ordered post ∧
      (∀ a ∈ pre, a.start + a.size ≤ c.start) ∧ (∀ b ∈ post, c.start + c.size ≤ b.start) := by
  induction l with
  | nil => exact ⟨[], [], rfl, List.Pairwise.nil, List.Pairwise.nil, by simp, by simp⟩
  | cons x l ih =>
    unfold holes_ordered at hl
    rw [List.pairwise_cons] at hl
    by_cases hx : c.start + c.size ≤ x.start
    · refine ⟨[], x :: l, rfl, List.Pairwise.nil, List.Pairwise.cons hl.1 hl.2, by simp, ?_⟩
      intro b hb
      rcases List.mem_cons.1 hb with rfl | hb
      · exact hx
      · have := hl.1 b hb
        omega
    · have hx1 : x.start + x.size ≤ c.start := by
        rcases hd x (List.mem_cons_self _ _) with h | h
        · exact h
        · exact absurd h hx
      obtain ⟨pre, post, e, o1, o2, o3, o4⟩ :=
        ih hl.2 (fun h hh => hpos h (List.mem_cons_of_mem _ hh))
          (fun h hh => hd h (List.mem_cons_of_mem _ hh))
      refine ⟨x :: pre, post, by rw [e]; rfl, ?_, o2, ?_, o4⟩
      · refine List.Pairwise.cons ?_ o1
        intro a ha
        exact hl.1 a (by rw [e]; exact List.mem_append_left _ ha)
      · intro a ha
        rcases List.mem_cons.1 ha with rfl | ha
        · exact hx1
        · exact o3 a ha

/-- The partition invariant under release: `cma_bf_free` of a live chunk takes a
well-formed state of the region to a well-formed state without that chunk. -/
theorem cma_bf_free_wf (w reg_start reg_size : Nat) (prv : cma_bf_private)
    (live : List cma_bf_item) (c : cma_bf_item)
    (hwf : bf_wf w reg_start reg_size prv live) (hc : c ∈ live) :
    bf_wf w reg_start reg_size (cma_bf_free w prv c) (live.erase c) := by
  obtain ⟨h1, h2, h3, h4, h5, h6⟩ := hwf
  obtain ⟨hc1, hc2, hc3⟩ := h4 c hc
  have hd : ∀ h ∈ prv.by_start_root,
      h.start + h.size ≤ c.start ∨ c.start + c.size ≤ h.start := by
    intro h hh
    by_contra hcon
    obtain ⟨hh1, hh2, hh3⟩ := h3 h hh
    have ha : item_contains h (max h.start c.start) := by
      unfold item_contains
      omega
    have hb : item_contains c (max h.start c.start) := by
      unfold item_contains
      omega
    have := h5 (max h.start c.start) (by omega) (by omega)
    have p1 := cover_pos_of_mem _ h _ hh ha
    have p2 := cover_pos_of_mem _ c _ hc hb
    omega
  obtain ⟨pre, post, e, o1, o2, o3, o4⟩ :=
    holes_around prv.by_start_root c h2 (fun h hh => (h3 h hh).1) hd
  have hins : (__cma_bf_hole_insert_by_start (__cma_bf_hole_insert_by_size prv c) c).by_start_root =
      pre ++ c :: post := by
    simp only [__cma_bf_hole_insert_by_start, __cma_bf_hole_insert_by_size]
    rw [e]
    refine item_insert_split pre post c ?_ ?_
    · intro a ha
      have := o3 a ha
      have := (h3 a (by rw [e]; exact List.mem_append_left _ ha)).1
      omega
    · intro b hb
      have := o4 b (List.mem_of_mem_head? hb)
      omega
  obtain ⟨r1, r2, r3⟩ :=
    merge_maybe_split w reg_start (reg_start + reg_size) _ pre post c h1 hins o1 o2 o3 o4
      (fun a ha => h3 a (by rw [e]; exact List.mem_append_left _ ha))
      (fun b hb => h3 b (by rw [e]; exact List.mem_append_right _ hb))
      ⟨hc1, hc2, hc3⟩
  refine ⟨h1, r1, r2, ?_, ?_, cma_bf_free_same w prv c h6⟩
  · intro x hx
    exact h4 x (List.mem_of_mem_erase hx)
  · intro addr ha hb
    have hr := r3 addr
    unfold cma_bf_free
    have h7 := h5 addr ha hb
    have h8 := cover_erase live c addr hc
    rw [e, cover_append] at h7
    rw [hr, cover_append, cover_cons]
    omega

/-! ## Reachable states where nothing wraps around: partition, drain, round trip -/

theorem cma_bf_init_wf (w reg_start reg_size : Nat) (kz_prv kz_item : Bool)
    (prv : cma_bf_private) (h0 : 0 < reg_size) (h1 : reg_start + reg_size < 2 ^ w)
    (h : cma_bf_init kz_prv kz_item reg_start reg_size = .ok prv) :
    bf_wf w reg_start reg_size prv [] := by
  unfold cma_bf_init at h
  split at h
  · simp at h
  · split at h
    · simp at h
    · simp only [Except.ok.injEq] at h
      subst h
      refine ⟨h1, List.pairwise_singleton _ _, ?_, ?_, ?_, List.Perm.refl _⟩
      · intro x hx
        simp only [List.mem_singleton] at hx
        subst hx
        exact ⟨h0, le_refl _, le_refl _⟩
      · intro c hc
        simp at hc
      · intro addr ha hb
        have h0 : cover_count [] addr = 0 := rfl
        rw [cover_cons, h0]
        simp only [item_contains]
        rw [if_pos ⟨ha, hb⟩]

/-- In every state reached without wrap-around the partition invariant holds: the holes
are ordered with a gap between any two, holes and live chunks lie in the region, and every
address of the region is in exactly one hole or live chunk. -/
theorem bf_reachable_below_wf (w reg_start reg_size : Nat) (prv : cma_bf_private)
    (live : List cma_bf_item) (h0 : 0 < reg_size) (h1 : reg_start + reg_size < 2 ^ w)
    (hr : bf_reachable_below w reg_start reg_size prv live) :
    bf_wf w reg_start reg_size prv live := by
  induction hr with
  | init kz_prv kz_item prv h => exact cma_bf_init_wf w reg_start reg_size _ _ prv h0 h1 h
  | carve prv prv1 live size alignment km_item km_next chunk _ hs ha hb h ih =>
    obtain ⟨k, hk, rfl⟩ := ha
    exact cma_bf_alloc_wf w k reg_start reg_size prv prv1 live size km_item km_next chunk hk
      hb hs.1 ih h
  | carve_null prv prv1 live size alignment km_item km_next _ _ _ _ h ih =>
    rw [cma_bf_alloc_null w prv prv1 size alignment km_item km_next h]
    exact ih
  | free prv live chunk _ hc ih => exact cma_bf_free_wf w reg_start reg_size prv live chunk ih hc

theorem cover_zero_of_before (l : List cma_bf_item) (addr : Nat)
    (h : ∀ x ∈ l, addr < x.start) : cover_count l addr = 0 := by
  refine cover_zero_of_not_mem l addr ?_
  intro x hx hc
  have := h x hx
  unfold item_contains at hc
  omega

/-- A well-formed state without live chunks has exactly one hole, the whole region. -/
theorem bf_wf_drained (w reg_start reg_size : Nat) (prv : cma_bf_private)
    (h0 : 0 < reg_size) (hwf : bf_wf w reg_start reg_size prv []) :
    prv.by_start_root = [⟨reg_start, reg_size⟩] ∧ prv.by_size_root = [⟨reg_start, reg_size⟩] := by
  obtain ⟨_, h2, h3, _, h5, h6⟩ := hwf
  have hz : ∀ addr, cover_count [] addr = 0 := fun _ => rfl
  have hone : prv.by_start_root = [⟨reg_start, reg_size⟩] := by
    cases hl : prv.by_start_root with
    | nil =>
      have := h5 reg_start (le_refl _) (by omega)
      rw [hl, hz] at this
      omega
    | cons x rest =>
      rw [hl] at h2 h3 h5
      obtain ⟨hx1, hx2, hx3⟩ := h3 x (List.mem_cons_self _ _)
      unfold holes_ordered at h2
      rw [List.pairwise_cons] at h2
      have hrest : ∀ addr, addr < x.start + x.size → cover_count rest addr = 0 := by
        intro addr ha
        refine cover_zero_of_before rest addr ?_
        intro y hy
        have := h2.1 y hy
        omega
      have hxs : x.start = reg_start := by
        by_contra hne
        have := h5 reg_start (le_refl _) (by omega)
        rw [cover_cons, hrest reg_start (by omega), hz] at this
        simp only [item_contains] at this
        split_ifs at this <;> omega
      cases rest with
      | nil =>
        have hxe : x.start + x.size = reg_start + reg_size := by
          by_contra hne
          have := h5 (x.start + x.size) (by omega) (by omega)
          rw [cover_cons, hz] at this
          simp only [item_contains] at this
          split_ifs at this <;> omega
        have hsz : x.size = reg_size := by omega
        cases x
        simp only at hxs hsz
        rw [hxs, hsz]
      | cons y rest =>
        exfalso
        have hy := h2.1 y (List.mem_cons_self _ _)
        obtain ⟨hy1, hy2, hy3⟩ := h3 y (List.mem_cons_of_mem _ (List.mem_cons_self _ _))
        have := h5 (x.start + x.size) (by omega) (by omega)
        have hr0 : cover_count (y :: rest) (x.start + x.size) = 0 := by
          refine cover_zero_of_before _ _ ?_
          intro z hz1
          exact h2.1 z hz1
        rw [cover_cons, hr0, hz] at this
        simp only [item_contains] at this
        split_ifs at this <;> omega
  refine ⟨hone, ?_⟩
  unfold same_records at h6
  rw [hone] at h6
  exact List.perm_singleton.1 h6.symm

/-- Full drain where nothing wraps around: whenever no live chunk remains, the region has
exactly one hole, the whole region, and the `WARN_ON` of `cma_bf_cleanup` does not fire. -/
theorem bf_reachable_below_drained (w reg_start reg_size : Nat) (prv : cma_bf_private)
    (h0 : 0 < reg_size) (h1 : reg_start + reg_size < 2 ^ w)
    (hr : bf_reachable_below w reg_start reg_size prv []) :
    prv.by_start_root = [⟨reg_start, reg_size⟩] ∧
      prv.by_size_root = [⟨reg_start, reg_size⟩] ∧ cma_bf_cleanup_WARN_ON prv = false := by
  obtain ⟨e1, e2⟩ := bf_wf_drained w reg_start reg_size prv h0
    (bf_reachable_below_wf w reg_start reg_size prv [] h0 h1 hr)
  refine ⟨e1, e2, ?_⟩
  unfold cma_bf_cleanup_WARN_ON
  rw [e1, e2]
  rfl

/-- The holes are determined by the addresses they cover: two lists of holes in a range,
each ordered with gaps, that cover the same addresses of the range are equal. -/
theorem holes_unique (lo hi : Nat) (l1 l2 : List cma_bf_item)
    (o1 : holes_ordered l1) (o2 : holes_ordered l2)
    (i1 : ∀ x ∈ l1, 0 < x.size ∧ lo ≤ x.start ∧ x.start + x.size ≤ hi)
    (i2 : ∀ x ∈ l2, 0 < x.size ∧ lo ≤ x.start ∧ x.start + x.size ≤ hi)
    (hc : ∀ addr, lo ≤ addr → addr < hi → cover_count l1 addr = cover_count l2 addr) :
    l1 = l2 := by
  have hz : ∀ addr, cover_count [] addr = 0 := fun _ => rfl
  induction l1 generalizing l2 with
  | nil =>
    cases l2 with
    | nil => rfl
    | cons y l2 =>
      exfalso
      obtain ⟨hy1, hy2, hy3⟩ := i2 y (List.mem_cons_self _ _)
      have := hc y.start hy2 (by omega)
      have hp := cover_pos_of_mem (y :: l2) y y.start (List.mem_cons_self _ _)
        (by unfold item_contains; omega)
      rw [hz] at this
      omega
  | cons x l1 ih =>
    obtain ⟨hx1, hx2, hx3⟩ := i1 x (List.mem_cons_self _ _)
    unfold holes_ordered at o1
    rw [List.pairwise_cons] at o1
    cases l2 with
    | nil =>
      exfalso
      have := hc x.start hx2 (by omega)
      have hp := cover_pos_of_mem (x :: l1) x x.start (List.mem_cons_self _ _)
        (by unfold item_contains; omega)
      rw [hz] at this
      omega
    | cons y l2 =>
      obtain ⟨hy1, hy2, hy3⟩ := i2 y (List.mem_cons_self _ _)
      unfold holes_ordered at o2
      rw [List.pairwise_cons] at o2
      have r1 : ∀ addr, addr ≤ x.start + x.size → cover_count l1 addr = 0 := by
        intro addr ha
        refine cover_zero_of_before l1 addr ?_
        intro z hz1
        have := o1.1 z hz1
        omega
      have r2 : ∀ addr, addr ≤ y.start + y.size → cover_count l2 addr = 0 := by
        intro addr ha
        refine cover_zero_of_before l2 addr ?_
        intro z hz1
        have := o2.1 z hz1
        omega
      have hs : x.start = y.start := by
        by_contra hne
        rcases Nat.lt_or_gt_of_ne hne with hlt | hlt
        · have := hc x.start hx2 (by omega)
          rw [cover_cons, cover_cons, r1 _ (by omega), r2 _ (by omega)] at this
          simp only [item_contains] at this
          split_ifs at this <;> omega
        · have := hc y.start hy2 (by omega)
          rw [cover_cons, cover_cons, r1 _ (by omega), r2 _ (by omega)] at this
          simp only [item_contains] at this
          split_ifs at this <;> omega
      have he : x.start + x.size = y.start + y.size := by
        by_contra hne
        rcases Nat.lt_or_gt_of_ne hne with hlt | hlt
        · have := hc (x.start + x.size) (by omega) (by omega)
          rw [cover_cons, cover_cons, r1 _ (by omega), r2 _ (by omega)] at this
          simp only [item_contains] at this
          split_ifs at this <;> omega
        · have := hc (y.start + y.size) (by omega) (by omega)
          rw [cover_cons, cover_cons, r1 _ (by omega), r2 _ (by omega)] at this
          simp only [item_contains] at this
          split_ifs at this <;> omega
      have hxy : x = y := by
        cases x
        cases y
        simp only at hs he
        simp only [cma_bf_item.mk.injEq]
        omega
      subst hxy
      have := ih l2 o1.2 o2.2 (fun z hz1 => i1 z (List.mem_cons_of_mem _ hz1))
        (fun z hz1 => i2 z (List.mem_cons_of_mem _ hz1))
        (fun addr ha hb => by
          have := hc addr ha hb
          rw [cover_cons, cover_cons] at this
          omega)
      rw [this]

/-- Round trip where nothing wraps around: giving a chunk back right after it was carved
restores the by-start tree exactly, and the by-size tree holds the same records again. -/
theorem cma_bf_alloc_free_restores (w k reg_start reg_size : Nat) (prv prv1 : cma_bf_private)
    (live : List cma_bf_item) (size : Nat) (km_item km_next : Bool) (c : cma_bf_item)
    (hk : k < w) (hnw : reg_start + reg_size + 2 ^ k ≤ 2 ^ w) (hs : 0 < size)
    (hwf : bf_wf w reg_start reg_size prv live)
    (h : cma_bf_alloc w prv size (2 ^ k) km_item km_next = .chunk c prv1) :
    (cma_bf_free w prv1 c).by_start_root = prv.by_start_root ∧
      (cma_bf_free w prv1 c).by_size_root.Perm prv.by_size_root := by
  have w1 := cma_bf_alloc_wf w k reg_start reg_size prv prv1 live size km_item km_next c hk hnw
    hs hwf h
  have w2 := cma_bf_free_wf w reg_start reg_size prv1 (c :: live) c w1 (List.mem_cons_self _ _)
  rw [List.erase_cons_head] at w2
  obtain ⟨_, a2, a3, _, a5, a6⟩ := hwf
  obtain ⟨_, b2, b3, _, b5, b6⟩ := w2
  have e : (cma_bf_free w prv1 c).by_start_root = prv.by_start_root := by
    refine holes_unique reg_start (reg_start + reg_size) _ _ b2 a2 b3 a3 ?_
    intro addr ha hb
    have := a5 addr ha hb
    have := b5 addr ha hb
    omega
  refine ⟨e, ?_⟩
  unfold same_records at a6 b6
  exact (b6.symm.trans (e ▸ List.Perm.refl _)).trans a6

/-! ## The patterns of the route resolver against the reference matcher -/

theorem split_patterns_single (p : List Char) (hp : ',' ∉ p) : split_patterns p = [p] := by
  induction p with
  | nil => rfl
  | cons c p ih =>
    simp only [List.mem_cons, not_or] at hp
    have hc : c ≠ ',' := fun h => hp.1 h.symm
    simp only [split_patterns, if_neg hc, ih hp.2]

theorem where_from_single (regions p name : List Char) (kind : Option (List Char))
    (hname : name ≠ []) (hp : ',' ∉ p) :
    __cma_where_from [⟨p, regions⟩] (some name) kind =
      route_of regions (pattern_match name (kind.getD []) p false).1 := by
  simp only [__cma_where_from, if_neg hname, __cma_where_from_loop]
  rw [where_from_spec_eq name (kind.getD []) (p.length + 1) p false (Nat.lt_succ_self _),
    split_patterns_single p hp]
  simp only [rule_match]
  rcases h : pattern_match name (kind.getD []) p false with ⟨b, nm⟩
  cases b <;> simp [route_of]

theorem TRY_MATCH_glob (r : List Char) :
    ∀ (g f : List Char), ',' ∉ g → (r = [] ∨ (r.head? = some '/' ∧ '/' ∉ f)) →
      (glob_match g f = true ∧ TRY_MATCH (g ++ r) f = .through r) ∨
      (glob_match g f = false ∧
        ((∃ s1, TRY_MATCH (g ++ r) f = .again_maybe s1 ∧ ∀ c ∈ s1, c ∈ g ++ r) ∨
         (∃ h, h ≠ [] ∧ (∀ c ∈ h, c ∈ g) ∧ TRY_MATCH (g ++ r) f = .through (h ++ r)))) := by
  intro g
  induction g with
  | nil =>
    intro f _ hr
    cases f with
    | nil =>
      left
      refine ⟨rfl, ?_⟩
      rcases hr with rfl | ⟨h1, _⟩
      · rfl
      · cases r with
        | nil => simp at h1
        | cons x s =>
          simp only [List.head?_cons, Option.some.injEq] at h1
          subst h1
          simp [TRY_MATCH]
    | cons c cs =>
      right
      refine ⟨rfl, Or.inl ?_⟩
      rcases hr with rfl | ⟨h1, h2⟩
      · exact ⟨[], rfl, by simp⟩
      · cases r with
        | nil => simp at h1
        | cons x s =>
          simp only [List.head?_cons, Option.some.injEq] at h1
          subst h1
          simp only [List.mem_cons, not_or] at h2
          refine ⟨'/' :: s, ?_, by simp⟩
          have hc : c ≠ '/' := fun h => h2.1 h.symm
          simp [TRY_MATCH, hc]
  | cons x gs ih =>
    intro f hg hr
    simp only [List.mem_cons, not_or] at hg
    have hx : x ≠ ',' := fun h => hg.1 h.symm
    by_cases hstar : x = '*'
    · subst hstar
      have ht : TRY_MATCH ('*' :: gs ++ r) f = .through (gs ++ r) := by
        cases f <;> simp [TRY_MATCH]
      cases gs with
      | nil =>
        left
        exact ⟨by simp [glob_match], ht⟩
      | cons y gs =>
        right
        refine ⟨by simp [glob_match], Or.inr ⟨y :: gs, by simp, ?_, ht⟩⟩
        intro c hc
        exact List.mem_cons_of_mem _ hc
    · cases f with
      | nil =>
        right
        refine ⟨by simp [glob_match, hstar], Or.inr ⟨x :: gs, by simp, fun c hc => hc, ?_⟩⟩
        simp [TRY_MATCH, hstar]
      | cons c cs =>
        by_cases hm : x ≠ '?' ∧ c ≠ x
        · right
          refine ⟨?_, Or.inl ⟨x :: gs ++ r, ?_, fun c hc => hc⟩⟩
          · have h1 : (x = '?') = False := by simpa using hm.1
            have h2 : (x = c) = False := by
              simp only [eq_iff_iff, iff_false]
              exact fun h => hm.2 h.symm
            simp [glob_match, hstar, h1, h2]
          · simp only [List.cons_append, TRY_MATCH, if_neg hstar, if_neg hx, if_pos hm]
            rfl
        · have hr1 : r = [] ∨ (r.head? = some '/' ∧ '/' ∉ cs) := by
            rcases hr with h | ⟨h1, h2⟩
            · exact Or.inl h
            · exact Or.inr ⟨h1, fun h => h2 (List.mem_cons_of_mem _ h)⟩
          have hstep : TRY_MATCH (x :: gs ++ r) (c :: cs) = TRY_MATCH (gs ++ r) cs := by
            simp only [List.cons_append, TRY_MATCH, if_neg hstar, if_neg hx, if_neg hm]
            rfl
          have hgl : glob_match (x :: gs) (c :: cs) = glob_match gs cs := by
            have : (x = '?' || x = c) = true := by
              by_cases h1 : x = '?'
              · simp [h1]
              · have : c = x := by
                  by_contra h2
                  exact hm ⟨h1, h2⟩
                simp [this]
            simp [glob_match, hstar, this]
          rw [hstep, hgl]
          rcases ih cs hg.2 hr1 with h | ⟨h1, h2 | ⟨h, h3, h4, h5⟩⟩
          · exact Or.inl h
          · right
            refine ⟨h1, Or.inl ?_⟩
            obtain ⟨s1, e1, e2⟩ := h2
            refine ⟨s1, e1, ?_⟩
            intro c1 hc1
            have := e2 c1 hc1
            simp only [List.cons_append, List.mem_cons]
            exact Or.inr this
          · right
            exact ⟨h1, Or.inr ⟨h, h3, fun c1 hc1 => List.mem_cons_of_mem _ (h4 c1 hc1), h5⟩⟩

theorem again_maybe_none (again : List Char → Bool → Bool × Bool) (s : List Char) (nm : Bool)
    (hs : ',' ∉ s) : __cma_where_from_again_maybe again s nm = (false, nm) := by
  unfold __cma_where_from_again_maybe
  rw [strchr_nil_of_comma_free s hs]

theorem end_of_nonempty (again : List Char → Bool → Bool × Bool) (s : List Char) (nm : Bool)
    (hs : ',' ∉ s) (hne : s ≠ []) : __cma_where_from_end again s nm = (false, nm) := by
  unfold __cma_where_from_end
  have h1 : s.head? ≠ some ',' := by
    cases s with
    | nil => simp
    | cons x s =>
      simp only [List.mem_cons, not_or] at hs
      simp only [List.head?_cons, ne_eq, Option.some.injEq]
      exact fun h => hs.1 h.symm
  rw [if_neg (by simp [hne, h1]), again_maybe_none again s nm hs]

/-- The label `kind` on a pattern without comma: the pattern is taken exactly when the
text behind the slash matches the kind as a glob. -/
theorem kind_glob (kind : List Char) (again : List Char → Bool → Bool × Bool)
    (kg : List Char) (nm : Bool) (hk : ',' ∉ kg) :
    __cma_where_from_kind kind again ('/' :: kg) nm = (glob_match kg kind, nm) := by
  unfold __cma_where_from_kind
  simp only [List.tail_cons]
  have h := TRY_MATCH_glob [] kg kind hk (Or.inl rfl)
  simp only [List.append_nil] at h
  rcases h with ⟨h1, h2⟩ | ⟨h1, ⟨s1, h2, h3⟩ | ⟨h, h2, h3, h4⟩⟩
  · rw [h2, h1]
    simp [__cma_where_from_end]
  · rw [h2, h1]
    exact again_maybe_none again s1 nm (fun hc => hk (h3 _ hc))
  · rw [h4, h1]
    exact end_of_nonempty again h nm (fun hc => hk (h3 _ hc)) h2

theorem pattern_glob_split (name kind g r : List Char) (nm : Bool)
    (hg : ',' ∉ g) (hgs : '/' ∉ g) (hr : ',' ∉ r) (hrh : r = [] ∨ ∃ kg, r = '/' :: kg)
    (hn : r = [] ∨ '/' ∉ name) (hhead : (g ++ r).head? ≠ some '/') :
    (pattern_match name kind (g ++ r) nm).1 =
      (glob_match g name && if r = [] then kind.isEmpty else glob_match r.tail kind) := by
  have hgr : ',' ∉ g ++ r := by
    simp only [List.mem_append, not_or]
    exact ⟨hg, hr⟩
  have hr1 : r = [] ∨ (r.head? = some '/' ∧ '/' ∉ name) := by
    rcases hn with h | hn
    · exact Or.inl h
    · rcases hrh with h | ⟨kg, h⟩
      · exact Or.inl h
      · exact Or.inr ⟨by rw [h]; rfl, hn⟩
  unfold pattern_match __cma_where_from_body
  rw [if_neg hhead]
  rcases TRY_MATCH_glob r g name hg hr1 with ⟨h1, h2⟩ | ⟨h1, ⟨s1, h2, h3⟩ | ⟨h, h2, h3, h4⟩⟩
  · rw [h2, h1]
    rcases hrh with rfl | ⟨kg, rfl⟩
    · simp only [List.head?_nil, ne_eq, not_false_eq_true, if_true, reduceCtorEq, Bool.true_and]
      by_cases hk : kind = []
      · subst hk
        simp [__cma_where_from_end]
      · rw [if_pos hk, again_maybe_none _ _ _ (by simp)]
        cases kind with
        | nil => exact absurd rfl hk
        | cons c cs => rfl
    · simp only [List.head?_cons, ne_eq, not_true_eq_false, if_false, Bool.true_and,
        reduceCtorEq, List.tail_cons]
      rw [kind_glob kind _ kg true (fun hc => hr (List.mem_cons_of_mem _ hc))]
  · rw [h2, h1]
    simp only [Bool.false_and]
    rw [again_maybe_none _ _ _ (fun hc => hgr (h3 _ hc))]
  · rw [h4, h1]
    simp only [Bool.false_and]
    have hne : h ++ r ≠ [] := by
      intro e
      exact h2 (List.append_eq_nil.1 e).1
    have hc : ',' ∉ h ++ r := by
      simp only [List.mem_append, not_or]
      exact ⟨fun hc => hg (h3 _ hc), hr⟩
    have hh : (h ++ r).head? ≠ some '/' := by
      cases h with
      | nil => exact absurd rfl h2
      | cons y h =>
        simp only [List.cons_append, List.head?_cons, ne_eq, Option.some.injEq]
        intro e
        exact hgs (e ▸ h3 y (List.mem_cons_self _ _))
    rw [if_pos hh]
    split
    · rw [again_maybe_none _ _ _ hc]
    · rw [end_of_nonempty _ _ _ hc hne]

theorem dropWhile_slash (p : List Char) :
    p.dropWhile (fun c => c ≠ '/') = [] ∨ ∃ kg, p.dropWhile (fun c => c ≠ '/') = '/' :: kg := by
  induction p with
  | nil => exact Or.inl rfl
  | cons c p ih =>
    by_cases hc : c = '/'
    · right
      exact ⟨p, by simp [List.dropWhile, hc]⟩
    · simp only [List.dropWhile, ne_eq, hc, not_false_eq_true, decide_True]
      exact ih

/-- A single pattern without inherited device part against the reference matcher: for a
device name without slash the loop body of `__cma_where_from` takes the pattern exactly
when the reference matcher does. -/
theorem pattern_match_ref (name kind p : List Char) (nm : Bool)
    (hp : ',' ∉ p) (hhead : p.head? ≠ some '/') (hn : '/' ∉ name) :
    (pattern_match name kind p nm).1 = pattern_ref glob_match p name kind := by
  have hsplit : p.takeWhile (fun c => c ≠ '/') ++ p.dropWhile (fun c => c ≠ '/') = p :=
    List.takeWhile_append_dropWhile _ p
  have hg : ',' ∉ p.takeWhile (fun c => c ≠ '/') :=
    fun h => hp (List.takeWhile_subset _ h)
  have hr : ',' ∉ p.dropWhile (fun c => c ≠ '/') :=
    fun h => hp (List.dropWhile_subset _ h)
  have hgs : '/' ∉ p.takeWhile (fun c => c ≠ '/') := by
    intro h
    have := List.mem_takeWhile_imp h
    simp at this
  have := pattern_glob_split name kind _ _ nm hg hgs hr (dropWhile_slash p) (Or.inr hn)
    (by rw [hsplit]; exact hhead)
  rw [hsplit] at this
  rw [this]
  unfold pattern_ref pattern_dev pattern_kind
  rcases dropWhile_slash p with h | ⟨kg, h⟩
  · simp only [h, if_true]
  · simp only [h, reduceCtorEq, if_false, List.tail_cons]

/-- C11, the claim as stated fails: with the glob semantics in the words of the
specification the pattern `**` matches the device `a` with empty kind, and the pattern
`a/b` does not match the device `a/b`; `__cma_where_from` decides both the other way. -/
theorem cma_where_from_glob_words_differs :
    __cma_where_from [⟨"**".toList, "r".toList⟩] (some "a".toList) (some []) =
        .error (-ENOENT) ∧
      route_of "r".toList (pattern_ref glob_match_words "**".toList "a".toList []) =
        .ok "r".toList ∧
      __cma_where_from [⟨"a/b".toList, "r".toList⟩] (some "a/b".toList) (some []) =
        .ok "r".toList ∧
      route_of "r".toList (pattern_ref glob_match_words "a/b".toList "a/b".toList []) =
        .error (-ENOENT) :=
  ⟨rfl, rfl, rfl, rfl⟩

/-- C11, amended: for a table of one rule with a single pattern `device-glob[/kind-glob]`
(no comma, no inherited device part) and a device name without slash, `__cma_where_from`
returns the regions of the rule exactly when the reference matcher accepts the request,
where `?` stands for one arbitrary character, a `*` that ends its glob for the whole
remainder of the field, every other character for itself, a glob with anything behind a
`*` matches nothing, and without `*` the field has to be used up; a pattern without kind
part takes the empty kind only. -/
theorem cma_where_from_glob (regions p name : List Char) (kind : Option (List Char))
    (hname : name ≠ []) (hp : ',' ∉ p) (hhead : p.head? ≠ some '/') (hn : '/' ∉ name) :
    __cma_where_from [⟨p, regions⟩] (some name) kind =
      route_of regions (pattern_ref glob_match p name (kind.getD [])) := by
  rw [where_from_single regions p name kind hname hp,
    pattern_match_ref name (kind.getD []) p false hp hhead hn]

theorem cma_where_from_glob_witness :
    __cma_where_from [⟨"ba?/f*".toList, "reg3".toList⟩] (some "bar".toList)
        (some "firmware".toList) =
      route_of "reg3".toList
        (pattern_ref glob_match "ba?/f*".toList "bar".toList "firmware".toList) :=
  cma_where_from_glob "reg3".toList "ba?/f*".toList "bar".toList (some "firmware".toList)
    (by decide) (by decide) (by decide) (by decide)

/-- A pattern without kind part, with any value of `name_matched`: it is taken exactly when
the kind is empty and the pattern matches the device name as a glob. -/
theorem pattern_match_no_kind (name kind p : List Char) (nm : Bool)
    (hp : ',' ∉ p) (hs : '/' ∉ p) :
    (pattern_match name kind p nm).1 = (kind.isEmpty && glob_match p name) := by
  have hhead : (p ++ []).head? ≠ some '/' := by
    rw [List.append_nil]
    cases p with
    | nil => simp
    | cons c p =>
      simp only [List.mem_cons, not_or] at hs
      simp only [List.head?_cons, ne_eq, Option.some.injEq]
      exact fun h => hs.1 h.symm
  have := pattern_glob_split name kind p [] nm hp hs (by simp) (Or.inl rfl) (Or.inl rfl) hhead
  rw [List.append_nil] at this
  rw [this, if_pos rfl, Bool.and_comm]

/-- C12, the claim as stated fails: the pattern `f**` has no kind part and, in the words of
the specification, its glob matches the device name `foo`; `__cma_where_from` does not
take it for the empty kind. -/
theorem cma_where_from_no_kind_double_star :
    __cma_where_from [⟨"f**".toList, "r1".toList⟩] (some "foo".toList) none =
        .error (-ENOENT) ∧
      glob_match_words "f**".toList "foo".toList = true ∧ '/' ∉ "f**".toList :=
  ⟨rfl, rfl, by decide⟩

/-- C12, amended.  A pattern without kind part (no slash, no comma): when the kind is not
empty the pattern is not taken; when the kind is empty, or NULL, it is taken exactly when
it matches the device name as a glob, where a glob with anything behind a `*` matches
nothing.  The table `foo=r1;*/*=r2` sends `(foo, "")` to `r1`, `(bar, "")` to `r2` and
`(foo, "k")` to `r2`. -/
theorem cma_where_from_no_kind_part :
    (∀ (regions p name : List Char) (kind : Option (List Char)),
      name ≠ [] → ',' ∉ p → '/' ∉ p →
      (kind.getD [] ≠ [] →
        __cma_where_from [⟨p, regions⟩] (some name) kind = .error (-ENOENT)) ∧
      (kind.getD [] = [] →
        __cma_where_from [⟨p, regions⟩] (some name) kind =
          route_of regions (glob_match p name)) ∧
      ∀ nm, (pattern_match name (kind.getD []) p nm).1 =
        ((kind.getD []).isEmpty && glob_match p name)) ∧
    __cma_where_from (cma_map_param_parse "foo=r1;*/*=r2".toList).2 (some "foo".toList)
        (some []) = .ok "r1".toList ∧
    __cma_where_from (cma_map_param_parse "foo=r1;*/*=r2".toList).2 (some "foo".toList)
        none = .ok "r1".toList ∧
    __cma_where_from (cma_map_param_parse "foo=r1;*/*=r2".toList).2 (some "bar".toList)
        (some []) = .ok "r2".toList ∧
    __cma_where_from (cma_map_param_parse "foo=r1;*/*=r2".toList).2 (some "foo".toList)
        (some "k".toList) = .ok "r2".toList := by
  refine ⟨?_, rfl, rfl, rfl, rfl⟩
  intro regions p name kind hname hp hs
  have h := pattern_match_no_kind name (kind.getD []) p false hp hs
  refine ⟨?_, ?_, fun nm => pattern_match_no_kind name (kind.getD []) p nm hp hs⟩
  · intro hk
    rw [where_from_single regions p name kind hname hp, h]
    cases hk1 : kind.getD [] with
    | nil => exact absurd hk1 hk
    | cons c cs => rfl
  · intro hk
    rw [where_from_single regions p name kind hname hp, h, hk]
    rfl

theorem cma_where_from_no_kind_part_witness :
    __cma_where_from [⟨"fo?".toList, "r1".toList⟩] (some "foo".toList) (some "k".toList) =
        .error (-ENOENT) ∧
      __cma_where_from [⟨"fo?".toList, "r1".toList⟩] (some "foo".toList) none =
        route_of "r1".toList (glob_match "fo?".toList "foo".toList) :=
  ⟨(cma_where_from_no_kind_part.1 "r1".toList "fo?".toList "foo".toList (some "k".toList)
      (by decide) (by decide) (by decide)).1 (by decide),
    (cma_where_from_no_kind_part.1 "r1".toList "fo?".toList "foo".toList none
      (by decide) (by decide) (by decide)).2.1 (by decide)⟩

/-- A pattern that begins with a slash: it is taken exactly when `name_matched` is set and
the text behind the slash matches the kind as a glob; `name_matched` keeps its value. -/
theorem pattern_match_slash (name kind kg : List Char) (nm : Bool) (hk : ',' ∉ kg) :
    pattern_match name kind ('/' :: kg) nm = (nm && glob_match kg kind, nm) := by
  unfold pattern_match __cma_where_from_body
  simp only [List.head?_cons, if_true]
  cases nm with
  | false =>
    simp only [Bool.not_false, if_true, Bool.false_and]
    exact again_maybe_none _ _ _ (by
      simp only [List.mem_cons, not_or]
      exact ⟨by decide, hk⟩)
  | true =>
    simp only [Bool.not_true, Bool.true_and]
    exact kind_glob kind _ kg true hk

/-- C13, the failing input: in the table `bar/firmware=r3;/*=r2` the device `ba`, whose
name the glob `bar` does not match, is sent to `r2` by the pattern `/*` for the kind
`other`.  The devices `bar` and `baz` of the claim are resolved as it says. -/
theorem cma_where_from_inherits_from_prefix :
    __cma_where_from (cma_map_param_parse "bar/firmware=r3;/*=r2".toList).2
        (some "ba".toList) (some "other".toList) = .ok "r2".toList ∧
      glob_match "bar".toList "ba".toList = false ∧
      glob_match_words "bar".toList "ba".toList = false ∧
      (pattern_match "ba".toList "other".toList "bar/firmware".toList false).2 = true ∧
      __cma_where_from (cma_map_param_parse "bar/firmware=r3;/*=r2".toList).2
        (some "bar".toList) (some "other".toList) = .ok "r2".toList ∧
      __cma_where_from (cma_map_param_parse "bar/firmware=r3;/*=r2".toList).2
        (some "baz".toList) (some "other".toList) = .error (-ENOENT) :=
  ⟨rfl, rfl, rfl, rfl, rfl, rfl⟩

/-! ## The value of `name_matched` -/

theorem glob_reaches_of_match (g f : List Char) (h : glob_match g f = true) :
    glob_reaches g f = true := by
  induction g generalizing f with
  | nil =>
    cases f with
    | nil => rfl
    | cons c cs => simp [glob_match] at h
  | cons x gs ih =>
    cases f with
    | nil => simp [glob_reaches]
    | cons c cs =>
      unfold glob_match at h
      unfold glob_reaches
      split at h
      · rename_i hx
        rw [if_pos hx]
      · rename_i hx
        rw [if_neg hx]
        simp only [Bool.and_eq_true] at h ⊢
        exact ⟨h.1, ih cs h.2⟩

theorem TRY_MATCH_reaches (r : List Char) :
    ∀ (g f : List Char), ',' ∉ g → (r = [] ∨ (r.head? = some '/' ∧ '/' ∉ f)) →
      (glob_reaches g f = true ∧
        ∃ s1, TRY_MATCH (g ++ r) f = .through s1 ∧ ∃ h, s1 = h ++ r ∧ ∀ c ∈ h, c ∈ g) ∨
      (glob_reaches g f = false ∧
        ∃ s1, TRY_MATCH (g ++ r) f = .again_maybe s1 ∧ ∀ c ∈ s1, c ∈ g ++ r) := by
  intro g
  induction g with
  | nil =>
    intro f _ hr
    cases f with
    | nil =>
      left
      refine ⟨rfl, r, ?_, [], rfl, by simp⟩
      rcases hr with rfl | ⟨h1, _⟩
      · rfl
      · cases r with
        | nil => simp at h1
        | cons x s =>
          simp only [List.head?_cons, Option.some.injEq] at h1
          subst h1
          simp [TRY_MATCH]
    | cons c cs =>
      right
      refine ⟨rfl, ?_⟩
      rcases hr with rfl | ⟨h1, h2⟩
      · exact ⟨[], rfl, by simp⟩
      · cases r with
        | nil => simp at h1
        | cons x s =>
          simp only [List.head?_cons, Option.some.injEq] at h1
          subst h1
          simp only [List.mem_cons, not_or] at h2
          refine ⟨'/' :: s, ?_, by simp⟩
          have hc : c ≠ '/' := fun h => h2.1 h.symm
          simp [TRY_MATCH, hc]
  | cons x gs ih =>
    intro f hg hr
    simp only [List.mem_cons, not_or] at hg
    have hx : x ≠ ',' := fun h => hg.1 h.symm
    cases f with
    | nil =>
      left
      refine ⟨by simp [glob_reaches], ?_⟩
      by_cases hstar : x = '*'
      · exact ⟨gs ++ r, by simp [TRY_MATCH, hstar], gs, rfl,
          fun c hc => List.mem_cons_of_mem _ hc⟩
      · exact ⟨x :: gs ++ r, by simp [TRY_MATCH, hstar], x :: gs, rfl, fun c hc => hc⟩
    | cons c cs =>
      by_cases hstar : x = '*'
      · left
        refine ⟨by simp [glob_reaches, hstar], gs ++ r, by simp [TRY_MATCH, hstar], gs, rfl,
          fun c hc => List.mem_cons_of_mem _ hc⟩
      · by_cases hm : x ≠ '?' ∧ c ≠ x
        · right
          refine ⟨?_, x :: gs ++ r, ?_, fun c hc => hc⟩
          · have h1 : (x = '?') = False := by simpa using hm.1
            have h2 : (x = c) = False := by
              simp only [eq_iff_iff, iff_false]
              exact fun h => hm.2 h.symm
            simp [glob_reaches, hstar, h1, h2]
          · simp only [List.cons_append, TRY_MATCH, if_neg hstar, if_neg hx, if_pos hm]
            rfl
        · have hr1 : r = [] ∨ (r.head? = some '/' ∧ '/' ∉ cs) := by
            rcases hr with h | ⟨h1, h2⟩
            · exact Or.inl h
            · exact Or.inr ⟨h1, fun h => h2 (List.mem_cons_of_mem _ h)⟩
          have hstep : TRY_MATCH (x :: gs ++ r) (c :: cs) = TRY_MATCH (gs ++ r) cs := by
            simp only [List.cons_append, TRY_MATCH, if_neg hstar, if_neg hx, if_neg hm]
            rfl
          have hgl : glob_reaches (x :: gs) (c :: cs) = glob_reaches gs cs := by
            have : (x = '?' || x = c) = true := by
              by_cases h1 : x = '?'
              · simp [h1]
              · have : c = x := by
                  by_contra h2
                  exact hm ⟨h1, h2⟩
                simp [this]
            simp [glob_reaches, hstar, this]
          rw [hstep, hgl]
          rcases ih cs hg.2 hr1 with ⟨h1, s1, h2, h, h3, h4⟩ | ⟨h1, s1, h2, h3⟩
          · left
            exact ⟨h1, s1, h2, h, h3, fun c1 hc1 => List.mem_cons_of_mem _ (h4 c1 hc1)⟩
          · right
            refine ⟨h1, s1, h2, ?_⟩
            intro c1 hc1
            have := h3 c1 hc1
            simp only [List.cons_append, List.mem_cons]
            exact Or.inr this

theorem kind_name_matched (kind : List Char) (again : List Char → Bool → Bool × Bool)
    (s : List Char) (nm : Bool) (hs : ',' ∉ s) :
    (__cma_where_from_kind kind again s nm).2 = nm := by
  cases s with
  | nil =>
    unfold __cma_where_from_kind
    simp only [List.tail_nil]
    cases kind <;> simp [TRY_MATCH, __cma_where_from_end, __cma_where_from_again_maybe, strchr]
  | cons x kg =>
    simp only [List.mem_cons, not_or] at hs
    unfold __cma_where_from_kind
    simp only [List.tail_cons]
    have h := TRY_MATCH_glob [] kg kind hs.2 (Or.inl rfl)
    simp only [List.append_nil] at h
    rcases h with ⟨_, h2⟩ | ⟨_, ⟨s1, h2, h3⟩ | ⟨h, h2, h3, h4⟩⟩
    · rw [h2]
      simp [__cma_where_from_end]
    · rw [h2]
      simp only
      rw [again_maybe_none again s1 nm (fun hc => hs.2 (h3 _ hc))]
    · rw [h4]
      simp only
      rw [end_of_nonempty again h nm (fun hc => hs.2 (h3 _ hc)) h2]

/-- The value of `name_matched` behind a pattern with a device part (no comma, no slash at
its begin) for a device name without slash: it is set exactly when the loop of
`TRY_MATCH(name)` reached the end of the name or a `*`, also where the device part of the
pattern goes on behind the end of the name. -/
theorem pattern_match_name_matched (name kind p : List Char) (nm : Bool)
    (hp : ',' ∉ p) (hhead : p.head? ≠ some '/') (hn : '/' ∉ name) :
    (pattern_match name kind p nm).2 = glob_reaches (pattern_dev p) name := by
  have hsplit : p.takeWhile (fun c => c ≠ '/') ++ p.dropWhile (fun c => c ≠ '/') = p :=
    List.takeWhile_append_dropWhile _ p
  have hg : ',' ∉ p.takeWhile (fun c => c ≠ '/') :=
    fun h => hp (List.takeWhile_subset _ h)
  have hr1 : p.dropWhile (fun c => c ≠ '/') = [] ∨
      ((p.dropWhile (fun c => c ≠ '/')).head? = some '/' ∧ '/' ∉ name) := by
    rcases dropWhile_slash p with h | ⟨kg, h⟩
    · exact Or.inl h
    · exact Or.inr ⟨by rw [h]; rfl, hn⟩
  have h := TRY_MATCH_reaches _ _ name hg hr1
  rw [hsplit] at h
  unfold pattern_match __cma_where_from_body pattern_dev
  rw [if_neg hhead]
  rcases h with ⟨h1, s1, h2, h, h3, h4⟩ | ⟨h1, s1, h2, h3⟩
  · rw [h2, h1]
    have hs1 : ',' ∉ s1 := by
      rw [h3]
      simp only [List.mem_append, not_or]
      exact ⟨fun hc => hg (h4 _ hc), fun hc => hp (List.dropWhile_subset _ hc)⟩
    simp only
    split
    · split
      · rw [again_maybe_none _ _ _ hs1]
      · unfold __cma_where_from_end
        split
        · rfl
        · rw [again_maybe_none _ _ _ hs1]
    · exact kind_name_matched kind _ s1 true hs1
  · rw [h2, h1]
    simp only
    rw [again_maybe_none _ _ _ (fun hc => hp (hsplit ▸ h3 _ hc))]

/-! ## First match wins, against the reference resolver -/

theorem split_patterns_no_comma (s : List Char) : ∀ p ∈ split_patterns s, ',' ∉ p := by
  induction s with
  | nil =>
    intro p hp
    simp only [split_patterns, List.mem_singleton] at hp
    subst hp
    simp
  | cons c s ih =>
    intro p hp
    unfold split_patterns at hp
    split at hp
    · rcases List.mem_cons.1 hp with h | h
      · subst h
        simp
      · exact ih p h
    · rename_i hc
      split at hp
      · simp only [List.mem_singleton] at hp
        subst hp
        simpa using fun h => hc h.symm
      · rename_i q qs hq
        rcases List.mem_cons.1 hp with h | h
        · subst h
          have hq1 := ih q (by rw [hq]; exact List.mem_cons_self _ _)
          simp only [List.mem_cons, not_or]
          exact ⟨fun h => hc h.symm, hq1⟩
        · exact ih p (by rw [hq]; exact List.mem_cons_of_mem _ h)

theorem pattern_ref_inherit_own (name kind p : List Char) (inherited : Option (List Char))
    (hhead : p.head? ≠ some '/') :
    pattern_ref_inherit name kind inherited p = pattern_ref glob_match p name kind := by
  unfold pattern_ref_inherit pattern_inherit pattern_ref
  rw [if_neg hhead]

theorem rule_match_ref (name kind : List Char) (hn : '/' ∉ name) :
    ∀ (ps : List (List Char)) (nm : Bool) (inherited : Option (List Char)),
      (∀ p ∈ ps, ',' ∉ p ∧ p.head? ≠ some '/') →
      (rule_match name kind ps nm).1 = (rule_ref name kind ps inherited).1 := by
  intro ps
  induction ps with
  | nil => intro nm inherited _; rfl
  | cons p ps ih =>
    intro nm inherited h
    obtain ⟨hp, hhead⟩ := h p (List.mem_cons_self _ _)
    have hps : ∀ q ∈ ps, ',' ∉ q ∧ q.head? ≠ some '/' :=
      fun q hq => h q (List.mem_cons_of_mem _ hq)
    have h1 := pattern_match_ref name kind p nm hp hhead hn
    rw [rule_match, rule_ref, pattern_ref_inherit_own name kind p inherited hhead, ← h1]
    rcases hpm : pattern_match name kind p nm with ⟨m, nm1⟩
    cases m
    · simp only [Bool.false_or]
      exact ih nm1 _ hps
    · simp

/-- First match wins against the reference resolver, for a table in which no pattern
begins with a slash and a device name without slash: `__cma_where_from` answers as the
reference resolver does. -/
theorem cma_where_from_ref_own_device (cma_map : List cma_map_entry) (name : List Char)
    (kind : Option (List Char)) (hname : name ≠ []) (hn : '/' ∉ name)
    (hown : ∀ spec ∈ cma_map, ∀ p ∈ split_patterns spec.patterns, p.head? ≠ some '/') :
    __cma_where_from cma_map (some name) kind =
      where_from_ref name (kind.getD []) cma_map none := by
  simp only [__cma_where_from, if_neg hname]
  have key : ∀ (m : List cma_map_entry) (nm : Bool) (inherited : Option (List Char)),
      (∀ spec ∈ m, ∀ p ∈ split_patterns spec.patterns, p.head? ≠ some '/') →
      __cma_where_from_loop name (kind.getD []) m nm =
        where_from_ref name (kind.getD []) m inherited := by
    intro m
    induction m with
    | nil => intro nm inherited _; rfl
    | cons spec rest ih =>
      intro nm inherited h
      have hs : ∀ p ∈ split_patterns spec.patterns, ',' ∉ p ∧ p.head? ≠ some '/' :=
        fun p hp => ⟨split_patterns_no_comma _ p hp, h spec (List.mem_cons_self _ _) p hp⟩
      have h1 := rule_match_ref name (kind.getD []) hn _ nm inherited hs
      rw [where_from_loop_cons, where_from_ref, h1]
      split
      · rfl
      · exact ih _ _ (fun sp hsp => h sp (List.mem_cons_of_mem _ hsp))
  exact key cma_map false none hown

theorem cma_where_from_ref_own_device_witness :
    __cma_where_from (cma_map_param_parse "foo=r1;*/*=r2".toList).2 (some "foo".toList)
        (some "k".toList) =
      where_from_ref "foo".toList "k".toList
        (cma_map_param_parse "foo=r1;*/*=r2".toList).2 none :=
  cma_where_from_ref_own_device _ "foo".toList (some "k".toList) (by decide) (by decide)
    (by decide)

/-- C10, the code at a failing input.  In the table `bar/firmware=r3;/*=r2;*/*=r9` the
request of the device `ba` for the kind `other` is answered with `r2`.  By the reference
matcher the first two rules have no matching pattern, because the glob `bar`, which is the
device part of `bar/firmware` and the one that `/*` inherits, does not match `ba`; the
pattern `*/*` of the third rule matches, so that the first rule with a matching pattern is
the third, with `r9`.  In the table `bar/firmware=r3;/*=r2`, where no rule has a matching
pattern, the answer is `r2` as well, not `-ENOENT`.  The requests of the devices `bar` and
`baz` are answered as the reference resolver does. -/
theorem cma_where_from_not_first_match :
    (cma_map_param_parse "bar/firmware=r3;/*=r2;*/*=r9".toList).2 =
      [⟨"bar/firmware".toList, "r3".toList⟩, ⟨"/*".toList, "r2".toList⟩,
        ⟨"*/*".toList, "r9".toList⟩] ∧
    __cma_where_from (cma_map_param_parse "bar/firmware=r3;/*=r2;*/*=r9".toList).2
      (some "ba".toList) (some "other".toList) = .ok "r2".toList ∧
    where_from_ref "ba".toList "other".toList
      (cma_map_param_parse "bar/firmware=r3;/*=r2;*/*=r9".toList).2 none =
        .ok "r9".toList ∧
    pattern_inherit none "bar/firmware".toList = some "bar".toList ∧
    pattern_inherit (some "bar".toList) "/*".toList = some "bar".toList ∧
    glob_match "bar".toList "ba".toList = false ∧
    pattern_ref_inherit "ba".toList "other".toList none "bar/firmware".toList = false ∧
    pattern_ref_inherit "ba".toList "other".toList (some "bar".toList) "/*".toList =
      false ∧
    pattern_ref_inherit "ba".toList "other".toList (some "bar".toList) "*/*".toList =
      true ∧
    __cma_where_from (cma_map_param_parse "bar/firmware=r3;/*=r2".toList).2
      (some "ba".toList) (some "other".toList) = .ok "r2".toList ∧
    where_from_ref "ba".toList "other".toList
      (cma_map_param_parse "bar/firmware=r3;/*=r2".toList).2 none = .error (-ENOENT) ∧
    __cma_where_from (cma_map_param_parse "bar/firmware=r3;/*=r2;*/*=r9".toList).2
      (some "bar".toList) (some "other".toList) = .ok "r2".toList ∧
    where_from_ref "bar".toList "other".toList
      (cma_map_param_parse "bar/firmware=r3;/*=r2;*/*=r9".toList).2 none =
        .ok "r2".toList ∧
    __cma_where_from (cma_map_param_parse "bar/firmware=r3;/*=r2;*/*=r9".toList).2
      (some "baz".toList) (some "other".toList) = .ok "r9".toList ∧
    where_from_ref "baz".toList "other".toList
      (cma_map_param_parse "bar/firmware=r3;/*=r2;*/*=r9".toList).2 none =
        .ok "r9".toList :=
  ⟨rfl, rfl, rfl, rfl, rfl, rfl, rfl, rfl, rfl, rfl, rfl, rfl, rfl, rfl, rfl⟩

/-! ## The argument check of `cma_alloc` -/

theorem testBit_of_range (x k : Nat) (h1 : 2 ^ k ≤ x) (h2 : x < 2 ^ (k + 1)) :
    x.testBit k = true := by
  rw [Nat.testBit_to_div_mod]
  have hpos : 0 < 2 ^ k := Nat.two_pow_pos k
  have hd : x / 2 ^ k = 1 := by
    apply Nat.div_eq_of_lt_le
    · rw [Nat.one_mul]; exact h1
    · rw [Nat.pow_succ] at h2
      omega
  rw [hd]
  rfl

theorem land_pred_eq_zero_iff (a : Nat) (ha : 0 < a) :
    a &&& (a - 1) = 0 ↔ ∃ k, a = 2 ^ k := by
  constructor
  · intro h
    refine ⟨a.log2, ?_⟩
    by_contra hne
    have h1 : 2 ^ a.log2 ≤ a := Nat.log2_self_le (by omega)
    have h2 : a < 2 ^ (a.log2 + 1) := Nat.lt_log2_self
    have t1 := testBit_of_range a a.log2 h1 h2
    have t2 := testBit_of_range (a - 1) a.log2 (by omega) (by omega)
    have t3 : (a &&& (a - 1)).testBit a.log2 = true := by
      rw [Nat.testBit_and, t1, t2]
      rfl
    rw [h] at t3
    simp at t3
  · rintro ⟨k, rfl⟩
    rw [Nat.and_pow_two_sub_one_eq_mod, Nat.mod_self]

/-- The test `alignment & (alignment - 1)` of `cma_alloc` on an `unsigned long`: it is zero
exactly for zero and for the powers of two. -/
theorem alignment_check (w a : Nat) (ha : a < 2 ^ w) :
    a &&& usub w a 1 = 0 ↔ a = 0 ∨ ∃ k, a = 2 ^ k := by
  by_cases h0 : a = 0
  · subst h0
    simp
  · rw [usub_of_le w a 1 (by omega) ha, land_pred_eq_zero_iff a (by omega)]
    constructor
    · exact Or.inr
    · rintro (h | h)
      · exact absurd h h0
      · exact h

/-- Argument validation: with a zero size, or with an alignment that is neither zero nor
a power of two, `cma_alloc` returns `-EINVAL` whatever the table of rules holds and
whatever the device is, and leaves the state as it is.  With a valid size and alignment,
a device name without slash and a table in which no pattern begins with a slash, it
returns `-ENOENT` and leaves the state as it is when no rule has a matching pattern by the
reference matcher. -/
theorem cma_alloc_validates (w : Nat) (km : Nat → Bool × Bool) (st : cma_state)
    (dev kind : Option (List Char)) (size alignment : Nat) (ha : alignment < 2 ^ w) :
    ((size = 0 ∨ ¬ (alignment = 0 ∨ ∃ k, alignment = 2 ^ k)) →
      cma_alloc w km st dev kind size alignment = .ret (.error (-EINVAL)) st) ∧
    (∀ name, size ≠ 0 → (alignment = 0 ∨ ∃ k, alignment = 2 ^ k) →
      dev = some name → name ≠ [] → '/' ∉ name →
      (∀ spec ∈ st.cma_map, ∀ p ∈ split_patterns spec.patterns, p.head? ≠ some '/') →
      where_from_ref name (kind.getD []) st.cma_map none = .error (-ENOENT) →
      cma_alloc w km st dev kind size alignment = .ret (.error (-ENOENT)) st) := by
  constructor
  · intro h
    unfold cma_alloc
    rw [if_pos]
    rcases h with h | h
    · exact Or.inr h
    · left
      intro hz
      exact h ((alignment_check w alignment ha).1 hz)
  · intro name hs hal hdev hname hn hown hno
    subst hdev
    unfold cma_alloc
    rw [if_neg]
    · have hw : __cma_where_from st.cma_map (some name) kind = .error (-ENOENT) := by
        rw [cma_where_from_ref_own_device st.cma_map name kind hname hn hown]
        exact hno
      rw [hw]
    · intro h
      rcases h with h | h
      · exact h ((alignment_check w alignment ha).2 hal)
      · exact hs h

theorem cma_alloc_validates_witness :
    cma_alloc 32 kmalloc_ok (example_state 0x1000 0x1000) (some ['d']) none 0 0x1000 =
        .ret (.error (-EINVAL)) (example_state 0x1000 0x1000) ∧
      cma_alloc 32 kmalloc_ok (example_state 0x1000 0x1000) none none 0x1000 0x1800 =
        .ret (.error (-EINVAL)) (example_state 0x1000 0x1000) ∧
      cma_alloc 32 kmalloc_ok (example_state 0x1000 0x1000) (some ['d']) (some ['k'])
          0x1000 0x1000 =
        .ret (.error (-ENOENT)) (example_state 0x1000 0x1000) :=
  ⟨(cma_alloc_validates 32 kmalloc_ok (example_state 0x1000 0x1000) (some ['d']) none 0 0x1000
      (by decide)).1 (Or.inl rfl),
    (cma_alloc_validates 32 kmalloc_ok (example_state 0x1000 0x1000) none none 0x1000 0x1800
      (by decide)).1 (Or.inr (by
        rintro (h | ⟨k, h⟩)
        · exact absurd h (by decide)
        · have hk : k < 13 := by
            by_contra hge
            have : 2 ^ 13 ≤ 2 ^ k := Nat.pow_le_pow_right (by decide) (by omega)
            omega
          interval_cases k <;> omega)),
    (cma_alloc_validates 32 kmalloc_ok (example_state 0x1000 0x1000) (some ['d']) (some ['k'])
      0x1000 0x1000 (by decide)).2 ['d'] (by decide) (Or.inr ⟨12, by decide⟩) rfl (by decide)
      (by decide) (by decide) rfl⟩

/-- C15, the code at a failing input.  The table is `bar/firmware=r3;/*=r2` and the region
"r2" has two free pages.  By the reference matcher no rule has a matching pattern for the
device `ba` and the kind `other`, because the glob `bar` does not match `ba`; the code
resolves the request to `r2`, and `cma_alloc(dev, "other", 0x1000, 0x1000)` returns the
address 0x1000 and takes the page from the region, where the claim has `-ENOENT` and an
unchanged state.  For the device `baz` the call returns `-ENOENT` and changes nothing, and
a zero size is refused with `-EINVAL` before the table is looked at. -/
theorem cma_alloc_unmatched_device_allocates :
    example_inherit.cma_map = (cma_map_param_parse "bar/firmware=r3;/*=r2".toList).2 ∧
    where_from_ref "ba".toList "other".toList example_inherit.cma_map none =
      .error (-ENOENT) ∧
    glob_match "bar".toList "ba".toList = false ∧
    __cma_where_from example_inherit.cma_map (some "ba".toList) (some "other".toList) =
      .ok "r2".toList ∧
    cma_alloc 32 kmalloc_ok example_inherit (some "ba".toList) (some "other".toList)
        0x1000 0x1000 =
      .ret (.ok 0x1000)
        { example_inherit with
          cma_regions :=
            [{ example_region 0x1000 0x2000 with
               name := ['r', '2'], free_space := 0x1000, users := 1,
               private_data := ⟨[⟨0x2000, 0x1000⟩], [⟨0x2000, 0x1000⟩]⟩ }],
          cma_chunks_by_start := [⟨0x1000, 0x1000, 0, 1⟩] } ∧
    (cma_alloc 32 kmalloc_ok example_inherit (some "ba".toList) (some "other".toList)
        0x1000 0x1000).state? ≠ some example_inherit ∧
    where_from_ref "baz".toList "other".toList example_inherit.cma_map none =
      .error (-ENOENT) ∧
    cma_alloc 32 kmalloc_ok example_inherit (some "baz".toList) (some "other".toList)
        0x1000 0x1000 = .ret (.error (-ENOENT)) example_inherit ∧
    cma_alloc 32 kmalloc_ok example_inherit (some "ba".toList) (some "other".toList)
        0 0x1000 = .ret (.error (-EINVAL)) example_inherit :=
  ⟨rfl, rfl, rfl, rfl, rfl, by decide, rfl, rfl, rfl⟩

/-! ## The alignment that `cma_alloc` hands to the allocator -/

/-- C14, the code at a failing input.  The region "R" has four pages at 0x1000 (page size
0x1000).  After `cma_alloc(dev, NULL, 0x800, 0x800)` returned 0x1000, the call
`cma_alloc(dev, NULL, 0x800, 0)` returns 0x1800, which is no multiple of the page size:
the alignment handed to the allocator is 1. -/
theorem cma_alloc_zero_alignment_not_page :
    (cma_alloc 32 kmalloc_ok (example_state 0x1000 0x4000) (some ['d']) none
        0x800 0x800).value? = some (.ok 0x1000) ∧
      ((cma_alloc 32 kmalloc_ok (example_state 0x1000 0x4000) (some ['d']) none
        0x800 0x800).state?.bind
          (fun st1 => (cma_alloc 32 kmalloc_ok st1 (some ['d']) none 0x800 0).value?)) =
        some (.ok 0x1800) ∧
      0x1800 % 0x1000 ≠ 0 ∧
      (cma_alloc 32 kmalloc_ok (example_state 0x1000 0x4000) (some ['d']) none
        0x800 0x800).state?.map region_holes = some [[⟨0x1800, 0x3800⟩]] :=
  ⟨rfl, rfl, by decide, rfl⟩

/-! ## The regions of a route that `__cma_alloc_do` passes over -/

/-- C16, the code at failing inputs.  (a) In `example_zero_start` both regions of the
route are in the table, have an allocator and two free pages, and `cma_bf_alloc` would
carve a page from either; `cma_alloc(dev, NULL, 0x1000, 0)` returns `-ENOMEM`, because
`__cma_region_find` stops at the first entry whose start is zero.  (b) The region "R" has
six pages at 0x1000; after two allocations and one release its holes are [0x1000, 0x3000)
and [0x4000, 0x7000); `cma_alloc(dev, NULL, 0x2000, 0x2000)` neither returns a chunk nor
`-ENOMEM`: `cma_bf_alloc` dereferences a NULL pointer.  The witness of the claim holds: in
a region of one page at 0x1000 the first `cma_alloc(dev, NULL, 4096, 0)` returns 0x1000
and the second `-ENOMEM`, with the state unchanged. -/
theorem cma_alloc_passes_over_regions (fmt_ok : Nat → Bool) :
    (cma_alloc 32 kmalloc_ok example_zero_start (some ['d']) none 0x1000 0).value? =
        some (.error (-ENOMEM)) ∧
      (example_zero_start.cma_regions.map
        (fun r => (r.name, r.size, r.free_space, r.alloc))) =
        [(['Z'], 0x2000, 0x2000, some .bf), (['R'], 0x2000, 0x2000, some .bf)] ∧
      (example_zero_start.cma_regions.map
        (fun r => match cma_bf_alloc 32 r.private_data 0x1000 1 true true with
          | .chunk item _ => some item.start
          | _ => none)) = [some 0, some 0x2000] ∧
      ((cma_alloc 32 kmalloc_ok (example_state 0x1000 0x6000) (some ['d']) none
          0x2000 0x1000).state?.bind fun st1 =>
        (cma_alloc 32 kmalloc_ok st1 (some ['d']) none 0x1000 0x1000).state?.bind fun st2 =>
        (cma_put 32 fmt_ok st2 0x1000).state?.map fun st3 =>
          (region_holes st3,
            cma_alloc 32 kmalloc_ok st3 (some ['d']) none 0x2000 0x2000)) =
        some ([[⟨0x1000, 0x2000⟩, ⟨0x4000, 0x3000⟩]], .oops) ∧
      (cma_alloc 32 kmalloc_ok (example_state 0x1000 0x1000) (some ['d']) none
        4096 0).value? = some (.ok 0x1000) ∧
      ((cma_alloc 32 kmalloc_ok (example_state 0x1000 0x1000) (some ['d']) none
        4096 0).state?.map fun st1 =>
          cma_alloc 32 kmalloc_ok st1 (some ['d']) none 4096 0) =
        some (.ret (.error (-ENOMEM)) (example_allocated 0x1000 0x1000)) :=
  ⟨rfl, rfl, rfl, rfl, rfl, rfl⟩

/-! ## The region parser moves forward -/

theorem simple_strtoull_digits_length (base : Nat) :
    ∀ (cp : List Char) (result : Nat),
      (simple_strtoull_digits base cp result).2.length ≤ cp.length := by
  intro cp
  induction cp with
  | nil => intro result; simp [simple_strtoull_digits]
  | cons c cp ih =>
    intro result
    unfold simple_strtoull_digits
    split
    · exact Nat.le_refl _
    · split
      · exact Nat.le_refl _
      · exact Nat.le_succ_of_le (ih _)

theorem memparse_length (ptr : List Char) : (memparse ptr).2.length ≤ ptr.length := by
  have h1 : ∀ ret : Nat × List Char, ret.2.length ≤ ptr.length →
      (match ret.2 with
        | [] => ret
        | c :: endptr =>
          if c = 'G' ∨ c = 'g' then (ret.1 * 2 ^ 30 % 2 ^ 64, endptr)
          else if c = 'M' ∨ c = 'm' then (ret.1 * 2 ^ 20 % 2 ^ 64, endptr)
          else if c = 'K' ∨ c = 'k' then (ret.1 * 2 ^ 10 % 2 ^ 64, endptr)
          else ret).2.length ≤ ptr.length := by
    intro ret hret
    split
    · exact hret
    · rename_i c endptr he
      rw [he] at hret
      simp only [List.length_cons] at hret
      split
      · simp only; omega
      · split
        · simp only; omega
        · split
          · simp only; omega
          · rw [he]; simp only [List.length_cons]; omega
  unfold memparse
  apply h1
  split
  · rename_i x cp
    split
    · have := simple_strtoull_digits_length 16 cp 0
      simp only [List.length_cons]
      omega
    · exact simple_strtoull_digits_length 10 _ 0
  · exact simple_strtoull_digits_length 10 _ 0

theorem entry_start_length (w : Nat) (param p2 : List Char) (start : Nat)
    (h : cma_param_parse_entry_start w param = some (start, p2)) :
    p2.length ≤ param.length := by
  unfold cma_param_parse_entry_start at h
  split at h
  · split at h
    · simp at h
    · simp only [Option.some.injEq] at h
      have := memparse_length param.tail
      rw [h] at this
      simp only [List.length_tail] at this
      omega
  · simp only [Option.some.injEq, Prod.mk.injEq] at h
    rw [← h.2]

theorem entry_alignment_length (w : Nat) (param p3 : List Char) (alignment : Nat)
    (h : cma_param_parse_entry_alignment w param = some (alignment, p3)) :
    p3.length ≤ param.length := by
  unfold cma_param_parse_entry_alignment at h
  split at h
  · split at h
    · simp at h
    · simp only [Option.some.injEq] at h
      have := memparse_length param.tail
      rw [h] at this
      simp only [List.length_tail] at this
      omega
  · simp only [Option.some.injEq, Prod.mk.injEq] at h
    rw [← h.2]

theorem entry_alloc_length (param p4 : List Char) (alloc alloc_params : Option (List Char))
    (h : cma_param_parse_entry_alloc param = some (alloc, alloc_params, p4)) :
    p4.length ≤ param.length := by
  unfold cma_param_parse_entry_alloc at h
  split at h
  · simp only at h
    have hd : (param.tail.dropWhile (fun c => c ≠ '(' ∧ c ≠ ';')).length ≤ param.length := by
      have := List.Sublist.length_le (List.dropWhile_sublist
        (fun c => decide (c ≠ '(' ∧ c ≠ ';')) (l := param.tail))
      simp only [List.length_tail] at this
      omega
    split at h
    · split at h
      · simp at h
      · rename_i e he
        simp only [Option.some.injEq, Prod.mk.injEq] at h
        have := (strchr_length _ e ')' he).2
        rw [← h.2.2]
        simp only [List.length_tail] at this ⊢
        omega
    · simp only [Option.some.injEq, Prod.mk.injEq] at h
      rw [← h.2.2]
      exact hd
  · simp only [Option.some.injEq, Prod.mk.injEq] at h
    rw [← h.2.2]

theorem entry_save_length (w PAGE_SIZE : Nat) (reg reg1 : cma_region) (name : List Char)
    (size start alignment : Nat) (alloc alloc_params : Option (List Char))
    (param rest : List Char)
    (h : cma_param_parse_entry_save w PAGE_SIZE reg name size start alignment alloc
      alloc_params param = some (rest, reg1)) : rest.length ≤ param.length := by
  unfold cma_param_parse_entry_save at h
  split at h
  · simp at h
  · simp only [Option.some.injEq, Prod.mk.injEq] at h
    rw [← h.1]
    simp

/-- An accepted entry uses up at least one character. -/
theorem entry_rest_shorter (w PAGE_SIZE : Nat) (param rest : List Char)
    (reg reg1 : cma_region)
    (h : cma_param_parse_entry w PAGE_SIZE param reg = some (rest, reg1)) :
    rest.length < param.length := by
  unfold cma_param_parse_entry at h
  split at h
  · simp at h
  · rename_i eq heq
    obtain ⟨hne, hlen⟩ := strchr_length param eq '=' heq
    have ht : eq.tail.length < param.length := by
      cases eq with
      | nil => exact absurd rfl hne
      | cons x r =>
        simp only [List.length_cons] at hlen
        simp only [List.tail_cons]
        omega
    split at h
    · simp at h
    · split at h
      · simp at h
      · split at h
        · simp at h
        · rename_i start p2 h2
          split at h
          · simp at h
          · rename_i alignment p3 h3
            split at h
            · simp at h
            · rename_i alloc alloc_params p4 h4
              have l1 := memparse_length eq.tail
              have l2 := entry_start_length w _ p2 start h2
              have l3 := entry_alignment_length w _ p3 alignment h3
              have l4 := entry_alloc_length _ p4 alloc alloc_params h4
              have l5 := entry_save_length _ _ _ _ _ _ _ _ _ _ _ _ h
              omega

/-- The result of the loop of `cma_param_parse` does not depend on the fuel, once the fuel
is above the length of `param`: the fuel is never used up. -/
theorem cma_param_parse_loop_fuel (w PAGE_SIZE : Nat) :
    ∀ (fuel1 fuel2 left : Nat) (param : List Char) (written : List cma_region),
      param.length < fuel1 → param.length < fuel2 →
      cma_param_parse_loop w PAGE_SIZE fuel1 left param written =
        cma_param_parse_loop w PAGE_SIZE fuel2 left param written := by
  intro fuel1
  induction fuel1 with
  | zero => intro fuel2 left param written h; exact absurd h (Nat.not_lt_zero _)
  | succ fuel1 ih =>
    intro fuel2 left param written h1 h2
    cases fuel2 with
    | zero => exact absurd h2 (Nat.not_lt_zero _)
    | succ fuel2 =>
      rw [cma_param_parse_loop, cma_param_parse_loop]
      split
      · rfl
      · split
        · rfl
        · split
          · rfl
          · rename_i rest reg he
            have := entry_rest_shorter w PAGE_SIZE param rest _ reg he
            exact ih fuel2 (left - 1) rest _ (by omega) (by omega)

/-! ## The loops of the two parsers on well-formed entries -/

theorem strchr_append_self (c : Char) (r rest : List Char) (hr : c ∉ r) :
    strchr (r ++ c :: rest) c = some (c :: rest) := by
  induction r with
  | nil => simp [strchr]
  | cons x r ih =>
    simp only [List.mem_cons, not_or] at hr
    have hx : x ≠ c := fun h => hr.1 h.symm
    simp only [List.cons_append, strchr, if_neg hx]
    exact ih hr.2

theorem strchr_none_of_not_mem (c : Char) (r : List Char) (hr : c ∉ r) : strchr r c = none := by
  induction r with
  | nil => rfl
  | cons x r ih =>
    simp only [List.mem_cons, not_or] at hr
    have hx : x ≠ c := fun h => hr.1 h.symm
    simp only [strchr, if_neg hx]
    exact ih hr.2

theorem takeWhile_ne_append (c : Char) (r rest : List Char) (hr : c ∉ r) :
    (r ++ c :: rest).takeWhile (fun x => decide (x ≠ c)) = r := by
  induction r with
  | nil => simp [List.takeWhile]
  | cons x r ih =>
    simp only [List.mem_cons, not_or] at hr
    have hx : x ≠ c := fun h => hr.1 h.symm
    simp only [List.cons_append, List.takeWhile, ne_eq, hx, not_false_eq_true, decide_True]
    exact congrArg (fun l => x :: l) (ih hr.2)

theorem takeWhile_ne_self (c : Char) (r : List Char) (hr : c ∉ r) :
    r.takeWhile (fun x => decide (x ≠ c)) = r := by
  induction r with
  | nil => rfl
  | cons x r ih =>
    simp only [List.mem_cons, not_or] at hr
    have hx : x ≠ c := fun h => hr.1 h.symm
    simp only [List.takeWhile, ne_eq, hx, not_false_eq_true, decide_True]
    exact congrArg (fun l => x :: l) (ih hr.2)

theorem entry_accepted_ne_nil (w PAGE_SIZE : Nat) (e : List Char) (reg : cma_region)
    (h : entry_accepted w PAGE_SIZE e reg) : e ≠ [] := by
  intro he
  subst he
  have := h.1
  simp [cma_param_parse_entry, strchr] at this

theorem join_entries_cons (e e1 : List Char) (es : List (List Char)) :
    join_entries (e :: e1 :: es) = e ++ ';' :: join_entries (e1 :: es) := by
  rw [join_entries, if_neg (by simp)]

/-- The loop of `cma_param_parse` on accepted entries that are separated by semicolons:
all of them are stored when they are fewer than `left`; otherwise `left - 1` of them are
stored and the result is `-ENOSPC`. -/
theorem cma_param_parse_loop_entries (w PAGE_SIZE : Nat) :
    ∀ (es : List (List Char × cma_region)) (fuel left : Nat) (written : List cma_region),
      (∀ x ∈ es, entry_accepted w PAGE_SIZE x.1 x.2) → 0 < left →
      (join_entries (es.map Prod.fst)).length < fuel →
      cma_param_parse_loop w PAGE_SIZE fuel left (join_entries (es.map Prod.fst)) written =
        if es.length < left then (0, written ++ es.map Prod.snd)
        else (-ENOSPC, written ++ (es.map Prod.snd).take (left - 1)) := by
  intro es
  induction es with
  | nil =>
    intro fuel left written _ hleft hfuel
    cases fuel with
    | zero => exact absurd hfuel (Nat.not_lt_zero _)
    | succ fuel =>
      simp only [List.map_nil, join_entries, cma_param_parse_loop, if_true, List.length_nil,
        hleft, List.append_nil]
  | cons x es ih =>
    intro fuel left written hacc hleft hfuel
    have hx := hacc x (List.mem_cons_self _ _)
    have hes : ∀ y ∈ es, entry_accepted w PAGE_SIZE y.1 y.2 :=
      fun y hy => hacc y (List.mem_cons_of_mem _ hy)
    have hxne := entry_accepted_ne_nil w PAGE_SIZE x.1 x.2 hx
    cases fuel with
    | zero => exact absurd hfuel (Nat.not_lt_zero _)
    | succ fuel =>
      cases es with
      | nil =>
        simp only [List.map_cons, List.map_nil, join_entries, if_true] at hfuel ⊢
        rw [cma_param_parse_loop, if_neg hxne]
        by_cases hl : left - 1 = 0
        · rw [if_pos hl, if_neg (by simp only [List.length_singleton]; omega), hl]
          simp
        · rw [if_neg hl, hx.1, if_pos (by simp only [List.length_singleton]; omega)]
          cases fuel <;> simp [cma_param_parse_loop]
      | cons y es =>
        simp only [List.map_cons] at hfuel ⊢
        rw [join_entries_cons] at hfuel ⊢
        have hne : x.1 ++ ';' :: join_entries (y.1 :: List.map Prod.fst es) ≠ [] := by simp
        rw [cma_param_parse_loop, if_neg hne]
        by_cases hl : left - 1 = 0
        · rw [if_pos hl, if_neg (by simp only [List.length_cons]; omega), hl]
          simp
        · rw [if_neg hl, hx.2]
          simp only
          have hlen : (join_entries (y.1 :: List.map Prod.fst es)).length < fuel := by
            simp only [List.length_append, List.length_cons] at hfuel
            omega
          have := ih fuel (left - 1) (written ++ [x.2]) hes (by omega)
            (by simpa only [List.map_cons] using hlen)
          simp only [List.map_cons] at this
          rw [this]
          simp only [List.length_cons]
          by_cases hk : es.length + 1 < left - 1
          · rw [if_pos hk, if_pos (by omega)]
            simp
          · rw [if_neg hk, if_neg (by omega)]
            have e : left - 1 = (left - 1 - 1) + 1 := by omega
            rw [e, List.take_succ_cons]
            simp

theorem take_buffer (param : List Char) (h : param.length < CMA_MAX_PARAM_LEN) :
    param.take (CMA_MAX_PARAM_LEN - 1) = param :=
  List.take_of_length_le (by omega)

theorem example_memparse (rest : List Char) :
    memparse ('4' :: 'K' :: ';' :: rest) = (4096, ';' :: rest) := by
  simp [memparse, simple_strtoull_digits, digit_value]

theorem example_entry_accepted : entry_accepted 32 0x1000 "r=4K".toList example_parsed := by
  constructor
  · rfl
  · intro rest
    have h1 : strchr ("r=4K".toList ++ ';' :: rest) '=' =
        some ("=4K".toList ++ ';' :: rest) := rfl
    unfold cma_param_parse_entry
    rw [h1]
    simp only [String.toList, List.cons_append, List.nil_append, List.tail_cons,
      List.head?_cons, example_memparse]
    simp [cma_param_parse_entry_start, cma_param_parse_entry_alignment,
      cma_param_parse_entry_alloc, cma_param_parse_entry_save, AT_CONSTANT, ULONG_MAX,
      example_parsed, cma_region_zero]
    decide

theorem simple_strtoull_digits_lt (base : Nat) :
    ∀ (cp : List Char) (result : Nat), result < 2 ^ 64 →
      (simple_strtoull_digits base cp result).1 < 2 ^ 64 := by
  intro cp
  induction cp with
  | nil => intro result h; simpa [simple_strtoull_digits] using h
  | cons c cp ih =>
    intro result h
    unfold simple_strtoull_digits
    split
    · exact h
    · split
      · exact h
      · exact ih _ (Nat.mod_lt _ (Nat.two_pow_pos 64))

theorem memparse_lt (ptr : List Char) : (memparse ptr).1 < 2 ^ 64 := by
  have h1 : ∀ ret : Nat × List Char, ret.1 < 2 ^ 64 →
      (match ret.2 with
        | [] => ret
        | c :: endptr =>
          if c = 'G' ∨ c = 'g' then (ret.1 * 2 ^ 30 % 2 ^ 64, endptr)
          else if c = 'M' ∨ c = 'm' then (ret.1 * 2 ^ 20 % 2 ^ 64, endptr)
          else if c = 'K' ∨ c = 'k' then (ret.1 * 2 ^ 10 % 2 ^ 64, endptr)
          else ret).1 < 2 ^ 64 := by
    intro ret hret
    split
    · exact hret
    · split
      · exact Nat.mod_lt _ (Nat.two_pow_pos 64)
      · split
        · exact Nat.mod_lt _ (Nat.two_pow_pos 64)
        · split
          · exact Nat.mod_lt _ (Nat.two_pow_pos 64)
          · exact hret
  unfold memparse
  apply h1
  split
  · split
    · exact simple_strtoull_digits_lt 16 _ 0 (Nat.two_pow_pos 64)
    · exact simple_strtoull_digits_lt 10 _ 0 (Nat.two_pow_pos 64)
  · exact simple_strtoull_digits_lt 10 _ 0 (Nat.two_pow_pos 64)

/-- An entry with one of the defects is refused. -/
theorem entry_defect_refused (w PAGE_SIZE : Nat) (bad : List Char) (reg : cma_region)
    (h : entry_defect w bad) : cma_param_parse_entry w PAGE_SIZE bad reg = none := by
  rcases h with h | h | ⟨name, t, rfl, hn, hs⟩ | ⟨name, t, u, rfl, hn, hu, ha0, hap⟩
  · unfold cma_param_parse_entry
    rw [h]
  · unfold cma_param_parse_entry
    split
    · rfl
    · rw [if_pos h]
  · unfold cma_param_parse_entry
    rw [strchr_append_self '=' name t hn]
    simp only [List.tail_cons]
    split
    · rfl
    · rfl
  · unfold cma_param_parse_entry
    rw [strchr_append_self '=' name t hn]
    simp only [List.tail_cons]
    split
    · rfl
    · split
      · rfl
      · have hst : cma_param_parse_entry_start w (memparse t).2 = some (0, '/' :: u) := by
          unfold cma_param_parse_entry_start
          have hat : ¬ Option.map Char.toNat ('/' :: u).head? = some AT_CONSTANT := by
            simp only [List.head?_cons, Option.map_some']
            decide
          rw [hu, if_neg hat]
        have hal : cma_param_parse_entry_alignment w ('/' :: u) = none := by
          unfold cma_param_parse_entry_alignment
          simp only [List.head?_cons, if_true, List.tail_cons]
          rw [if_pos]
          right
          rw [usub_of_le 64 _ 1 (by omega) (memparse_lt u)]
          intro hz
          exact hap ((land_pred_eq_zero_iff _ (by omega)).1 hz)
        rw [hst]
        simp only
        rw [hal]

/-- The loop of `cma_param_parse` on accepted entries, each with its semicolon, in front
of the text `tail`: the entries are stored and the loop goes on with `tail`. -/
theorem cma_param_parse_loop_prefix (w PAGE_SIZE : Nat) :
    ∀ (es : List (List Char × cma_region)) (fuel left : Nat) (written : List cma_region)
      (tail : List Char),
      (∀ x ∈ es, entry_accepted w PAGE_SIZE x.1 x.2) → es.length + 1 < left →
      ((es.map (fun x => x.1 ++ [';'])).flatten ++ tail).length < fuel →
      ∃ fuel1, tail.length < fuel1 ∧
        cma_param_parse_loop w PAGE_SIZE fuel left
            ((es.map (fun x => x.1 ++ [';'])).flatten ++ tail) written =
          cma_param_parse_loop w PAGE_SIZE fuel1 (left - es.length) tail
            (written ++ es.map Prod.snd) := by
  intro es
  induction es with
  | nil =>
    intro fuel left written tail _ _ hfuel
    exact ⟨fuel, by simpa using hfuel, by simp⟩
  | cons x es ih =>
    intro fuel left written tail hacc hleft hfuel
    have hx := hacc x (List.mem_cons_self _ _)
    have hes : ∀ y ∈ es, entry_accepted w PAGE_SIZE y.1 y.2 :=
      fun y hy => hacc y (List.mem_cons_of_mem _ hy)
    simp only [List.length_cons] at hleft
    cases fuel with
    | zero => exact absurd hfuel (Nat.not_lt_zero _)
    | succ fuel =>
      have e : (List.map (fun x => x.1 ++ [';']) (x :: es)).flatten ++ tail =
          x.1 ++ ';' :: ((es.map (fun x => x.1 ++ [';'])).flatten ++ tail) := by
        simp
      rw [e] at hfuel ⊢
      have hlen : ((es.map (fun x => x.1 ++ [';'])).flatten ++ tail).length < fuel := by
        simp only [List.length_append, List.length_cons] at hfuel ⊢
        omega
      obtain ⟨fuel1, h1, h2⟩ := ih fuel (left - 1) (written ++ [x.2]) tail hes (by omega) hlen
      refine ⟨fuel1, h1, ?_⟩
      rw [cma_param_parse_loop, if_neg (by simp), if_neg (by omega), hx.2]
      simp only
      rw [h2]
      have e2 : left - 1 - es.length = left - (es.length + 1) := by omega
      rw [e2]
      simp

set_option maxRecDepth 100000 in
/-- The limits of the region parser come before the entries: behind 16 accepted entries
the entry `X`, which has no `=`, gives `-ENOSPC`; and the entry `=4K` with an empty name
that begins at character 609 of the parameter is not read at all, the result is 0. -/
theorem cma_param_parse_defect_not_einval :
    cma_param_parse 32 0x1000 (join_entries (List.replicate 16 "r=4K".toList ++ [['X']])) =
        (-ENOSPC, List.replicate 16 example_parsed) ∧
      (cma_param_parse 32 0x1000
        ("R=4K:".toList ++ List.replicate 600 'a' ++ ";=4K".toList)).1 = 0 :=
  ⟨rfl, rfl⟩

/-- Entries that the region parser refuses.  In a parameter shorter than 512 characters,
let fewer than 16 accepted entries, each with its semicolon, stand in front of the text
`bad`, which is not empty and has no `=` at all, or begins with an entry that has an empty
name, or a size that is read as zero or as more than `ULONG_MAX`, or directly behind the
size an alignment that is neither zero nor a power of two.  Then `cma_param_parse` returns
`-EINVAL`, with the entries in front written to `cma_regions`. -/
theorem cma_param_parse_rejects (w PAGE_SIZE : Nat) (es : List (List Char × cma_region))
    (bad : List Char)
    (hacc : ∀ x ∈ es, entry_accepted w PAGE_SIZE x.1 x.2)
    (hk : es.length < CMA_MAX_REGIONS) (hne : bad ≠ []) (hbad : entry_defect w bad)
    (hlen : ((es.map (fun x => x.1 ++ [';'])).flatten ++ bad).length < CMA_MAX_PARAM_LEN) :
    cma_param_parse w PAGE_SIZE ((es.map (fun x => x.1 ++ [';'])).flatten ++ bad) =
      (-EINVAL, es.map Prod.snd) := by
  simp only [cma_param_parse, take_buffer _ hlen]
  have hk1 : es.length < 16 := hk
  obtain ⟨fuel1, h1, h2⟩ := cma_param_parse_loop_prefix w PAGE_SIZE es
    (((es.map (fun x => x.1 ++ [';'])).flatten ++ bad).length + 1) (CMA_MAX_REGIONS + 1) []
    bad hacc (by simp only [CMA_MAX_REGIONS]; omega) (Nat.lt_succ_self _)
  rw [h2]
  cases fuel1 with
  | zero => exact absurd h1 (Nat.not_lt_zero _)
  | succ fuel1 =>
    rw [cma_param_parse_loop, if_neg hne,
      if_neg (by simp only [CMA_MAX_REGIONS]; omega),
      entry_defect_refused w PAGE_SIZE bad _ hbad]
    simp

theorem cma_param_parse_rejects_witness :
    cma_param_parse 32 0x1000 "r=4K;r=4K;x=7/3;r=4K".toList =
      (-EINVAL, [example_parsed, example_parsed]) :=
  cma_param_parse_rejects 32 0x1000
    [("r=4K".toList, example_parsed), ("r=4K".toList, example_parsed)] "x=7/3;r=4K".toList
    (by
      intro x hx
      simp only [List.mem_cons, List.mem_singleton, List.not_mem_nil, or_false, or_self] at hx
      rw [hx]
      exact example_entry_accepted)
    (by decide) (by decide)
    (Or.inr (Or.inr (Or.inr ⟨['x'], "7/3;r=4K".toList, "3;r=4K".toList, rfl, by decide,
      by simp [memparse, simple_strtoull_digits, digit_value],
      by simp [memparse, simple_strtoull_digits, digit_value],
      by
        have h3 : (memparse "3;r=4K".toList).1 = 3 := by
          simp [memparse, simple_strtoull_digits, digit_value]
        rw [h3]
        rintro ⟨k, hk⟩
        have hk2 : k < 2 := by
          by_contra hge
          have : 2 ^ 2 ≤ 2 ^ k := Nat.pow_le_pow_right (by decide) (by omega)
          omega
        interval_cases k <;> omega⟩)))
    (by decide)

/-- C18, the code at a failing input.  The parameter `A;B=4K` has the entry `A`, which has
no `=`.  `cma_param_parse` returns 0 and stores one region, with the name `A;B`:
`strchr(param, '=')` is not held up by the semicolon and finds the `=` of the entry behind
it.  The parser of the rules refuses the text `A;B=r` with `-EINVAL`.  The entry `A` alone,
or behind the entry `B=4K`, is refused with `-EINVAL`. -/
theorem cma_param_parse_entry_without_eq :
    strchr "A".toList '=' = none ∧
    strchr "A;B=4K".toList '=' = some "=4K".toList ∧
    cma_param_parse 32 0x1000 "A;B=4K".toList =
      (0, [{ example_parsed with name := "A;B".toList }]) ∧
    (cma_map_param_parse "A;B=r".toList).1 = -EINVAL ∧
    (cma_param_parse 32 0x1000 "A".toList).1 = -EINVAL ∧
    (cma_param_parse 32 0x1000 "B=4K;A".toList).1 = -EINVAL :=
  ⟨rfl, rfl, by decide, by decide, by decide, by decide⟩

/-! ## What the region parser stores -/

/-- C17, the code at failing inputs.  `unsigned long` has 32 bits and the page size is
0x1000.  (a) For the example of the claim, `reg1=64M:bf;reg2=32M@0x100000:bf;reg3=64M/1M:bf`,
`cma_param_parse` returns `-EINVAL` with only `reg1` stored: the test for the start part
compares `*param` with the six-character constant of mm/cma.c:76, which no character
equals, so the `@` is refused.  Without `reg2` the other two entries are stored as the
claim says.  (b) The entry `R=0xFFFFF001` is accepted and stored with size 0: rounding the
size up to the page size wraps around. -/
theorem cma_param_parse_example_refused :
    cma_param_parse 32 0x1000 "reg1=64M:bf;reg2=32M@0x100000:bf;reg3=64M/1M:bf".toList =
        (-EINVAL,
          [{ cma_region_zero with
             name := "reg1".toList, size := 0x4000000, free_space := 0x4000000,
             alignment := 0x1000, alloc_name := some "bf".toList }]) ∧
      cma_param_parse 32 0x1000 "reg1=64M:bf;reg3=64M/1M:bf".toList =
        (0,
          [{ cma_region_zero with
             name := "reg1".toList, size := 0x4000000, free_space := 0x4000000,
             alignment := 0x1000, alloc_name := some "bf".toList },
           { cma_region_zero with
             name := "reg3".toList, size := 0x4000000, free_space := 0x4000000,
             alignment := 0x100000, alloc_name := some "bf".toList }]) ∧
      (∀ c : Char, c.toNat ≠ AT_CONSTANT) ∧
      cma_param_parse 32 0x1000 "R=0xFFFFF001".toList =
        (0, [{ cma_region_zero with name := ['R'], alignment := 0x1000 }]) :=
  ⟨rfl, rfl, by
    intro c h
    have := c.valid
    have h2 : c.toNat < 0x110000 := by
      rcases c.valid with h1 | h1
      · exact lt_trans h1 (by decide)
      · exact h1.2
    rw [h] at h2
    exact absurd h2 (by decide), rfl⟩

/-! ## What a failed parse leaves behind -/

set_option maxRecDepth 100000 in
/-- C19, the code at failing inputs.  For the region parameter `R=4K;X` `cma_param_parse`
returns `-EINVAL` and the region `R` stays stored; for 17 entries it returns `-ENOSPC` and
16 regions stay stored; for 65 rules `cma_map_param_parse` returns `-ENOSPC` and 64 rules
stay stored.  Only where a rule has no `=` is the table of rules emptied. -/
theorem cma_param_parse_partial_install :
    cma_param_parse 32 0x1000 "R=4K;X".toList =
        (-EINVAL, [{ example_parsed with name := ['R'] }]) ∧
      cma_param_parse 32 0x1000 (join_entries (List.replicate 17 "r=4K".toList)) =
        (-ENOSPC, List.replicate 16 example_parsed) ∧
      cma_map_param_parse (join_entries (List.replicate 65 "a=b".toList)) =
        (-ENOSPC, List.replicate 64 ⟨['a'], ['b']⟩) ∧
      cma_map_param_parse "a=b;c".toList = (-EINVAL, []) :=
  ⟨rfl, rfl, rfl, rfl⟩

/-! ## The fields that an accepted entry stores -/

theorem char_ne_at_constant (c : Char) : c.toNat ≠ AT_CONSTANT := by
  intro h
  have h2 : c.toNat < 0x110000 := by
    rcases c.valid with h1 | h1
    · exact lt_trans h1 (by decide)
    · exact h1.2
  rw [h] at h2
  exact absurd h2 (by decide)

/-- The branch of `cma_param_parse_entry` that reads the start is never taken. -/
theorem entry_start_zero (w : Nat) (param : List Char) :
    cma_param_parse_entry_start w param = some (0, param) := by
  unfold cma_param_parse_entry_start
  rw [if_neg]
  cases param with
  | nil => simp
  | cons c cs =>
    simp only [List.head?_cons, Option.map_some', Option.some.injEq]
    exact char_ne_at_constant c

theorem ALIGN_multiple (w k x : Nat) (hk : k < w) : ALIGN w x (2 ^ k) % 2 ^ k = 0 := by
  unfold ALIGN
  rw [usub_one_pow w k hk]
  have h1 : 2 ^ k < 2 ^ w := Nat.pow_lt_pow_right (by decide) hk
  have h2 : 0 < 2 ^ k := Nat.two_pow_pos k
  have h3 : unot w (2 ^ k - 1) = 2 ^ w - 2 ^ k := by
    unfold unot
    rw [Nat.mod_eq_of_lt (by omega)]
    omega
  rw [h3, land_high_mask w k _ (le_of_lt hk) (by unfold uadd; exact Nat.mod_lt _ (by omega))]
  exact Nat.mul_mod_right _ _

theorem PAGE_ALIGN_pow (s k : Nat) (hs : s < 64) (hk : k < 64) :
    ALIGN 64 (2 ^ k) (2 ^ s) = 2 ^ (max k s) := by
  have hP : 0 < 2 ^ s := Nat.two_pow_pos s
  have hK : 0 < 2 ^ k := Nat.two_pow_pos k
  have h63 : ∀ n, n < 64 → 2 ^ n ≤ 2 ^ 63 := fun n hn =>
    Nat.pow_le_pow_right (by decide) (by omega)
  have hno : 2 ^ k + (2 ^ s - 1) < 2 ^ 64 := by
    have := h63 s hs
    have := h63 k hk
    have e : (2 : Nat) ^ 64 = 2 ^ 63 + 2 ^ 63 := by norm_num
    omega
  rw [ALIGN_eq 64 s (2 ^ k) hs hno]
  by_cases hks : s ≤ k
  · rw [Nat.max_eq_left hks]
    have e : 2 ^ k = 2 ^ s * 2 ^ (k - s) := by
      rw [← Nat.pow_add, Nat.add_sub_cancel' hks]
    have hd : (2 ^ k + (2 ^ s - 1)) / 2 ^ s = 2 ^ (k - s) := by
      apply Nat.div_eq_of_lt_le
      · rw [Nat.mul_comm, ← e]
        omega
      · rw [Nat.add_mul, Nat.one_mul, Nat.mul_comm, ← e]
        omega
    rw [hd, ← e]
  · have hlt : k < s := by omega
    rw [Nat.max_eq_right (le_of_lt hlt)]
    have hk2 : 2 ^ k < 2 ^ s := Nat.pow_lt_pow_right (by decide) hlt
    have hd : (2 ^ k + (2 ^ s - 1)) / 2 ^ s = 1 := by
      apply Nat.div_eq_of_lt_le
      · omega
      · omega
    rw [hd, Nat.mul_one]

/-- What an accepted entry stores, for a page size `2 ^ s` with `s < w ≤ 64`: the name is
the text before the `=`; the start is 0, whatever the entry says; the alignment is a power
of two from the page size on; the free space is the size; the size is a multiple of
the page size, and where the size that was read plus the page size fits in an
`unsigned long` it is that size rounded up; an empty allocator name is stored as NULL;
the other fields of the region are not written. -/
theorem cma_param_parse_entry_stored (w s : Nat) (param rest : List Char)
    (reg reg1 : cma_region) (hs : s < w) (hw : w ≤ 64)
    (h : cma_param_parse_entry w (2 ^ s) param reg = some (rest, reg1)) :
    reg1.name = param.takeWhile (fun c => c ≠ '=') ∧ reg1.name ≠ [] ∧
      reg1.start = 0 ∧
      (∃ a, s ≤ a ∧ a < w ∧ reg1.alignment = 2 ^ a) ∧
      reg1.free_space = reg1.size ∧
      reg1.size % 2 ^ s = 0 ∧
      (∃ size, 0 < size ∧ size < 2 ^ w ∧ reg1.size = ALIGN 64 size (2 ^ s) % 2 ^ w ∧
        (size + (2 ^ s - 1) < 2 ^ w → size ≤ reg1.size ∧ reg1.size < size + 2 ^ s)) ∧
      reg1.alloc_name ≠ some [] ∧
      reg1.alloc = reg.alloc ∧ reg1.users = reg.users ∧
      reg1.private_data = reg.private_data := by
  have hs64 : s < 64 := by omega
  have hww : (2 : Nat) ^ w ≤ 2 ^ 64 := Nat.pow_le_pow_right (by decide) hw
  have hPw : (2 : Nat) ^ s < 2 ^ w := Nat.pow_lt_pow_right (by decide) hs
  have hP : 0 < 2 ^ s := Nat.two_pow_pos s
  unfold cma_param_parse_entry at h
  split at h
  · simp at h
  · rename_i eq heq
    split at h
    · simp at h
    · rename_i hhead
      split at h
      · simp at h
      · rename_i hsize
        rw [entry_start_zero] at h
        simp only at h
        split at h
        · simp at h
        · rename_i alignment p3 hal
          split at h
          · simp at h
          · rename_i alloc alloc_params p4 _
            unfold cma_param_parse_entry_save at h
            split at h
            · simp at h
            · simp only [Option.some.injEq, Prod.mk.injEq] at h
              obtain ⟨_, hreg⟩ := h
              subst hreg
              simp only [not_or, not_lt] at hsize
              obtain ⟨hs0, hsmax⟩ := hsize
              have hsz : (memparse eq.tail).1 < 2 ^ w := by
                unfold ULONG_MAX at hsmax
                have := Nat.two_pow_pos w
                omega
              -- the alignment that was read
              have halign : alignment = 0 ∨ ∃ k, k < w ∧ alignment = 2 ^ k := by
                unfold cma_param_parse_entry_alignment at hal
                split at hal
                · split at hal
                  · simp at hal
                  · rename_i hchk
                    simp only [Option.some.injEq] at hal
                    simp only [not_or, not_lt, not_not] at hchk
                    rw [hal] at hchk
                    simp only at hchk
                    have hlt : alignment < 2 ^ w := by
                      have := hchk.1
                      unfold ULONG_MAX at this
                      have := Nat.two_pow_pos w
                      omega
                    rcases (alignment_check 64 alignment (by omega)).1 hchk.2 with h0 | ⟨k, hk⟩
                    · exact Or.inl h0
                    · right
                      refine ⟨k, ?_, hk⟩
                      rw [hk] at hlt
                      exact (Nat.pow_lt_pow_iff_right (by decide)).1 hlt
                · simp only [Option.some.injEq, Prod.mk.injEq] at hal
                  exact Or.inl hal.1.symm
              have halign1 : ∃ a, s ≤ a ∧ a < w ∧
                  (if alignment ≠ 0 then ALIGN 64 alignment (2 ^ s) else 2 ^ s) = 2 ^ a := by
                rcases halign with h0 | ⟨k, hk, hk2⟩
                · exact ⟨s, le_refl _, hs, by rw [if_neg (by simp [h0])]⟩
                · have hne : alignment ≠ 0 := by
                    rw [hk2]
                    exact Nat.pos_iff_ne_zero.1 (Nat.two_pow_pos k)
                  refine ⟨max k s, le_max_right _ _, max_lt hk hs, ?_⟩
                  rw [if_pos hne, hk2, PAGE_ALIGN_pow s k hs64 (by omega)]
              obtain ⟨a, ha1, ha2, ha3⟩ := halign1
              have haw : (2 : Nat) ^ a < 2 ^ w := Nat.pow_lt_pow_right (by decide) ha2
              simp only
              rw [ha3, Nat.mod_eq_of_lt haw]
              have hstart : ALIGN 64 0 (2 ^ a) = 0 := by
                rw [ALIGN_eq 64 a 0 (by omega) (by
                  have := Nat.two_pow_pos a
                  omega)]
                have : (0 + (2 ^ a - 1)) / 2 ^ a = 0 := by
                  apply Nat.div_eq_of_lt
                  have := Nat.two_pow_pos a
                  omega
                rw [this, Nat.mul_zero]
              have hmult : ALIGN 64 (memparse eq.tail).1 (2 ^ s) % 2 ^ w % 2 ^ s = 0 := by
                have h1 := ALIGN_multiple 64 s (memparse eq.tail).1 hs64
                have hdvd : 2 ^ s ∣ 2 ^ w := Nat.pow_dvd_pow 2 (le_of_lt hs)
                rw [Nat.mod_mod_of_dvd _ hdvd]
                exact h1
              refine ⟨by trivial, ?_, ?_, ⟨a, ha1, ha2, by trivial⟩, by trivial, hmult,
                ⟨(memparse eq.tail).1, by omega, hsz, by trivial, ?_⟩, ?_, by trivial,
                by trivial, by trivial⟩
              · intro hnil
                apply hhead
                cases param with
                | nil => simp [strchr] at heq
                | cons c cs =>
                  by_cases hc : c = '='
                  · rw [hc]
                    rfl
                  · simp [List.takeWhile, hc] at hnil
              · rw [hstart]
                rfl
              · intro hfit
                have hfit64 : (memparse eq.tail).1 + (2 ^ s - 1) < 2 ^ 64 := by omega
                obtain ⟨b1, b2, _⟩ := ALIGN_spec 64 s (memparse eq.tail).1 hs64 hfit64
                have hlt : ALIGN 64 (memparse eq.tail).1 (2 ^ s) < 2 ^ w := by
                  by_contra hge
                  have hm := ALIGN_multiple 64 s (memparse eq.tail).1 hs64
                  have hdvd : 2 ^ s ∣ 2 ^ w := Nat.pow_dvd_pow 2 (le_of_lt hs)
                  obtain ⟨q, hq⟩ := hdvd
                  have hd := Nat.div_add_mod (ALIGN 64 (memparse eq.tail).1 (2 ^ s)) (2 ^ s)
                  rw [hm] at hd
                  have hge2 : 2 ^ s * q ≤ 2 ^ s * (ALIGN 64 (memparse eq.tail).1 (2 ^ s) / 2 ^ s) := by
                    rw [← hq]
                    omega
                  have hq2 := Nat.le_of_mul_le_mul_left hge2 hP
                  have hlt2 : 2 ^ s * (ALIGN 64 (memparse eq.tail).1 (2 ^ s) / 2 ^ s) <
                      2 ^ s * (q + 1) := by
                    rw [Nat.mul_add, ← hq, Nat.mul_one]
                    omega
                  have := Nat.lt_of_mul_lt_mul_left hlt2
                  omega
                rw [Nat.mod_eq_of_lt hlt]
                exact ⟨b1, b2⟩
              · split
                · simp
                · split <;> simp_all

/-! ## First fit over the route, where no region starts at zero -/

theorem region_find_eq_lookup (name : List Char) :
    ∀ (regs : List cma_region) (idx : Nat), (∀ reg ∈ regs, reg.start ≠ 0) →
      __cma_region_find_from name regs idx = region_lookup_from name regs idx := by
  intro regs
  induction regs with
  | nil => intro idx _; rfl
  | cons reg rest ih =>
    intro idx h
    unfold __cma_region_find_from region_lookup_from
    rw [if_neg (h reg (List.mem_cons_self _ _))]
    split
    · rfl
    · exact ih (idx + 1) (fun r hr => h r (List.mem_cons_of_mem _ hr))

theorem set_self (regs : List cma_region) (idx : Nat) (reg : cma_region)
    (h : regs[idx]? = some reg) : regs.set idx reg = regs := by
  induction regs generalizing idx with
  | nil => rfl
  | cons r rest ih =>
    cases idx with
    | zero =>
      simp only [List.getElem?_cons_zero, Option.some.injEq] at h
      rw [h]
      rfl
    | succ i =>
      simp only [List.getElem?_cons_succ] at h
      simp only [List.set_cons_succ]
      rw [ih i h]

/-- A pass of the loop of `__cma_alloc_do` over a region that does not qualify goes on to
the next name, or ends the loop, with the state as it was. -/
theorem alloc_do_pass_passed (w : Nat) (km_item km_next : Bool) (size alignment : Nat)
    (next : cma_state → List Char → outcome (Option cma_chunk))
    (st : cma_state) (from_ : List Char)
    (hstart : ∀ reg ∈ st.cma_regions, reg.start ≠ 0)
    (hp : region_passed w km_item km_next st (from_.takeWhile (fun c => c ≠ ',')) size
      alignment) :
    __cma_alloc_do_pass w km_item km_next size alignment next st from_ =
      match strchr from_ ',' with
      | none => outcome.ret none st
      | some e => next st e.tail := by
  simp only [__cma_alloc_do_pass, __cma_region_find]
  rw [region_find_eq_lookup _ _ 0 hstart]
  cases hl : region_lookup_from (from_.takeWhile (fun c => c ≠ ',')) st.cma_regions 0 with
  | none => rfl
  | some idx =>
    simp only
    cases hr : st.cma_regions[idx]? with
    | none => rfl
    | some reg =>
      simp only
      rcases hp idx reg hl hr with h | h | ⟨prv, h⟩
      · rw [if_pos h]
      · split
        · cases strchr from_ ',' <;> rfl
        · cases strchr from_ ',' <;> rfl
      · split
        · cases strchr from_ ',' <;> rfl
        · split
          · cases strchr from_ ',' <;> rfl
          · rw [h]
            simp only
            have hprv := cma_bf_alloc_null w _ _ _ _ _ _ h
            rw [hprv]
            have e : st.cma_regions.set idx { reg with private_data := reg.private_data } =
                st.cma_regions := set_self _ _ _ hr
            rw [e]

/-- A pass of the loop of `__cma_alloc_do` over a region that qualifies, with the mutex of
the chunk tree free and no chunk with the start of the new one in the tree: the chunk is
returned, linked in the tree with one reference; the region has one user more and the size
of the chunk less free space; nothing else changes. -/
theorem alloc_do_pass_gives (w : Nat) (km_item km_next : Bool) (size alignment : Nat)
    (next : cma_state → List Char → outcome (Option cma_chunk))
    (st : cma_state) (from_ : List Char) (idx : Nat) (reg : cma_region) (item : cma_bf_item)
    (prv : cma_bf_private) (l : List cma_chunk)
    (hstart : ∀ reg ∈ st.cma_regions, reg.start ≠ 0)
    (hmutex : st.cma_chunks_mutex = false)
    (hg : region_gives w km_item km_next st (from_.takeWhile (fun c => c ≠ ',')) size
      alignment idx reg item prv)
    (hl : __cma_chunk_insert_link st.cma_chunks_by_start ⟨item.start, item.size, idx, 1⟩ =
      some l) :
    __cma_alloc_do_pass w km_item km_next size alignment next st from_ =
      .ret (some ⟨item.start, item.size, idx, 1⟩)
        { st with
          cma_regions := st.cma_regions.set idx (cma_region_take_chunk w reg prv item),
          cma_chunks_by_start := l } := by
  obtain ⟨h1, h2, h3, h4, h5⟩ := hg
  simp only [__cma_alloc_do_pass, __cma_region_find]
  rw [region_find_eq_lookup _ _ 0 hstart]
  unfold region_lookup at h1
  rw [h1]
  simp only
  rw [h2]
  simp only
  rw [if_neg h3, if_neg (by omega), h5]
  simp only [__cma_alloc_do_got, __cma_chunk_insert, hmutex, kref_init]
  simp only [Bool.false_eq_true, if_false]
  rw [hl]
  simp

theorem join_names_cons_cons (m m1 : List Char) (ms : List (List Char)) :
    join_names (m :: m1 :: ms) = m ++ ',' :: join_names (m1 :: ms) := by
  simp [join_names]

theorem join_names_single (m : List Char) : join_names [m] = m := by
  simp [join_names]

theorem join_names_ne_nil (m : List Char) (ms : List (List Char)) (hm : m ≠ []) :
    join_names (m :: ms) ≠ [] := by
  cases ms with
  | nil => rw [join_names_single]; exact hm
  | cons m1 ms => rw [join_names_cons_cons]; simp [hm]

theorem join_names_takeWhile (m : List Char) (ms : List (List Char)) (hm : ',' ∉ m) :
    (join_names (m :: ms)).takeWhile (fun c => c ≠ ',') = m := by
  cases ms with
  | nil => rw [join_names_single]; exact takeWhile_ne_self ',' m hm
  | cons m1 ms => rw [join_names_cons_cons]; exact takeWhile_ne_append ',' m _ hm

/-- The loop of `__cma_alloc_do` over a route none of whose regions qualifies returns NULL
and leaves the state as it was. -/
theorem alloc_do_loop_none (w : Nat) (km : Nat → Bool × Bool) (size alignment : Nat)
    (st : cma_state) (hstart : ∀ reg ∈ st.cma_regions, reg.start ≠ 0) :
    ∀ (names : List (List Char)) (fuel n : Nat),
      (∀ m ∈ names, ',' ∉ m) →
      (∀ i (h : i < names.length),
        region_passed w (km (n + i)).1 (km (n + i)).2 st (names.get ⟨i, h⟩) size alignment) →
      __cma_alloc_do_loop w km size alignment fuel n st (join_names names) =
        .ret none st := by
  intro names
  induction names with
  | nil =>
    intro fuel n _ _
    cases fuel <;> simp [__cma_alloc_do_loop, join_names]
  | cons m ms ih =>
    intro fuel n hnames hpass
    cases fuel with
    | zero => rfl
    | succ fuel =>
      unfold __cma_alloc_do_loop
      split
      · rfl
      · have hm : ',' ∉ m := hnames m (List.mem_cons_self _ _)
        have hp := hpass 0 (by simp)
        simp only [List.get_eq_getElem, List.getElem_cons_zero, Nat.add_zero] at hp
        rw [alloc_do_pass_passed w _ _ size alignment _ st _ hstart
          (by rw [join_names_takeWhile m ms hm]; exact hp)]
        cases ms with
        | nil =>
          rw [join_names_single, strchr_none_of_not_mem ',' m hm]
        | cons m1 ms =>
          rw [join_names_cons_cons, strchr_append_self ',' m _ hm]
          simp only [List.tail_cons]
          apply ih fuel (n + 1) (fun x hx => hnames x (List.mem_cons_of_mem _ hx))
          intro i h
          have := hpass (i + 1) (by simp at h ⊢; omega)
          simp only [List.get_eq_getElem, List.getElem_cons_succ] at this ⊢
          rw [Nat.add_assoc, Nat.add_comm 1 i]
          exact this

/-- The loop of `__cma_alloc_do` over a route whose regions `pre` do not qualify and whose
next region `q` does: the chunk carved from `q` is returned, whatever follows `q` in the
route. -/
theorem alloc_do_loop_first_fit (w : Nat) (km : Nat → Bool × Bool) (size alignment : Nat)
    (st : cma_state) (hstart : ∀ reg ∈ st.cma_regions, reg.start ≠ 0)
    (hmutex : st.cma_chunks_mutex = false)
    (q : List Char) (post : List (List Char)) (hq : q ≠ [] ∧ ',' ∉ q)
    (idx : Nat) (reg : cma_region) (item : cma_bf_item) (prv : cma_bf_private)
    (l : List cma_chunk)
    (hl : __cma_chunk_insert_link st.cma_chunks_by_start ⟨item.start, item.size, idx, 1⟩ =
      some l) :
    ∀ (pre : List (List Char)) (fuel n : Nat),
      (∀ m ∈ pre, m ≠ [] ∧ ',' ∉ m) →
      (join_names (pre ++ q :: post)).length < fuel →
      (∀ i (h : i < pre.length),
        region_passed w (km (n + i)).1 (km (n + i)).2 st (pre.get ⟨i, h⟩) size alignment) →
      region_gives w (km (n + pre.length)).1 (km (n + pre.length)).2 st q size alignment
        idx reg item prv →
      __cma_alloc_do_loop w km size alignment fuel n st (join_names (pre ++ q :: post)) =
        .ret (some ⟨item.start, item.size, idx, 1⟩)
          { st with
            cma_regions := st.cma_regions.set idx (cma_region_take_chunk w reg prv item),
            cma_chunks_by_start := l } := by
  intro pre
  induction pre with
  | nil =>
    intro fuel n _ hfuel _ hg
    cases fuel with
    | zero => omega
    | succ fuel =>
      simp only [List.nil_append, List.length_nil, Nat.add_zero] at hg ⊢
      unfold __cma_alloc_do_loop
      rw [if_neg (join_names_ne_nil q post hq.1)]
      exact alloc_do_pass_gives w _ _ size alignment _ st _ idx reg item prv l hstart hmutex
        (by rw [join_names_takeWhile q post hq.2]; exact hg) hl
  | cons m ms ih =>
    intro fuel n hnames hfuel hpass hg
    cases fuel with
    | zero => omega
    | succ fuel =>
      have hm := hnames m (List.mem_cons_self _ _)
      have hp := hpass 0 (by simp)
      simp only [List.get_eq_getElem, List.getElem_cons_zero, Nat.add_zero] at hp
      obtain ⟨m1, rest, hrest⟩ : ∃ m1 rest, ms ++ q :: post = m1 :: rest := by
        cases ms with
        | nil => exact ⟨q, post, rfl⟩
        | cons a b => exact ⟨a, b ++ q :: post, rfl⟩
      have hlen : (join_names (ms ++ q :: post)).length <
          (join_names (m :: (ms ++ q :: post))).length := by
        rw [hrest, join_names_cons_cons]
        simp only [List.length_append, List.length_cons]
        omega
      simp only [List.cons_append] at hfuel hlen ⊢
      unfold __cma_alloc_do_loop
      rw [if_neg (join_names_ne_nil m _ hm.1)]
      rw [alloc_do_pass_passed w _ _ size alignment _ st _ hstart
        (by rw [join_names_takeWhile m _ hm.2]; exact hp)]
      have hs : strchr (join_names (m :: (ms ++ q :: post))) ',' =
          some (',' :: join_names (ms ++ q :: post)) := by
        rw [hrest, join_names_cons_cons, strchr_append_self ',' m _ hm.2]
      rw [hs]
      simp only [List.tail_cons]
      apply ih fuel (n + 1) (fun x hx => hnames x (List.mem_cons_of_mem _ hx))
      · omega
      · intro i h
        have := hpass (i + 1) (by simp at h ⊢; omega)
        simp only [List.get_eq_getElem, List.getElem_cons_succ] at this ⊢
        rw [Nat.add_assoc, Nat.add_comm 1 i]
        exact this
      · simp only [List.length_cons] at hg
        rw [Nat.add_assoc, Nat.add_comm 1 ms.length]
        exact hg

/-- The function `__cma_alloc_do` is first fit over the route: where no region of the table
starts at zero, the regions `pre` of the route do not qualify, the next region `q` does,
the mutex of the chunk tree is free and no chunk in the tree has the start of the new one,
the chunk carved from `q` is returned and registered, and only `q` and the chunk tree
change. -/
theorem cma_alloc_do_first_fit (w : Nat) (km : Nat → Bool × Bool) (size alignment : Nat)
    (st : cma_state) (pre : List (List Char)) (q : List Char) (post : List (List Char))
    (idx : Nat) (reg : cma_region) (item : cma_bf_item) (prv : cma_bf_private)
    (l : List cma_chunk)
    (hstart : ∀ reg ∈ st.cma_regions, reg.start ≠ 0)
    (hmutex : st.cma_chunks_mutex = false)
    (hnames : ∀ m ∈ pre, m ≠ [] ∧ ',' ∉ m) (hq : q ≠ [] ∧ ',' ∉ q)
    (hpass : ∀ i (h : i < pre.length),
      region_passed w (km i).1 (km i).2 st (pre.get ⟨i, h⟩) size alignment)
    (hg : region_gives w (km pre.length).1 (km pre.length).2 st q size alignment
      idx reg item prv)
    (hl : __cma_chunk_insert_link st.cma_chunks_by_start ⟨item.start, item.size, idx, 1⟩ =
      some l) :
    __cma_alloc_do w km st (join_names (pre ++ q :: post)) size alignment =
      .ret (some ⟨item.start, item.size, idx, 1⟩)
        { st with
          cma_regions := st.cma_regions.set idx (cma_region_take_chunk w reg prv item),
          cma_chunks_by_start := l } := by
  unfold __cma_alloc_do
  apply alloc_do_loop_first_fit w km size alignment st hstart hmutex q post hq idx reg item
    prv l hl pre _ 0 hnames (by omega)
  · intro i h
    rw [Nat.zero_add]
    exact hpass i h
  · rw [Nat.zero_add]
    exact hg

/-- The function `__cma_alloc_do` returns NULL and leaves the state as it was when no
region of the route qualifies, where no region of the table starts at zero. -/
theorem cma_alloc_do_none_fit (w : Nat) (km : Nat → Bool × Bool) (size alignment : Nat)
    (st : cma_state) (names : List (List Char))
    (hstart : ∀ reg ∈ st.cma_regions, reg.start ≠ 0)
    (hnames : ∀ m ∈ names, ',' ∉ m)
    (hpass : ∀ i (h : i < names.length),
      region_passed w (km i).1 (km i).2 st (names.get ⟨i, h⟩) size alignment) :
    __cma_alloc_do w km st (join_names names) size alignment = .ret none st := by
  unfold __cma_alloc_do
  apply alloc_do_loop_none w km size alignment st hstart names _ 0 hnames
  intro i h
  rw [Nat.zero_add]
  exact hpass i h

/-- The first-fit theorem at a concrete route: in `example_first_fit` the route "X,A,R,A"
names a region that is not in the table, then the full region "A", then "R"; a request of
one page gets the first page of "R". -/
theorem cma_alloc_do_first_fit_example :
    __cma_alloc_do 32 kmalloc_ok example_first_fit ['X', ',', 'A', ',', 'R', ',', 'A']
        0x1000 0x1000 =
      .ret (some ⟨0x2000, 0x1000, 1, 1⟩)
        { example_first_fit with
          cma_regions :=
            [{ example_region 0x1000 0x1000 with
               name := ['A'], free_space := 0, users := 1, private_data := ⟨[], []⟩ },
             { example_region 0x2000 0x2000 with
               free_space := 0x1000, users := 1,
               private_data := ⟨[⟨0x3000, 0x1000⟩], [⟨0x3000, 0x1000⟩]⟩ }],
          cma_chunks_by_start := [⟨0x1000, 0x1000, 0, 1⟩, ⟨0x2000, 0x1000, 1, 1⟩] } := by
  have h := cma_alloc_do_first_fit 32 kmalloc_ok 0x1000 0x1000 example_first_fit
    [['X'], ['A']] ['R'] [['A']] 1 (example_region 0x2000 0x2000) ⟨0x2000, 0x1000⟩
    ⟨[⟨0x3000, 0x1000⟩], [⟨0x3000, 0x1000⟩]⟩
    [⟨0x1000, 0x1000, 0, 1⟩, ⟨0x2000, 0x1000, 1, 1⟩]
    (by decide) rfl (by decide) (by decide)
    (by
      intro i hi idx reg hl hr
      match i, hi with
      | 0, _ =>
        have hx : region_lookup example_first_fit.cma_regions ['X'] = none := by decide
        exact absurd (hx.symm.trans hl) (by simp)
      | 1, _ =>
        have h0 : idx = 0 := by
          have ha : region_lookup example_first_fit.cma_regions ['A'] = some 0 := by decide
          exact (Option.some.inj (ha.symm.trans hl)).symm
        subst h0
        have h1 : reg = { example_region 0x1000 0x1000 with
            name := ['A'], free_space := 0, users := 1, private_data := ⟨[], []⟩ } :=
          (Option.some.inj hr).symm
        subst h1
        exact Or.inr (Or.inl (by decide)))
    ⟨by decide, rfl, by decide, by decide, rfl⟩ rfl
  exact h

/-! ## Lookup by exact start -/

/-- Exact-start lookup, for a state whose chunk tree is ordered by start and whose mutex
is free when the call begins.  When `addr` is not the start of an indexed chunk (whether
it lies inside a live chunk, or was the start of a chunk that is gone), `cma_get` and
`cma_put` return `-ENOENT` and leave the whole state as it was if the `WARN` of
`__cma_chunk_find`, which is given `addr` as its format, comes to its end; otherwise they
do not return.  When `addr` is the start of the indexed chunk `c`, `cma_get` returns 0 and
the state differs only in the reference count of `c`, which is one more. -/
theorem cma_lookup_by_start (w : Nat) (fmt_ok : Nat → Bool) (st : cma_state) (addr : Nat)
    (hm : st.cma_chunks_mutex = false)
    (ho : st.cma_chunks_by_start.Pairwise (fun a b => a.start < b.start)) :
    ((∀ c ∈ st.cma_chunks_by_start, c.start ≠ addr) →
      cma_get fmt_ok st addr = (if fmt_ok addr then .ret (-ENOENT) st else .oops) ∧
      cma_put w fmt_ok st addr = (if fmt_ok addr then .ret (-ENOENT) st else .oops)) ∧
    (∀ c ∈ st.cma_chunks_by_start, c.start = addr →
      ∃ pre post, st.cma_chunks_by_start = pre ++ c :: post ∧
        cma_get fmt_ok st addr =
          .ret 0 { st with
            cma_chunks_by_start := pre ++ { c with ref := c.ref + 1 } :: post }) := by
  constructor
  · intro hno
    have hnone : st.cma_chunks_by_start.find? (fun c => decide (c.start = addr)) = none := by
      rw [List.find?_eq_none]
      intro c hc
      simpa using hno c hc
    exact ⟨cma_get_not_found fmt_ok st addr hm hnone,
      cma_put_not_found w fmt_ok st addr hm hnone⟩
  · intro c hc hca
    obtain ⟨pre, post, hl, hpre, _⟩ := ordered_split _ c ho hc
    refine ⟨pre, post, hl, ?_⟩
    have hself : with_ref st pre post c c.ref = st := with_ref_self st pre post c hl
    have h := cma_get_with_ref fmt_ok st pre post c c.ref hm hpre
    rw [hself, hca] at h
    rw [h]
    rfl

/-- C24, the code at a failing input.  `unsigned long` has 32 bits; the chunk
[0x1000, 0x3000) is indexed and 0x1800 lies inside it.  `cma_get(0x1800)` and
`cma_put(0x1800)` find no chunk and run `WARN` with the address 0x1800 as the format: the
calls return `-ENOENT` with the state unchanged only if the warning can be printed with
what is stored at 0x1800; where no string can be read there they do not return.  The same
holds for 0x1000 when no chunk is indexed.  A lookup of the start 0x1000 of the indexed
chunk never reaches the `WARN`: `cma_get(0x1000)` returns 0 and the reference count of
the chunk is 2. -/
theorem cma_lookup_miss_reads_format (fmt_ok : Nat → Bool) :
    (example_allocated 0x1000 0x2000).cma_chunks_by_start = [⟨0x1000, 0x2000, 0, 1⟩] ∧
    cma_get fmt_ok (example_allocated 0x1000 0x2000) 0x1800 =
      (if WARN fmt_ok true 0x1800 then .ret (-ENOENT) (example_allocated 0x1000 0x2000)
        else .oops) ∧
    cma_put 32 fmt_ok (example_allocated 0x1000 0x2000) 0x1800 =
      (if WARN fmt_ok true 0x1800 then .ret (-ENOENT) (example_allocated 0x1000 0x2000)
        else .oops) ∧
    WARN fmt_ok true 0x1800 = fmt_ok 0x1800 ∧
    cma_get (fun _ => false) (example_allocated 0x1000 0x2000) 0x1800 = .oops ∧
    cma_put 32 (fun _ => false) (example_allocated 0x1000 0x2000) 0x1800 = .oops ∧
    cma_get (fun _ => false) (example_state 0x1000 0x2000) 0x1000 = .oops ∧
    cma_put 32 (fun _ => false) (example_state 0x1000 0x2000) 0x1000 = .oops ∧
    cma_get fmt_ok (example_allocated 0x1000 0x2000) 0x1000 =
      .ret 0 { example_allocated 0x1000 0x2000 with
        cma_chunks_by_start := [⟨0x1000, 0x2000, 0, 2⟩] } :=
  ⟨rfl, cma_get_not_found fmt_ok _ 0x1800 rfl rfl, cma_put_not_found 32 fmt_ok _ 0x1800 rfl rfl,
    rfl, rfl, rfl, rfl, rfl, rfl⟩

/-! ## A collision in the chunk tree -/

theorem insert_link_collision (chunk c0 : cma_chunk) :
    ∀ l : List cma_chunk, l.Pairwise (fun a b => a.start < b.start) → c0 ∈ l →
      c0.start = chunk.start → __cma_chunk_insert_link l chunk = none := by
  intro l
  induction l with
  | nil => intro _ h; simp at h
  | cons c rest ih =>
    intro ho hc hs
    rw [List.pairwise_cons] at ho
    unfold __cma_chunk_insert_link
    rcases List.mem_cons.1 hc with rfl | hc
    · rw [if_neg (by omega), if_neg (by omega)]
    · have h1 := ho.1 c0 hc
      rw [if_neg (by omega), if_pos (by omega), ih ho.2 hc hs]
      rfl

theorem users_restored (u : Nat) (h : u < 2 ^ 32) :
    ((u + 1) % 2 ^ 32 + (2 ^ 32 - 1)) % 2 ^ 32 = u := by
  norm_num at h ⊢
  omega

/-- A pass of the loop of `__cma_alloc_do` over a region that qualifies, when the chunk
tree already holds a chunk with the start of the new one: NULL is returned, the chunk is
given back to the allocator, `users` and `free_space` of the region are what they were,
and the mutex of the chunk tree is left locked. -/
theorem alloc_do_pass_collides (w : Nat) (km_item km_next : Bool) (size alignment : Nat)
    (next : cma_state → List Char → outcome (Option cma_chunk))
    (st : cma_state) (from_ : List Char) (idx : Nat) (reg : cma_region) (item : cma_bf_item)
    (prv : cma_bf_private)
    (hstart : ∀ reg ∈ st.cma_regions, reg.start ≠ 0)
    (hmutex : st.cma_chunks_mutex = false)
    (hg : region_gives w km_item km_next st (from_.takeWhile (fun c => c ≠ ',')) size
      alignment idx reg item prv)
    (hl : __cma_chunk_insert_link st.cma_chunks_by_start ⟨item.start, item.size, idx, 1⟩ =
      none)
    (husers : reg.users < 2 ^ 32) (hfree : reg.free_space < 2 ^ w) :
    __cma_alloc_do_pass w km_item km_next size alignment next st from_ =
      .ret none
        { st with
          cma_regions :=
            st.cma_regions.set idx { reg with private_data := cma_bf_free w prv item },
          cma_chunks_mutex := true } := by
  obtain ⟨h1, h2, h3, h4, h5⟩ := hg
  have hsz := cma_bf_alloc_size _ _ _ _ _ _ _ _ h5
  have hidx : idx < st.cma_regions.length := (List.getElem?_eq_some.1 h2).1
  simp only [__cma_alloc_do_pass, __cma_region_find]
  rw [region_find_eq_lookup _ _ 0 hstart]
  unfold region_lookup at h1
  rw [h1]
  simp only
  rw [h2]
  simp only
  rw [if_neg h3, if_neg (by omega), h5]
  simp only [__cma_alloc_do_got, __cma_chunk_insert, hmutex, kref_init]
  simp only [Bool.false_eq_true, if_false]
  rw [hl]
  simp only [List.getElem?_set_self, hidx, List.set_set]
  have hreg : cma_region_put_chunk w (cma_region_take_chunk w reg prv item)
      ⟨item.start, item.size, idx, 1⟩ =
      { reg with private_data := cma_bf_free w prv item } := by
    simp only [cma_region_put_chunk, cma_region_take_chunk]
    rw [users_restored reg.users husers, usub_of_le w _ _ (by omega) hfree,
      uadd_of_lt w _ _ (by omega)]
    have e : reg.free_space - item.size + item.size = reg.free_space := by omega
    rw [e]
  simp [hreg, EBUSY]

/-- The loop of `__cma_alloc_do` over a route whose regions `pre` do not qualify ends as
the pass over the next region `q` does, when that pass does not go on to a further
region. -/
theorem alloc_do_loop_at (w : Nat) (km : Nat → Bool × Bool) (size alignment : Nat)
    (st : cma_state) (hstart : ∀ reg ∈ st.cma_regions, reg.start ≠ 0)
    (q : List Char) (post : List (List Char)) (hq : q ≠ [])
    (N : Nat) (R : outcome (Option cma_chunk))
    (hR : ∀ next, __cma_alloc_do_pass w (km N).1 (km N).2 size alignment next st
      (join_names (q :: post)) = R) :
    ∀ (pre : List (List Char)) (fuel n : Nat),
      n + pre.length = N →
      (∀ m ∈ pre, m ≠ [] ∧ ',' ∉ m) →
      (join_names (pre ++ q :: post)).length < fuel →
      (∀ i (h : i < pre.length),
        region_passed w (km (n + i)).1 (km (n + i)).2 st (pre.get ⟨i, h⟩) size alignment) →
      __cma_alloc_do_loop w km size alignment fuel n st (join_names (pre ++ q :: post)) =
        R := by
  intro pre
  induction pre with
  | nil =>
    intro fuel n hN _ hfuel _
    cases fuel with
    | zero => omega
    | succ fuel =>
      simp only [List.length_nil, Nat.add_zero] at hN
      subst hN
      simp only [List.nil_append]
      unfold __cma_alloc_do_loop
      rw [if_neg (join_names_ne_nil q post hq)]
      exact hR _
  | cons m ms ih =>
    intro fuel n hN hnames hfuel hpass
    cases fuel with
    | zero => omega
    | succ fuel =>
      have hm := hnames m (List.mem_cons_self _ _)
      have hp := hpass 0 (by simp)
      simp only [List.get_eq_getElem, List.getElem_cons_zero, Nat.add_zero] at hp
      obtain ⟨m1, rest, hrest⟩ : ∃ m1 rest, ms ++ q :: post = m1 :: rest := by
        cases ms with
        | nil => exact ⟨q, post, rfl⟩
        | cons a b => exact ⟨a, b ++ q :: post, rfl⟩
      have hlen : (join_names (ms ++ q :: post)).length <
          (join_names (m :: (ms ++ q :: post))).length := by
        rw [hrest, join_names_cons_cons]
        simp only [List.length_append, List.length_cons]
        omega
      simp only [List.cons_append] at hfuel hlen ⊢
      unfold __cma_alloc_do_loop
      rw [if_neg (join_names_ne_nil m _ hm.1)]
      rw [alloc_do_pass_passed w _ _ size alignment _ st _ hstart
        (by rw [join_names_takeWhile m _ hm.2]; exact hp)]
      have hs : strchr (join_names (m :: (ms ++ q :: post))) ',' =
          some (',' :: join_names (ms ++ q :: post)) := by
        rw [hrest, join_names_cons_cons, strchr_append_self ',' m _ hm.2]
      rw [hs]
      simp only [List.tail_cons]
      apply ih fuel (n + 1) (by simp only [List.length_cons] at hN; omega)
        (fun x hx => hnames x (List.mem_cons_of_mem _ hx))
      · omega
      · intro i h
        have := hpass (i + 1) (by simp at h ⊢; omega)
        simp only [List.get_eq_getElem, List.getElem_cons_succ] at this ⊢
        rw [Nat.add_assoc, Nat.add_comm 1 i]
        exact this

/-- C25, the code at a failing input.  In `example_overlap_one` the chunk [0x1000, 0x2000)
of region "R" is indexed and region "S" hands out a chunk with the same start; the
insertion returns `-EBUSY` with the mutex of the chunk tree still locked, and `cma_alloc`
returns `-ENOMEM` to the caller, not `-EBUSY`.  The chunk tree is unchanged and the region
"S" has its users and free space back, but the state is not the one before the call: the
mutex is held, so the next `cma_get` does not return. -/
theorem cma_alloc_collision_not_busy (fmt_ok : Nat → Bool) :
    example_overlap_one.cma_chunks_by_start = [⟨0x1000, 0x1000, 0, 1⟩] ∧
    (example_overlap_one.cma_regions.map
      (fun r => cma_bf_alloc 32 r.private_data 0x1000 1 true true)) =
        [.null ⟨[], []⟩, .chunk ⟨0x1000, 0x1000⟩ ⟨[], []⟩] ∧
    __cma_chunk_insert example_overlap_one ⟨0x1000, 0x1000, 1, kref_init⟩ =
      .ret (-EBUSY) example_overlap_two ∧
    cma_alloc 32 kmalloc_ok example_overlap_one (some ['b']) none 0x1000 0 =
      .ret (.error (-ENOMEM)) example_overlap_two ∧
    -ENOMEM ≠ -EBUSY ∧
    example_overlap_two.cma_chunks_mutex = true ∧
    example_overlap_two ≠ example_overlap_one ∧
    example_overlap_two.cma_chunks_by_start = example_overlap_one.cma_chunks_by_start ∧
    example_overlap_two.cma_regions = example_overlap_one.cma_regions ∧
    cma_get fmt_ok example_overlap_two 0x1000 = .hang ∧
    cma_put 32 fmt_ok example_overlap_two 0x1000 = .hang :=
  ⟨rfl, rfl, rfl, rfl, by decide, rfl, by decide, rfl, rfl, rfl, rfl⟩

/-- The unwinding after a collision, for a table in which no region starts at address
zero.  Inserting a chunk whose start is the start of an indexed chunk returns `-EBUSY` and
leaves the chunk tree and the regions as they were; whatever is inserted, the chunk tree
stays ordered by start, so that no two of its chunks share a start.  When this happens in
`cma_alloc`, for the first region of the route that qualifies, the call returns `-ENOMEM`;
the chunk tree is unchanged; the region has the `users` and `free_space` it had before the
call, and its trees are those that `cma_bf_free` of the chunk leaves; no other region
changes. -/
theorem cma_alloc_collision (w : Nat) (km : Nat → Bool × Bool) (st : cma_state)
    (dev kind : Option (List Char)) (size alignment : Nat)
    (pre : List (List Char)) (q : List Char) (post : List (List Char))
    (idx : Nat) (reg : cma_region) (item : cma_bf_item) (prv : cma_bf_private)
    (c0 : cma_chunk)
    (hargs : ¬ (alignment &&& usub w alignment 1 ≠ 0 ∨ size = 0))
    (hroute : __cma_where_from st.cma_map dev kind = .ok (join_names (pre ++ q :: post)))
    (hstart : ∀ reg ∈ st.cma_regions, reg.start ≠ 0)
    (hmutex : st.cma_chunks_mutex = false)
    (ho : st.cma_chunks_by_start.Pairwise (fun a b => a.start < b.start))
    (hnames : ∀ m ∈ pre, m ≠ [] ∧ ',' ∉ m) (hq : q ≠ [] ∧ ',' ∉ q)
    (hpass : ∀ i (h : i < pre.length),
      region_passed w (km i).1 (km i).2 st (pre.get ⟨i, h⟩) size
        (if alignment ≠ 0 then alignment else 1))
    (hg : region_gives w (km pre.length).1 (km pre.length).2 st q size
      (if alignment ≠ 0 then alignment else 1) idx reg item prv)
    (hc0 : c0 ∈ st.cma_chunks_by_start) (hc0s : c0.start = item.start)
    (husers : reg.users < 2 ^ 32) (hfree : reg.free_space < 2 ^ w) :
    (∃ st2, __cma_chunk_insert st ⟨item.start, item.size, idx, kref_init⟩ =
        .ret (-EBUSY) st2 ∧
      st2.cma_chunks_by_start = st.cma_chunks_by_start ∧
      st2.cma_regions = st.cma_regions) ∧
    (∀ (chunk : cma_chunk) (r : Int) (st2 : cma_state),
      __cma_chunk_insert st chunk = .ret r st2 →
      st2.cma_chunks_by_start.Pairwise (fun a b => a.start < b.start)) ∧
    ∃ st1, cma_alloc w km st dev kind size alignment = .ret (.error (-ENOMEM)) st1 ∧
      st1.cma_chunks_by_start = st.cma_chunks_by_start ∧
      st1.cma_map = st.cma_map ∧
      st1.cma_regions =
        st.cma_regions.set idx { reg with private_data := cma_bf_free w prv item } := by
  have hl : __cma_chunk_insert_link st.cma_chunks_by_start
      ⟨item.start, item.size, idx, 1⟩ = none :=
    insert_link_collision _ c0 _ ho hc0 hc0s
  refine ⟨?_, ?_, ?_⟩
  · refine ⟨{ st with cma_chunks_mutex := true }, ?_, rfl, rfl⟩
    simp only [__cma_chunk_insert, hmutex, kref_init, Bool.false_eq_true, if_false]
    rw [hl]
  · intro chunk r st2 h
    simp only [__cma_chunk_insert, hmutex, Bool.false_eq_true, if_false] at h
    cases hi : __cma_chunk_insert_link st.cma_chunks_by_start chunk with
    | none =>
      rw [hi] at h
      simp only [outcome.ret.injEq] at h
      rw [← h.2]
      exact ho
    | some l =>
      rw [hi] at h
      simp only [outcome.ret.injEq] at h
      rw [← h.2]
      exact insert_link_ordered chunk _ l ho hi
  · refine ⟨{ st with
        cma_regions :=
          st.cma_regions.set idx { reg with private_data := cma_bf_free w prv item },
        cma_chunks_mutex := true }, ?_, rfl, rfl, rfl⟩
    have hloop := alloc_do_loop_at w km size (if alignment ≠ 0 then alignment else 1) st
      hstart q post hq.1 pre.length
      (.ret none
        { st with
          cma_regions :=
            st.cma_regions.set idx { reg with private_data := cma_bf_free w prv item },
          cma_chunks_mutex := true })
      (fun next => alloc_do_pass_collides w _ _ size _ next st _ idx reg item prv hstart
        hmutex (by rw [join_names_takeWhile q post hq.2]; exact hg) hl husers hfree)
      pre ((join_names (pre ++ q :: post)).length + 1) 0 (Nat.zero_add _) hnames
      (Nat.lt_succ_self _)
      (fun i h => by rw [Nat.zero_add]; exact hpass i h)
    unfold cma_alloc
    rw [if_neg hargs, hroute]
    simp only
    unfold __cma_alloc_do
    rw [hloop]

theorem cma_alloc_collision_witness :
    (∃ st2, __cma_chunk_insert example_overlap_one ⟨0x1000, 0x1000, 1, kref_init⟩ =
        .ret (-EBUSY) st2 ∧
      st2.cma_chunks_by_start = example_overlap_one.cma_chunks_by_start ∧
      st2.cma_regions = example_overlap_one.cma_regions) ∧
    (∀ (chunk : cma_chunk) (r : Int) (st2 : cma_state),
      __cma_chunk_insert example_overlap_one chunk = .ret r st2 →
      st2.cma_chunks_by_start.Pairwise (fun a b => a.start < b.start)) ∧
    ∃ st1, cma_alloc 32 kmalloc_ok example_overlap_one (some ['b']) none 0x1000 0 =
        .ret (.error (-ENOMEM)) st1 ∧
      st1.cma_chunks_by_start = example_overlap_one.cma_chunks_by_start ∧
      st1.cma_map = example_overlap_one.cma_map ∧
      st1.cma_regions =
        example_overlap_one.cma_regions.set 1
          { ({ example_region 0x1000 0x1000 with name := ['S'] } : cma_region) with
            private_data := cma_bf_free 32 ⟨[], []⟩ ⟨0x1000, 0x1000⟩ } :=
  cma_alloc_collision 32 kmalloc_ok example_overlap_one (some ['b']) none 0x1000 0
    [] ['S'] [] 1 { example_region 0x1000 0x1000 with name := ['S'] } ⟨0x1000, 0x1000⟩
    ⟨[], []⟩ ⟨0x1000, 0x1000, 0, 1⟩
    (by decide) rfl (by decide) rfl (by simp [example_overlap_one])
    (by simp) (by decide) (fun i h => absurd h (by simp))
    ⟨by decide, rfl, by decide, by decide, rfl⟩ (by decide) rfl (by decide) (by decide)

/-! ## Region names and sizes that the parser lets through -/

/-- C21, the code at a failing input.  `unsigned long` has 32 bits and the page size is
0x1000.  The region parameter `r=4K;r=8K` has two entries with the name `r`;
`cma_param_parse` returns 0 and stores both, so the names of the table are not pairwise
distinct.  The same holds for `a=4K;b=4K;a=4K`. -/
theorem cma_param_parse_duplicate_name :
    cma_param_parse 32 0x1000 "r=4K;r=8K".toList =
        (0, [example_parsed,
             { example_parsed with size := 0x2000, free_space := 0x2000 }]) ∧
      ¬ ((cma_param_parse 32 0x1000 "r=4K;r=8K".toList).2.map (fun r => r.name)).Nodup ∧
      (cma_param_parse 32 0x1000 "a=4K;b=4K;a=4K".toList).1 = 0 ∧
      (cma_param_parse 32 0x1000 "a=4K;b=4K;a=4K".toList).2.map (fun r => r.name) =
        [['a'], ['b'], ['a']] :=
  ⟨rfl, by decide, rfl, rfl⟩

/-- The names that `cma_param_parse` stores are the texts before the `=` of the entries, in
the order of the parameter, whether or not a name occurs twice (for a page size `2 ^ s`
with `s < w ≤ 64`, at most 16 accepted entries and fewer than 512 characters). -/
theorem cma_param_parse_names (w s : Nat) (es : List (List Char × cma_region))
    (hs : s < w) (hw : w ≤ 64)
    (hacc : ∀ x ∈ es, entry_accepted w (2 ^ s) x.1 x.2)
    (hlen : (join_entries (es.map Prod.fst)).length < CMA_MAX_PARAM_LEN)
    (hk : es.length ≤ CMA_MAX_REGIONS) :
    (cma_param_parse w (2 ^ s) (join_entries (es.map Prod.fst))).1 = 0 ∧
      (cma_param_parse w (2 ^ s) (join_entries (es.map Prod.fst))).2.map (fun r => r.name) =
        es.map (fun x => x.1.takeWhile (fun c => c ≠ '=')) := by
  have h := cma_param_parse_loop_entries w (2 ^ s) es
    ((join_entries (es.map Prod.fst)).length + 1) (CMA_MAX_REGIONS + 1) [] hacc
    (by decide) (Nat.lt_succ_self _)
  simp only [cma_param_parse, take_buffer _ hlen]
  rw [h, if_pos (by omega)]
  refine ⟨rfl, ?_⟩
  simp only [List.nil_append, List.map_map]
  apply List.map_congr_left
  intro x hx
  exact (cma_param_parse_entry_stored w s x.1 [] cma_region_zero x.2 hs hw (hacc x hx).1).1

/-- C22, the code at failing inputs.  The page size is 0x1000.  With an `unsigned long` of
32 bits the entry `R=0xFFFFFFFF` passes the test `size > ULONG_MAX`; the size rounded up
to the page size, 0x100000000, does not fit in the `unsigned long` field, and the region is
stored with size 0 and no free space.  With 64 bits the same happens for
`R=0xFFFFFFFFFFFFF001`, where the rounding itself wraps around.  A size that does not fit
before the rounding, as in `R=0x100000000` with 32 bits, is refused. -/
theorem cma_param_parse_size_wraps :
    cma_param_parse 32 0x1000 "R=0xFFFFFFFF".toList =
        (0, [{ cma_region_zero with name := ['R'], alignment := 0x1000 }]) ∧
      (memparse "0xFFFFFFFF".toList).1 = 0xFFFFFFFF ∧
      ((cma_param_parse 32 0x1000 "R=0xFFFFFFFF".toList).2.map
        (fun r => (r.size, r.free_space))) = [(0, 0)] ∧
      cma_param_parse 64 0x1000 "R=0xFFFFFFFFFFFFF001".toList =
        (0, [{ cma_region_zero with name := ['R'], alignment := 0x1000 }]) ∧
      cma_param_parse 32 0x1000 "R=0x100000000".toList = (-EINVAL, []) :=
  ⟨rfl, rfl, rfl, rfl, rfl⟩

/-! ## `cma_regions_allocate` -/

theorem reserved_regions_nil (alloc : region_callback) (n : Nat) :
    reserved_regions alloc n [] = [] := rfl

theorem reserved_regions_zero (alloc : region_callback) (n : Nat) (reg : cma_region)
    (rest : List cma_region) (h : reg.size = 0) :
    reserved_regions alloc n (reg :: rest) = [] := by
  simp [reserved_regions, table_regions, List.takeWhile, h, reserve_results]

theorem reserved_regions_ok (alloc : region_callback) (n : Nat) (reg : cma_region)
    (rest : List cma_region) (h : reg.size ≠ 0) (hr : 0 ≤ (alloc n reg).1) :
    reserved_regions alloc n (reg :: rest) =
      (alloc n reg).2 :: reserved_regions alloc (n + 1) rest := by
  simp [reserved_regions, table_regions, List.takeWhile, h, reserve_results, hr]

theorem reserved_regions_fail (alloc : region_callback) (n : Nat) (reg : cma_region)
    (rest : List cma_region) (h : reg.size ≠ 0) (hr : ¬ 0 ≤ (alloc n reg).1) :
    reserved_regions alloc n (reg :: rest) = reserved_regions alloc (n + 1) rest := by
  simp [reserved_regions, table_regions, List.takeWhile, h, reserve_results, hr]

theorem take_set_succ {α : Type} (x : α) :
    ∀ (l : List α) (out : Nat), out < l.length →
      (l.set out x).take (out + 1) = l.take out ++ [x] := by
  intro l
  induction l with
  | nil => intro out h; simp at h
  | cons a l ih =>
    intro out h
    cases out with
    | zero => simp
    | succ n =>
      simp only [List.length_cons, Nat.add_lt_add_iff_right] at h
      simp only [List.set_cons_succ, List.take_succ_cons, List.cons_append, ih n h]

/-- The loop of `cma_regions_allocate`: when it is left, `out` has moved forward by the
number of regions for which the callback succeeded, the entries before `out` are those
that were there followed by these regions, and the array has the length it had. -/
theorem cma_regions_allocate_loop_spec (alloc : region_callback) :
    ∀ (rest done : List cma_region) (out : Nat), out ≤ done.length →
      (cma_regions_allocate_loop alloc done out rest).2 =
          out + (reserved_regions alloc done.length rest).length ∧
        (cma_regions_allocate_loop alloc done out rest).1.take
            (cma_regions_allocate_loop alloc done out rest).2 =
          done.take out ++ reserved_regions alloc done.length rest ∧
        (cma_regions_allocate_loop alloc done out rest).1.length =
          done.length + rest.length := by
  intro rest
  induction rest with
  | nil =>
    intro done out _
    simp [cma_regions_allocate_loop, reserved_regions_nil]
  | cons reg rest ih =>
    intro done out hout
    unfold cma_regions_allocate_loop
    by_cases hz : reg.size = 0
    · rw [if_pos hz, reserved_regions_zero alloc _ reg rest hz]
      simp only [List.length_nil, Nat.add_zero, List.append_nil, List.length_append,
        List.length_cons, and_true]
      refine ⟨trivial, ?_⟩
      rw [List.take_append_of_le_length hout]
    · rw [if_neg hz]
      by_cases hr : 0 ≤ (alloc done.length reg).1
      · rw [if_pos hr, reserved_regions_ok alloc _ reg rest hz hr]
        have hlen : (if out ≠ done.length then
              (done ++ [(alloc done.length reg).2]).set out (alloc done.length reg).2
            else done ++ [(alloc done.length reg).2]).length = done.length + 1 := by
          split <;> simp
        have htake : (if out ≠ done.length then
              (done ++ [(alloc done.length reg).2]).set out (alloc done.length reg).2
            else done ++ [(alloc done.length reg).2]).take (out + 1) =
            done.take out ++ [(alloc done.length reg).2] := by
          split
          · rename_i hne
            have hlt : out < done.length := by omega
            rw [List.set_append_left _ _ hlt, List.take_append_of_le_length
              (by rw [List.length_set]; omega)]
            exact take_set_succ _ done out hlt
          · rename_i heq
            have heq1 : out = done.length := by omega
            subst heq1
            simp
        obtain ⟨i1, i2, i3⟩ := ih _ (out + 1) (by rw [hlen]; omega)
        rw [hlen] at i1 i2 i3
        rw [htake] at i2
        refine ⟨?_, ?_, ?_⟩
        · rw [i1]
          simp only [List.length_cons]
          omega
        · rw [i2]
          simp
        · rw [i3]
          simp only [List.length_cons]
          omega
      · rw [if_neg hr, reserved_regions_fail alloc _ reg rest hz hr]
        obtain ⟨i1, i2, i3⟩ := ih (done ++ [(alloc done.length reg).2]) out
          (by simp only [List.length_append, List.length_singleton]; omega)
        simp only [List.length_append, List.length_singleton] at i1 i2 i3
        refine ⟨i1, ?_, ?_⟩
        · rw [i2, List.take_append_of_le_length hout]
        · rw [i3]
          simp only [List.length_cons]
          omega

theorem take_set_same {α : Type} (x : α) :
    ∀ (l : List α) (k : Nat), (l.set k x).take k = l.take k := by
  intro l
  induction l with
  | nil => intro k; simp
  | cons a l ih =>
    intro k
    cases k with
    | zero => simp
    | succ n => simp only [List.set_cons_succ, List.take_succ_cons, ih n]

/-- What `cma_regions_allocate` returns and leaves, for every array and every callback:
the value is minus the number `k` of regions for which the callback succeeded; the first
`k` entries of the array are these regions; the array has the length it had; and the
entry at position `k`, if the array reaches that far, has size zero. -/
theorem cma_regions_allocate_spec (cma_region_alloc : region_callback)
    (alloc : Option region_callback) (regs : List cma_region) :
    (cma_regions_allocate cma_region_alloc alloc regs).1 =
        -((reserved_regions (alloc.getD cma_region_alloc) 0 regs).length : Int) ∧
      (cma_regions_allocate cma_region_alloc alloc regs).2.take
          (reserved_regions (alloc.getD cma_region_alloc) 0 regs).length =
        reserved_regions (alloc.getD cma_region_alloc) 0 regs ∧
      (cma_regions_allocate cma_region_alloc alloc regs).2.length = regs.length ∧
      ∀ t, (cma_regions_allocate cma_region_alloc alloc regs).2[
          (reserved_regions (alloc.getD cma_region_alloc) 0 regs).length]? = some t →
        t.size = 0 := by
  obtain ⟨h1, h2, h3⟩ :=
    cma_regions_allocate_loop_spec (alloc.getD cma_region_alloc) regs [] 0 (Nat.le_refl _)
  simp only [List.length_nil, Nat.zero_add, List.take_nil, List.nil_append] at h1 h2 h3
  simp only [cma_regions_allocate]
  rw [h1]
  rw [h1] at h2
  generalize cma_regions_allocate_loop (alloc.getD cma_region_alloc) [] 0 regs = r at h2 h3
  generalize (reserved_regions (alloc.getD cma_region_alloc) 0 regs).length = k at h2
  refine ⟨by omega, ?_, ?_, ?_⟩
  · cases hk : r.1[k]? with
    | none => exact h2
    | some t =>
      simp only
      rw [take_set_same]
      exact h2
  · cases hk : r.1[k]? with
    | none => exact h3
    | some t =>
      simp only [List.length_set]
      exact h3
  · intro t
    cases hk : r.1[k]? with
    | none =>
      simp only
      intro ht
      rw [hk] at ht
      exact absurd ht (by simp)
    | some t1 =>
      simp only
      intro ht
      have hlt : k < r.1.length := (List.getElem?_eq_some.1 hk).1
      rw [List.getElem?_set_self hlt] at ht
      simp only [Option.some.injEq] at ht
      rw [← ht]

/-- C26, the code at failing inputs.  For the table of the regions "A" and "B" and a
callback that reserves "A" but not "B", `cma_regions_allocate` returns -1, and for a
callback that reserves both it returns -2: the number of reserved regions with the sign
turned, from `return cma_regions - out`.  Only for a table without reserved regions is
the result, 0, the count. -/
theorem cma_regions_allocate_returns_negative :
    (cma_regions_allocate example_callback (some example_callback) example_table).1 = -1 ∧
      reserved_regions example_callback 0 example_table = example_table.take 1 ∧
      (cma_regions_allocate example_callback (some fun _ reg => (0, reg)) example_table).1 =
        -2 ∧
      reserved_regions (fun _ reg => (0, reg)) 0 example_table = example_table ∧
      (cma_regions_allocate example_callback none example_table).1 = -1 ∧
      (cma_regions_allocate example_callback (some fun _ reg => (-ENOMEM, reg))
        example_table).1 = 0 :=
  ⟨rfl, rfl, rfl, rfl, rfl, rfl⟩

theorem takeWhile_append_stop {α : Type} (p : α → Bool) :
    ∀ (l tail : List α), (∀ x ∈ l, p x = true) → (∀ t ∈ tail.head?, p t = false) →
      (l ++ tail).takeWhile p = l := by
  intro l
  induction l with
  | nil =>
    intro tail _ ht
    cases tail with
    | nil => rfl
    | cons t tail =>
      have := ht t (by simp)
      simp [List.takeWhile, this]
  | cons a l ih =>
    intro tail hl ht
    have ha := hl a (List.mem_cons_self _ _)
    rw [List.cons_append, List.takeWhile_cons, ha, if_pos rfl,
      ih tail (fun x hx => hl x (List.mem_cons_of_mem _ hx)) ht]

/-- C30. Table compaction, for every array and every callback (NULL, which stands for
`cma_region_alloc`, included): after `cma_regions_allocate` the array begins with the
regions of the table for which the callback succeeded, in the order of the table and with
the fields the callback left in them, and the entry behind them, if the array reaches that
far, has size zero.  So when the callback leaves no size at zero in a region it reserves,
the entries before the first entry of size zero are exactly these regions. -/
theorem cma_regions_allocate_compacts (cma_region_alloc : region_callback)
    (alloc : Option region_callback) (regs : List cma_region) :
    ∃ tail, (cma_regions_allocate cma_region_alloc alloc regs).2 =
        reserved_regions (alloc.getD cma_region_alloc) 0 regs ++ tail ∧
      (∀ t ∈ tail.head?, t.size = 0) ∧
      ((∀ r ∈ reserved_regions (alloc.getD cma_region_alloc) 0 regs, r.size ≠ 0) →
        table_regions (cma_regions_allocate cma_region_alloc alloc regs).2 =
          reserved_regions (alloc.getD cma_region_alloc) 0 regs) := by
  obtain ⟨_, h2, _, h4⟩ := cma_regions_allocate_spec cma_region_alloc alloc regs
  have hsplit := List.take_append_drop
    (reserved_regions (alloc.getD cma_region_alloc) 0 regs).length
    (cma_regions_allocate cma_region_alloc alloc regs).2
  rw [h2] at hsplit
  have hhead : ∀ t ∈ ((cma_regions_allocate cma_region_alloc alloc regs).2.drop
      (reserved_regions (alloc.getD cma_region_alloc) 0 regs).length).head?,
      t.size = 0 := by
    intro t ht
    apply h4 t
    rw [List.head?_drop] at ht
    exact ht
  refine ⟨_, hsplit.symm, hhead, ?_⟩
  intro hsz
  rw [← hsplit]
  unfold table_regions
  exact takeWhile_append_stop _ _ _ (fun x hx => by simpa using hsz x hx)
    (fun t ht => by simpa using hhead t ht)

theorem cma_regions_allocate_compacts_witness :
    ∃ tail, (cma_regions_allocate example_callback (some example_callback)
        (example_table ++ [{ example_region 0x3000 0x1000 with name := ['C'] }])).2 =
        [ { cma_region_zero with
            name := ['A'], start := 0x1000, size := 0x1000, free_space := 0x1000,
            alignment := 0x1000 },
          { example_region 0x3000 0x1000 with name := ['C'] } ] ++ tail ∧
      (∀ t ∈ tail.head?, t.size = 0) ∧
      ((∀ r ∈ reserved_regions example_callback 0
          (example_table ++ [{ example_region 0x3000 0x1000 with name := ['C'] }]),
          r.size ≠ 0) →
        table_regions (cma_regions_allocate example_callback (some example_callback)
          (example_table ++ [{ example_region 0x3000 0x1000 with name := ['C'] }])).2 =
          [ { cma_region_zero with
              name := ['A'], start := 0x1000, size := 0x1000, free_space := 0x1000,
              alignment := 0x1000 },
            { example_region 0x3000 0x1000 with name := ['C'] } ]) :=
  cma_regions_allocate_compacts example_callback (some example_callback)
    (example_table ++ [{ example_region 0x3000 0x1000 with name := ['C'] }])

/-! ## Region lookup and the end of the table -/

/-- C29, the code at failing inputs.  (a) In `example_zero_start` the table holds the
regions "Z", at address zero, and "R", both before the end of the table;
`__cma_region_find` finds neither of them, because its loop ends at the first entry whose
start is zero.  (b) When `cma_regions_allocate` has run on the table of "A" and "B" with a
callback that fails for "B", the entry of "B" is the zero-size terminator of the table;
`__cma_region_find` returns it for the name "B". -/
theorem cma_region_find_ignores_terminator :
    table_regions example_zero_start.cma_regions = example_zero_start.cma_regions ∧
      region_lookup (table_regions example_zero_start.cma_regions) ['R'] = some 1 ∧
      __cma_region_find example_zero_start.cma_regions ['R'] = none ∧
      region_lookup (table_regions example_zero_start.cma_regions) ['Z'] = some 0 ∧
      __cma_region_find example_zero_start.cma_regions ['Z'] = none ∧
      (cma_regions_allocate example_callback (some example_callback) example_table).2 =
        example_table.set 1
          { cma_region_zero with
            name := ['B'], start := 0x2000, size := 0, free_space := 0x1000,
            alignment := 0x1000 } ∧
      table_regions
          (cma_regions_allocate example_callback (some example_callback) example_table).2 =
        example_table.take 1 ∧
      region_lookup (table_regions
        (cma_regions_allocate example_callback (some example_callback) example_table).2)
        ['B'] = none ∧
      __cma_region_find
        (cma_regions_allocate example_callback (some example_callback) example_table).2
        ['B'] = some 1 :=
  ⟨rfl, rfl, rfl, rfl, rfl, rfl, rfl, rfl, rfl⟩

/-- Where every region of the table has a start that is not zero and the entry that ends
the table has start zero, `__cma_region_find` returns the first region of the table with
the given name, and NULL when the table has none. -/
theorem region_find_live (name : List Char) :
    ∀ (regs : List cma_region) (idx : Nat),
      (∀ r ∈ table_regions regs, r.start ≠ 0) →
      (∀ t ∈ (regs.dropWhile (fun r => r.size ≠ 0)).head?, t.start = 0) →
      __cma_region_find_from name regs idx =
        region_lookup_from name (table_regions regs) idx := by
  intro regs
  induction regs with
  | nil => intro idx _ _; rfl
  | cons reg rest ih =>
    intro idx h1 h2
    by_cases hz : reg.size = 0
    · have hs : reg.start = 0 := by
        apply h2 reg
        simp [List.dropWhile, hz]
      simp [__cma_region_find_from, hs, table_regions, List.takeWhile, hz,
        region_lookup_from]
    · have ht : table_regions (reg :: rest) = reg :: table_regions rest := by
        simp [table_regions, List.takeWhile, hz]
      have hd : (reg :: rest).dropWhile (fun r => r.size ≠ 0) =
          rest.dropWhile (fun r => r.size ≠ 0) := by
        simp [List.dropWhile, hz]
      rw [ht] at h1 ⊢
      rw [hd] at h2
      unfold __cma_region_find_from region_lookup_from
      rw [if_neg (h1 reg (List.mem_cons_self _ _))]
      split
      · rfl
      · exact ih (idx + 1) (fun r hr => h1 r (List.mem_cons_of_mem _ hr)) h2

/-! ## `cma_info` -/

/-- C23, the code at a failing input.  In `example_zero_start` the route of every device
is "R,Z" and both names are regions of the table, of two pages each, at 0x2000 and at 0;
`cma_info` returns 0 with count 0, total size 0, lower bound `ULONG_MAX` and upper bound
0, where the aggregate over the two regions has count 2, total size 0x4000 and the bounds
0 and 0x4000: `__cma_region_find` stops at the region that starts at zero. -/
theorem cma_info_misses_regions :
    __cma_where_from example_zero_start.cma_map (some ['d']) none = .ok ['R', ',', 'Z'] ∧
      route_regions example_zero_start.cma_regions [['R'], ['Z']] =
        [example_region 0x2000 0x2000, { example_region 0 0x2000 with name := ['Z'] }] ∧
      info_of 32 (route_regions example_zero_start.cma_regions [['R'], ['Z']]) =
        ⟨0, 0x4000, 0x4000, 2⟩ ∧
      cma_info 32 example_zero_start (some ⟨0, 0, 0, 0⟩) (some ['d']) none =
        .ret (0, some ⟨0xFFFFFFFF, 0, 0, 0⟩) example_zero_start :=
  ⟨rfl, rfl, rfl, rfl⟩

/-- One region more in the aggregate, where nothing wraps around. -/
theorem cma_info_add_exact (w : Nat) (ret : struct_cma_info) (reg : cma_region)
    (h1 : ret.total_size + reg.size < 2 ^ w) (h2 : reg.start + reg.size < 2 ^ w)
    (h3 : ret.count + 1 < 2 ^ 32) :
    cma_info_add w ret reg =
      ⟨min ret.lower_bound reg.start, max ret.upper_bound (reg.start + reg.size),
        ret.total_size + reg.size, ret.count + 1⟩ := by
  simp only [cma_info_add, uadd_of_lt w _ _ h1, uadd_of_lt w _ _ h2, Nat.mod_eq_of_lt h3]
  congr 1
  · split <;> omega
  · split <;> omega

theorem info_from_cons (w : Nat) (ret : struct_cma_info) (reg : cma_region)
    (found : List cma_region)
    (h1 : ret.total_size + reg.size < 2 ^ w) (h2 : reg.start + reg.size < 2 ^ w)
    (h3 : ret.count + 1 < 2 ^ 32) :
    info_from (cma_info_add w ret reg) found = info_from ret (reg :: found) := by
  rw [cma_info_add_exact w ret reg h1 h2 h3]
  simp only [info_from, List.length_cons, List.map_cons, List.sum_cons, List.foldl_cons]
  congr 1 <;> omega

theorem info_from_nil (ret : struct_cma_info) : info_from ret [] = ret := by
  cases ret
  simp [info_from]

theorem route_regions_cons (regs : List cma_region) (m : List Char) (ms : List (List Char)) :
    route_regions regs (m :: ms) =
      match (region_lookup regs m).bind (fun idx => regs[idx]?) with
      | none => route_regions regs ms
      | some reg => reg :: route_regions regs ms := by
  simp only [route_regions, List.filterMap_cons]
  cases (region_lookup regs m).bind (fun idx => regs[idx]?) <;> rfl

/-- The loop of `cma_info` over a route, where no region of the table starts at zero and
nothing wraps around: the aggregate over the regions of the route is added to `ret`. -/
theorem cma_info_loop_spec (w : Nat) (regs : List cma_region)
    (hstart : ∀ reg ∈ regs, reg.start ≠ 0) :
    ∀ (names : List (List Char)) (fuel : Nat) (ret : struct_cma_info),
      (∀ m ∈ names, m ≠ [] ∧ ',' ∉ m) →
      (join_names names).length < fuel →
      ret.total_size + ((route_regions regs names).map (fun r => r.size)).sum < 2 ^ w →
      (∀ r ∈ route_regions regs names, r.start + r.size < 2 ^ w) →
      ret.count + (route_regions regs names).length < 2 ^ 32 →
      cma_info_loop w regs fuel (join_names names) ret =
        info_from ret (route_regions regs names) := by
  intro names
  induction names with
  | nil =>
    intro fuel ret _ hfuel _ _ _
    cases fuel with
    | zero => omega
    | succ fuel =>
      simp [cma_info_loop, join_names, route_regions, info_from_nil]
  | cons m ms ih =>
    intro fuel ret hnames hfuel hsum hend hcount
    cases fuel with
    | zero => omega
    | succ fuel =>
      have hm := hnames m (List.mem_cons_self _ _)
      have hms : ∀ x ∈ ms, x ≠ [] ∧ ',' ∉ x := fun x hx => hnames x (List.mem_cons_of_mem _ hx)
      unfold cma_info_loop
      rw [if_neg (join_names_ne_nil m ms hm.1), join_names_takeWhile m ms hm.2]
      simp only [__cma_region_find]
      rw [region_find_eq_lookup _ _ 0 hstart]
      rw [route_regions_cons] at hsum hend hcount ⊢
      have hfind : region_lookup_from m regs 0 = region_lookup regs m := rfl
      rw [hfind]
      -- the value of `ret` after the statements under `if (reg)`
      have key : ∀ ret1 found1,
          (match (region_lookup regs m).bind (fun idx => regs[idx]?) with
            | none => route_regions regs ms
            | some reg => reg :: route_regions regs ms) = found1 →
          (match region_lookup regs m with
            | none => ret
            | some idx =>
              match regs[idx]? with
              | none => ret
              | some reg => cma_info_add w ret reg) = ret1 →
          info_from ret1 (route_regions regs ms) = info_from ret found1 ∧
          ret1.total_size + ((route_regions regs ms).map (fun r => r.size)).sum < 2 ^ w ∧
          ret1.count + (route_regions regs ms).length < 2 ^ 32 := by
        intro ret1 found1 hf hr
        cases hl : region_lookup regs m with
        | none =>
          rw [hl] at hf hr hsum hcount
          simp only [Option.none_bind] at hf hsum hcount
          subst hf hr
          exact ⟨rfl, hsum, hcount⟩
        | some idx =>
          rw [hl] at hf hr hsum hcount hend
          simp only [Option.some_bind] at hf hsum hcount hend
          cases hg : regs[idx]? with
          | none =>
            simp only [hg] at hf hr hsum hcount
            subst hf hr
            exact ⟨rfl, hsum, hcount⟩
          | some reg =>
            simp only [hg, List.map_cons, List.sum_cons, List.length_cons] at hf hr hsum hcount
            simp only [hg] at hend
            have e2 := hend reg (List.mem_cons_self _ _)
            subst hf hr
            have e1 : ret.total_size + reg.size < 2 ^ w := by omega
            have e3 : ret.count + 1 < 2 ^ 32 := by omega
            refine ⟨info_from_cons w ret reg _ e1 e2 e3, ?_, ?_⟩
            · rw [cma_info_add_exact w ret reg e1 e2 e3]
              show ret.total_size + reg.size + _ < _
              omega
            · rw [cma_info_add_exact w ret reg e1 e2 e3]
              show ret.count + 1 + _ < _
              omega
      obtain ⟨k1, k2, k3⟩ := key _ _ rfl rfl
      have hend1 : ∀ r ∈ route_regions regs ms, r.start + r.size < 2 ^ w := by
        intro r hr
        apply hend r
        cases (region_lookup regs m).bind (fun idx => regs[idx]?) with
        | none => exact hr
        | some reg => exact List.mem_cons_of_mem _ hr
      cases ms with
      | nil =>
        rw [join_names_single, strchr_none_of_not_mem ',' m hm.2]
        simp only
        rw [← k1]
        simp only [route_regions, List.filterMap_nil, info_from_nil]
      | cons m1 ms1 =>
        rw [join_names_cons_cons, strchr_append_self ',' m _ hm.2]
        simp only [List.tail_cons]
        rw [join_names_cons_cons] at hfuel
        simp only [List.length_append, List.length_cons] at hfuel
        rw [ih fuel _ hms (by omega) k2 hend1 k3]
        exact k1

/-- The function `cma_info` where no region of the table starts at zero and nothing wraps
around: for a request whose route resolves it returns 0, stores the aggregate over the
regions that the names of the route stand for, and leaves the state as it was. -/
theorem cma_info_aggregate (w : Nat) (st : cma_state) (i0 : struct_cma_info)
    (dev kind : Option (List Char)) (names : List (List Char))
    (hroute : __cma_where_from st.cma_map dev kind = .ok (join_names names))
    (hstart : ∀ reg ∈ st.cma_regions, reg.start ≠ 0)
    (hnames : ∀ m ∈ names, m ≠ [] ∧ ',' ∉ m)
    (hsum : ((route_regions st.cma_regions names).map (fun r => r.size)).sum < 2 ^ w)
    (hend : ∀ r ∈ route_regions st.cma_regions names, r.start + r.size < 2 ^ w)
    (hcount : (route_regions st.cma_regions names).length < 2 ^ 32) :
    cma_info w st (some i0) dev kind =
      .ret (0, some (info_of w (route_regions st.cma_regions names))) st := by
  have h := cma_info_loop_spec w st.cma_regions hstart names
    ((join_names names).length + 1) ⟨ULONG_MAX w, 0, 0, 0⟩ hnames (Nat.lt_succ_self _)
    (by simpa using hsum) hend (by simpa using hcount)
  simp only [cma_info, hroute]
  rw [if_neg (by simp), h]
  simp [info_from, info_of]

/-- The aggregate at a concrete route: in `example_first_fit` the route "X,A,R,A" names a
region that is not in the table, the region "A" twice and the region "R"; `cma_info`
counts three regions, with the bounds of "A" and "R" together.  A NULL `info` gives
`-EINVAL`, and a device without rule `-ENOENT`, with the structure untouched. -/
theorem cma_info_example :
    cma_info 32 example_first_fit (some ⟨0, 0, 0, 0⟩) (some ['d']) none =
        .ret (0, some ⟨0x1000, 0x4000, 0x4000, 3⟩) example_first_fit ∧
      cma_info 32 example_first_fit none (some ['d']) none =
        .ret (-EINVAL, none) example_first_fit ∧
      cma_info 32 example_overlap (some ⟨1, 2, 3, 4⟩) (some ['d']) none =
        .ret (-ENOENT, some ⟨1, 2, 3, 4⟩) example_overlap :=
  ⟨rfl, rfl, rfl⟩

/-! ## A chunk strictly inside a hole -/

theorem round_up_room (w k x : Nat) (hk : k < w) (h : round_up x (2 ^ k) < 2 ^ w) :
    x + (2 ^ k - 1) < 2 ^ w := by
  have h2 : 0 < 2 ^ k := Nat.two_pow_pos k
  unfold round_up at h
  have hdm := Nat.div_add_mod (x + (2 ^ k - 1)) (2 ^ k)
  have hml := Nat.mod_lt (x + (2 ^ k - 1)) h2
  have hw : 2 ^ w = 2 ^ (w - k) * 2 ^ k := by
    rw [← Nat.pow_add]
    congr 1
    omega
  rw [hw] at h ⊢
  have hq : (x + (2 ^ k - 1)) / 2 ^ k < 2 ^ (w - k) := Nat.lt_of_mul_lt_mul_right h
  have hq1 : ((x + (2 ^ k - 1)) / 2 ^ k + 1) * 2 ^ k ≤ 2 ^ (w - k) * 2 ^ k :=
    Nat.mul_le_mul_right _ hq
  rw [Nat.add_mul, Nat.one_mul] at hq1
  rw [Nat.mul_comm] at hdm
  omega

theorem ALIGN_round_up (w k x : Nat) (hk : k < w) (h : round_up x (2 ^ k) < 2 ^ w) :
    ALIGN w x (2 ^ k) = round_up x (2 ^ k) := by
  rw [ALIGN_eq w k x hk (round_up_room w k x hk h), round_up, Nat.mul_comm]

/-- C27. Shift to the high edge.  `hole` is a hole of the by-start tree whose end is below
`2 ^ w`, the alignment is the power of two `2 ^ k`, and `a`, the start of the hole rounded
up to the alignment, leaves room for `size` bytes strictly inside the hole: `a` is not the
start of the hole and `a + size` is below its end.  With the record for the chunk
allocated, `__cma_bf_hole_take` then does the following.  If the rest of the hole behind
`a + size` is a multiple of the alignment, the chunk is the last `size` bytes of the hole,
the hole keeps its start and loses `size` bytes, and the by-start tree has no new record.
Otherwise (with the record for the second hole allocated) the chunk is `[a, a + size)` and
the hole is replaced by the hole before `a` and a new hole from `a + size` to its end. -/
theorem cma_bf_hole_take_inside (w k : Nat) (prv : cma_bf_private) (hole : cma_bf_item)
    (A B : List cma_bf_item) (size : Nat) (km_next : Bool)
    (hk : k < w) (hend : hole.start + hole.size < 2 ^ w)
    (hby : prv.by_start_root = A ++ hole :: B)
    (hA : ∀ x ∈ A, x.start + x.size < hole.start)
    (hB : ∀ x ∈ B, hole.start + hole.size < x.start)
    (h1 : round_up hole.start (2 ^ k) ≠ hole.start)
    (h2 : round_up hole.start (2 ^ k) + size < hole.start + hole.size) :
    if (hole.start + hole.size - (round_up hole.start (2 ^ k) + size)) % 2 ^ k = 0 then
      ∃ prv1, __cma_bf_hole_take w prv hole size (2 ^ k) true km_next =
          .chunk ⟨hole.start + hole.size - size, size⟩ prv1 ∧
        prv1 = hole_update prv hole ⟨hole.start, hole.size - size⟩ ∧
        prv1.by_start_root = A ++ ⟨hole.start, hole.size - size⟩ :: B
    else
      ∃ prv1, __cma_bf_hole_take w prv hole size (2 ^ k) true true =
          .chunk ⟨round_up hole.start (2 ^ k), size⟩ prv1 ∧
        prv1 =
          hole_update
            (__cma_bf_hole_insert_by_start
              (__cma_bf_hole_insert_by_size prv
                ⟨round_up hole.start (2 ^ k) + size,
                  hole.start + hole.size - (round_up hole.start (2 ^ k) + size)⟩)
              ⟨round_up hole.start (2 ^ k) + size,
                hole.start + hole.size - (round_up hole.start (2 ^ k) + size)⟩)
            hole ⟨hole.start, round_up hole.start (2 ^ k) - hole.start⟩ ∧
        prv1.by_start_root =
          A ++ ⟨hole.start, round_up hole.start (2 ^ k) - hole.start⟩ ::
            ⟨round_up hole.start (2 ^ k) + size,
              hole.start + hole.size - (round_up hole.start (2 ^ k) + size)⟩ :: B := by
  have hal : ALIGN w hole.start (2 ^ k) = round_up hole.start (2 ^ k) :=
    ALIGN_round_up w k hole.start hk (by omega)
  obtain ⟨ha1, _, _⟩ := ALIGN_spec w k hole.start hk (round_up_room w k hole.start hk (by omega))
  rw [hal] at ha1
  generalize round_up hole.start (2 ^ k) = a at hal ha1 h1 h2 ⊢
  have hE : uadd w hole.start hole.size = hole.start + hole.size := uadd_of_lt w _ _ hend
  have hAs : uadd w a size = a + size := uadd_of_lt w _ _ (by omega)
  have hleft : usub w (hole.start + hole.size) (a + size) =
      hole.start + hole.size - (a + size) := usub_of_le w _ _ (by omega) hend
  have hne : ∀ x ∈ A, x ≠ hole := pre_ne_of_ordered A hole hA
  have hsz : ¬ size = hole.size := by omega
  split
  · rename_i hmod
    refine ⟨hole_update prv hole ⟨hole.start, hole.size - size⟩, ?_, rfl, ?_⟩
    · unfold __cma_bf_hole_take
      rw [if_neg hsz]
      simp only [Bool.not_true, Bool.false_eq_true, if_false, hal, hE, hAs, hleft]
      rw [if_pos ⟨by omega, by omega⟩, if_pos hmod]
      simp only [__cma_bf_hole_take_case_2]
      have e1 : uadd w a (hole.start + hole.size - (a + size)) =
          hole.start + hole.size - size := by
        rw [uadd_of_lt w _ _ (by omega)]
        omega
      rw [e1, if_neg (by omega), usub_of_le w _ _ (by omega) (by omega)]
    · simp only [hole_update, hby]
      exact item_assign_split A B hole _ hne
  · rename_i hmod
    refine ⟨_, ?_, rfl, ?_⟩
    · unfold __cma_bf_hole_take
      rw [if_neg hsz]
      simp only [Bool.not_true, Bool.false_eq_true, if_false, hal, hE, hAs, hleft]
      rw [if_pos ⟨by omega, by omega⟩, if_neg hmod]
      simp only [__cma_bf_hole_take_case_2]
      rw [if_neg (by omega)]
      simp only
      rw [usub_of_le w (a + size) hole.start (by omega) (by omega),
        usub_of_le w (a + size - hole.start) size (by omega) (by omega)]
      have e : a + size - hole.start - size = a - hole.start := by omega
      rw [e]
    · simp only [hole_update, __cma_bf_hole_insert_by_start, __cma_bf_hole_insert_by_size, hby]
      have hins : __CMA_BF_HOLE_INSERT cma_bf_item.start (A ++ hole :: B)
          ⟨a + size, hole.start + hole.size - (a + size)⟩ =
          A ++ hole :: ⟨a + size, hole.start + hole.size - (a + size)⟩ :: B := by
        have := item_insert_split (A ++ [hole]) B
          ⟨a + size, hole.start + hole.size - (a + size)⟩
          (by
            intro x hx
            rcases List.mem_append.1 hx with hx | hx
            · have := hA x hx
              simp only
              omega
            · simp only [List.mem_singleton] at hx
              subst hx
              simp only
              omega)
          (by
            intro b hb
            have := hB b (List.mem_of_mem_head? hb)
            simp only
            omega)
        simpa using this
      rw [hins, item_assign_split A _ hole _ hne]

theorem cma_bf_hole_take_inside_witness :
    ∃ prv1, __cma_bf_hole_take 32 ⟨[⟨0x1800, 0x3800⟩], [⟨0x1800, 0x3800⟩]⟩ ⟨0x1800, 0x3800⟩
        0x1000 (2 ^ 12) true true = .chunk ⟨0x4000, 0x1000⟩ prv1 ∧
      prv1 = hole_update ⟨[⟨0x1800, 0x3800⟩], [⟨0x1800, 0x3800⟩]⟩ ⟨0x1800, 0x3800⟩
        ⟨0x1800, 0x2800⟩ ∧
      prv1.by_start_root = [⟨0x1800, 0x2800⟩] := by
  have h := cma_bf_hole_take_inside 32 12 ⟨[⟨0x1800, 0x3800⟩], [⟨0x1800, 0x3800⟩]⟩
    ⟨0x1800, 0x3800⟩ [] [] 0x1000 true (by decide) (by decide) rfl (by simp) (by simp)
    (by decide) (by decide)
  rw [if_pos (by decide)] at h
  exact h

/-! ## Coalescing when a chunk is given back -/

/-- The first pass of `__cma_bf_hole_merge_maybe`, with the predecessor of `item`: the
holes before `item` that end below its start stay, and `item` takes over the hole that
ends at its start, if there is one. -/
theorem merge_first_explicit (w hi : Nat) (prv : cma_bf_private) (A B : List cma_bf_item)
    (item : cma_bf_item) (hhi : hi < 2 ^ w)
    (hby : prv.by_start_root = A ++ item :: B)
    (hA : holes_ordered A)
    (hAi : ∀ a ∈ A, a.start + a.size ≤ item.start)
    (hApos : ∀ a ∈ A, 0 < a.size)
    (hin : 0 < item.size ∧ item.start + item.size ≤ hi) :
    ∃ first : cma_bf_private × cma_bf_item,
      ((rb_prev prv.by_start_root item = none ∧ first = (prv, item)) ∨
        ∃ p, rb_prev prv.by_start_root item = some p ∧
          first = __cma_bf_hole_merge_step w prv p item) ∧
      first.1.by_start_root =
        A.filter (fun h => decide (h.start + h.size < item.start)) ++ first.2 :: B ∧
      first.2.start = ((hole_before A item).map (fun h => h.start)).getD item.start ∧
      first.2.start + first.2.size = item.start + item.size ∧
      first.2.start ≤ item.start ∧
      (A.filter (fun h => decide (h.start + h.size < item.start))).length +
        (hole_before A item).toList.length = A.length ∧
      (∀ a ∈ A.filter (fun h => decide (h.start + h.size < item.start)),
        a.start + a.size < first.2.start) := by
  rcases List.eq_nil_or_concat A with rfl | ⟨A1, p, hcat⟩
  · refine ⟨(prv, item), ?_, ?_, ?_, rfl, Nat.le_refl _, ?_, ?_⟩
    · left
      rw [hby]
      exact ⟨by simp only [List.nil_append, rb_prev_head], rfl⟩
    · simpa using hby
    · simp [hole_before]
    · simp [hole_before]
    · simp
  · rw [List.concat_eq_append] at hcat
    subst hcat
    unfold holes_ordered at hA
    rw [List.pairwise_append] at hA
    obtain ⟨hA1, _, hA1p⟩ := hA
    have hp := hAi p (by simp)
    have hppos := hApos p (by simp)
    have hA1lt : ∀ a ∈ A1, a.start + a.size < p.start := fun a ha => hA1p a ha p (by simp)
    have hA1ne : ∀ a ∈ A1, a ≠ item := by
      intro a ha e
      have := hA1lt a ha
      have := hApos a (by simp [ha])
      rw [e] at *
      omega
    have hpne : p ≠ item := by
      intro e
      rw [e] at hp
      omega
    have hfA1 : A1.filter (fun h => decide (h.start + h.size < item.start)) = A1 := by
      rw [List.filter_eq_self]
      intro a ha
      have := hA1lt a ha
      simp only [decide_eq_true_eq]
      omega
    have hbA1 : A1.find? (fun h => decide (h.start + h.size = item.start)) = none := by
      rw [List.find?_eq_none]
      intro a ha
      have := hA1lt a ha
      simp only [decide_eq_true_eq]
      omega
    have hprev : rb_prev prv.by_start_root item = some p := by
      rw [hby]
      simp only [List.append_assoc, List.singleton_append]
      exact rb_prev_split A1 B p item hA1ne hpne
    by_cases hadj : p.start + p.size = item.start
    · have hu : uadd w p.start p.size = item.start := by
        rw [uadd_of_lt w _ _ (by omega)]
        exact hadj
      obtain ⟨m1, m2⟩ := merge_step_split w prv A1 B p item
        (by rw [hby]; simp) (fun a ha => ⟨by
          intro e
          have := hA1lt a ha
          rw [e] at this
          omega, hA1ne a ha⟩) hu
      have hs : uadd w item.size p.size = item.size + p.size := uadd_of_lt w _ _ (by omega)
      refine ⟨_, Or.inr ⟨p, hprev, rfl⟩, ?_, ?_, ?_, ?_, ?_, ?_⟩
      · rw [m1, m2, List.filter_append, hfA1]
        simp [hadj]
      · rw [m2]
        simp [hole_before, List.find?_append, hbA1, hadj]
      · rw [m2, hs]
        simp only
        omega
      · rw [m2]
        simp only
        omega
      · rw [List.filter_append, hfA1]
        simp [hole_before, List.find?_append, hbA1, hadj]
      · rw [List.filter_append, hfA1, m2]
        intro a ha
        have hfp : [p].filter (fun h => decide (h.start + h.size < item.start)) = [] := by
          simp [hadj]
        rw [hfp, List.append_nil] at ha
        simpa using hA1lt a ha
    · have hu : uadd w p.start p.size ≠ item.start := by
        rw [uadd_of_lt w _ _ (by omega)]
        exact hadj
      have hlt : p.start + p.size < item.start := by omega
      refine ⟨(prv, item), Or.inr ⟨p, hprev, (merge_step_skip w prv p item hu).symm⟩,
        ?_, ?_, rfl, Nat.le_refl _, ?_, ?_⟩
      · rw [hby, List.filter_append, hfA1]
        simp [hlt]
      · simp [hole_before, List.find?_append, hbA1, hadj]
      · rw [List.filter_append, hfA1]
        simp [hole_before, List.find?_append, hbA1, hadj, hlt]
      · rw [List.filter_append, hfA1]
        intro a ha
        have hfp : [p].filter (fun h => decide (h.start + h.size < item.start)) = [p] := by
          simp [hlt]
        rw [hfp] at ha
        show a.start + a.size < item.start
        rcases List.mem_append.1 ha with ha | ha
        · have := hA1lt a ha
          omega
        · simp only [List.mem_singleton] at ha
          subst ha
          exact hlt

/-- The second pass of `__cma_bf_hole_merge_maybe`, with the successor of `item`: `item`
takes over the hole that starts at its end, if there is one, and the holes behind that
start above its end stay. -/
theorem merge_second_explicit (w hi : Nat) (prv : cma_bf_private) (A B : List cma_bf_item)
    (item : cma_bf_item) (hhi : hi < 2 ^ w)
    (hby : prv.by_start_root = A ++ item :: B)
    (hB : holes_ordered B)
    (hAi : ∀ a ∈ A, a.start + a.size < item.start)
    (hBi : ∀ b ∈ B, item.start + item.size ≤ b.start)
    (hBin : ∀ b ∈ B, 0 < b.size ∧ b.start + b.size ≤ hi)
    (hin : 0 < item.size ∧ item.start + item.size ≤ hi) :
    ∃ res : cma_bf_private,
      ((rb_next prv.by_start_root item = none ∧ res = prv) ∨
        ∃ n, rb_next prv.by_start_root item = some n ∧
          res = (__cma_bf_hole_merge_step w prv item n).1) ∧
      res.by_start_root =
        A ++ ⟨item.start,
            ((hole_behind B item).map (fun h => h.start + h.size)).getD
              (item.start + item.size) - item.start⟩ ::
          B.filter (fun h => decide (item.start + item.size < h.start)) ∧
      (B.filter (fun h => decide (item.start + item.size < h.start))).length +
        (hole_behind B item).toList.length = B.length := by
  have hAne : ∀ a ∈ A, a ≠ item := by
    intro a ha e
    have := hAi a ha
    rw [e] at this
    omega
  have hnext : rb_next prv.by_start_root item = B.head? := by
    rw [hby]
    exact rb_next_split A B item hAne
  cases B with
  | nil =>
    refine ⟨prv, Or.inl ⟨hnext, rfl⟩, ?_⟩
    simp only [hole_behind, List.find?_nil, Option.map_none',
      Option.getD_none, List.filter_nil, List.length_nil, Option.toList]
    refine ⟨?_, trivial⟩
    rw [hby]
    congr 2
    cases item
    simp
  | cons n B1 =>
    simp only [List.head?_cons] at hnext
    unfold holes_ordered at hB
    rw [List.pairwise_cons] at hB
    have hn := hBi n (by simp)
    have hnin := hBin n (by simp)
    have hB1 : ∀ b ∈ B1, item.start + item.size < b.start := by
      intro b hb
      have := hB.1 b hb
      omega
    have hfB1 : B1.filter (fun h => decide (item.start + item.size < h.start)) = B1 := by
      rw [List.filter_eq_self]
      intro b hb
      simpa using hB1 b hb
    have hbB1 : B1.find? (fun h => decide (h.start = item.start + item.size)) = none := by
      rw [List.find?_eq_none]
      intro b hb
      have := hB1 b hb
      simp only [decide_eq_true_eq]
      omega
    by_cases hadj : item.start + item.size = n.start
    · have hu : uadd w item.start item.size = n.start := by
        rw [uadd_of_lt w _ _ (by omega)]
        exact hadj
      obtain ⟨m1, _⟩ := merge_step_split w prv A B1 item n hby
        (fun a ha => ⟨hAne a ha, by
          intro e
          have := hAi a ha
          rw [e] at this
          omega⟩) hu
      have hs : uadd w n.size item.size = n.size + item.size := uadd_of_lt w _ _ (by omega)
      refine ⟨_, Or.inr ⟨n, hnext, rfl⟩, ?_⟩
      rw [m1, hs]
      have hfn : (n :: B1).filter (fun h => decide (item.start + item.size < h.start)) =
          B1 := by
        rw [List.filter_cons, hfB1]
        simp [hadj]
      have hbn : hole_behind (n :: B1) item = some n := by
        simp [hole_behind, List.find?_cons, hadj]
      rw [hfn, hbn]
      simp only [Option.map_some', Option.getD_some, Option.toList, List.length_cons,
        List.length_nil, and_true]
      congr 3
      omega
    · have hu : uadd w item.start item.size ≠ n.start := by
        rw [uadd_of_lt w _ _ (by omega)]
        exact hadj
      refine ⟨prv, Or.inr ⟨n, hnext, by rw [merge_step_skip w prv item n hu]⟩, ?_⟩
      have hlt : item.start + item.size < n.start := by omega
      have hfn : (n :: B1).filter (fun h => decide (item.start + item.size < h.start)) =
          n :: B1 := by
        rw [List.filter_cons, hfB1]
        simp [hlt]
      have hbn : hole_behind (n :: B1) item = none := by
        simp only [hole_behind, List.find?_cons, hbB1]
        have : ¬ n.start = item.start + item.size := by omega
        simp [this]
      rw [hfn, hbn, hby]
      simp only [Option.map_none', Option.getD_none, Option.toList, List.length_nil,
        Nat.add_zero, and_true]
      congr 2
      cases item
      simp

/-- The holes that touch a chunk, for holes that lie before the chunk (`pre`) or behind it
(`post`): only a hole of `pre` can end at its start and only a hole of `post` can start at
its end. -/
theorem coalesce_split (pre post : List cma_bf_item) (c : cma_bf_item) (hc : 0 < c.size)
    (hpos : ∀ h ∈ pre ++ post, 0 < h.size)
    (o3 : ∀ a ∈ pre, a.start + a.size ≤ c.start)
    (o4 : ∀ b ∈ post, c.start + c.size ≤ b.start) :
    (pre ++ post).filter (fun h => decide (h.start + h.size < c.start)) =
        pre.filter (fun h => decide (h.start + h.size < c.start)) ∧
      (pre ++ post).filter (fun h => decide (c.start + c.size < h.start)) =
        post.filter (fun h => decide (c.start + c.size < h.start)) ∧
      hole_before (pre ++ post) c = hole_before pre c ∧
      hole_behind (pre ++ post) c = hole_behind post c := by
  have p1 : post.filter (fun h => decide (h.start + h.size < c.start)) = [] := by
    rw [List.filter_eq_nil_iff]
    intro b hb
    have := o4 b hb
    simp only [decide_eq_true_eq]
    omega
  have p2 : pre.filter (fun h => decide (c.start + c.size < h.start)) = [] := by
    rw [List.filter_eq_nil_iff]
    intro a ha
    have := o3 a ha
    simp only [decide_eq_true_eq]
    omega
  have p3 : post.find? (fun h => decide (h.start + h.size = c.start)) = none := by
    rw [List.find?_eq_none]
    intro b hb
    have := o4 b hb
    simp only [decide_eq_true_eq]
    omega
  have p4 : pre.find? (fun h => decide (h.start = c.start + c.size)) = none := by
    rw [List.find?_eq_none]
    intro a ha
    have := o3 a ha
    have := hpos a (List.mem_append_left _ ha)
    simp only [decide_eq_true_eq]
    omega
  refine ⟨?_, ?_, ?_, ?_⟩
  · rw [List.filter_append, p1, List.append_nil]
  · rw [List.filter_append, p2, List.nil_append]
  · simp only [hole_before, List.find?_append, p3]
    simp
  · simp only [hole_behind, List.find?_append, p4]
    simp

/-- C28. Coalescing on return, for a state of the region that satisfies the partition
invariant (`bf_wf`) and a live chunk `c`.  After `cma_bf_free` of `c` the by-start tree
holds the holes before and behind `c` that do not touch it, unchanged, and between them
one hole that covers the range of `c`, the hole that ended exactly at `c.start` and the
hole that started exactly at `c.start + c.size`, where there were such holes; the by-size
tree holds the same records; and the number of holes is what it was plus one, minus the
number of holes that touched `c`, which is 0, 1 or 2. -/
theorem cma_bf_free_coalesces (w reg_start reg_size : Nat) (prv : cma_bf_private)
    (live : List cma_bf_item) (c : cma_bf_item)
    (hwf : bf_wf w reg_start reg_size prv live) (hc : c ∈ live) :
    (cma_bf_free w prv c).by_start_root = coalesce prv.by_start_root c ∧
      same_records (cma_bf_free w prv c) ∧
      (cma_bf_free w prv c).by_start_root.length + adjacent_holes prv.by_start_root c =
        prv.by_start_root.length + 1 ∧
      adjacent_holes prv.by_start_root c ≤ 2 := by
  have hwf1 := cma_bf_free_wf w reg_start reg_size prv live c hwf hc
  obtain ⟨h1, h2, h3, h4, h5, h6⟩ := hwf
  obtain ⟨hc1, hc2, hc3⟩ := h4 c hc
  have hd : ∀ h ∈ prv.by_start_root,
      h.start + h.size ≤ c.start ∨ c.start + c.size ≤ h.start := by
    intro h hh
    by_contra hcon
    obtain ⟨hh1, hh2, hh3⟩ := h3 h hh
    have ha : item_contains h (max h.start c.start) := by
      unfold item_contains
      omega
    have hb : item_contains c (max h.start c.start) := by
      unfold item_contains
      omega
    have := h5 (max h.start c.start) (by omega) (by omega)
    have p1 := cover_pos_of_mem _ h _ hh ha
    have p2 := cover_pos_of_mem _ c _ hc hb
    omega
  obtain ⟨pre, post, e, o1, o2, o3, o4⟩ :=
    holes_around prv.by_start_root c h2 (fun h hh => (h3 h hh).1) hd
  have hins : (__cma_bf_hole_insert_by_start (__cma_bf_hole_insert_by_size prv c) c).by_start_root =
      pre ++ c :: post := by
    simp only [__cma_bf_hole_insert_by_start, __cma_bf_hole_insert_by_size]
    rw [e]
    refine item_insert_split pre post c ?_ ?_
    · intro a ha
      have := o3 a ha
      have := (h3 a (by rw [e]; exact List.mem_append_left _ ha)).1
      omega
    · intro b hb
      have := o4 b (List.mem_of_mem_head? hb)
      omega
  have hpos : ∀ h ∈ pre ++ post, 0 < h.size := fun h hh => (h3 h (by rw [e]; exact hh)).1
  obtain ⟨first, hcase, f1, f2, f3, _, f5, f6⟩ :=
    merge_first_explicit w (reg_start + reg_size) _ pre post c h1 hins o1 o3
      (fun a ha => hpos a (List.mem_append_left _ ha)) ⟨hc1, hc3⟩
  obtain ⟨res, hcase2, s1, s2⟩ :=
    merge_second_explicit w (reg_start + reg_size) first.1 _ post first.2 h1 f1 o2 f6
      (fun b hb => by rw [f3]; exact o4 b hb)
      (fun b hb => ⟨hpos b (List.mem_append_right _ hb),
        (h3 b (by rw [e]; exact List.mem_append_right _ hb)).2.2⟩)
      ⟨by omega, by omega⟩
  obtain ⟨q1, q2, q3, q4⟩ := coalesce_split pre post c hc1 hpos o3 o4
  have hbehind : hole_behind post first.2 = hole_behind post c := by
    simp only [hole_behind, f3]
  have hres : (cma_bf_free w prv c).by_start_root = coalesce prv.by_start_root c := by
    have hm : cma_bf_free w prv c = res := by
      unfold cma_bf_free __cma_bf_hole_merge_maybe
      rcases hcase with ⟨hp, hf⟩ | ⟨p, hp, hf⟩
      · subst hf
        rcases hcase2 with ⟨hn, hr⟩ | ⟨n, hn, hr⟩
        · simp only at hn hr
          simp only [hp, hn]
          exact hr.symm
        · simp only at hn hr
          simp only [hp, hn]
          exact hr.symm
      · subst hf
        rcases hcase2 with ⟨hn, hr⟩ | ⟨n, hn, hr⟩
        · simp only [hp, hn]
          exact hr.symm
        · simp only [hp, hn]
          exact hr.symm
    rw [hbehind, f3, f2] at s1
    rw [hm, s1, e]
    simp only [coalesce, q1, q2, q3, q4]
  have hlen : (hole_before pre c).toList.length ≤ 1 ∧
      (hole_behind post c).toList.length ≤ 1 := by
    constructor
    · cases hole_before pre c <;> simp
    · cases hole_behind post c <;> simp
  refine ⟨hres, hwf1.2.2.2.2.2, ?_, ?_⟩
  · rw [hres, e]
    simp only [coalesce, adjacent_holes, q1, q2, q3, q4, List.length_append, List.length_cons]
    rw [hbehind, f3] at s2
    omega
  · simp only [adjacent_holes, e, q3, q4]
    omega

theorem cma_bf_free_coalesces_witness :
    ((cma_bf_free 32 ⟨[⟨0x2000, 0x1000⟩], [⟨0x2000, 0x1000⟩]⟩ ⟨0x1000, 0x1000⟩).by_start_root =
        coalesce [⟨0x2000, 0x1000⟩] ⟨0x1000, 0x1000⟩ ∧
      same_records (cma_bf_free 32 ⟨[⟨0x2000, 0x1000⟩], [⟨0x2000, 0x1000⟩]⟩ ⟨0x1000, 0x1000⟩) ∧
      (cma_bf_free 32 ⟨[⟨0x2000, 0x1000⟩], [⟨0x2000, 0x1000⟩]⟩
          ⟨0x1000, 0x1000⟩).by_start_root.length +
        adjacent_holes [⟨0x2000, 0x1000⟩] ⟨0x1000, 0x1000⟩ =
          [(⟨0x2000, 0x1000⟩ : cma_bf_item)].length + 1 ∧
      adjacent_holes [⟨0x2000, 0x1000⟩] ⟨0x1000, 0x1000⟩ ≤ 2) ∧
    cma_bf_free 32 ⟨[], []⟩ ⟨0x2000, 0x1000⟩ = ⟨[⟨0x2000, 0x1000⟩], [⟨0x2000, 0x1000⟩]⟩ ∧
    coalesce [⟨0x2000, 0x1000⟩] ⟨0x1000, 0x1000⟩ = [⟨0x1000, 0x2000⟩] ∧
    cma_bf_free 32 ⟨[⟨0x1000, 0x2000⟩], [⟨0x1000, 0x2000⟩]⟩ ⟨0x3000, 0x1000⟩ =
      ⟨[⟨0x1000, 0x3000⟩], [⟨0x1000, 0x3000⟩]⟩ :=
  ⟨cma_bf_free_coalesces 32 0x1000 0x3000 ⟨[⟨0x2000, 0x1000⟩], [⟨0x2000, 0x1000⟩]⟩
      [⟨0x3000, 0x1000⟩, ⟨0x1000, 0x1000⟩] ⟨0x1000, 0x1000⟩
      (bf_reachable_below_wf 32 0x1000 0x3000 _ _ (by decide) (by decide)
        (bf_reachable_below.free ⟨[], []⟩
          [⟨0x3000, 0x1000⟩, ⟨0x2000, 0x1000⟩, ⟨0x1000, 0x1000⟩] ⟨0x2000, 0x1000⟩
          (bf_reachable_below.carve ⟨[⟨0x3000, 0x1000⟩], [⟨0x3000, 0x1000⟩]⟩ _
            [⟨0x2000, 0x1000⟩, ⟨0x1000, 0x1000⟩] 0x1000 0x1000 true true _
            (bf_reachable_below.carve ⟨[⟨0x2000, 0x2000⟩], [⟨0x2000, 0x2000⟩]⟩ _
              [⟨0x1000, 0x1000⟩] 0x1000 0x1000 true true _
              (bf_reachable_below.carve ⟨[⟨0x1000, 0x3000⟩], [⟨0x1000, 0x3000⟩]⟩ _ []
                0x1000 0x1000 true true _ (bf_reachable_below.init true true _ rfl)
                (by decide) ⟨12, by decide, by decide⟩ (by decide) (by decide))
              (by decide) ⟨12, by decide, by decide⟩ (by decide) (by decide))
            (by decide) ⟨12, by decide, by decide⟩ (by decide) (by decide))
          (by decide)))
      (by decide),
    by decide, by decide, by decide⟩

/-! ## The size that a release reads from the chunk record -/

/-- The size that `__cma_chunk_release` adds to `free_space`, for a region in a state that
satisfies the partition invariant (`bf_wf`) and a live chunk `c`: the size of the chunk,
and with it the size of the hole that ends exactly at `c.start` when there is one. -/
theorem size_after_free_eq (w reg_start reg_size : Nat) (prv : cma_bf_private)
    (live : List cma_bf_item) (c : cma_bf_item)
    (hwf : bf_wf w reg_start reg_size prv live) (hc : c ∈ live) :
    size_after_free w prv c =
      c.size + ((hole_before prv.by_start_root c).map (fun h => h.size)).getD 0 := by
  obtain ⟨h1, h2, h3, h4, h5, h6⟩ := hwf
  obtain ⟨hc1, hc2, hc3⟩ := h4 c hc
  have hd : ∀ h ∈ prv.by_start_root,
      h.start + h.size ≤ c.start ∨ c.start + c.size ≤ h.start := by
    intro h hh
    by_contra hcon
    obtain ⟨hh1, hh2, hh3⟩ := h3 h hh
    have ha : item_contains h (max h.start c.start) := by
      unfold item_contains
      omega
    have hb : item_contains c (max h.start c.start) := by
      unfold item_contains
      omega
    have := h5 (max h.start c.start) (by omega) (by omega)
    have p1 := cover_pos_of_mem _ h _ hh ha
    have p2 := cover_pos_of_mem _ c _ hc hb
    omega
  obtain ⟨pre, post, e, o1, o2, o3, o4⟩ :=
    holes_around prv.by_start_root c h2 (fun h hh => (h3 h hh).1) hd
  have hins : (__cma_bf_hole_insert_by_start (__cma_bf_hole_insert_by_size prv c) c).by_start_root =
      pre ++ c :: post := by
    simp only [__cma_bf_hole_insert_by_start, __cma_bf_hole_insert_by_size]
    rw [e]
    refine item_insert_split pre post c ?_ ?_
    · intro a ha
      have := o3 a ha
      have := (h3 a (by rw [e]; exact List.mem_append_left _ ha)).1
      omega
    · intro b hb
      have := o4 b (List.mem_of_mem_head? hb)
      omega
  have hpos : ∀ h ∈ pre ++ post, 0 < h.size := fun h hh => (h3 h (by rw [e]; exact hh)).1
  obtain ⟨first, hcase, _, f2, f3, _, _, _⟩ :=
    merge_first_explicit w (reg_start + reg_size) _ pre post c h1 hins o1 o3
      (fun a ha => hpos a (List.mem_append_left _ ha)) ⟨hc1, hc3⟩
  obtain ⟨_, _, q3, _⟩ := coalesce_split pre post c hc1 hpos o3 o4
  have hrec : cma_bf_free_record w prv c = first.2 := by
    unfold cma_bf_free_record merge_maybe_record
    rcases hcase with ⟨hp, hf⟩ | ⟨p, hp, hf⟩
    · simp only [hp, hf]
    · simp only [hp, hf]
  have hsz : size_after_free w prv c = first.2.size := by
    unfold size_after_free kfree_read
    rw [hrec]
    split <;> rfl
  rw [hsz, e, q3]
  cases hb : hole_before pre c with
  | none =>
    rw [hb] at f2
    simp only [Option.map_none', Option.getD_none] at f2 ⊢
    omega
  | some h =>
    rw [hb] at f2
    have hh : h.start + h.size = c.start := by
      have := List.find?_some hb
      simpa using this
    simp only [Option.map_some', Option.getD_some] at f2 ⊢
    omega

theorem size_after_free_eq_witness :
    size_after_free 32 ⟨[⟨0x1000, 0x1000⟩], [⟨0x1000, 0x1000⟩]⟩ ⟨0x2000, 0x2000⟩ =
      0x2000 + ((hole_before [⟨0x1000, 0x1000⟩] ⟨0x2000, 0x2000⟩).map
        (fun h => h.size)).getD 0 :=
  size_after_free_eq 32 0x1000 0x3000 ⟨[⟨0x1000, 0x1000⟩], [⟨0x1000, 0x1000⟩]⟩
    [⟨0x2000, 0x2000⟩] ⟨0x2000, 0x2000⟩
    (bf_reachable_below_wf 32 0x1000 0x3000 _ _ (by decide) (by decide)
      (bf_reachable_below.carve ⟨[⟨0x1000, 0x3000⟩], [⟨0x1000, 0x3000⟩]⟩ _ []
        0x2000 0x2000 true true _ (bf_reachable_below.init true true _ rfl)
        (by decide) ⟨13, by decide, by decide⟩ (by decide) rfl))
    (by decide)

/-! ## Consistency of the two trees -/

/-- C31, the code at a failing input.  `unsigned long` has 32 bits; the region has four
pages at 0x80001000.  After `cma_bf_init` and the three calls
`cma_bf_alloc(reg, 0x800, 0x2000)`, `cma_bf_alloc(reg, 0x800, 0x80000000)` and
`cma_bf_alloc(reg, 0x800, 0x80000000)`, each of which returns a chunk, the by-start tree
holds two records with the start 0x800: it is not strictly increasing in start.  The two
trees still hold the same records, and the by-size tree is ordered. -/
theorem cma_bf_alloc_breaks_start_order :
    bf_reachable 32 0x80001000 0x4000
      ⟨[⟨0x800, 0x80004800⟩, ⟨0x800, 0x80001800⟩, ⟨0x80001000, 0x7FFFF000⟩,
        ⟨0x80002800, 0x7FFFD800⟩],
       [⟨0x80002800, 0x7FFFD800⟩, ⟨0x80001000, 0x7FFFF000⟩, ⟨0x800, 0x80001800⟩,
        ⟨0x800, 0x80004800⟩]⟩
      [⟨0, 0x800⟩, ⟨0, 0x800⟩, ⟨0x80002000, 0x800⟩] ∧
    ¬ by_start_ordered
      ⟨[⟨0x800, 0x80004800⟩, ⟨0x800, 0x80001800⟩, ⟨0x80001000, 0x7FFFF000⟩,
        ⟨0x80002800, 0x7FFFD800⟩],
       [⟨0x80002800, 0x7FFFD800⟩, ⟨0x80001000, 0x7FFFF000⟩, ⟨0x800, 0x80001800⟩,
        ⟨0x800, 0x80004800⟩]⟩ :=
  ⟨bf_reachable.carve
      ⟨[⟨0x800, 0x80001800⟩, ⟨0x80001000, 0x7FFFF000⟩, ⟨0x80002800, 0x2800⟩],
       [⟨0x80002800, 0x2800⟩, ⟨0x80001000, 0x7FFFF000⟩, ⟨0x800, 0x80001800⟩]⟩ _
      [⟨0, 0x800⟩, ⟨0x80002000, 0x800⟩] 0x800 0x80000000 true true _
      (bf_reachable.carve
        ⟨[⟨0x80001000, 0x1000⟩, ⟨0x80002800, 0x2800⟩],
         [⟨0x80001000, 0x1000⟩, ⟨0x80002800, 0x2800⟩]⟩ _
        [⟨0x80002000, 0x800⟩] 0x800 0x80000000 true true _
        (bf_reachable.carve ⟨[⟨0x80001000, 0x4000⟩], [⟨0x80001000, 0x4000⟩]⟩ _ [] 0x800
          0x2000 true true _ (bf_reachable.init true true _ rfl) (by decide)
          ⟨13, by decide, by decide⟩ (by decide))
        (by decide) ⟨31, by decide, by decide⟩ (by decide))
      (by decide) ⟨31, by decide, by decide⟩ (by decide),
    by decide⟩

/-- In every state reached from `cma_bf_init` by carves and returns, wrap-around or not,
the two trees hold the same records and the by-size tree is non-decreasing in size. -/
theorem bf_reachable_indexes (w reg_start reg_size : Nat) (prv : cma_bf_private)
    (live : List cma_bf_item) (hr : bf_reachable w reg_start reg_size prv live) :
    same_records prv ∧ by_size_ordered prv :=
  ⟨bf_reachable_same w reg_start reg_size prv live hr,
    bf_reachable_ordered w reg_start reg_size prv live hr⟩

theorem bf_reachable_of_below (w reg_start reg_size : Nat) (prv : cma_bf_private)
    (live : List cma_bf_item) (hr : bf_reachable_below w reg_start reg_size prv live) :
    bf_reachable w reg_start reg_size prv live := by
  induction hr with
  | init kz_prv kz_item prv h => exact bf_reachable.init kz_prv kz_item prv h
  | carve prv prv1 live size alignment km_item km_next chunk _ hs ha _ h ih =>
    exact bf_reachable.carve prv prv1 live size alignment km_item km_next chunk ih hs ha h
  | carve_null prv prv1 live size alignment km_item km_next _ hs ha _ h ih =>
    exact bf_reachable.carve_null prv prv1 live size alignment km_item km_next ih hs ha h
  | free prv live chunk _ hc ih => exact bf_reachable.free prv live chunk ih hc

/-- Index consistency where nothing wraps around: in every state reached from
`cma_bf_init` by carves and returns whose alignments leave room above the region, the two
trees hold the same records, the by-start tree is strictly increasing in start and the
by-size tree is non-decreasing in size. -/
theorem bf_reachable_below_indexes (w reg_start reg_size : Nat) (prv : cma_bf_private)
    (live : List cma_bf_item) (h0 : 0 < reg_size) (h1 : reg_start + reg_size < 2 ^ w)
    (hr : bf_reachable_below w reg_start reg_size prv live) :
    same_records prv ∧ by_start_ordered prv ∧ by_size_ordered prv := by
  have hwf := bf_reachable_below_wf w reg_start reg_size prv live h0 h1 hr
  have hb := bf_reachable_indexes w reg_start reg_size prv live
    (bf_reachable_of_below w reg_start reg_size prv live hr)
  refine ⟨hb.1, ?_, hb.2⟩
  unfold by_start_ordered
  exact List.Pairwise.imp (fun {a b} h => by omega) hwf.2.1

/-! ## A carve that fails -/

/-- C32. Failure atomicity of carve, for every state of the trees, every size and every
alignment.  Whenever `cma_bf_alloc` returns NULL, both trees are exactly as they were.
It returns NULL when no hole has the size; and `__cma_bf_hole_take` returns NULL, with
both trees as they were, when the hole is larger than the size and the record for the
chunk cannot be allocated, and when the chunk lies strictly inside the hole, cannot be
shifted to its end, and the record for the second hole cannot be allocated although the
record for the chunk was obtained. -/
theorem cma_bf_alloc_failure_atomic (w : Nat) (prv : cma_bf_private) (size alignment : Nat)
    (km_item km_next : Bool) :
    (∀ prv1, cma_bf_alloc w prv size alignment km_item km_next = .null prv1 → prv1 = prv) ∧
    (∀ hole prv1, __cma_bf_hole_take w prv hole size alignment km_item km_next = .null prv1 →
      prv1 = prv) ∧
    (cma_bf_alloc_first size prv.by_size_root = none →
      cma_bf_alloc w prv size alignment km_item km_next = .null prv) ∧
    (∀ hole, size ≠ hole.size →
      __cma_bf_hole_take w prv hole size alignment false km_next = .null prv) ∧
    (∀ hole, size ≠ hole.size →
      ALIGN w hole.start alignment ≠ hole.start →
      uadd w (ALIGN w hole.start alignment) size ≠ uadd w hole.start hole.size →
      usub w (uadd w hole.start hole.size) (uadd w (ALIGN w hole.start alignment) size) %
        alignment ≠ 0 →
      __cma_bf_hole_take w prv hole size alignment true false = .null prv) := by
  refine ⟨?_, ?_, ?_, ?_, ?_⟩
  · intro prv1 h
    exact cma_bf_alloc_null w prv prv1 size alignment km_item km_next h
  · intro hole prv1 h
    exact hole_take_null w prv prv1 hole size alignment km_item km_next h
  · intro h
    unfold cma_bf_alloc
    rw [h]
  · intro hole hs
    unfold __cma_bf_hole_take
    rw [if_neg hs]
    rfl
  · intro hole hs h1 h2 h3
    unfold __cma_bf_hole_take
    rw [if_neg hs]
    simp only [Bool.not_true, Bool.false_eq_true, if_false, Bool.not_false, if_true]
    rw [if_pos ⟨h1, h2⟩, if_neg h3]

theorem cma_bf_alloc_failure_atomic_witness :
    cma_bf_alloc 32 ⟨[⟨0x1800, 0x3800⟩], [⟨0x1800, 0x3800⟩]⟩ 0x4000 0x1000 true true =
        .null ⟨[⟨0x1800, 0x3800⟩], [⟨0x1800, 0x3800⟩]⟩ ∧
      __cma_bf_hole_take 32 ⟨[⟨0x1800, 0x3800⟩], [⟨0x1800, 0x3800⟩]⟩ ⟨0x1800, 0x3800⟩
          0x800 0x1000 false true =
        .null ⟨[⟨0x1800, 0x3800⟩], [⟨0x1800, 0x3800⟩]⟩ ∧
      __cma_bf_hole_take 32 ⟨[⟨0x1800, 0x3800⟩], [⟨0x1800, 0x3800⟩]⟩ ⟨0x1800, 0x3800⟩
          0x800 0x1000 true false =
        .null ⟨[⟨0x1800, 0x3800⟩], [⟨0x1800, 0x3800⟩]⟩ ∧
      cma_bf_alloc 32 ⟨[⟨0x1800, 0x3800⟩], [⟨0x1800, 0x3800⟩]⟩ 0x800 0x1000 true false =
        .null ⟨[⟨0x1800, 0x3800⟩], [⟨0x1800, 0x3800⟩]⟩ :=
  ⟨(cma_bf_alloc_failure_atomic 32 ⟨[⟨0x1800, 0x3800⟩], [⟨0x1800, 0x3800⟩]⟩ 0x4000 0x1000
      true true).2.2.1 (by decide),
    (cma_bf_alloc_failure_atomic 32 ⟨[⟨0x1800, 0x3800⟩], [⟨0x1800, 0x3800⟩]⟩ 0x800 0x1000
      true true).2.2.2.1 ⟨0x1800, 0x3800⟩ (by decide),
    (cma_bf_alloc_failure_atomic 32 ⟨[⟨0x1800, 0x3800⟩], [⟨0x1800, 0x3800⟩]⟩ 0x800 0x1000
      true true).2.2.2.2 ⟨0x1800, 0x3800⟩ (by decide) (by decide) (by decide) (by decide),
    by decide⟩

/-- When `__cma_bf_hole_take` returns NULL: the hole is larger than the size, and the
record for the chunk cannot be allocated, or the chunk lies strictly inside the hole,
cannot be shifted to its end, and the record for the second hole cannot be allocated. -/
theorem hole_take_null_iff (w : Nat) (prv : cma_bf_private) (hole : cma_bf_item)
    (size alignment : Nat) (km_item km_next : Bool) :
    __cma_bf_hole_take w prv hole size alignment km_item km_next = .null prv ↔
      size ≠ hole.size ∧
        (km_item = false ∨
          (ALIGN w hole.start alignment ≠ hole.start ∧
            uadd w (ALIGN w hole.start alignment) size ≠ uadd w hole.start hole.size ∧
            usub w (uadd w hole.start hole.size)
              (uadd w (ALIGN w hole.start alignment) size) % alignment ≠ 0 ∧
            km_next = false)) := by
  unfold __cma_bf_hole_take
  by_cases hs : size = hole.size
  · rw [if_pos hs]
    simp [hs]
  · rw [if_neg hs]
    cases km_item with
    | false => simp [hs]
    | true =>
      simp only [Bool.not_true, Bool.false_eq_true, if_false, ne_eq, hs, not_false_eq_true,
        true_and, false_or]
      split
      · rename_i h12
        split
        · rename_i h3
          simp [__cma_bf_hole_take_case_2, h3]
        · rename_i h3
          cases km_next with
          | false => simp [h12.1, h12.2, h3]
          | true => simp [__cma_bf_hole_take_case_2]
      · rename_i h12
        simp only [__cma_bf_hole_take_case_2, reduceCtorEq, false_iff]
        intro a
        rcases a with a | a
        · exact a
        · exact h12 ⟨a.1, a.2.1⟩

/-- When `cma_bf_alloc` returns NULL: no hole has the size, or the first hole that has the
size passes the test of the alignment and `__cma_bf_hole_take` returns NULL for it.  A
first hole that fails the test of the alignment does not lead to a NULL result. -/
theorem cma_bf_alloc_null_iff (w : Nat) (prv : cma_bf_private) (size alignment : Nat)
    (km_item km_next : Bool) :
    cma_bf_alloc w prv size alignment km_item km_next = .null prv ↔
      cma_bf_alloc_first size prv.by_size_root = none ∨
      ∃ hole, cma_bf_alloc_first size prv.by_size_root = some hole ∧
        (ALIGN w hole.start alignment < uadd w hole.start hole.size ∧
          size ≤ usub w (uadd w hole.start hole.size) (ALIGN w hole.start alignment)) ∧
        __cma_bf_hole_take w prv hole size alignment km_item km_next = .null prv := by
  unfold cma_bf_alloc
  cases hf : cma_bf_alloc_first size prv.by_size_root with
  | none => simp
  | some hole =>
    simp only [reduceCtorEq, Option.some.injEq, false_or, exists_eq_left']
    split
    · rename_i ht
      simp [ht]
    · rename_i ht
      simp [ht]

end CMA
